import Mathlib

/-!
# Enzyme: pullback emitter and type analysis

A shallow embedding of the reverse sweep that `CreatePrimalAndGradient`
(`LowerAutodiffIntrinsic.cpp`) emits for one basic block, of the signatures,
reverse control flow, loop contexts, loop caches, activity analysis, tape slots
and function cache of the same file, of its driver `HandleAutoDiff`, and of the
constant classifier, the known-integral-values propagator, the use closure, the
work list and the cache of analyzers of `TypeAnalysis.cpp`.

The reverse sweep is a code generator: the embedding keeps the generator as a
function that appends instructions to a builder, and gives the emitted
instructions a meaning by an interpreter over exact rationals.  Failed assertions
and fatal errors are the absence of a result.
-/

namespace Enzyme

/-! ## The primal IR -/

/-- An SSA value of the primal function, named by its number. -/
abbrev Value := Nat

/-- Floating-point widths of the IR. -/
inductive FloatWidth where
  | half | single | double | x86_80 | quad
  deriving DecidableEq, Repr

/-- LLVM types, as far as the code inspects them. -/
inductive Ty where
  | void
  | fp (w : FloatWidth)
  | int (bits : Nat)
  | vector (elem : Ty)
  | ptr (elem : Ty)
  | array (elem : Ty)
  | struct (elems : List Ty)
  | function
  | other
  deriving Repr

/-- The check `Type::isPointerTy`. -/
def Ty.isPointerTy : Ty → Bool
  | .ptr _ => true
  | _ => false

/-- The check `Type::isVoidTy`. -/
def Ty.isVoidTy : Ty → Bool
  | .void => true
  | _ => false

/-- The check `Type::isIntOrIntVectorTy`. -/
def Ty.isIntOrIntVectorTy : Ty → Bool
  | .int _ => true
  | .vector (.int _) => true
  | _ => false

/-- The check `Type::isFPOrFPVectorTy`. -/
def Ty.isFPOrFPVectorTy : Ty → Bool
  | .fp _ => true
  | .vector (.fp _) => true
  | _ => false

/-- The check `Type::isStructTy`. -/
def Ty.isStructTy : Ty → Bool
  | .struct _ => true
  | _ => false

/-- The element count `StructType::getNumElements` (zero for other types). -/
def Ty.getNumElements : Ty → Nat
  | .struct es => es.length
  | _ => 0

/-- Opcodes of `BinaryOperator`. -/
inductive BinaryOps where
  | Add | FAdd | Sub | FSub | Mul | FMul | UDiv | SDiv | FDiv
  | URem | SRem | FRem | Shl | LShr | AShr | And | Or | Xor
  deriving DecidableEq, Repr

/-- Intrinsic ids the reverse sweep and the activity analysis switch over; `other`
is every remaining id.  The four ids `var_annotation`, `ptr_annotation`,
`annotation` and `codeview_annotation` carry a trailing underscore. -/
inductive Intrinsic where
  | memcpy | memset | stacksave | stackrestore
  | dbg_declare | dbg_value | dbg_label | dbg_addr
  | lifetime_start | lifetime_end
  | sqrt | fabs | log | log2 | log10 | exp | exp2 | pow | sin | cos
  | invariant_start | invariant_end | var_annotation_ | ptr_annotation_ | annotation_
  | codeview_annotation_ | expect | type_test | donothing
  | other
  deriving DecidableEq, Repr

/-- Original instructions of a block, each with the value number that names it.
Instruction kinds the development does not follow are `other`. -/
inductive Inst where
  | binop (id : Value) (opc : BinaryOps) (op0 op1 : Value)
  | intrinsic (id : Value) (iid : Intrinsic) (args : List Value)
  | store (id : Value) (value ptr : Value)
  | other (id : Value)
  deriving DecidableEq, Repr

/-- Terminators of an original block. -/
inductive Terminator where
  | ret (retval : Value)
  | br
  | switch
  | unreachable
  | other
  deriving DecidableEq, Repr

/-- The cases `invertPointerM` tells apart for a value: the constants it returns
as they are (`ConstantPointerNull`, `UndefValue`, a `ConstantInt`), a value with
an entry in the map `invertedPointers` (the shadow of a pointer argument is entered
when the function is cloned), a cast, a load or a GEP, each with its pointer operand
and the case of that operand, a value whose shadow is built at the original
instruction (`ExtractValueInst`, `InsertValueInst`, `AllocaInst`, a call of `malloc`
or `_Znwm`, `PHINode`), and any other value.  For the values built at the original
instruction the shadow is made and entered in `invertedPointers` through builders
other than `BuilderM`, placed at the original instruction and, for the call that
frees the shadow of an allocation, at the end of the reverse block of the
allocation; what these builders emit is not followed, and `built` tells whether
the construction came back. -/
inductive PointerDef where
  | ConstantPointerNull
  | UndefValue
  | ConstantInt (n : Int)
  | inverted
  | CastInst (op : Value) (d : PointerDef)
  | LoadInst (op : Value) (d : PointerDef)
  | GetElementPtrInst (indices : List Value) (ptr : Value) (d : PointerDef)
  | forward (built : Bool)
  | other
  deriving DecidableEq, Repr

/-- What the reverse sweep reads from `DiffeGradientUtils`: the type of every
value, the activity classification (`isConstantValue`, `isConstantInstruction`),
the set `originalInstructions`, and for a pointer the case `invertPointerM` finds
it in. -/
structure DiffeGradientUtils where
  typeOf : Value → Ty
  isConstantValue : Value → Bool
  isConstantInstruction : Value → Bool
  originalInstructions : Value → Bool
  pointerDef : Value → PointerDef := fun _ => .inverted

/-! ## The emitted reverse IR -/

/-- Operands of emitted instructions.  `inst n` is the result of the `n`-th
instruction emitted into the reverse block; `lookup v` is the value `lookup(v)`
returns, the primal value of `v` recovered in the reverse pass (the cache load or
recomputation by which `lookupM` recovers it is not followed); `invertPointer p` is
`lookup(invertedPointers[p])`, the shadow pointer entered for `p`;
`differential v` is the stack cell `getDifferential(v)`;
`retAlloca` is the stack cell `toreturn`; `antivar phi` is the phi node
`loopContext.antivar` of the reverse function, the mirror induction variable. -/
inductive RVal where
  | inst (n : Nat)
  | lookup (v : Value)
  | invertPointer (p : Value)
  | differential (v : Value)
  | constantFP (q : ℚ)
  | nullValue
  | differetval
  | undef
  | constantInt (n : Int)
  | retAlloca
  | antivar (phi : Value)
  deriving DecidableEq, Repr

/-- Instructions the reverse sweep emits through `Builder2`. -/
inductive RInst where
  | load (ptr : RVal)
  | store (val ptr : RVal)
  | fadd (a b : RVal)
  | fsub (a b : RVal)
  | fmul (a b : RVal)
  | fdiv (a b : RVal)
  | fneg (a : RVal)
  | fcmpOLT (a b : RVal)
  | select (c a b : RVal)
  | bitCast (a : RVal)
  | extractValue (a : RVal) (idx : Nat)
  | gep (ptr : RVal) (idxs : List Nat)
  | cast (a : RVal)
  | getElementPtr (ptr : RVal) (idxs : List RVal)
  | call (callee : Intrinsic) (args : List RVal)
  | icmpEQ (a b : RVal)
  | icmpNE (a b : RVal)
  | xor (a b : RVal)
  | insertValue (agg val : RVal) (idx : Nat)
  deriving DecidableEq, Repr

/-- The instruction list of the reverse block under construction. -/
abbrev Builder := List RInst

/-- Append an instruction at the insertion point and return the value it defines. -/
def Builder.Insert (B : Builder) (i : RInst) : RVal × Builder :=
  (RVal.inst B.length, B ++ [i])

/-! ## `DiffeGradientUtils` helpers -/

/-- The helper `DiffeGradientUtils::diffe`: load the accumulator of `val`.  The two
assertions (not a pointer, not void) are modelled as failure. -/
def diffe (g : DiffeGradientUtils) (val : Value) (B : Builder) : Option (RVal × Builder) :=
  if (g.typeOf val).isPointerTy || (g.typeOf val).isVoidTy then none
  else some (B.Insert (.load (.differential val)))

/-- The helper `DiffeGradientUtils::setDiffe`. -/
def setDiffe (g : DiffeGradientUtils) (val : Value) (toset : RVal) (B : Builder) :
    Option Builder :=
  if g.isConstantValue val then none
  else some (B.Insert (.store toset (.differential val))).2

/-- The helper `DiffeGradientUtils::addToDiffeIndexed`. -/
def addToDiffeIndexed (g : DiffeGradientUtils) (val : Value) (dif : RVal) (idxs : List Nat)
    (B : Builder) : Option Builder :=
  if g.isConstantValue val then none
  else
    let (ptr, B) := B.Insert (.gep (.differential val) (0 :: idxs))
    let (old, B) := B.Insert (.load ptr)
    let (res, B) := B.Insert (.fadd old dif)
    some (B.Insert (.store res ptr)).2

/-- The struct branch of `addToDiffe`: one indexed update per element. -/
def addToDiffeStruct (g : DiffeGradientUtils) (val : Value) (dif : RVal) :
    List Nat → Builder → Option Builder
  | [], B => some B
  | i :: is, B =>
    let (e, B) := B.Insert (.extractValue dif i)
    match addToDiffeIndexed g val e [i] B with
    | none => none
    | some B => addToDiffeStruct g val dif is B

/-- The helper `DiffeGradientUtils::addToDiffe`: add `dif` to the accumulator of
`val`.  The assertions on `val` (not a pointer, not a constant) and the final
`exit(1)` are `none`; the types of emitted values are not tracked, so the two
assertions comparing them with the type of `val` have no counterpart. -/
def addToDiffe (g : DiffeGradientUtils) (val : Value) (dif : RVal) (B : Builder) :
    Option Builder :=
  if (g.typeOf val).isPointerTy then none
  else if g.isConstantValue val then none
  else
    match diffe g val B with
    | none => none
    | some (old, B) =>
      if (g.typeOf val).isIntOrIntVectorTy then
        let (o, B) := B.Insert (.bitCast old)
        let (d, B) := B.Insert (.bitCast dif)
        let (res, B) := B.Insert (.fadd o d)
        let (res, B) := B.Insert (.bitCast res)
        some (B.Insert (.store res (.differential val))).2
      else if (g.typeOf val).isFPOrFPVectorTy then
        let (res, B) := B.Insert (.fadd old dif)
        some (B.Insert (.store res (.differential val))).2
      else if (g.typeOf val).isStructTy then
        addToDiffeStruct g val dif (List.range (g.typeOf val).getNumElements) B
      else none

/-- The helper `GradientUtils::invertPointerM(val, BuilderM)` on a value found in
the case `d`: the shadow of `val` and the builder after the instructions emitted
through it.  A null pointer, an undefined value and the integers zero and one are
returned as they are.  Past them the assertion `!isConstantValue(val)` is fatal for
a constant value, which every other constant integer is.  A value with an entry in
`invertedPointers` gives the lookup of the entry; a cast, a load and a GEP emit the
same instruction on the shadow of the pointer operand, the GEP after the lookups of
its indices; a value whose shadow is built at the original instruction gives the
lookup of the entry made for it; any other value ends in the fatal error
"cannot find deal with ptr that isnt arg". -/
def invertPointerM (g : DiffeGradientUtils) :
    PointerDef → Value → Builder → Option (RVal × Builder)
  | .ConstantPointerNull, _, B => some (.nullValue, B)
  | .UndefValue, _, B => some (.undef, B)
  | .ConstantInt n, _, B => if n = 0 ∨ n = 1 then some (.constantInt n, B) else none
  | .inverted, val, B =>
    if g.isConstantValue val then none else some (.invertPointer val, B)
  | .CastInst op d, val, B =>
    if g.isConstantValue val then none
    else
      match invertPointerM g d op B with
      | none => none
      | some (p, B) => some (B.Insert (.cast p))
  | .LoadInst op d, val, B =>
    if g.isConstantValue val then none
    else
      match invertPointerM g d op B with
      | none => none
      | some (p, B) => some (B.Insert (.load p))
  | .GetElementPtrInst indices ptr d, val, B =>
    if g.isConstantValue val then none
    else
      match invertPointerM g d ptr B with
      | none => none
      | some (p, B) => some (B.Insert (.getElementPtr p (indices.map RVal.lookup)))
  | .forward built, val, B =>
    if g.isConstantValue val then none
    else if built then some (.invertPointer val, B) else none
  | .other, _, _ => none

/-- The lambda `invertPointer` of `CreatePrimalAndGradient`: `invertPointerM` with
the reverse builder. -/
def invertPointer (g : DiffeGradientUtils) (val : Value) (B : Builder) :
    Option (RVal × Builder) :=
  invertPointerM g (g.pointerDef val) val B

/-- The helper `DiffeGradientUtils::setPtrDiffe`. -/
def setPtrDiffe (g : DiffeGradientUtils) (ptr : Value) (newval : RVal) (B : Builder) :
    Option Builder :=
  match invertPointer g ptr B with
  | none => none
  | some (p, B) => some (B.Insert (.store newval p)).2

/-! ## The reverse sweep of `CreatePrimalAndGradient`

Nested `Builder2.Create…` calls are taken in the order the source writes their
arguments, left to right. -/

/-- Build a differential with `k` unless `v` is a constant value; the result is the
`Value*` that may stay `nullptr`. -/
def unlessConstant (g : DiffeGradientUtils) (v : Value)
    (k : Builder → Option (RVal × Builder)) (B : Builder) : Option (Option RVal × Builder) :=
  if g.isConstantValue v then some (none, B)
  else
    match k B with
    | none => none
    | some (r, B) => some (some r, B)

/-- The guarded call `if (dif) addToDiffe(val, dif)`. -/
def addToDiffeIf (g : DiffeGradientUtils) (val : Value) : Option RVal → Builder → Option Builder
  | none, B => some B
  | some dif, B => addToDiffe g val dif B

/-- The `switch` over the opcode of a `BinaryOperator`: the differentials `dif0`
and `dif1` of the two operands.  The default case is a fatal error. -/
def binaryDifferentials (g : DiffeGradientUtils) (inst : Value) (opc : BinaryOps)
    (op0 op1 : Value) (B : Builder) : Option (Option RVal × Option RVal × Builder) :=
  match opc with
  | .FMul =>
    match unlessConstant g op0 (fun B =>
        match diffe g inst B with
        | none => none
        | some (d, B) => some (B.Insert (.fmul d (.lookup op1)))) B with
    | none => none
    | some (dif0, B) =>
      match unlessConstant g op1 (fun B =>
          match diffe g inst B with
          | none => none
          | some (d, B) => some (B.Insert (.fmul d (.lookup op0)))) B with
      | none => none
      | some (dif1, B) => some (dif0, dif1, B)
  | .FAdd =>
    match diffe g inst B with
    | none => none
    | some (idiff, B) =>
      some (if g.isConstantValue op0 then none else some idiff,
            if g.isConstantValue op1 then none else some idiff, B)
  | .FSub =>
    match unlessConstant g op0 (fun B => diffe g inst B) B with
    | none => none
    | some (dif0, B) =>
      match unlessConstant g op1 (fun B =>
          match diffe g inst B with
          | none => none
          | some (d, B) => some (B.Insert (.fneg d))) B with
      | none => none
      | some (dif1, B) => some (dif0, dif1, B)
  | .FDiv =>
    match unlessConstant g op0 (fun B =>
        match diffe g inst B with
        | none => none
        | some (d, B) => some (B.Insert (.fdiv d (.lookup op1)))) B with
    | none => none
    | some (dif0, B) =>
      match unlessConstant g op1 (fun B =>
          match diffe g inst B with
          | none => none
          | some (d, B) =>
            let (m, B) := B.Insert (.fmul d (.lookup inst))
            let (q, B) := B.Insert (.fdiv m (.lookup op1))
            some (B.Insert (.fneg q))) B with
      | none => none
      | some (dif1, B) => some (dif0, dif1, B)
  | _ => none

/-- The `BinaryOperator` branch of the reverse loop. -/
def reverseBinaryOperator (g : DiffeGradientUtils) (inst : Value) (opc : BinaryOps)
    (op0 op1 : Value) (B : Builder) : Option Builder :=
  if g.isConstantInstruction inst then some B
  else
    match binaryDifferentials g inst opc op0 op1 B with
    | none => none
    | some (dif0, dif1, B) =>
      match setDiffe g inst .nullValue B with
      | none => none
      | some B =>
        match addToDiffeIf g op0 dif0 B with
        | none => none
        | some B => addToDiffeIf g op1 dif1 B

/-- Build a differential with `k` when neither the intrinsic call is a constant
instruction nor the operand a constant value. -/
def whenActive (g : DiffeGradientUtils) (inst v : Value)
    (k : Builder → Option (RVal × Builder)) (B : Builder) : Option (Option RVal × Builder) :=
  if !g.isConstantInstruction inst && !g.isConstantValue v then
    match k B with
    | none => none
    | some (r, B) => some (some r, B)
  else some (none, B)

/-- The math cases of the `switch` over the intrinsic id (`sqrt` to `cos`): the
differentials `dif0` and `dif1`. -/
def intrinsicDifferentials (g : DiffeGradientUtils) (inst : Value) (iid : Intrinsic)
    (op0 : Value) (op1 : Option Value) (B : Builder) :
    Option (Option RVal × Option RVal × Builder) :=
  match iid with
  | .sqrt =>
    match whenActive g inst op0 (fun B =>
        match diffe g inst B with
        | none => none
        | some (d, B) =>
          let (m, B) := B.Insert (.fmul (.constantFP 2) (.lookup inst))
          some (B.Insert (.fdiv d m))) B with
    | none => none
    | some (dif0, B) => some (dif0, none, B)
  | .fabs =>
    match whenActive g inst op0 (fun B =>
        let (cmp, B) := B.Insert (.fcmpOLT (.lookup op0) (.constantFP 0))
        some (B.Insert (.select cmp (.constantFP (-1)) (.constantFP 1)))) B with
    | none => none
    | some (dif0, B) => some (dif0, none, B)
  | .log =>
    match whenActive g inst op0 (fun B =>
        match diffe g inst B with
        | none => none
        | some (d, B) => some (B.Insert (.fdiv d (.lookup op0)))) B with
    | none => none
    | some (dif0, B) => some (dif0, none, B)
  | .log2 =>
    match whenActive g inst op0 (fun B =>
        match diffe g inst B with
        | none => none
        | some (d, B) =>
          let (m, B) := B.Insert (.fmul (.constantFP 0.6931471805599453) (.lookup op0))
          some (B.Insert (.fdiv d m))) B with
    | none => none
    | some (dif0, B) => some (dif0, none, B)
  | .log10 =>
    match whenActive g inst op0 (fun B =>
        match diffe g inst B with
        | none => none
        | some (d, B) =>
          let (m, B) := B.Insert (.fmul (.constantFP 2.302585092994046) (.lookup op0))
          some (B.Insert (.fdiv d m))) B with
    | none => none
    | some (dif0, B) => some (dif0, none, B)
  | .exp =>
    match whenActive g inst op0 (fun B =>
        match diffe g inst B with
        | none => none
        | some (d, B) => some (B.Insert (.fmul d (.lookup inst)))) B with
    | none => none
    | some (dif0, B) => some (dif0, none, B)
  | .exp2 =>
    match whenActive g inst op0 (fun B =>
        match diffe g inst B with
        | none => none
        | some (d, B) =>
          let (m, B) := B.Insert (.fmul d (.lookup inst))
          some (B.Insert (.fmul m (.constantFP 0.6931471805599453)))) B with
    | none => none
    | some (dif0, B) => some (dif0, none, B)
  | .pow =>
    match op1 with
    | none => none
    | some op1 =>
      match whenActive g inst op0 (fun B =>
          let (e, B) := B.Insert (.fsub (.lookup op1) (.constantFP 1))
          let (cal, B) := B.Insert (.call .pow [.lookup op0, e])
          match diffe g inst B with
          | none => none
          | some (d, B) =>
            let (m, B) := B.Insert (.fmul d cal)
            some (B.Insert (.fmul m (.lookup op1)))) B with
      | none => none
      | some (dif0, B) =>
        match whenActive g inst op1 (fun B =>
            match diffe g inst B with
            | none => none
            | some (d, B) =>
              let (m, B) := B.Insert (.fmul d (.lookup inst))
              let (l, B) := B.Insert (.call .log [.lookup op1])
              some (B.Insert (.fmul m l))) B with
        | none => none
        | some (dif1, B) => some (dif0, dif1, B)
  | .sin =>
    match whenActive g inst op0 (fun B =>
        match diffe g inst B with
        | none => none
        | some (d, B) =>
          let (c, B) := B.Insert (.call .cos [.lookup op0])
          some (B.Insert (.fmul d c))) B with
    | none => none
    | some (dif0, B) => some (dif0, none, B)
  | .cos =>
    match whenActive g inst op0 (fun B =>
        match diffe g inst B with
        | none => none
        | some (d, B) =>
          let (s, B) := B.Insert (.call .sin [.lookup op0])
          let (n, B) := B.Insert (.fneg s)
          some (B.Insert (.fmul d n))) B with
    | none => none
    | some (dif0, B) => some (dif0, none, B)
  | _ => none

/-- The common tail of the intrinsic branch: reset the accumulator of the call when
a differential was built, then add the differentials to the operands. -/
def intrinsicTail (g : DiffeGradientUtils) (inst : Value) (args : List Value)
    (dif0 dif1 : Option RVal) (B : Builder) : Option Builder :=
  match (if dif0.isSome || dif1.isSome then setDiffe g inst .nullValue B else some B) with
  | none => none
  | some B =>
    match (match dif0, args[0]? with
      | none, _ => some B
      | some _, none => none
      | some d, some op0 => addToDiffe g op0 d B) with
    | none => none
    | some B =>
      match dif1, args[1]? with
      | none, _ => some B
      | some _, none => none
      | some d, some op1 => addToDiffe g op1 d B

/-- The `IntrinsicInst` branch of the reverse loop.  An unknown intrinsic is a fatal
error.  For `lifetime_end` the source erases the original call and emits nothing. -/
def reverseIntrinsic (g : DiffeGradientUtils) (inst : Value) (iid : Intrinsic)
    (args : List Value) (B : Builder) : Option Builder :=
  match iid with
  | .memcpy =>
    if g.isConstantInstruction inst then some B
    else
      match args with
      | [a0, a1, a2, a3] =>
        match invertPointer g a0 B with
        | none => none
        | some (p0, B) =>
          match invertPointer g a1 B with
          | none => none
          | some (p1, B) =>
            some (B.Insert (.call .memcpy [p0, p1, .lookup a2, .lookup a3])).2
      | _ => none
  | .memset =>
    if g.isConstantInstruction inst then some B
    else
      match args with
      | [a0, a1, a2, a3] =>
        if !g.isConstantValue a1 then none
        else
          match invertPointer g a0 B with
          | none => none
          | some (ptx, B) =>
            some (B.Insert (.call .memset [ptx, .lookup a1, .lookup a2, .lookup a3])).2
      | _ => none
  | .stacksave | .stackrestore | .dbg_declare | .dbg_value | .dbg_label | .dbg_addr => some B
  | .lifetime_start =>
    if g.isConstantInstruction inst then some B
    else
      match args with
      | [a0, a1] => some (B.Insert (.call .lifetime_end [.lookup a0, .lookup a1])).2
      | _ => none
  | .lifetime_end => some B
  | .other => none
  | iid =>
    match args[0]? with
    | none => none
    | some op0 =>
      match intrinsicDifferentials g inst iid op0 args[1]? B with
      | none => none
      | some (dif0, dif1, B) => intrinsicTail g inst args dif0 dif1 B

/-- The `StoreInst` branch of the reverse loop.  For a stored pointer at top level
the source places a shadow store in the forward block and nothing in the reverse
block. -/
def reverseStore (g : DiffeGradientUtils) (inst value ptr : Value) (B : Builder) :
    Option Builder :=
  if g.isConstantInstruction inst then some B
  else if !(g.typeOf value).isPointerTy then
    if !g.isConstantValue value then
      match invertPointer g ptr B with
      | none => none
      | some (p, B) =>
        let (dif1, B) := B.Insert (.load p)
        match addToDiffe g value dif1 B with
        | none => none
        | some B => setPtrDiffe g ptr .nullValue B
    else some B
  else some B

/-- One iteration of the reverse loop over the instructions of a block. -/
def reverseInst (g : DiffeGradientUtils) (i : Inst) (B : Builder) : Option Builder :=
  match i with
  | .binop id opc op0 op1 =>
    if !g.originalInstructions id then some B else reverseBinaryOperator g id opc op0 op1 B
  | .intrinsic id iid args =>
    if !g.originalInstructions id then some B else reverseIntrinsic g id iid args B
  | .store id value ptr =>
    if !g.originalInstructions id then some B else reverseStore g id value ptr B
  | .other id =>
    if !g.originalInstructions id then some B else none

/-- The reverse loop over instructions that are already listed last to first. -/
def reverseInsts (g : DiffeGradientUtils) : List Inst → Builder → Option Builder
  | [], B => some B
  | i :: is, B =>
    match reverseInst g i B with
    | none => none
    | some B => reverseInsts g is B

/-- The body of the loop of `CreatePrimalAndGradient` over original blocks, for a
block outside every loop: the terminator is inspected (a `ret` seeds the accumulator
of the returned value with `differetval`; an `unreachable` block is skipped), then
the instructions are visited from last to first. -/
def reverseBlock (g : DiffeGradientUtils) (returnValue differentialReturn : Bool)
    (term : Terminator) (insts : List Inst) : Option Builder :=
  match term with
  | .ret retval =>
    if differentialReturn && !g.isConstantValue retval then
      match setDiffe g retval .differetval [] with
      | none => none
      | some B => reverseInsts g insts.reverse B
    else if returnValue && differentialReturn then none
    else reverseInsts g insts.reverse []
  | .br | .switch => reverseInsts g insts.reverse []
  | .unreachable => some []
  | .other => none

/-! ## Meaning of the emitted instructions over exact rationals -/

/-- What the emitted code reads from outside the block: the primal values that
`lookup` recovers, the seed `differetval`, and the meaning of the pure math
intrinsics it calls. -/
structure Env where
  lookup : Value → ℚ
  differetval : ℚ
  intrinsic : Intrinsic → List ℚ → ℚ

/-- State of the reverse block while it runs: the results of the instructions
executed so far (`regs n` for the `n`-th, `next` counting them), the accumulators
`diffe` behind `getDifferential`, and the scalar cell behind each shadow pointer. -/
structure Machine where
  regs : Nat → ℚ
  next : Nat
  diffe : Value → ℚ
  shadow : Value → ℚ

/-- Record the result of the instruction just executed. -/
def Machine.setResult (m : Machine) (x : ℚ) : Machine :=
  { m with regs := Function.update m.regs m.next x, next := m.next + 1 }

/-- Value of a scalar operand; pointers and `undef` have none.  A mirror induction
variable is a phi node of the reverse function; its value in the iteration being
run comes from the environment, like the primal values. -/
def evalVal (E : Env) (m : Machine) : RVal → Option ℚ
  | .inst n => some (m.regs n)
  | .lookup v => some (E.lookup v)
  | .constantFP q => some q
  | .nullValue => some 0
  | .differetval => some E.differetval
  | .invertPointer _ => none
  | .differential _ => none
  | .undef => none
  | .constantInt n => some n
  | .retAlloca => none
  | .antivar phi => some (E.lookup phi)

/-- Values of a list of scalar operands. -/
def evalVals (E : Env) (m : Machine) : List RVal → Option (List ℚ)
  | [] => some []
  | a :: as =>
    match evalVal E m a, evalVals E m as with
    | some x, some xs => some (x :: xs)
    | _, _ => none

/-- The intrinsics that are pure functions of their scalar arguments. -/
def Intrinsic.isMath : Intrinsic → Bool
  | .sqrt | .fabs | .log | .log2 | .log10 | .exp | .exp2 | .pow | .sin | .cos => true
  | _ => false

/-- Apply a binary arithmetic instruction. -/
def stepBin (E : Env) (m : Machine) (f : ℚ → ℚ → ℚ) (a b : RVal) : Option Machine :=
  match evalVal E m a, evalVal E m b with
  | some x, some y => some (m.setResult (f x y))
  | _, _ => none

/-- Execute one emitted instruction.  Division by zero, bit casts, aggregate
accesses and calls with memory effects have no meaning in this model; `xor` is
given its meaning on one-bit values. -/
def step (E : Env) (m : Machine) : RInst → Option Machine
  | .load (.differential v) => some (m.setResult (m.diffe v))
  | .load (.invertPointer p) => some (m.setResult (m.shadow p))
  | .load _ => none
  | .store x (.differential v) =>
    match evalVal E m x with
    | some a => some ({ m with diffe := Function.update m.diffe v a }.setResult 0)
    | none => none
  | .store x (.invertPointer p) =>
    match evalVal E m x with
    | some a => some ({ m with shadow := Function.update m.shadow p a }.setResult 0)
    | none => none
  | .store _ _ => none
  | .fadd a b => stepBin E m (fun x y => x + y) a b
  | .fsub a b => stepBin E m (fun x y => x - y) a b
  | .fmul a b => stepBin E m (fun x y => x * y) a b
  | .fdiv a b =>
    match evalVal E m a, evalVal E m b with
    | some x, some y => if y = 0 then none else some (m.setResult (x / y))
    | _, _ => none
  | .fneg a =>
    match evalVal E m a with
    | some x => some (m.setResult (-x))
    | none => none
  | .fcmpOLT a b => stepBin E m (fun x y => if x < y then 1 else 0) a b
  | .select c a b =>
    match evalVal E m c, evalVal E m a, evalVal E m b with
    | some k, some x, some y => some (m.setResult (if k = 0 then y else x))
    | _, _, _ => none
  | .call f args =>
    if f.isMath then
      match evalVals E m args with
      | some xs => some (m.setResult (E.intrinsic f xs))
      | none => none
    else none
  | .bitCast _ => none
  | .extractValue _ _ => none
  | .gep _ _ => none
  | .cast _ => none
  | .getElementPtr _ _ => none
  | .icmpEQ a b => stepBin E m (fun x y => if x = y then 1 else 0) a b
  | .icmpNE a b => stepBin E m (fun x y => if x = y then 0 else 1) a b
  | .xor a b => stepBin E m (fun x y => if (x = 0 ↔ y = 0) then 0 else 1) a b
  | .insertValue _ _ _ => none

/-- Execute a list of emitted instructions in order. -/
def exec (E : Env) : List RInst → Machine → Option Machine
  | [], m => some m
  | i :: is, m =>
    match step E m i with
    | none => none
    | some m => exec E is m

/-- The machine on entry to the reverse code: no instruction executed, every
accumulator zero as stored by `getDifferential`, shadow cells as given. -/
def Machine.init (shadow : Value → ℚ) : Machine :=
  { regs := fun _ => 0, next := 0, diffe := fun _ => 0, shadow := shadow }

/-! ## Straight-line primal functions -/

/-- Meaning of the four floating-point operators over rationals, with Lean's
`x / 0 = 0`; the other opcodes are not followed and give zero. -/
def evalBinOp : BinaryOps → ℚ → ℚ → ℚ
  | .FAdd, x, y => x + y
  | .FSub, x, y => x - y
  | .FMul, x, y => x * y
  | .FDiv, x, y => x / y
  | _, _, _ => 0

/-- Run a straight-line body of binary operators on an environment of values; each
instruction defines its own value number. -/
def evalBody (env : Value → ℚ) : List Inst → Value → ℚ
  | [] => env
  | .binop id opc op0 op1 :: is =>
    evalBody (Function.update env id (evalBinOp opc (env op0) (env op1))) is
  | _ :: is => evalBody env is

/-- Every `FDiv` of the body divides by a nonzero value when it is run. -/
def divisorsNonzero (env : Value → ℚ) : List Inst → Bool
  | [] => true
  | .binop id opc op0 op1 :: is =>
    (opc != .FDiv || decide (env op1 ≠ 0)) &&
      divisorsNonzero (Function.update env id (evalBinOp opc (env op0) (env op1))) is
  | _ :: is => divisorsNonzero env is

/-- A body over `n` earlier values in SSA form: instruction `k` is one of the four
floating-point operators, defines value `n + k`, and reads earlier values only. -/
def wellFormedBody (n : Nat) : List Inst → Bool
  | [] => true
  | .binop id opc op0 op1 :: is =>
    (opc = .FAdd || opc = .FSub || opc = .FMul || opc = .FDiv) &&
      id = n && decide (op0 < n) && decide (op1 < n) && wellFormedBody (n + 1) is
  | _ :: _ => false

/-- Every value below `n` is a non-constant, original, floating-point value. -/
def allActive (g : DiffeGradientUtils) (n : Nat) : Prop :=
  ∀ v, v < n → g.isConstantValue v = false ∧ g.isConstantInstruction v = false ∧
    g.originalInstructions v = true ∧ ∃ w, g.typeOf v = .fp w

/-! ## Type analysis: the lattice values -/

/-- Modelled from the spec: `ConcreteType` (declared in `ConcreteType.h`, which is
not part of the sources at hand), "a tagged value drawn from Unknown, Anything,
Integer, Pointer, Float(width)". -/
inductive ConcreteType where
  | Unknown
  | Anything
  | Integer
  | Pointer
  | Float (w : FloatWidth)
  deriving DecidableEq, Repr

/-- Modelled from the spec: the join `|=` of two `ConcreteType`s, "the meet with
Anything acting as top": equal types stay, `Unknown` yields the other, `Anything`
absorbs, and two different concrete types conflict. -/
def ConcreteType.orIn (a b : ConcreteType) : Option ConcreteType :=
  if a = b then some a
  else if a = .Unknown then some b
  else if b = .Unknown then some a
  else if a = .Anything ∨ b = .Anything then some .Anything
  else none

/-- Modelled from the spec: `TypeTree` (declared in `TypeTree.h`, which is not part of
the sources at hand), "a finite mapping from an offset path to a ConcreteType",
where the offset `-1` stands for every offset. -/
structure TypeTree where
  mapping : List (List Int × ConcreteType)
  deriving DecidableEq, Repr

/-- The empty tree `TypeTree()`. -/
def TypeTree.empty : TypeTree := ⟨[]⟩

/-- Modelled from the spec: the tree `TypeTree(ct)` of a scalar, whose "empty path
maps to the value's own scalar classification". -/
def TypeTree.ofConcrete (ct : ConcreteType) : TypeTree := ⟨[([], ct)]⟩

/-- Modelled from the spec: `Only(offset)`, "wrap the entire tree under a single
prefix offset". -/
def TypeTree.Only (t : TypeTree) (offset : Int) : TypeTree :=
  ⟨t.mapping.map (fun e => (offset :: e.1, e.2))⟩

/-- Modelled from the spec: the value a tree gives a path, `Unknown` when the path
has no entry. -/
def TypeTree.get (t : TypeTree) (path : List Int) : ConcreteType :=
  match t.mapping.find? (fun e => e.1 = path) with
  | some e => e.2
  | none => .Unknown

/-- Join one entry into a mapping; `none` on a conflict of concrete types. -/
def TypeTree.insertOr (path : List Int) (ct : ConcreteType) :
    List (List Int × ConcreteType) → Option (List (List Int × ConcreteType))
  | [] => some [(path, ct)]
  | e :: es =>
    if e.1 = path then
      match e.2.orIn ct with
      | some c => some ((path, c) :: es)
      | none => none
    else
      match TypeTree.insertOr path ct es with
      | some es => some (e :: es)
      | none => none

/-- Join a list of entries into a mapping. -/
def TypeTree.insertAllOr :
    List (List Int × ConcreteType) → List (List Int × ConcreteType) →
      Option (List (List Int × ConcreteType))
  | [], acc => some acc
  | e :: es, acc =>
    match TypeTree.insertOr e.1 e.2 acc with
    | some acc => TypeTree.insertAllOr es acc
    | none => none

/-- Modelled from the spec: the join `|=` of two trees, path by path; `none` when
two concrete types conflict at a path. -/
def TypeTree.orIn (t u : TypeTree) : Option TypeTree :=
  (TypeTree.insertAllOr u.mapping t.mapping).map TypeTree.mk

/-- Modelled from the spec: `ShiftIndices(start, size, newOffset)`, "select the
half-open byte range `[start, start+size)`, drop the rest, then relabel by
`newOffset - start`; `size = -1` means unbounded"; the uniform offset `-1` is kept
"only when the shift is by zero; otherwise `-1` downgrades to the concrete set of
shifted indices if a finite cap is known, else is dropped".  Entries at the empty
path, which have no first offset, are kept. -/
def TypeTree.ShiftIndices (t : TypeTree) (start size newOffset : Int) : TypeTree :=
  ⟨t.mapping.flatMap (fun e =>
    match e.1 with
    | [] => [e]
    | o :: rest =>
      if o = -1 then
        if newOffset - start = 0 then [e]
        else if size = -1 then []
        else (List.range size.toNat).map (fun k => ((newOffset + (k : Int)) :: rest, e.2))
      else if o < start then []
      else if size ≠ -1 ∧ start + size ≤ o then []
      else [((o - start + newOffset) :: rest, e.2)])⟩

/-! ## Type analysis: constants -/

/-- Constants of the IR, by the classes `getConstantAnalysis` tells apart.  A
`ConstantInt` carries its bit width and its unsigned value, a `ConstantFP` whether it
is exactly `0.0`, a `ConstantExpr` a number naming it, a `GlobalVariable` its
`isConstant` flag, its initializer if any and the bit size of its value type. -/
inductive Constant where
  | UndefValue
  | ConstantAggregateZero
  | ConstantPointerNull
  | Function
  | BlockAddress
  | ConstantAggregate (ops : List Constant)
  | ConstantDataSequential (elems : List Constant)
  | ConstantFP (w : FloatWidth) (isExactlyZero : Bool)
  | ConstantInt (bitWidth : Nat) (value : Nat)
  | ConstantExpr (name : Nat)
  | GlobalVariable (isConstant : Bool) (initializer : Option Constant) (valueSizeInBits : Nat)
  | other
  deriving Repr

/-- What `getConstantAnalysis` reads from outside: the data layout's
`getTypeSizeInBits` of the type of a constant, and the tree a throw-away
`TypeAnalyzer` computes for a constant expression. -/
structure ConstantContext where
  typeSizeInBits : Constant → Nat
  exprAnalysis : Nat → TypeTree

/-- The unsigned value `ConstantInt::getLimitedValue()`, clamped to 64 bits. -/
def getLimitedValue (value : Nat) : Nat := min value (2 ^ 64 - 1)

/-- The function `getConstantAnalysis`.  A failed join is `none`. -/
def getConstantAnalysis (ctx : ConstantContext) : Constant → Option TypeTree
  | .UndefValue => some ((TypeTree.ofConcrete .Anything).Only (-1))
  | .ConstantAggregateZero => some ((TypeTree.ofConcrete .Anything).Only (-1))
  | .ConstantPointerNull =>
    match (TypeTree.ofConcrete .Pointer).orIn ((TypeTree.ofConcrete .Anything).Only (-1)) with
    | some vd => some (vd.Only (-1))
    | none => none
  | .Function => some ((TypeTree.ofConcrete .Pointer).Only (-1))
  | .BlockAddress => some ((TypeTree.ofConcrete .Pointer).Only (-1))
  | .ConstantAggregate ops => aggregate ops TypeTree.empty 0
  | .ConstantDataSequential elems =>
    match elems with
    | [] => some TypeTree.empty
    | op :: _ =>
      match getConstantAnalysis ctx op with
      | none => none
      | some t => sequential t ((ctx.typeSizeInBits op + 7) / 8) elems.length TypeTree.empty 0
  | .ConstantFP w isExactlyZero =>
    if isExactlyZero then some ((TypeTree.ofConcrete .Anything).Only (-1))
    else some ((TypeTree.ofConcrete (.Float w)).Only (-1))
  | .ConstantInt bitWidth value =>
    if getLimitedValue value ≥ 1 ∧ getLimitedValue value ≤ 4096 then
      some ((TypeTree.ofConcrete .Integer).Only (-1))
    else if bitWidth = 8 ∧ getLimitedValue value = 0 then
      some ((TypeTree.ofConcrete .Integer).Only (-1))
    else if getLimitedValue value = 0 then some ((TypeTree.ofConcrete .Anything).Only (-1))
    else some ((TypeTree.ofConcrete .Anything).Only (-1))
  | .ConstantExpr name => some (ctx.exprAnalysis name)
  | .GlobalVariable isConstant initializer valueSizeInBits =>
    match isConstant, initializer with
    | true, some init =>
      match getConstantAnalysis ctx init with
      | none => none
      | some t =>
        match (TypeTree.ofConcrete .Pointer).orIn t with
        | some vd => some (vd.Only (-1))
        | none => none
    | _, _ =>
      if valueSizeInBits / 8 = 1 then
        match (TypeTree.ofConcrete .Pointer).orIn ((TypeTree.ofConcrete .Integer).Only 0) with
        | some vd => some (vd.Only (-1))
        | none => none
      else some ((TypeTree.ofConcrete .Pointer).Only (-1))
  | .other => some TypeTree.empty
where
  /-- The loop over the operands of a `ConstantAggregate`. -/
  aggregate : List Constant → TypeTree → Nat → Option TypeTree
    | [], res, _ => some res
    | op :: ops, res, off =>
      match getConstantAnalysis ctx op with
      | none => none
      | some t =>
        match res.orIn (t.ShiftIndices 0 ((ctx.typeSizeInBits op + 7) / 8 : Nat) off) with
        | none => none
        | some res => aggregate ops res (off + (ctx.typeSizeInBits op + 7) / 8)
  /-- The loop over the elements of a `ConstantDataSequential`, which analyses
  `getElementAsConstant(0)` in every round; `t` is that analysis. -/
  sequential (t : TypeTree) (size : Nat) : Nat → TypeTree → Nat → Option TypeTree
    | 0, res, _ => some res
    | k + 1, res, off =>
      match res.orIn (t.ShiftIndices 0 size off) with
      | none => none
      | some res => sequential t size k res (off + size)

/-! ## Type analysis: known integral values -/

/-- The classes of values `FnTypeInfo::knownIntegralValues` tells apart.  A
`ConstantInt` carries its `getSExtValue()`; a `PHINode` its parent block and its
incoming (value, block) pairs. -/
inductive IntValueKind where
  | ConstantInt (sext : Int)
  | Argument
  | CastInst (op : Value)
  | PHINode (parent : Nat) (incoming : List (Value × Nat))
  | BinaryOperator (opc : BinaryOps) (op0 op1 : Value)
  | other
  deriving DecidableEq, Repr

/-- The part of `FnTypeInfo` that `knownIntegralValues` reads: the values of the
function, each with its class, the caller-supplied map `knownValues` of the
arguments as the list of its entries, and the number of parameters of the type of
`function`. -/
structure FnTypeInfo where
  kind : Value → IntValueKind
  knownValues : List (Value × Finset Int)
  getNumParams : Nat

/-- The query `DT.dominates(phi, block)` of the dominator tree. -/
abbrev DominatorTree := Value → Nat → Bool

/-- The memo map `intseen`. -/
abbrev IntSeen := Value → Option (Finset Int)

/-- Wrap an integer to the range of `int64_t`: signed overflow, undefined in C++,
is taken to wrap. -/
def wrap64 (x : Int) : Int := (x + 2 ^ 63) % 2 ^ 64 - 2 ^ 63

/-- The local lambda `insert`: add `v` to `intseen[val]` when `-100 < v < 100`. -/
def insertBounded (intseen : IntSeen) (val : Value) (v : Int) : IntSeen :=
  if v > -100 ∧ v < 100 then
    Function.update intseen val (some (insert v ((intseen val).getD ∅)))
  else intseen

/-- The lambda `insert` called on every element of a set. -/
def insertAllBounded (intseen : IntSeen) (val : Value) (vs : Finset Int) : IntSeen :=
  Function.update intseen val
    (some ((intseen val).getD ∅ ∪ vs.filter (fun v => v > -100 ∧ v < 100)))

/-- The values `f val0 val1` over all pairs of the two sets, when one of the sets is
a singleton (the guard `inset0.size() == 1 || inset1.size() == 1`). -/
def pairValues (f : Int → Int → Int) (inset0 inset1 : Finset Int) : Finset Int :=
  if inset0.card = 1 ∨ inset1.card = 1 then
    (inset0 ×ˢ inset1).image (fun p => f p.1 p.2)
  else ∅

/-- The operator `<<` of `int64_t`, with the shift count taken modulo 64. -/
def shl64 (x y : Int) : Int := wrap64 (x * 2 ^ (y % 64).toNat)

/-- The operator `>>` of `int64_t` as an arithmetic shift, with the shift count
taken modulo 64. -/
def shr64 (x y : Int) : Int := x >>> (y % 64).toNat

/-- The loop of `knownIntegralValues` over the incoming values of the phi `val`;
`rec` is the recursive call. -/
def knownIntegralValuesPhi (c : FnTypeInfo) (DT : DominatorTree) (rec : Value → IntSeen → Option (Finset Int × IntSeen))
    (val : Value) (parent : Nat) : List (Value × Nat) → IntSeen → Option IntSeen
  | [], intseen => some intseen
  | (a, b) :: rest, intseen =>
    if parent = b ∨ DT val b = true then
      knownIntegralValuesPhi c DT rec val parent rest intseen
    else
      match rec a intseen with
      | none => none
      | some (inset, intseen) =>
        let intseen := insertAllBounded intseen val (inset.filter (fun p => p < 20 ∧ p > -20))
        let intseen :=
          match c.kind a with
          | .BinaryOperator opc op0 op1 =>
            if (op0 = val ∨ op1 = val) ∧ (opc = .Add ∨ opc = .Sub) then
              insertBounded intseen val 0
            else intseen
          | _ => intseen
        knownIntegralValuesPhi c DT rec val parent rest intseen

/-- The updates of `intseen[val]` for the binary operator `val` with operand sets
`inset0` and `inset1`. -/
def knownIntegralValuesBinary (opc : BinaryOps) (val : Value) (inset0 inset1 : Finset Int)
    (intseen : IntSeen) : IntSeen :=
  match opc with
  | .Mul =>
    let intseen := insertAllBounded intseen val
      (pairValues (fun x y => wrap64 (x * y)) inset0 inset1)
    if 0 ∈ inset0 ∨ 0 ∈ inset1 then
      Function.update intseen val (some (insert 0 ((intseen val).getD ∅)))
    else intseen
  | .Add => insertAllBounded intseen val (pairValues (fun x y => wrap64 (x + y)) inset0 inset1)
  | .Sub => insertAllBounded intseen val (pairValues (fun x y => wrap64 (x - y)) inset0 inset1)
  | .Shl => insertAllBounded intseen val (pairValues shl64 inset0 inset1)
  | .AShr => insertAllBounded intseen val (pairValues shr64 inset0 inset1)
  | .LShr => insertAllBounded intseen val (pairValues shr64 inset0 inset1)
  | _ => intseen

/-- The function `FnTypeInfo::knownIntegralValues`: the set it returns together
with the memo map it leaves.  `fuel` bounds the depth of the recursion; a failed
assertion is `none`: `knownValues.size() == getNumParams()` for every value that
is no constant integer, and `found != knownValues.end()` for an argument. -/
def knownIntegralValues (c : FnTypeInfo) (DT : DominatorTree) :
    Nat → Value → IntSeen → Option (Finset Int × IntSeen)
  | 0, _, _ => none
  | fuel + 1, val, intseen =>
    match c.kind val with
    | .ConstantInt sext => some ({sext}, intseen)
    | k =>
      if c.knownValues.length ≠ c.getNumParams then none
      else
        match k with
        | .Argument =>
          match c.knownValues.lookup val with
          | some s => some (s, intseen)
          | none => none
        | k =>
          match intseen val with
          | some s => some (s, intseen)
          | none =>
            let intseen := Function.update intseen val (some ∅)
            match k with
            | .CastInst op =>
              match knownIntegralValues c DT fuel op intseen with
              | none => none
              | some (s, intseen) =>
                let intseen := Function.update intseen val (some s)
                some ((intseen val).getD ∅, intseen)
            | .PHINode parent incoming =>
              match knownIntegralValuesPhi c DT (knownIntegralValues c DT fuel) val parent
                  incoming intseen with
              | none => none
              | some intseen => some ((intseen val).getD ∅, intseen)
            | .BinaryOperator opc op0 op1 =>
              match knownIntegralValues c DT fuel op0 intseen with
              | none => none
              | some (inset0, intseen) =>
                match knownIntegralValues c DT fuel op1 intseen with
                | none => none
                | some (inset1, intseen) =>
                  let intseen := knownIntegralValuesBinary opc val inset0 inset1 intseen
                  some ((intseen val).getD ∅, intseen)
            | _ => some ((intseen val).getD ∅, intseen)

/-! ## Type analysis: the use closure `hasAnyUse` -/

/-- A called function as `hasAnyUse` reads it: its name, whether it has no body,
and its formal arguments. -/
structure Callee where
  name : String
  empty : Bool
  args : List Value
  deriving DecidableEq, Repr

/-- The classes of users `hasAnyUse` tells apart.  A call carries the result of
`getCalledFunction()` and its argument operands. -/
inductive UserKind where
  | CastInst
  | PHINode
  | SelectInst
  | CallInst (called : Option Callee) (argOperands : List Value)
  | ReturnInst
  | other
  deriving DecidableEq, Repr

/-- The use graph: the users of every value, in use-list order, and the class of
every user. -/
structure UseGraph where
  users : Value → List Value
  kind : Value → UserKind

/-- The memo map `intseen` of `hasAnyUse`. -/
abbrev BoolSeen := Value → Option Bool

/-- The result of a call of `hasAnyUse`: the returned flag, the memo map, and the
cell behind `sawReturn` (`none` for a null pointer). -/
abbrev UseResult := Bool × BoolSeen × Option Bool

/-- The names of the calls that `hasAnyUse` skips. -/
def isIgnorableCall (name : String) : Bool :=
  name == "__cxa_guard_acquire" || name == "__cxa_guard_release" ||
    name == "__cxa_guard_abort" || name == "printf" || name == "fprintf"

/-- The loop of `hasAnyUse` over the argument operands of a call to a function with
a body: `rec` is queried on the formal argument of every operand equal to `val`.
The result is whether a use was found, the memo map and `shouldHandleReturn`.  A
call with more operands than the callee has formal arguments steps past
`arg_end()` in the source and is `none` here. -/
def hasAnyUseArgs (rec : Value → BoolSeen → Option Bool → Option UseResult) (val : Value) :
    List Value → List Value → BoolSeen → Bool → Option (Bool × BoolSeen × Bool)
  | [], _, intseen, shouldHandleReturn => some (false, intseen, shouldHandleReturn)
  | _ :: _, [], _, _ => none
  | x :: xs, a :: as, intseen, shouldHandleReturn =>
    if x = val then
      match rec a intseen (some shouldHandleReturn) with
      | none => none
      | some (true, intseen, s) => some (true, intseen, s.getD shouldHandleReturn)
      | some (false, intseen, s) =>
        hasAnyUseArgs rec val xs as intseen (s.getD shouldHandleReturn)
    else hasAnyUseArgs rec val xs as intseen shouldHandleReturn

/-- The loop of `hasAnyUse` over the users of `val`, with the running flag
`unknownUse`; at the end, and at every early return, the flag is stored in
`intseen[val]`. -/
def hasAnyUseUsers (G : UseGraph) (rec : Value → BoolSeen → Option Bool → Option UseResult)
    (val : Value) : List Value → BoolSeen → Option Bool → Bool → Option UseResult
  | [], intseen, sawReturn, unknownUse =>
    some (unknownUse, Function.update intseen val (some unknownUse), sawReturn)
  | use :: rest, intseen, sawReturn, unknownUse =>
    let viaUser : Option UseResult :=
      match rec use intseen sawReturn with
      | none => none
      | some (b, intseen, sawReturn) =>
        hasAnyUseUsers G rec val rest intseen sawReturn (unknownUse || b)
    let fallThrough : Option UseResult :=
      hasAnyUseUsers G rec val rest intseen sawReturn true
    match G.kind use with
    | .CastInst => viaUser
    | .PHINode => viaUser
    | .SelectInst => viaUser
    | .CallInst (some ci) argOperands =>
      if isIgnorableCall ci.name then hasAnyUseUsers G rec val rest intseen sawReturn unknownUse
      else if !ci.empty then
        match hasAnyUseArgs rec val argOperands ci.args intseen false with
        | none => none
        | some (true, intseen, _) =>
          some (true, Function.update intseen val (some true), sawReturn)
        | some (false, intseen, shouldHandleReturn) =>
          if shouldHandleReturn then
            match rec use intseen sawReturn with
            | none => none
            | some (true, intseen, sawReturn) =>
              some (true, Function.update intseen val (some true), sawReturn)
            | some (false, intseen, sawReturn) =>
              hasAnyUseUsers G rec val rest intseen sawReturn unknownUse
          else hasAnyUseUsers G rec val rest intseen sawReturn unknownUse
      else fallThrough
    | .CallInst none _ => fallThrough
    | .ReturnInst =>
      if sawReturn.isSome then hasAnyUseUsers G rec val rest intseen (some true) unknownUse
      else fallThrough
    | .other => fallThrough

/-- The function `hasAnyUse` (its parameter `TAZ` is never read).  `fuel` bounds the
depth of the recursion. -/
def hasAnyUse (G : UseGraph) : Nat → Value → BoolSeen → Option Bool → Option UseResult
  | 0, _, _, _ => none
  | fuel + 1, val, intseen, sawReturn =>
    match intseen val with
    | some b => some (b, intseen, sawReturn)
    | none =>
      hasAnyUseUsers G (hasAnyUse G fuel) val (G.users val)
        (Function.update intseen val (some false)) sawReturn false

/-- Two phis 0 and 1 on a cycle: the only user of phi 1 is phi 0, and the users of
phi 0 are phi 1 and the store 2. -/
def phiCycleGraph : UseGraph :=
  { users := fun v => if v = 0 then [1, 2] else if v = 1 then [0] else [],
    kind := fun v => if v = 0 ∨ v = 1 then .PHINode else .other }

/-! ## Signatures: `whatType` and `CloneFunctionWithReturns` -/

/-- The check `Type::isIntegerTy`. -/
def Ty.isIntegerTy : Ty → Bool
  | .int _ => true
  | _ => false

/-- The enumeration `DIFFE_TYPE`. -/
inductive DIFFE_TYPE where
  | OUT_DIFF
  | DUP_ARG
  | CONSTANT
  deriving DecidableEq, Repr

/-- One round of the struct loop of `whatType`, given the classification `e` of the
element and the running `ty`: `Sum.inl r` is `return r`, `Sum.inr ty` goes on to the
next element.  The outer `switch` has no `break` after its inner switches, so
control falls from `case OUT_DIFF` into `case CONSTANT` and from there into
`case DUP_ARG`. -/
def whatType.structRound (e ty : DIFFE_TYPE) : DIFFE_TYPE ⊕ DIFFE_TYPE :=
  let caseDUP_ARG : DIFFE_TYPE ⊕ DIFFE_TYPE := .inl .DUP_ARG
  let caseCONSTANT (ty : DIFFE_TYPE) : DIFFE_TYPE ⊕ DIFFE_TYPE :=
    match ty with
    | .OUT_DIFF => caseDUP_ARG
    | .CONSTANT => caseDUP_ARG
    | .DUP_ARG => .inl .DUP_ARG
  let caseOUT_DIFF (ty : DIFFE_TYPE) : DIFFE_TYPE ⊕ DIFFE_TYPE :=
    match ty with
    | .OUT_DIFF => caseCONSTANT .OUT_DIFF
    | .CONSTANT => caseCONSTANT .OUT_DIFF
    | .DUP_ARG => .inl .DUP_ARG
  match e with
  | .OUT_DIFF => caseOUT_DIFF ty
  | .CONSTANT => caseCONSTANT ty
  | .DUP_ARG => caseDUP_ARG

mutual
/-- The classification `whatType` of a type; the two `assert(0)` are `none`. -/
def whatType : Ty → Option DIFFE_TYPE
  | .ptr e =>
    match whatType e with
    | some .OUT_DIFF => some .DUP_ARG
    | some .CONSTANT => some .CONSTANT
    | some .DUP_ARG => some .DUP_ARG
    | none => none
  | .array e => whatType e
  | .struct [] => some .CONSTANT
  | .struct (e :: es) => whatType.structLoop (e :: es) .CONSTANT
  | .int _ => some .CONSTANT
  | .vector (.int _) => some .CONSTANT
  | .function => some .CONSTANT
  | .fp _ => some .OUT_DIFF
  | .vector (.fp _) => some .OUT_DIFF
  | _ => none
/-- The loop of `whatType` over the element types of a struct. -/
def whatType.structLoop : List Ty → DIFFE_TYPE → Option DIFFE_TYPE
  | [], ty => some ty
  | e :: es, ty =>
    match whatType e with
    | none => none
    | some c =>
      match whatType.structRound c ty with
      | .inl r => some r
      | .inr ty => whatType.structLoop es ty
end

/-- The enumeration `ReturnType`. -/
inductive ReturnType where
  | Normal
  | ArgsWithReturn
  | Args
  deriving DecidableEq, Repr

/-- What `CloneFunctionWithReturns` reads of the function `F`: whether it has a
body, the types of its arguments and its return type. -/
structure PrimalFunction where
  empty : Bool
  args : List Ty
  ret : Ty

/-- The first loop of `CloneFunctionWithReturns` over the arguments of `F`, from
argument number `argno` on, extending `ArgTypes` and `RetTypes`. -/
def CloneFunctionWithReturns.argLoop (constant_args : Nat → Bool) :
    List Ty → Nat → List Ty → List Ty → List Ty × List Ty
  | [], _, ArgTypes, RetTypes => (ArgTypes, RetTypes)
  | I :: rest, argno, ArgTypes, RetTypes =>
    let ArgTypes := ArgTypes ++ [I]
    if constant_args argno then
      CloneFunctionWithReturns.argLoop constant_args rest (argno + 1) ArgTypes RetTypes
    else if I.isPointerTy || I.isIntegerTy then
      CloneFunctionWithReturns.argLoop constant_args rest (argno + 1) (ArgTypes ++ [I]) RetTypes
    else
      CloneFunctionWithReturns.argLoop constant_args rest (argno + 1) ArgTypes (RetTypes ++ [I])

/-- What the second loop of `CloneFunctionWithReturns` records about the arguments
of the new function, each named by its position: the sets `constants` and
`nonconstant`, the map `ptrInputs` from a primal argument to its shadow, and
`VMap`, the position each argument of `F` is mapped to. -/
structure ClonedArgs where
  constants : List Nat
  nonconstant : List Nat
  ptrInputs : List (Nat × Nat)
  VMap : List Nat

/-- The second loop of `CloneFunctionWithReturns`: `ii` counts the arguments of `F`
and `jj` those of the new function. -/
def CloneFunctionWithReturns.nameLoop (constant_args : Nat → Bool) :
    List Ty → Nat → Nat → ClonedArgs → ClonedArgs
  | [], _, _, r => r
  | i :: rest, ii, jj, r =>
    let isconstant := constant_args ii
    let r : ClonedArgs :=
      if isconstant then { r with constants := r.constants ++ [jj] }
      else { r with nonconstant := r.nonconstant ++ [jj] }
    if !isconstant && (i.isPointerTy || i.isIntegerTy) then
      CloneFunctionWithReturns.nameLoop constant_args rest (ii + 1) (jj + 2)
        { r with VMap := r.VMap ++ [jj], ptrInputs := r.ptrInputs ++ [(jj, jj + 1)],
                 nonconstant := r.nonconstant ++ [jj + 1] }
    else
      CloneFunctionWithReturns.nameLoop constant_args rest (ii + 1) (jj + 1)
        { r with VMap := r.VMap ++ [jj] }

/-- The function type `CloneFunctionWithReturns` creates, with the field types
`RetTypes` of the return struct, and the classification of the new arguments. -/
structure ClonedFunction where
  ArgTypes : List Ty
  RetTypes : List Ty
  RetType : Ty
  cloned : ClonedArgs

/-- The signature part of `CloneFunctionWithReturns`.  The two assertions
(`!F->empty()`, and a non-void return type where the differential return
argument is added) are `none`. -/
def CloneFunctionWithReturns (F : PrimalFunction) (constant_args : Nat → Bool)
    (returnValue : ReturnType) (differentialReturn diffeReturnArg : Bool)
    (additionalArg : Option Ty) : Option ClonedFunction :=
  if F.empty then none
  else
    let diffeReturnArg := diffeReturnArg && differentialReturn
    let RetTypes : List Ty := if returnValue = .ArgsWithReturn then [F.ret] else []
    let (ArgTypes, RetTypes) := CloneFunctionWithReturns.argLoop constant_args F.args 0 [] RetTypes
    if diffeReturnArg && !F.ret.isPointerTy && !F.ret.isIntegerTy && F.ret.isVoidTy then none
    else
      let ArgTypes :=
        if diffeReturnArg && !F.ret.isPointerTy && !F.ret.isIntegerTy then ArgTypes ++ [F.ret]
        else ArgTypes
      let ArgTypes :=
        match additionalArg with
        | some t => ArgTypes ++ [t]
        | none => ArgTypes
      let RetType : Ty := if returnValue = .Normal then F.ret else .struct RetTypes
      some { ArgTypes := ArgTypes, RetTypes := RetTypes, RetType := RetType,
             cloned := CloneFunctionWithReturns.nameLoop constant_args F.args 0 0 ⟨[], [], [], []⟩ }

/-! ## Control flow of the reverse function: `createInvertedTerminator` -/

/-- A basic block of the primal function, named by its number. -/
abbrev BasicBlock := Nat

/-- A phi node: the value it defines and its incoming values by block. -/
structure PHINode where
  id : Value
  incoming : List (BasicBlock × Value)
  deriving DecidableEq, Repr

/-- The accessor `PHINode::getIncomingValueForBlock`; a block that is not an
incoming block fails its assertion. -/
def PHINode.getIncomingValueForBlock (PN : PHINode) (BB : BasicBlock) : Option Value :=
  match PN.incoming.find? (fun p => p.1 == BB) with
  | some p => some p.2
  | none => none

/-- Terminators of the primal function with their successors.  `branch` is a
conditional and `jump` an unconditional `BranchInst`; `other` is any terminator
kind not listed. -/
inductive CFGTerminator where
  | branch (condition : Value) (ifTrue ifFalse : BasicBlock)
  | jump (dest : BasicBlock)
  | switch (condition : Value) (dflt : BasicBlock) (cases : List (Int × BasicBlock))
  | ret
  | unreachable
  | other (succs : List BasicBlock)
  deriving DecidableEq, Repr

/-- The range `successors(block)`, in successor order. -/
def CFGTerminator.successors : CFGTerminator → List BasicBlock
  | .branch _ t f => [t, f]
  | .jump d => [d]
  | .switch _ d cases => d :: cases.map (fun c => c.2)
  | .ret => []
  | .unreachable => []
  | .other succs => succs

/-- The record `LoopContext`. -/
inductive LoopContext where
  | mk (var antivar : Value) (latch header preheader : BasicBlock) (dynamic : Bool)
      (limit : Value) (exit : BasicBlock) (parent : Option LoopContext)
  deriving Repr

/-- Field `var`: the canonical induction variable, a phi node of the header. -/
def LoopContext.var : LoopContext → Value
  | .mk var _ _ _ _ _ _ _ _ => var

/-- Field `antivar`: the mirror induction variable of the reverse function. -/
def LoopContext.antivar : LoopContext → Value
  | .mk _ antivar _ _ _ _ _ _ _ => antivar

/-- Field `latch`. -/
def LoopContext.latch : LoopContext → BasicBlock
  | .mk _ _ latch _ _ _ _ _ _ => latch

/-- Field `header`. -/
def LoopContext.header : LoopContext → BasicBlock
  | .mk _ _ _ header _ _ _ _ _ => header

/-- Field `preheader`. -/
def LoopContext.preheader : LoopContext → BasicBlock
  | .mk _ _ _ _ preheader _ _ _ _ => preheader

/-- Field `dynamic`: the trip count is not known on entry to the loop. -/
def LoopContext.dynamic : LoopContext → Bool
  | .mk _ _ _ _ _ dynamic _ _ _ => dynamic

/-- Field `limit`: the last value of `var`; the loop runs `limit + 1` times. -/
def LoopContext.limit : LoopContext → Value
  | .mk _ _ _ _ _ _ limit _ _ => limit

/-- Field `exit`. -/
def LoopContext.exit : LoopContext → BasicBlock
  | .mk _ _ _ _ _ _ _ exit _ => exit

/-- Field `parent`, with the context `getContext(parent->getHeader(), …)` finds for
it; `none` is the null pointer of an outermost loop. -/
def LoopContext.parent : LoopContext → Option LoopContext
  | .mk _ _ _ _ _ _ _ _ parent => parent

/-- What `createInvertedTerminator` reads of the function being built: the
predecessor lists and terminators of the original blocks, their leading phi nodes,
the map `reverseBlocks`, the loop context `getContext` finds for a block, the
arguments of `newFunc`, and the value number a phi node created at the front of a
block receives. -/
structure GradientCFG where
  predecessors : BasicBlock → List BasicBlock
  terminator : BasicBlock → CFGTerminator
  phis : BasicBlock → List PHINode
  reverseBlocks : BasicBlock → BasicBlock
  getContext : BasicBlock → Option LoopContext
  newFuncArgs : List Value
  createPHI : BasicBlock → Value

/-- Terminators emitted into a reverse block; destinations are reverse blocks. -/
inductive RTerminator where
  | ret (v : RVal)
  | br (dest : BasicBlock)
  | condBr (cond : RVal) (ifTrue ifFalse : BasicBlock)
  | switch (cond : RVal) (dflt : BasicBlock) (cases : List (Int × BasicBlock))
  deriving DecidableEq, Repr

/-- Successors of an emitted terminator. -/
def RTerminator.successors : RTerminator → List BasicBlock
  | .ret _ => []
  | .br d => [d]
  | .condBr _ t f => [t, f]
  | .switch _ d cases => d :: cases.map (fun c => c.2)

/-- What `createInvertedTerminator` leaves behind: the instructions of the reverse
block, its terminator, and the incoming constants of the tag phi it created at the
front of the original block, if it created one. -/
structure InvertedTerminator where
  block : Builder
  terminator : RTerminator
  tagPhi : Option (List (Int × BasicBlock))
  deriving DecidableEq, Repr

/-- The insert-value chain that builds the returned struct from `retargs`,
starting at index `i`. -/
def createInvertedTerminator.insertValues : List RVal → Nat → RVal → Builder → RVal × Builder
  | [], _, toret, B => (toret, B)
  | a :: as, i, toret, B =>
    let (toret, B) := B.Insert (.insertValue toret a i)
    createInvertedTerminator.insertValues as (i + 1) toret B

/-- The loop over the arguments of `newFunc` that collects the accumulators of the
non-constant arguments classified `OUT_DIFF`. -/
def createInvertedTerminator.argDiffes (g : DiffeGradientUtils) :
    List Value → List RVal → Builder → Option (List RVal × Builder)
  | [], retargs, B => some (retargs, B)
  | I :: rest, retargs, B =>
    if g.isConstantValue I then createInvertedTerminator.argDiffes g rest retargs B
    else
      match whatType (g.typeOf I) with
      | none => none
      | some .OUT_DIFF =>
        match diffe g I B with
        | none => none
        | some (d, B) => createInvertedTerminator.argDiffes g rest (retargs ++ [d]) B
      | some _ => createInvertedTerminator.argDiffes g rest retargs B

/-- The branch `preds.size() == 0`: gather the stored primal return, when there is
a `retAlloca`, and the accumulators of the arguments before the last `extraArgs`.
Stepping `endidx` back past the first argument has no meaning. -/
def createInvertedTerminator.entry (g : DiffeGradientUtils) (u : GradientCFG)
    (retAlloca : Bool) (extraArgs : Nat) (B : Builder) : Option InvertedTerminator :=
  let (retargs, B) : List RVal × Builder :=
    if retAlloca then
      let (r, B) := B.Insert (.load .retAlloca)
      ([r], B)
    else ([], B)
  if u.newFuncArgs.length < extraArgs then none
  else
    match createInvertedTerminator.argDiffes g
        (u.newFuncArgs.take (u.newFuncArgs.length - extraArgs)) retargs B with
    | none => none
    | some (retargs, B) =>
      let (toret, B) := createInvertedTerminator.insertValues retargs 0 .undef B
      some { block := B, terminator := .ret toret, tagPhi := none }

/-- One guarded update `if (!isConstantValue(PN->getIncomingValueForBlock(pred)))`
of the phi loops: `dif` emits the value that is added. -/
def createInvertedTerminator.contribute (g : DiffeGradientUtils) (PN : PHINode)
    (pred : BasicBlock) (dif : Builder → RVal × Builder) (B : Builder) : Option Builder :=
  match PN.getIncomingValueForBlock pred with
  | none => none
  | some v =>
    if g.isConstantValue v then some B
    else
      let (d, B) := dif B
      addToDiffe g v d B

/-- The updates of one phi node for the predecessors from number `i` on; `dif`
emits the value added for predecessor number `i`, given `prediff`. -/
def createInvertedTerminator.contributions (g : DiffeGradientUtils) (PN : PHINode)
    (dif : Nat → RVal → Builder → RVal × Builder) (prediff : RVal) :
    List BasicBlock → Nat → Builder → Option Builder
  | [], _, B => some B
  | pred :: rest, i, B =>
    match createInvertedTerminator.contribute g PN pred (dif i prediff) B with
    | none => none
    | some B => createInvertedTerminator.contributions g PN dif prediff rest (i + 1) B

/-- The loop over the leading phi nodes of the block, shared by the three
branches with predecessors: constant and pointer-typed phi nodes are skipped; for
the others the accumulator is read, reset to zero, and handed on. -/
def createInvertedTerminator.phiLoop (g : DiffeGradientUtils) (preds : List BasicBlock)
    (dif : Nat → RVal → Builder → RVal × Builder) : List PHINode → Builder → Option Builder
  | [], B => some B
  | PN :: rest, B =>
    if g.isConstantValue PN.id then createInvertedTerminator.phiLoop g preds dif rest B
    else if (g.typeOf PN.id).isPointerTy then
      createInvertedTerminator.phiLoop g preds dif rest B
    else
      match diffe g PN.id B with
      | none => none
      | some (prediff, B) =>
        match setDiffe g PN.id .nullValue B with
        | none => none
        | some B =>
          match createInvertedTerminator.contributions g PN dif prediff preds 0 B with
          | none => none
          | some B => createInvertedTerminator.phiLoop g preds dif rest B

/-- State of the pivot search: the maps `seen` and `done`, as sets of pairs, and
the work queue `Q` of triples (block, predecessor number, block it was reached
from). -/
structure PivotSearch where
  seen : List (BasicBlock × Nat)
  done : List (BasicBlock × BasicBlock)
  Q : List (BasicBlock × Nat × BasicBlock)
  deriving DecidableEq, Repr

/-- The set `seen[block]`. -/
def PivotSearch.seenOf (seen : List (BasicBlock × Nat)) (block : BasicBlock) : List Nat :=
  (seen.filter (fun p => p.1 == block)).map (fun p => p.2)

/-- Insertion into a set kept as a list without repetition. -/
def PivotSearch.insert {α : Type} [DecidableEq α] (a : α) (s : List α) : List α :=
  if a ∈ s then s else s ++ [a]

/-- Outcome of the pivot search: the condition of a branch that is reused, negated
or not, or the fall-back to a tag phi. -/
inductive PivotResult where
  | found (condition : Value) (negate : Bool)
  | tag
  deriving DecidableEq, Repr

/-- The inner loop over the successors of the deciding branch, from successor
number `i` on: the first successor seen from a single predecessor number decides
whether the condition is negated. -/
def createInvertedTerminator.negate (seen : List (BasicBlock × Nat)) :
    List BasicBlock → Nat → Bool
  | [], _ => false
  | s :: rest, i =>
    match PivotSearch.seenOf seen s with
    | [n] => n != i
    | _ => createInvertedTerminator.negate seen rest (i + 1)

/-- The search of the two-predecessor branch for a conditional branch that
decides between the predecessors; each unit of `fuel` is one round of the loop
`while(Q.size())`, and `none` is a search cut off by lack of fuel. -/
def createInvertedTerminator.search (u : GradientCFG) (npreds : Nat) :
    Nat → PivotSearch → Option PivotResult
  | 0, _ => none
  | fuel + 1, s =>
    match s.Q with
    | [] => some .tag
    | (block, num, predblock) :: Q =>
      if (block, num) ∈ s.seen ∧ (block, predblock) ∈ s.done then
        createInvertedTerminator.search u npreds fuel { s with Q := Q }
      else
        let seen := PivotSearch.insert (block, num) s.seen
        let done := PivotSearch.insert (block, predblock) s.done
        let Q :=
          match PivotSearch.seenOf seen block with
          | [n] => Q ++ (u.predecessors block).map (fun Pred => (Pred, n, block))
          | _ => Q
        let succs := (u.terminator block).successors
        let allDone := succs.all (fun Succ => decide ((block, Succ) ∈ done))
        if !allDone then createInvertedTerminator.search u npreds fuel ⟨seen, done, Q⟩
        else if (PivotSearch.seenOf seen block).length = npreds ∧ succs.length = npreds then
          let hasSingle := succs.any (fun a => (PivotSearch.seenOf seen a).length == 1)
          if !hasSingle then createInvertedTerminator.search u npreds fuel ⟨seen, done, Q⟩
          else
            match u.terminator block with
            | .branch condition _ _ =>
              some (.found condition (createInvertedTerminator.negate seen succs 0))
            | .jump _ => none
            | _ => some .tag
        else createInvertedTerminator.search u npreds fuel ⟨seen, done, Q⟩

/-- Whether an emitted value is a `BinaryOperator`, and which instruction it is. -/
def createInvertedTerminator.binaryOperator (B : Builder) : RVal → Option RInst
  | .inst n =>
    match B.get? n with
    | some (.fadd a b) => some (.fadd a b)
    | some (.fsub a b) => some (.fsub a b)
    | some (.fmul a b) => some (.fmul a b)
    | some (.fdiv a b) => some (.fdiv a b)
    | some (.xor a b) => some (.xor a b)
    | _ => none
  | _ => none

/-- The loop that strips negations `xor _, 1` off the pivot and swaps the two
destinations for each; one unit of `fuel` is one round. -/
def createInvertedTerminator.stripNot (B : Builder) :
    Nat → RVal → BasicBlock → BasicBlock → Option (RVal × BasicBlock × BasicBlock)
  | 0, _, _, _ => none
  | fuel + 1, phi, f0, f1 =>
    match createInvertedTerminator.binaryOperator B phi with
    | some (.xor a b) =>
      if b = .constantInt 1 then createInvertedTerminator.stripNot B fuel a f1 f0
      else if a = .constantInt 1 then createInvertedTerminator.stripNot B fuel b f1 f0
      else some (phi, f0, f1)
    | _ => some (phi, f0, f1)

/-- The branch `preds.size() == 2` of `createInvertedTerminator`.  The block
`loopContext.var->getParent()` of the loop-header test is the header, where
`getContextM` puts the induction variable.  The tag phi of the fall-back is `true`
from `preds[0]` and `false` from `preds[1]`. -/
def createInvertedTerminator.two (g : DiffeGradientUtils) (u : GradientCFG) (fuel : Nat)
    (BB p0 p1 : BasicBlock) (B : Builder) : Option InvertedTerminator :=
  let inLoopHeader : Option LoopContext :=
    match u.getContext BB with
    | some loopContext =>
      if u.reverseBlocks BB = u.reverseBlocks loopContext.header then some loopContext else none
    | none => none
  let pivot : Option (RVal × Builder × Option (List (Int × BasicBlock))) :=
    match inLoopHeader with
    | some loopContext =>
      if (p0 = loopContext.latch ∧ p1 = loopContext.preheader) ∨
          (p1 = loopContext.latch ∧ p0 = loopContext.preheader) then
        if p0 = loopContext.latch then
          let (phi, B) := B.Insert (.icmpNE (.antivar loopContext.antivar) .nullValue)
          some (phi, B, none)
        else
          let (phi, B) := B.Insert (.icmpEQ (.antivar loopContext.antivar) .nullValue)
          some (phi, B, none)
      else none
    | none =>
      match createInvertedTerminator.search u 2 fuel ⟨[], [], [(p0, 0, BB), (p1, 1, BB)]⟩ with
      | none => none
      | some (.found condition negate) =>
        if negate then
          let (phi, B) := B.Insert (.xor (.lookup condition) (.constantInt 1))
          some (phi, B, none)
        else some (.lookup condition, B, none)
      | some .tag => some (.lookup (u.createPHI BB), B, some [(1, p0), (0, p1)])
  match pivot with
  | none => none
  | some (phi, B, tagPhi) =>
    let dif (i : Nat) (prediff : RVal) (B : Builder) : RVal × Builder :=
      if i = 0 then B.Insert (.select phi prediff .nullValue)
      else B.Insert (.select phi .nullValue prediff)
    match createInvertedTerminator.phiLoop g [p0, p1] dif (u.phis BB) B with
    | none => none
    | some B =>
      match createInvertedTerminator.stripNot B (B.length + 1) phi
          (u.reverseBlocks p0) (u.reverseBlocks p1) with
      | none => none
      | some (phi, f0, f1) =>
        some { block := B, terminator := .condBr phi f0 f1, tagPhi := tagPhi }

/-- The constant `ConstantInt::get` makes of `i` in the eight-bit tag type. -/
def createInvertedTerminator.tagConstant (i : Nat) : Int := (i % 256 : Nat)

/-- The cases of the emitted switch: predecessor number `i` leads to the reverse
block of `preds[i]`, for all but the last predecessor. -/
def createInvertedTerminator.cases (u : GradientCFG) :
    List BasicBlock → Nat → List (Int × BasicBlock)
  | [], _ => []
  | [_], _ => []
  | p :: q :: rest, i =>
    (createInvertedTerminator.tagConstant i, u.reverseBlocks p) ::
      createInvertedTerminator.cases u (q :: rest) (i + 1)

/-- The incoming constants of the eight-bit tag phi. -/
def createInvertedTerminator.tagIncoming : List BasicBlock → Nat → List (Int × BasicBlock)
  | [], _ => []
  | p :: rest, i =>
    (createInvertedTerminator.tagConstant i, p) ::
      createInvertedTerminator.tagIncoming rest (i + 1)

/-- The value added for predecessor number `i` in the branch of three or more
predecessors: `prediff` where the tag `phi` equals `i`, zero elsewhere. -/
def createInvertedTerminator.tagDif (phi : RVal) (i : Nat) (prediff : RVal) (B : Builder) :
    RVal × Builder :=
  let (cond, B) := B.Insert (.icmpEQ phi (.constantInt (createInvertedTerminator.tagConstant i)))
  B.Insert (.select cond prediff .nullValue)

/-- The routine `createInvertedTerminator` for the block `BB`, appending to the
reverse block `B`.  `retAlloca` tells whether the pointer is non-null.  Failed
assertions are `none`, as is a pivot search cut off by lack of `fuel`. -/
def createInvertedTerminator (g : DiffeGradientUtils) (u : GradientCFG) (fuel : Nat)
    (BB : BasicBlock) (retAlloca : Bool) (extraArgs : Nat) (B : Builder) :
    Option InvertedTerminator :=
  match u.predecessors BB with
  | [] => createInvertedTerminator.entry g u retAlloca extraArgs B
  | [p0] =>
    match createInvertedTerminator.phiLoop g [p0] (fun _ prediff B => (prediff, B))
        (u.phis BB) B with
    | none => none
    | some B => some { block := B, terminator := .br (u.reverseBlocks p0), tagPhi := none }
  | [p0, p1] => createInvertedTerminator.two g u fuel BB p0 p1 B
  | preds =>
    let phi : RVal := .lookup (u.createPHI BB)
    match createInvertedTerminator.phiLoop g preds (createInvertedTerminator.tagDif phi)
        (u.phis BB) B with
    | none => none
    | some B =>
      match preds.getLast? with
      | none => none
      | some last =>
        some { block := B,
               terminator := .switch phi (u.reverseBlocks last)
                 (createInvertedTerminator.cases u preds 0),
               tagPhi := some (createInvertedTerminator.tagIncoming preds 0) }

/-- Where an emitted terminator transfers control, given the state the reverse
block ends in; a return leaves the function. -/
def RTerminator.next (E : Env) (m : Machine) : RTerminator → Option BasicBlock
  | .ret _ => none
  | .br d => some d
  | .condBr cond t f =>
    match evalVal E m cond with
    | some k => some (if k = 0 then f else t)
    | none => none
  | .switch cond d cases =>
    match evalVal E m cond with
    | some k =>
      match cases.find? (fun c => decide ((c.1 : ℚ) = k)) with
      | some c => some c.2
      | none => some d
    | none => none

/-- Where a primal terminator transfers control under the values `env`; `none`
where the function is left or the terminator kind is not followed. -/
def CFGTerminator.next (env : Value → ℚ) : CFGTerminator → Option BasicBlock
  | .branch condition t f => some (if env condition = 0 then f else t)
  | .jump d => some d
  | .switch condition d cases =>
    match cases.find? (fun c => decide ((c.1 : ℚ) = env condition)) with
    | some c => some c.2
    | none => some d
  | _ => none

/-- The blocks a primal run visits from `BB` on, at most `fuel + 1` of them. -/
def GradientCFG.trace (u : GradientCFG) (env : Value → ℚ) : Nat → BasicBlock → List BasicBlock
  | 0, BB => [BB]
  | fuel + 1, BB =>
    match (u.terminator BB).next env with
    | some S => BB :: GradientCFG.trace u env fuel S
    | none => [BB]

/-- The return shape `CreatePrimalAndGradient` passes to `CreateFromClone` for its
flag `returnValue`. -/
def CreatePrimalAndGradient.returnShape (returnValue : Bool) : ReturnType :=
  if returnValue then .ArgsWithReturn else .Args

/-- Whether `CreatePrimalAndGradient` creates the stack cell `toreturn`. -/
def CreatePrimalAndGradient.retAlloca (returnValue differentialReturn : Bool) : Bool :=
  returnValue && differentialReturn

/-- The count `extraArgs` that `CreatePrimalAndGradient` passes to
`createInvertedTerminator`. -/
def CreatePrimalAndGradient.extraArgs (additionalArg : Option Ty) (differentialReturn : Bool) :
    Nat :=
  0 + (if additionalArg.isSome then 1 else 0) + (if differentialReturn then 1 else 0)

/-! ## Loop contexts: `getContextM` -/

/-- What `getContextM` reads of a `Loop`: an identity, its blocks, its exit blocks
in the order `getExitBlocks` lists them, header, preheader (if any), latch, and the
parent loop, held as the context `getContext` finds for it. -/
structure Loop where
  id : Nat
  contains : BasicBlock → Bool
  getExitBlocks : List BasicBlock
  getHeader : BasicBlock
  getLoopPreheader : Option BasicBlock
  getLoopLatch : BasicBlock
  getParentLoop : Option LoopContext

/-- What `getContextM` reads of `LoopInfo`, `ScalarEvolution` and the function:
the innermost loop of a block, the terminators, the expanded exit count of a loop
by its identity (`none` for `getCouldNotCompute`), the canonical induction
variable `canonicalizeIVs` returns, whether the backedge is guarded by the
comparison with the limit, and the value numbers of phi nodes it creates. -/
structure LoopAnalyses where
  getLoopFor : BasicBlock → Option Loop
  terminator : BasicBlock → CFGTerminator
  getExitCount : Nat → Option Value
  canonicalizeIVs : Nat → Option Value
  isLoopBackedgeGuardedByCond : Nat → Bool
  newCanonicalIV : Nat → Value
  newLimitVar : Nat → Value
  newAntivar : Nat → Value

/-- Lines `getContextM` writes to `llvm::errs()`, as far as they are followed. -/
inductive Diagnostic where
  | noUniqueExitBlock
  | couldNotComputeLimit
  deriving DecidableEq, Repr

/-- The walk from one potential exit block that decides `isExit`: `tocheck` is
used as a stack, `checked` is the set of blocks visited.  Each unit of `fuel` is
one round of the loop `while(tocheck.size())`. -/
def getContextM.isExit (A : LoopAnalyses) (L : Loop) :
    Nat → List BasicBlock → List BasicBlock → Option Bool
  | 0, _, _ => none
  | fuel + 1, tocheck, checked =>
    match tocheck.getLast? with
    | none => some false
    | some foo =>
      let tocheck := tocheck.dropLast
      if foo ∈ checked then some true
      else
        let checked := checked ++ [foo]
        match A.terminator foo with
        | .branch _ t f =>
          getContextM.isExit A L fuel (tocheck ++ [t, f].filter (fun nb => !L.contains nb)) checked
        | .jump d =>
          getContextM.isExit A L fuel (tocheck ++ [d].filter (fun nb => !L.contains nb)) checked
        | .unreachable => getContextM.isExit A L fuel tocheck checked
        | _ => some true

/-- The loop over `PotentialExitBlocks` that fills the set `ExitBlocks`, kept in
insertion order. -/
def getContextM.exitBlocks (A : LoopAnalyses) (L : Loop) (fuel : Nat) :
    List BasicBlock → List BasicBlock → Option (List BasicBlock)
  | [], ExitBlocks => some ExitBlocks
  | a :: rest, ExitBlocks =>
    match getContextM.isExit A L fuel [a] [] with
    | none => none
    | some isExit =>
      getContextM.exitBlocks A L fuel rest
        (if isExit && !decide (a ∈ ExitBlocks) then ExitBlocks ++ [a] else ExitBlocks)

/-- What a call of `getContextM` leaves behind: the value returned, the context
written through `loopContext`, the map `loopContexts`, and the lines written to
`llvm::errs()`. -/
structure GetContext where
  found : Bool
  loopContext : Option LoopContext
  loopContexts : List (Nat × LoopContext)
  errs : List Diagnostic

/-- The routine `getContextM`.  Failed assertions and `report_fatal_error` are
`none`, as are a walk cut off by lack of `fuel`, the read of `*ExitBlocks.begin()`
from an empty set, and the same read from a set of more than eight blocks, which
is no longer kept in insertion order. -/
def getContextM (A : LoopAnalyses) (fuel : Nat) (BB : BasicBlock)
    (loopContexts : List (Nat × LoopContext)) : Option GetContext :=
  match A.getLoopFor BB with
  | none => some { found := false, loopContext := none, loopContexts := loopContexts, errs := [] }
  | some L =>
    match loopContexts.find? (fun p => p.1 == L.id) with
    | some p =>
      some { found := true, loopContext := some p.2, loopContexts := loopContexts, errs := [] }
    | none =>
      match getContextM.exitBlocks A L fuel L.getExitBlocks [] with
      | none => none
      | some ExitBlocks =>
        let errs : List Diagnostic :=
          if ExitBlocks.length ≠ 1 then [.noUniqueExitBlock] else []
        match ExitBlocks.head?, L.getLoopPreheader with
        | none, _ => none
        | _, none => none
        | some ExitBlock, some Preheader =>
          if 8 < ExitBlocks.length then none
          else
            let finish (errs : List Diagnostic) (CanonicalIV LimitVar : Value)
                (dynamic : Bool) : Option GetContext :=
              let loopContext : LoopContext :=
                .mk CanonicalIV (A.newAntivar L.id) L.getLoopLatch L.getHeader Preheader
                  dynamic LimitVar ExitBlock L.getParentLoop
              some { found := true, loopContext := some loopContext,
                     loopContexts := loopContexts ++ [(L.id, loopContext)], errs := errs }
            match A.getExitCount L.id with
            | some LimitVar =>
              match A.canonicalizeIVs L.id with
              | none => none
              | some CanonicalIV =>
                if A.isLoopBackedgeGuardedByCond L.id then
                  finish errs CanonicalIV LimitVar false
                else none
            | none =>
              finish (errs ++ [.couldNotComputeLimit]) (A.newCanonicalIV L.id)
                (A.newLimitVar L.id) true

/-! ## Loop caches of `lookupM`: size and slot -/

/-- Integer expressions `lookupM` emits for the size of a loop cache and for the
slot of an iteration. -/
inductive IndexExpr where
  | value (v : Value)
  | constant (n : Nat)
  | nuwAdd (a b : IndexExpr)
  | nuwMul (a b : IndexExpr)
  deriving DecidableEq, Repr

/-- Value of an emitted integer expression in the type of `bits` bits, under the
values `env` of the induction variables and limits; a sum or product marked
`nuw` that does not fit is poison, `none`. -/
def IndexExpr.eval (bits : Nat) (env : Value → Nat) : IndexExpr → Option Nat
  | .value v => some (env v)
  | .constant n => some (n % 2 ^ bits)
  | .nuwAdd a b =>
    match IndexExpr.eval bits env a, IndexExpr.eval bits env b with
    | some x, some y => if x + y < 2 ^ bits then some (x + y) else none
    | _, _ => none
  | .nuwMul a b =>
    match IndexExpr.eval bits env a, IndexExpr.eval bits env b with
    | some x, some y => if x * y < 2 ^ bits then some (x * y) else none
    | _, _ => none

/-- Fatal ends of the cache construction: the assertion `cannot handle
non-outermost dynamic loop`, which is the `UnboundedLoop` of the specification,
and the assertion that `unwrapM` recovered the limit of a loop. -/
inductive CacheError where
  | nonOutermostDynamicLoop
  | limitUnavailable
  deriving DecidableEq, Repr

/-- The loop of `lookupM` that computes the element count `size` of a loop cache,
walking from the context `idx` of the loop of the cached value to the outermost
loop; `unwrapM` yields the limit as re-materialised in the outermost preheader,
or `none` for a null result. -/
def lookupM.cacheSize (unwrapM : Value → Option Value) :
    LoopContext → Option IndexExpr → Except CacheError IndexExpr
  | .mk _ _ _ _ _ dynamic limit _ parent, size =>
    if dynamic && parent.isSome then .error .nonOutermostDynamicLoop
    else
      let ns : Option IndexExpr :=
        if dynamic then some (.constant 1)
        else
          match unwrapM limit with
          | some limitm1 => some (.nuwAdd (.value limitm1) (.constant 1))
          | none => none
      match ns with
      | none => .error .limitUnavailable
      | some ns =>
        let size : IndexExpr :=
          match size with
          | none => ns
          | some size => .nuwMul size ns
        match parent with
        | none => .ok size
        | some idx => lookupM.cacheSize unwrapM idx (some size)

/-- The loop of `lookupM` that collects, for the store into the cache, the
induction variables in `indices` and the running products of trip counts in
`limits`; the third component is `dynamicPHI`. -/
def lookupM.storeIndices (unwrapM : Value → Option Value) :
    LoopContext → List IndexExpr → List IndexExpr →
      Except CacheError (List IndexExpr × List IndexExpr × Option Value)
  | .mk var _ _ _ _ dynamic limit _ parent, indices, limits =>
    let indices := indices ++ [.value var]
    if dynamic then
      if parent.isSome then .error .nonOutermostDynamicLoop
      else .ok (indices, limits, some var)
    else
      match parent with
      | none => .ok (indices, limits, none)
      | some idx =>
        match unwrapM limit with
        | none => .error .limitUnavailable
        | some limitm1 =>
          let lim : IndexExpr := .nuwAdd (.value limitm1) (.constant 1)
          let lim : IndexExpr :=
            match limits.getLast? with
            | some back => .nuwMul lim back
            | none => lim
          lookupM.storeIndices unwrapM idx indices (limits ++ [lim])

/-- The loop of `lookupM` that collects, for the load from the cache in the
reverse sweep, the mirror induction variables and the running products of trip
counts. -/
def lookupM.loadIndices (unwrapM : Value → Option Value) :
    LoopContext → List IndexExpr → List IndexExpr →
      Except CacheError (List IndexExpr × List IndexExpr)
  | .mk _ antivar _ _ _ _ limit _ parent, indices, limits =>
    let indices := indices ++ [.value antivar]
    match parent with
    | none => .ok (indices, limits)
    | some idx =>
      match unwrapM limit with
      | none => .error .limitUnavailable
      | some limitm1 =>
        let lim : IndexExpr := .nuwAdd (.value limitm1) (.constant 1)
        let lim : IndexExpr :=
          match limits.getLast? with
          | some back => .nuwMul lim back
          | none => lim
        lookupM.loadIndices unwrapM idx indices (limits ++ [lim])

/-- The loop that folds `indices[i]` and `limits[i-1]`, from some `i ≥ 1` on, into
the slot `idx`; reading past the end of `limits` has no meaning. -/
def lookupM.slotFrom : IndexExpr → List IndexExpr → List IndexExpr → Option IndexExpr
  | idx, [], _ => some idx
  | _, _ :: _, [] => none
  | idx, i :: indices, l :: limits =>
    lookupM.slotFrom (.nuwAdd idx (.nuwMul i l)) indices limits

/-- The slot `idx` built from `indices` and `limits`. -/
def lookupM.slot : List IndexExpr → List IndexExpr → Option IndexExpr
  | [], _ => none
  | i :: indices, limits => lookupM.slotFrom i indices limits

/-- What `lookupM` emits when it first caches a value defined in the loop of
context `lc`: the element count of the allocation, the slot the value is stored
to, and `dynamicPHI`. -/
def lookupM.createCache (unwrapAlloc unwrapStore : Value → Option Value) (lc : LoopContext) :
    Except CacheError (IndexExpr × Option IndexExpr × Option Value) :=
  match lookupM.cacheSize unwrapAlloc lc none with
  | .error e => .error e
  | .ok size =>
    match lookupM.storeIndices unwrapStore lc [] [] with
    | .error e => .error e
    | .ok (indices, limits, dynamicPHI) => .ok (size, lookupM.slot indices limits, dynamicPHI)

/-- The slot `lookupM` emits for the load of a cached value in the reverse sweep. -/
def lookupM.loadSlot (unwrapLoad : Value → Option Value) (lc : LoopContext) :
    Except CacheError (Option IndexExpr) :=
  match lookupM.loadIndices unwrapLoad lc [] [] with
  | .error e => .error e
  | .ok (indices, limits) => .ok (lookupM.slot indices limits)

/-! ## Activity analysis: `isconstantM` and `isconstantValueM` -/

/-- The function a call names: an intrinsic by its id, whose name starts with
`llvm.` and equals none of the names the analysis compares, or another function by
its name. -/
inductive CalledFunction where
  | intrinsic (id : Intrinsic)
  | named (name : String)
  deriving DecidableEq, Repr

/-- The check `called->getName() == name`. -/
def CalledFunction.hasName (f : CalledFunction) (name : String) : Bool :=
  match f with
  | .intrinsic _ => false
  | .named n => n == name

/-- The check `fnp->getIntrinsicID() == id`. -/
def CalledFunction.hasIntrinsicID (f : CalledFunction) (id : Intrinsic) : Bool :=
  match f with
  | .intrinsic i => i == id
  | .named _ => false

/-- Instruction kinds the activity analysis tells apart; `call` carries the called
function, if it is known, and the argument operands. -/
inductive InstKind where
  | ReturnInst
  | UnreachableInst
  | BranchInst
  | CallInst (called : Option CalledFunction) (args : List Value)
  | CmpInst
  | StoreInst (value ptr : Value)
  | LoadInst
  | GetElementPtrInst (ptr : Value)
  | other
  deriving DecidableEq, Repr

/-- Value kinds `isconstantValueM` tells apart. -/
inductive ValueKind where
  | Constant
  | BasicBlock
  | InlineAsm
  | Argument
  | Instruction
  | other
  deriving DecidableEq, Repr

/-- What the activity analysis reads of the function: the kind of every value and
instruction, type checks, `mayWriteToMemory`, users (all of them instructions) and
operands, and the sets `retvals` and `originalInstructions`. -/
structure ActivityIR where
  valueKind : Value → ValueKind
  kind : Value → InstKind
  isPointerTy : Value → Bool
  isVoidTy : Value → Bool
  mayWriteToMemory : Value → Bool
  users : Value → List Value
  operands : Value → List Value
  retvals : Finset Value
  originalInstructions : Finset Value

/-- A verdict together with the sets `constants` and `nonconstant` as the call
leaves them; `none` is a failed assertion or a lack of fuel. -/
abbrev Activity := Option (Bool × Finset Value × Finset Value)

/-- The direction bit `UP`. -/
def isconstantM.UP : Nat := 1

/-- The direction bit `DOWN`. -/
def isconstantM.DOWN : Nat := 2

/-- The intrinsic ids `isconstantM` takes for constant outright. -/
def isconstantM.constantIntrinsic : Intrinsic → Bool
  | .stacksave | .stackrestore | .lifetime_start | .lifetime_end | .dbg_addr | .dbg_declare
  | .dbg_value | .invariant_start | .invariant_end | .var_annotation_ | .ptr_annotation_
  | .annotation_ | .codeview_annotation_ | .expect | .type_test | .donothing => true
  | _ => false

/-- Whether the use search passes over the user `a` of `val`: `some true` for
`continue`; the assertion on a `getelementptr` of `val` is `none`. -/
def isconstantM.skipsUser (F : ActivityIR) (val a : Value) : Option Bool :=
  match F.kind a with
  | .GetElementPtrInst ptr => if val = ptr then none else some true
  | .CallInst (some fnp) args =>
    if fnp.hasName "malloc" || fnp.hasName "_Znwm" then some true
    else if fnp.hasIntrinsicID .memset && args.get? 0 != some val && args.get? 1 != some val
      then some true
    else some false
  | _ => some false

/-- The loop over the users of `val` shared by the two use searches, over the
`isconstantM` it calls, `rec`: the result is `seenuse` with the sets as the calls
left them. -/
def isconstantM.useSearch (F : ActivityIR)
    (rec : Value → Finset Value → Finset Value → Nat → Activity) (val : Value) :
    List Value → Finset Value → Finset Value → Activity
  | [], constants2, nonconstant2 => some (false, constants2, nonconstant2)
  | a :: rest, constants2, nonconstant2 =>
    match isconstantM.skipsUser F val a with
    | none => none
    | some true => isconstantM.useSearch F rec val rest constants2 nonconstant2
    | some false =>
      match rec a constants2 nonconstant2 isconstantM.DOWN with
      | none => none
      | some (false, constants2, nonconstant2) => some (true, constants2, nonconstant2)
      | some (true, constants2, nonconstant2) =>
        isconstantM.useSearch F rec val rest constants2 nonconstant2

/-- The routine `isconstantValueM`, over the `isconstantM` it calls, `rec`.  The sets are
passed on by reference, so what the calls insert stays. -/
def isconstantValueM.body (F : ActivityIR)
    (rec : Value → Finset Value → Finset Value → Nat → Activity)
    (val : Value) (constants nonconstant : Finset Value) (directions : Nat) : Activity :=
  if 3 < directions then none
  else if F.isVoidTy val then some (true, constants, nonconstant)
  else if F.valueKind val = .Constant then some (true, constants, nonconstant)
  else if F.valueKind val = .BasicBlock then some (true, constants, nonconstant)
  else if F.valueKind val = .InlineAsm then none
  else if val ∈ constants then some (true, constants, nonconstant)
  else if val ∈ F.retvals then some (false, constants, nonconstant)
  else if F.valueKind val = .Argument then
    if val ∈ nonconstant then some (false, constants, nonconstant) else none
  else
    let first : Activity :=
      if F.valueKind val = .Instruction then rec val constants nonconstant directions
      else some (false, constants, nonconstant)
    match first with
    | none => none
    | some (true, constants, nonconstant) => some (true, constants, nonconstant)
    | some (false, constants, nonconstant) =>
      if !F.isPointerTy val && (directions &&& isconstantM.DOWN) != 0 then
        match isconstantM.useSearch F rec val (F.users val) constants nonconstant with
        | none => none
        | some (seenuse, constants, nonconstant) => some (!seenuse, constants, nonconstant)
      else some (false, constants, nonconstant)

/-- The loop of the memory search over the users of a pointer-typed `inst`:
`some true` when a user makes `inst` non-constant. -/
def isconstantM.memSearch (F : ActivityIR)
    (rec : Value → Finset Value → Finset Value → Nat → Activity)
    (inst : Value) (directions : Nat) :
    List Value → Finset Value → Finset Value → Activity
  | [], constants2, nonconstant2 => some (false, constants2, nonconstant2)
  | a :: rest, constants2, nonconstant2 =>
    match F.kind a with
    | .StoreInst value ptr =>
      let first : Activity :=
        if inst = ptr then
          isconstantValueM.body F rec value constants2 nonconstant2 directions
        else some (true, constants2, nonconstant2)
      match first with
      | none => none
      | some (false, constants2, nonconstant2) => some (true, constants2, nonconstant2)
      | some (true, constants2, nonconstant2) =>
        let second : Activity :=
          if inst = value then
            isconstantValueM.body F rec ptr constants2 nonconstant2 directions
          else some (true, constants2, nonconstant2)
        match second with
        | none => none
        | some (false, constants2, nonconstant2) => some (true, constants2, nonconstant2)
        | some (true, constants2, nonconstant2) =>
          isconstantM.memSearch F rec inst directions rest constants2 nonconstant2
    | .LoadInst => isconstantM.memSearch F rec inst directions rest constants2 nonconstant2
    | _ =>
      match rec a constants2 nonconstant2 directions with
      | none => none
      | some (false, constants2, nonconstant2) => some (true, constants2, nonconstant2)
      | some (true, constants2, nonconstant2) =>
        isconstantM.memSearch F rec inst directions rest constants2 nonconstant2

/-- The loop over the operands in the search upwards: `some false` when an
operand is not constant. -/
def isconstantM.operandSearch (F : ActivityIR)
    (rec : Value → Finset Value → Finset Value → Nat → Activity) :
    List Value → Finset Value → Finset Value → Activity
  | [], constants2, nonconstant2 => some (true, constants2, nonconstant2)
  | a :: rest, constants2, nonconstant2 =>
    match isconstantValueM.body F rec a constants2 nonconstant2 isconstantM.UP with
    | none => none
    | some (false, constants2, nonconstant2) => some (false, constants2, nonconstant2)
    | some (true, constants2, nonconstant2) =>
      isconstantM.operandSearch F rec rest constants2 nonconstant2

/-- The constant hints of `isconstantM`: `some false` for the calls taken for
non-constant, `some true` for the calls, intrinsics and comparisons taken for
constant, `none` where the searches decide. -/
def isconstantM.hint (F : ActivityIR) (inst : Value) : Option Bool :=
  match F.kind inst with
  | .CallInst (some called) _ =>
    if called.hasName "printf" || called.hasName "puts" then some false
    else if called.hasName "__assert_fail" || called.hasName "free" ||
        called.hasName "_ZdlPv" || called.hasName "_ZdlPvm" then some true
    else
      match called with
      | .intrinsic id => if isconstantM.constantIntrinsic id then some true else none
      | .named _ => none
  | .CmpInst => some true
  | _ => none

/-- The memory search of `isconstantM`, run on copies of the sets for a
pointer-typed `inst`: `some (true, _, _)` when a user makes `inst` non-constant. -/
def isconstantM.memory (F : ActivityIR)
    (rec : Value → Finset Value → Finset Value → Nat → Activity)
    (inst : Value) (constants nonconstant : Finset Value) (directions : Nat) : Activity :=
  if F.isPointerTy inst then
    isconstantM.memSearch F rec inst directions (F.users inst) (insert inst constants)
      nonconstant
  else some (false, constants, nonconstant)

/-- The use search of `isconstantM`, run on copies of the sets for an `inst` that
is no pointer and writes no memory when the direction `DOWN` is asked for:
`some (false, constants2, _)` when no user is non-constant; `some (true, _, _)`
when one is, or when the search is not run. -/
def isconstantM.uses (F : ActivityIR)
    (rec : Value → Finset Value → Finset Value → Nat → Activity)
    (inst : Value) (constants nonconstant : Finset Value) (directions : Nat) : Activity :=
  if !F.isPointerTy inst && !F.mayWriteToMemory inst &&
      (directions &&& isconstantM.DOWN) != 0 then
    match F.kind inst with
    | .StoreInst _ _ => none
    | _ =>
      isconstantM.useSearch F rec inst (F.users inst) (insert inst constants) nonconstant
  else some (true, constants, nonconstant)

/-- The search upwards of `isconstantM`, run on fresh copies of the sets: the
pointer operand of a `getelementptr`, all operands of another instruction. -/
def isconstantM.up (F : ActivityIR)
    (rec : Value → Finset Value → Finset Value → Nat → Activity)
    (inst : Value) (constants nonconstant : Finset Value) : Activity :=
  match F.kind inst with
  | .GetElementPtrInst ptr =>
    isconstantValueM.body F rec ptr (insert inst constants) nonconstant isconstantM.UP
  | _ =>
    isconstantM.operandSearch F rec (F.operands inst) (insert inst constants) nonconstant

/-- The routine `isconstantM`; each unit of `fuel` is one level of calls. -/
def isconstantM (F : ActivityIR) : Nat → Value → Finset Value → Finset Value → Nat → Activity
  | 0, _, _, _, _ => none
  | fuel + 1, inst, constants, nonconstant, directions =>
    let nonconstantIfBoth : Finset Value :=
      if directions = 3 then insert inst nonconstant else nonconstant
    if 3 < directions then none
    else if F.kind inst = .ReturnInst then some (true, constants, nonconstant)
    else if F.kind inst = .UnreachableInst || F.kind inst = .BranchInst ||
        decide (inst ∈ constants) || !decide (inst ∈ F.originalInstructions) then
      some (true, constants, nonconstant)
    else if inst ∈ nonconstant then some (false, constants, nonconstant)
    else
      match isconstantM.hint F inst with
      | some false => some (false, constants, insert inst nonconstant)
      | some true => some (true, insert inst constants, nonconstant)
      | none =>
        match isconstantM.memory F (isconstantM F fuel) inst constants nonconstant directions with
        | none => none
        | some (true, _, _) => some (false, constants, nonconstantIfBoth)
        | some (false, _, _) =>
          match isconstantM.uses F (isconstantM F fuel) inst constants nonconstant directions with
          | none => none
          | some (false, constants2, _) =>
            some (true, insert inst constants ∪ constants2, nonconstant)
          | some (true, _, _) =>
            if (directions &&& isconstantM.UP) != 0 then
              match isconstantM.up F (isconstantM F fuel) inst constants nonconstant with
              | none => none
              | some (false, _, _) => some (false, constants, nonconstantIfBoth)
              | some (true, constants2, nonconstant2) =>
                some (true, insert inst constants ∪ constants2,
                  if directions = 3 then nonconstant ∪ nonconstant2 else nonconstant)
            else some (false, constants, nonconstantIfBoth)

/-- The routine `isconstantValueM`. -/
def isconstantValueM (F : ActivityIR) (fuel : Nat) (val : Value)
    (constants nonconstant : Finset Value) (directions : Nat) : Activity :=
  isconstantValueM.body F (isconstantM F fuel) val constants nonconstant directions

/-! ## The driver `HandleAutoDiff` -/

mutual
/-- Equality of two types, `PTy == res->getType()`: types are uniqued, so the
comparison of the pointers is the comparison of the structure. -/
def Ty.same : Ty → Ty → Bool
  | .void, .void => true
  | .fp a, .fp b => a == b
  | .int a, .int b => a == b
  | .vector a, .vector b => Ty.same a b
  | .ptr a, .ptr b => Ty.same a b
  | .array a, .array b => Ty.same a b
  | .struct as, .struct bs => Ty.sameList as bs
  | .function, .function => true
  | .other, .other => true
  | _, _ => false
/-- Equality of two lists of types, element by element. -/
def Ty.sameList : List Ty → List Ty → Bool
  | [], [] => true
  | a :: as, b :: bs => Ty.same a b && Ty.sameList as bs
  | _, _ => false
end

/-- The operands of a call of the `autodiff` intrinsic that follow the function
operand: a plain value with its type, a `MetadataAsValue` holding the `MDString`
`MS`, or a `MetadataAsValue` holding other metadata. -/
inductive Operand where
  | value (id : Value) (type : Ty)
  | MDString (MS : String)
  | metadata
  deriving Repr

/-- The values `HandleAutoDiff` pushes onto `args`: an operand as it stands, an
operand behind `CreateBitCast` to the parameter type, and the seed
`ConstantFP::get(returnType, 1.0)`. -/
inductive CallArg where
  | operand (id : Value)
  | bitCast (id : Value) (type : Ty)
  | constantFP (q : ℚ)
  deriving Repr

/-- The variables of the loop of `HandleAutoDiff`: the set `constants`, the vector
`args`, the parameter counter `truei`, and the value `ty` took in each round so
far. -/
structure HandleAutoDiff.State where
  constants : List Nat
  args : List CallArg
  truei : Nat
  classes : List DIFFE_TYPE
  deriving Repr

/-- The head of a round of the loop of `HandleAutoDiff`, from the operand `res` at
index `i` on: the class `ty` and the operands from the (new) `res` on.  A tag is
consumed (`i++`); `assert(0 && "illegal diffe metadata string")`, a failed
`cast<MDString>` and a failed assertion of `whatType` are `none`. -/
def HandleAutoDiff.classify (PTy : Ty) : List Operand → Option (DIFFE_TYPE × List Operand)
  | .MDString MS :: rest =>
    if MS = "diffe_dup" then some (.DUP_ARG, rest)
    else if MS = "diffe_out" then some (.OUT_DIFF, rest)
    else if MS = "diffe_const" then some (.CONSTANT, rest)
    else none
  | .metadata :: _ => none
  | .value id type :: rest => (whatType PTy).map (fun ty => (ty, .value id type :: rest))
  | [] => none

/-- The cast of the operand `res` to the parameter type `PTy`, and the operands
after it.  `canLosslesslyBitCastTo` is the check of that name of LLVM;
`report_fatal_error("Illegal cast")` is `none`, as is `getArgOperand` past the last
operand.  A metadata operand has the metadata type, which is no parameter type and
casts to none.  Address spaces are not followed: the address space cast only
rewrites `res`. -/
def HandleAutoDiff.cast (canLosslesslyBitCastTo : Ty → Ty → Bool) (PTy : Ty) :
    List Operand → Option (CallArg × List Operand)
  | .value id type :: rest =>
    if PTy.same type then some (.operand id, rest)
    else if canLosslesslyBitCastTo type PTy then some (.bitCast id PTy, rest)
    else none
  | _ => none

/-- One round of the loop of `HandleAutoDiff` for the parameter `truei` of type
`PTy`: the state after the round and the operands left. -/
def HandleAutoDiff.round (canLosslesslyBitCastTo : Ty → Ty → Bool) (PTy : Ty)
    (ops : List Operand) (st : HandleAutoDiff.State) :
    Option (HandleAutoDiff.State × List Operand) :=
  match HandleAutoDiff.classify PTy ops with
  | none => none
  | some (ty, ops) =>
    let constants :=
      if ty = .CONSTANT ∧ st.truei ∉ st.constants then st.constants ++ [st.truei]
      else st.constants
    match HandleAutoDiff.cast canLosslesslyBitCastTo PTy ops with
    | none => none
    | some (res, ops) =>
      let args := st.args ++ [res]
      if ty = .DUP_ARG then
        match HandleAutoDiff.cast canLosslesslyBitCastTo PTy ops with
        | none => none
        | some (res, ops) =>
          some ({ constants := constants, args := args ++ [res], truei := st.truei + 1,
                  classes := st.classes ++ [ty] }, ops)
      else
        some ({ constants := constants, args := args, truei := st.truei + 1,
                classes := st.classes ++ [ty] }, ops)

/-- The loop of `HandleAutoDiff` over the operands of the call.  Each unit of
`fuel` is one round; the read of `FT->getParamType(truei)` past the last parameter
(`assert(truei < FT->getNumParams())`) is `none`. -/
def HandleAutoDiff.loop (canLosslesslyBitCastTo : Ty → Ty → Bool) (FT : List Ty) :
    Nat → List Operand → HandleAutoDiff.State → Option HandleAutoDiff.State
  | 0, _, _ => none
  | _ + 1, [], st => some st
  | fuel + 1, op :: ops, st =>
    match FT[st.truei]? with
    | none => none
    | some PTy =>
      match HandleAutoDiff.round canLosslesslyBitCastTo PTy (op :: ops) st with
      | none => none
      | some (st, rest) => HandleAutoDiff.loop canLosslesslyBitCastTo FT fuel rest st

/-- What `HandleAutoDiff` hands to `Builder.CreateCall(newFunc, args)`: the set
`constants`, the arguments, the class of every parameter, and the signature of
`newFunc`. -/
structure HandleAutoDiff.Call where
  constants : List Nat
  args : List CallArg
  classes : List DIFFE_TYPE
  newFunc : ClonedFunction

/-- The routine `HandleAutoDiff` up to the call of the gradient, for the function
`fn` and the operands after it.  Of `CreatePrimalAndGradient` the signature of the
function it returns is followed, which `DiffeGradientUtils::CreateFromClone` builds
by `CloneFunctionWithReturns` with `diffeReturnArg = true`. -/
def HandleAutoDiff (canLosslesslyBitCastTo : Ty → Ty → Bool) (fn : PrimalFunction)
    (operands : List Operand) : Option HandleAutoDiff.Call :=
  match HandleAutoDiff.loop canLosslesslyBitCastTo fn.args (operands.length + 1) operands
      ⟨[], [], 0, []⟩ with
  | none => none
  | some st =>
    let differentialReturn := fn.ret.isFPOrFPVectorTy
    match CloneFunctionWithReturns fn (fun i => decide (i ∈ st.constants))
        (CreatePrimalAndGradient.returnShape false) differentialReturn true none with
    | none => none
    | some newFunc =>
      some { constants := st.constants,
             args := st.args ++ (if differentialReturn then [.constantFP 1] else []),
             classes := st.classes, newFunc := newFunc }

/-! ## Tape slots of call sites: `addMalloc` -/

/-- The values handed to `addMalloc` and returned by it: `antiptr op`, the shadow
of the pointer the call `op` returns (`newip`); `tp op`, the tape the augmented
callee of `op` returns; `extractValue idx`, the instruction
`CreateExtractValue(tape, {idx})`. -/
inductive TapeValue where
  | antiptr (op : Value)
  | tp (op : Value)
  | extractValue (idx : Nat)
  deriving DecidableEq, Repr

/-- The private members `addedMallocs`, `tapeidx` and `tape` of `GradientUtils`;
`tape` holds the number of elements of the struct type of the tape argument, `none`
for `nullptr`. -/
structure GradientUtils.Tape where
  addedMallocs : List TapeValue
  tapeidx : Nat
  tape : Option Nat
  deriving DecidableEq, Repr

/-- The method `GradientUtils::setTape`, on a tape of `n` elements; its assertions
are `none`. -/
def GradientUtils.setTape (t : GradientUtils.Tape) (n : Nat) : Option GradientUtils.Tape :=
  if t.tape.isNone ∧ t.tapeidx = 0 ∧ t.addedMallocs.length = 0 then some { t with tape := some n }
  else none

/-- The method `GradientUtils::addMalloc`: with a tape it returns the extraction of
element `tapeidx` and counts on, without one it appends `malloc` to
`addedMallocs`.  `assert(malloc)` is `none`, as is the extraction of an element the
tape does not have. -/
def GradientUtils.addMalloc (t : GradientUtils.Tape) (malloc : Option TapeValue) :
    Option (TapeValue × GradientUtils.Tape) :=
  match t.tape with
  | some n =>
    if t.tapeidx < n then some (.extractValue t.tapeidx, { t with tapeidx := t.tapeidx + 1 })
    else none
  | none =>
    match malloc with
    | none => none
    | some m => some (m, { t with addedMallocs := t.addedMallocs ++ [m] })

/-- An argument operand of a call site: the value, and whether the parameter of the
callee is `ReadOnly` or `ReadNone`. -/
structure CallOperand where
  value : Value
  readOnly : Bool
  deriving DecidableEq, Repr

/-- A call instruction `op` that is no `IntrinsicInst`, as the walks of
`CreateAugmentedPrimal` and `CreatePrimalAndGradient` read it: the name of the
called function (`none` for an indirect call), whether the callee has no body,
whether it is `ReadNone`, and the argument operands. -/
structure CallSite where
  op : Value
  called : Option String
  empty : Bool
  readNone : Bool
  args : List CallOperand
  deriving DecidableEq, Repr

/-- Original instructions of a block as the walks over call sites tell them apart:
a call, or an instruction for which neither walk touches the tape. -/
inductive BlockInst where
  | call (c : CallSite)
  | other (id : Value)
  deriving DecidableEq, Repr

/-- A block of `originalBlocks`: its terminator and its instructions in order. -/
structure CallBlock where
  terminator : Terminator
  insts : List BlockInst
  deriving DecidableEq, Repr

/-- The names both walks handle apart from calls of functions with a body. -/
def CallSite.isAllocationOrPrint (name : String) : Bool :=
  name = "printf" || name = "puts" || name = "malloc" || name = "free" || name = "_Znwm" ||
    name = "_ZdlPv" || name = "_ZdlPvm"

/-- The loop over the argument operands of a call site, in `CreateAugmentedPrimal`
(lines 2326-2351) and, statement for statement, in `CreatePrimalAndGradient` (lines
3278-3307): the sizes of `subconstant_args` and of `args`, and `modifyPrimal`.  The
assertions on `whatType` of the argument type are `none`.  The shadows of the
arguments are taken to be at hand: `invertPointerM` is not followed. -/
def CallSite.argLoop (g : DiffeGradientUtils) :
    List CallOperand → Nat × Nat × Bool → Option (Nat × Nat × Bool)
  | [], r => some r
  | a :: rest, (nconst, nargs, modifyPrimal) =>
    if g.isConstantValue a.value then CallSite.argLoop g rest (nconst + 1, nargs + 1, modifyPrimal)
    else
      let argType := g.typeOf a.value
      if argType.isPointerTy || argType.isIntegerTy then
        match whatType argType with
        | some .DUP_ARG => CallSite.argLoop g rest (nconst, nargs + 2, modifyPrimal || !a.readOnly)
        | some .CONSTANT => CallSite.argLoop g rest (nconst, nargs + 2, modifyPrimal || !a.readOnly)
        | _ => none
      else
        match whatType argType with
        | some .OUT_DIFF => CallSite.argLoop g rest (nconst, nargs + 1, modifyPrimal)
        | some .CONSTANT => CallSite.argLoop g rest (nconst, nargs + 1, modifyPrimal)
        | _ => none

/-- How the handling of one instruction leaves the loop over the instructions of a
block: by going on to the next instruction, or by `break`. -/
inductive LoopExit where
  | next
  | break_
  deriving DecidableEq, Repr

/-- The handling of a call instruction by `CreateAugmentedPrimal` (lines 2291-2405),
as far as the tape goes: the shadow of a returned pointer and the tape of the
callee are handed to `addMalloc`.  The nested `CreateAugmentedPrimal` of the callee
is taken to come back; `report_fatal_error` is `none`. -/
def CreateAugmentedPrimal.call (g : DiffeGradientUtils) (c : CallSite) (t : GradientUtils.Tape) :
    Option (LoopExit × GradientUtils.Tape) :=
  match c.called with
  | none => if g.isConstantInstruction c.op then some (.next, t) else none
  | some name =>
    if CallSite.isAllocationOrPrint name then some (.next, t)
    else if !c.empty then
      if g.isConstantInstruction c.op then some (.next, t)
      else
        let returnType := g.typeOf c.op
        let modifyPrimal := !c.readNone ||
          ((returnType.isPointerTy || returnType.isIntegerTy) && !g.isConstantValue c.op)
        match CallSite.argLoop g c.args (0, 0, modifyPrimal) with
        | none => none
        | some (nconst, nargs, modifyPrimal) =>
          if nconst = nargs then some (.break_, t)
          else if modifyPrimal then
            let afterAntiptr : Option GradientUtils.Tape :=
              if !returnType.isVoidTy && (returnType.isPointerTy || returnType.isIntegerTy) &&
                  !g.isConstantValue c.op then
                (GradientUtils.addMalloc t (some (.antiptr c.op))).map (fun r => r.2)
              else some t
            match afterAntiptr with
            | none => none
            | some t => (GradientUtils.addMalloc t (some (.tp c.op))).map (fun r => (.next, r.2))
          else some (.next, t)
    else if g.isConstantInstruction c.op then some (.next, t)
    else none

/-- The loop of `CreateAugmentedPrimal` over the instructions of a block, first to
last. -/
def CreateAugmentedPrimal.insts (g : DiffeGradientUtils) :
    List BlockInst → GradientUtils.Tape → Option GradientUtils.Tape
  | [], t => some t
  | .other _ :: rest, t => CreateAugmentedPrimal.insts g rest t
  | .call c :: rest, t =>
    if !g.originalInstructions c.op then CreateAugmentedPrimal.insts g rest t
    else
      match CreateAugmentedPrimal.call g c t with
      | none => none
      | some (.break_, t) => some t
      | some (.next, t) => CreateAugmentedPrimal.insts g rest t

/-- The loop of `CreateAugmentedPrimal` over `originalBlocks`; the assertion
`unknown terminator inst` is `none`, a block ending in `unreachable` is skipped. -/
def CreateAugmentedPrimal.blocks (g : DiffeGradientUtils) :
    List CallBlock → GradientUtils.Tape → Option GradientUtils.Tape
  | [], t => some t
  | BB :: rest, t =>
    match BB.terminator with
    | .other => none
    | .unreachable => CreateAugmentedPrimal.blocks g rest t
    | _ =>
      match CreateAugmentedPrimal.insts g BB.insts t with
      | none => none
      | some t => CreateAugmentedPrimal.blocks g rest t

/-- The tape `CreateAugmentedPrimal` returns: `getMallocs()` after the walk, whose
entry `i` is stored to element `i` of the tape struct (lines 2507-2520). -/
def CreateAugmentedPrimal.getMallocs (g : DiffeGradientUtils) (originalBlocks : List CallBlock) :
    Option (List TapeValue) :=
  (CreateAugmentedPrimal.blocks g originalBlocks ⟨[], 0, none⟩).map (fun t => t.addedMallocs)

/-- What the reverse sweep does with the values `addMalloc` returns: the pairs
(what is needed, what `addMalloc` gave): `antiptr op` is `invertedPointers[op]`,
`tp op` the tape argument of the call of the gradient of the callee of `op`. -/
abbrev TapeUses := List (TapeValue × TapeValue)

/-- The handling of a call instruction by `CreatePrimalAndGradient` with
`topLevel = false` (lines 3260-3432), as far as the tape goes.
`assert(additionalValue)` is `none`, as is `report_fatal_error`; the nested
`CreatePrimalAndGradient` of the callee is taken to come back. -/
def CreatePrimalAndGradient.call (g : DiffeGradientUtils) (c : CallSite)
    (s : TapeUses × GradientUtils.Tape) : Option (LoopExit × TapeUses × GradientUtils.Tape) :=
  match c.called with
  | none => if g.isConstantInstruction c.op then some (.next, s) else none
  | some name =>
    if CallSite.isAllocationOrPrint name then some (.next, s)
    else if !c.empty then
      if g.isConstantInstruction c.op then some (.next, s)
      else
        let returnType := g.typeOf c.op
        let modifyPrimal := !c.readNone ||
          ((returnType.isPointerTy || returnType.isIntegerTy) && !g.isConstantValue c.op)
        match CallSite.argLoop g c.args (0, 0, modifyPrimal) with
        | none => none
        | some (nconst, nargs, modifyPrimal) =>
          if nconst = nargs then some (.break_, s)
          else if modifyPrimal then
            if s.2.tape.isNone then none
            else
              let afterNewip : Option (TapeUses × GradientUtils.Tape) :=
                if (returnType.isPointerTy || returnType.isIntegerTy) &&
                    !g.isConstantValue c.op then
                  (GradientUtils.addMalloc s.2 none).map
                    (fun r => (s.1 ++ [(.antiptr c.op, r.1)], r.2))
                else some s
              match afterNewip with
              | none => none
              | some s =>
                (GradientUtils.addMalloc s.2 none).map
                  (fun r => (.next, s.1 ++ [(.tp c.op, r.1)], r.2))
          else some (.next, s)
    else if g.isConstantInstruction c.op then some (.next, s)
    else none

/-- The loop of `CreatePrimalAndGradient` over the instructions of a block in the
order it is handed them. -/
def CreatePrimalAndGradient.insts (g : DiffeGradientUtils) :
    List BlockInst → TapeUses × GradientUtils.Tape → Option (TapeUses × GradientUtils.Tape)
  | [], s => some s
  | .other _ :: rest, s => CreatePrimalAndGradient.insts g rest s
  | .call c :: rest, s =>
    if !g.originalInstructions c.op then CreatePrimalAndGradient.insts g rest s
    else
      match CreatePrimalAndGradient.call g c s with
      | none => none
      | some (.break_, s) => some s
      | some (.next, s) => CreatePrimalAndGradient.insts g rest s

/-- The loop of `CreatePrimalAndGradient` over `originalBlocks`: each block is
walked from `BB->rbegin()` to `BB->rend()`, last instruction first. -/
def CreatePrimalAndGradient.blocks (g : DiffeGradientUtils) :
    List CallBlock → TapeUses × GradientUtils.Tape → Option (TapeUses × GradientUtils.Tape)
  | [], s => some s
  | BB :: rest, s =>
    match BB.terminator with
    | .other => none
    | .unreachable => CreatePrimalAndGradient.blocks g rest s
    | _ =>
      match CreatePrimalAndGradient.insts g BB.insts.reverse s with
      | none => none
      | some s => CreatePrimalAndGradient.blocks g rest s

/-- The tape traffic of `CreatePrimalAndGradient` with `topLevel = false` and a tape
argument of `additionalArg` elements: `setTape`, then the walk. -/
def CreatePrimalAndGradient.tapeUses (g : DiffeGradientUtils) (originalBlocks : List CallBlock)
    (additionalArg : Nat) : Option (TapeUses × GradientUtils.Tape) :=
  match GradientUtils.setTape ⟨[], 0, none⟩ additionalArg with
  | none => none
  | some t => CreatePrimalAndGradient.blocks g originalBlocks ([], t)

/-! ## The function cache of `CreatePrimalAndGradient` -/

/-- The key `tup` of the static map `cachedfunctions` of `CreatePrimalAndGradient`.
The function `todiff` and the type `additionalArg` are pointers, named by
numbers. -/
structure CreatePrimalAndGradient.Key where
  todiff : Nat
  constant_args : Finset Nat
  returnValue : Bool
  differentialReturn : Bool
  topLevel : Bool
  additionalArg : Option Nat
  deriving DecidableEq

/-- What the synthesis reads of the module: whether a function has no body, and the
keys of the calls `CreatePrimalAndGradient(called, subconstant_args, …)` (line 3433)
the reverse sweep makes, in order, while it processes the body of the function
synthesized under a key. -/
structure SynthesisModule where
  empty : Nat → Bool
  calls : CreatePrimalAndGradient.Key → List CreatePrimalAndGradient.Key

/-- The state of the synthesis: the map `cachedfunctions`, the number of functions
`CloneFunctionWithReturns` has created (a new function is named by this number), and
the calls `Builder2.CreateCall(newcalled, args)` emitted so far, each as the pair of
the function it stands in and the function it calls. -/
structure Synthesis where
  cachedfunctions : List (CreatePrimalAndGradient.Key × Nat)
  functions : Nat
  calls : List (Nat × Nat)
  deriving DecidableEq

/-- The lookup `cachedfunctions.find(tup)`. -/
def Synthesis.find (S : Synthesis) (tup : CreatePrimalAndGradient.Key) : Option Nat :=
  (S.cachedfunctions.find? (fun p => p.1 = tup)).map (fun p => p.2)

/-- The calls of the callees' gradients made while the body of `newFunc` is
processed: each call site asks `rec`, which is `CreatePrimalAndGradient`, for the
gradient `newcalled` of its callee and emits a call of it. -/
def CreatePrimalAndGradient.callSites
    (rec : CreatePrimalAndGradient.Key → Synthesis → Option (Nat × Bool × Synthesis))
    (newFunc : Nat) : List CreatePrimalAndGradient.Key → Synthesis → Option Synthesis
  | [], S => some S
  | k :: ks, S =>
    match rec k S with
    | none => none
    | some (newcalled, _, S) =>
      CreatePrimalAndGradient.callSites rec newFunc ks
        { S with calls := S.calls ++ [(newFunc, newcalled)] }

/-- The function `CreatePrimalAndGradient` as far as the cache goes: the function
returned, whether utilities are handed back through `oututils` (on a hit `*oututils`
is set to `nullptr`), and the state.  The key is entered into `cachedfunctions`
right after the clone is created (line 2824), before the body is processed.  Each
unit of `fuel` is one level of nested calls; `assert(!todiff->empty())` is `none`.
The augmented primals a top-level synthesis builds are not followed. -/
def CreatePrimalAndGradient (M : SynthesisModule) :
    Nat → CreatePrimalAndGradient.Key → Synthesis → Option (Nat × Bool × Synthesis)
  | 0, _, _ => none
  | fuel + 1, tup, S =>
    match S.find tup with
    | some F => some (F, false, S)
    | none =>
      if M.empty tup.todiff then none
      else
        let newFunc := S.functions
        let S : Synthesis :=
          { S with cachedfunctions := S.cachedfunctions ++ [(tup, newFunc)],
                   functions := S.functions + 1 }
        match CreatePrimalAndGradient.callSites (CreatePrimalAndGradient M fuel) newFunc
            (M.calls tup) S with
        | none => none
        | some S => some (newFunc, true, S)

/-! ## Type analysis: the analyzer's work list and the cache of analyzers -/

/-- The check `isa<ConstantData>`. -/
def Constant.isConstantData : Constant → Bool
  | .UndefValue => true
  | .ConstantAggregateZero => true
  | .ConstantPointerNull => true
  | .ConstantDataSequential _ => true
  | .ConstantFP _ _ => true
  | .ConstantInt _ _ => true
  | _ => false

/-- The check `isa<Function>`. -/
def Constant.isFunction : Constant → Bool
  | .Function => true
  | _ => false

/-- The classes of values the `TypeAnalyzer` tells apart: a constant, an
instruction with the function it stands in and whether it is a
`GetElementPtrInst` or a `CallInst`, an argument with its function, or any other
value. -/
inductive AnalyzedValue where
  | Constant (c : Constant)
  | Instruction (parent : Nat) (isGEP isCall : Bool)
  | Argument (parent : Nat)
  | other

/-- What the `TypeAnalyzer` reads of the IR: the class of a value, whether its type
is a pointer, whether it is the integer type of one bit, its users and operands, and the instructions of a function in order.  The flag
`printtype` only adds lines to `llvm::errs()` and is not followed. -/
structure AnalysisIR where
  kind : Value → AnalyzedValue
  isPointerTy : Value → Bool
  isInt1Ty : Value → Bool
  users : Value → List Value
  operands : Value → List Value
  insts : Nat → List Value

/-- The members of a `TypeAnalyzer` that are followed: the function of
`fntypeinfo`, the map `analysis` read through `operator[]` (a value without an
entry reads as the empty tree `TypeTree()`), and the deque `workList`. -/
structure TypeAnalyzer where
  function : Nat
  analysis : Value → TypeTree
  workList : List Value

/-- How a routine of the analyzer ends: by returning, or in a failed assertion;
either way with the state the analyzer is in at that moment. -/
inductive Outcome (σ : Type) where
  | done (s : σ)
  | fatal (s : σ)

/-- The state an outcome carries. -/
def Outcome.state {σ : Type} : Outcome σ → σ
  | .done s => s
  | .fatal s => s

/-- The method `TypeAnalyzer::addToWorkList`. -/
def TypeAnalyzer.addToWorkList (ir : AnalysisIR) (T : TypeAnalyzer) (val : Value) :
    Outcome TypeAnalyzer :=
  match ir.kind val with
  | .Instruction parent _ _ =>
    if val ∈ T.workList then .done T
    else if T.function ≠ parent then .fatal T
    else .done { T with workList := T.workList ++ [val] }
  | .Argument parent =>
    if val ∈ T.workList then .done T
    else if T.function ≠ parent then .fatal T
    else .done { T with workList := T.workList ++ [val] }
  | _ => .done T

/-- The loop of `updateAnalysis` over the users of `val`. -/
def TypeAnalyzer.addUsers (ir : AnalysisIR) (origin : Option Value) :
    List Value → TypeAnalyzer → Outcome TypeAnalyzer
  | [], T => .done T
  | use :: rest, T =>
    if some use ≠ origin then
      match ir.kind use with
      | .Instruction parent _ _ =>
        if T.function ≠ parent then TypeAnalyzer.addUsers ir origin rest T
        else
          match TypeAnalyzer.addToWorkList ir T use with
          | .fatal T => .fatal T
          | .done T => TypeAnalyzer.addUsers ir origin rest T
      | _ =>
        match TypeAnalyzer.addToWorkList ir T use with
        | .fatal T => .fatal T
        | .done T => TypeAnalyzer.addUsers ir origin rest T
    else TypeAnalyzer.addUsers ir origin rest T

/-- The loop of `updateAnalysis` over the operands of `val`. -/
def TypeAnalyzer.addOperands (ir : AnalysisIR) (origin : Option Value) :
    List Value → TypeAnalyzer → Outcome TypeAnalyzer
  | [], T => .done T
  | op :: rest, T =>
    if some op ≠ origin then
      match TypeAnalyzer.addToWorkList ir T op with
      | .fatal T => .fatal T
      | .done T => TypeAnalyzer.addOperands ir origin rest T
    else TypeAnalyzer.addOperands ir origin rest T

/-- The method `TypeAnalyzer::updateAnalysis(val, data, origin)`.  The join
`analysis[val] |= data` answers whether the tree changed; a join of two
conflicting types is fatal. -/
def TypeAnalyzer.updateAnalysis (ir : AnalysisIR) (T : TypeAnalyzer) (val : Value)
    (data : TypeTree) (origin : Option Value) : Outcome TypeAnalyzer :=
  let parentOk : Bool :=
    match ir.kind val with
    | .Instruction parent _ _ => decide (T.function = parent)
    | .Argument parent => decide (T.function = parent)
    | _ => true
  let isGEP : Bool :=
    match ir.kind val with
    | .Instruction _ isGEP _ => isGEP
    | _ => false
  let returns : Bool :=
    match ir.kind val with
    | .Constant c => c.isConstantData || c.isFunction
    | _ => false
  if returns then .done T
  else if !parentOk then .fatal T
  else if isGEP && decide (data.get [] = .Integer) then .fatal T
  else if ir.isPointerTy val && decide (data.get [] = .Integer) then .fatal T
  else
    match (T.analysis val).orIn data with
    | none => .fatal T
    | some merged =>
      if merged ≠ T.analysis val then
        let T : TypeAnalyzer := { T with analysis := Function.update T.analysis val merged }
        let added : Outcome TypeAnalyzer :=
          if some val ≠ origin then TypeAnalyzer.addToWorkList ir T val else .done T
        match added with
        | .fatal T => .fatal T
        | .done T =>
          match TypeAnalyzer.addUsers ir origin (ir.users val) T with
          | .fatal T => .fatal T
          | .done T => TypeAnalyzer.addOperands ir origin (ir.operands val) T
      else .done T

/-- The check `isa<CallInst>` on a value of the work list. -/
def AnalysisIR.isCallInst (ir : AnalysisIR) (val : Value) : Bool :=
  match ir.kind val with
  | .Instruction _ _ isCall => isCall
  | _ => false

/-- The method `TypeAnalyzer::visitValue`; `visit` is the instruction visitor. -/
def TypeAnalyzer.visitValue (ir : AnalysisIR)
    (visit : Value → TypeAnalyzer → Option TypeAnalyzer) (val : Value) (T : TypeAnalyzer) :
    Option TypeAnalyzer :=
  match ir.kind val with
  | .Instruction _ _ _ => visit val T
  | _ => some T

/-- One call of `visitValue` by `run`: the value, whether it was taken from
`pendingCalls`, and the two queues as they stood before it was taken. -/
structure Visit where
  value : Value
  pending : Bool
  workList : List Value
  pendingCalls : List Value
  deriving DecidableEq, Repr

/-- The loop `do … while (1)` of `TypeAnalyzer::run`, one value per unit of `fuel`:
the front of `workList` is taken while there is one, a call instruction goes to the
back of `pendingCalls`, any other value is visited; with `workList` empty the front
of `pendingCalls` is taken and visited; with both empty the loop is left.  The
visits are logged in order. -/
def TypeAnalyzer.drain (ir : AnalysisIR) (visit : Value → TypeAnalyzer → Option TypeAnalyzer) :
    Nat → TypeAnalyzer → List Value → List Visit → Option (TypeAnalyzer × List Value × List Visit)
  | 0, _, _, _ => none
  | fuel + 1, T, pendingCalls, log =>
    match T.workList with
    | todo :: rest =>
      if ir.isCallInst todo then
        TypeAnalyzer.drain ir visit fuel { T with workList := rest } (pendingCalls ++ [todo]) log
      else
        match TypeAnalyzer.visitValue ir visit todo { T with workList := rest } with
        | none => none
        | some T' =>
          TypeAnalyzer.drain ir visit fuel T' pendingCalls
            (log ++ [⟨todo, false, T.workList, pendingCalls⟩])
    | [] =>
      match pendingCalls with
      | todo :: rest =>
        match TypeAnalyzer.visitValue ir visit todo T with
        | none => none
        | some T' =>
          TypeAnalyzer.drain ir visit fuel T' rest (log ++ [⟨todo, true, [], pendingCalls⟩])
      | [] => some (T, [], log)

/-- The method `TypeAnalyzer::run`: the loop, `runUnusedChecks`, the loop again.
It gives the analyzer, `pendingCalls` and the log of the visits at the return. -/
def TypeAnalyzer.run (ir : AnalysisIR) (visit : Value → TypeAnalyzer → Option TypeAnalyzer)
    (runUnusedChecks : TypeAnalyzer → Option TypeAnalyzer) (fuel : Nat) (T : TypeAnalyzer) :
    Option (TypeAnalyzer × List Value × List Visit) :=
  match TypeAnalyzer.drain ir visit fuel T [] [] with
  | none => none
  | some (T, pendingCalls, log) =>
    match runUnusedChecks T with
    | none => none
    | some T => TypeAnalyzer.drain ir visit fuel T pendingCalls log

/-- Modelled from the spec: what of a `FnTypeInfo` the map `analyzedFunctions`
compares (the comparison is declared in `TypeAnalysis.h`, which is not part of the
sources at hand), "(function, signature)": the function and a number naming the
argument trees, the return tree and the known values. -/
structure FnTypeInfo.Key where
  function : Nat
  signature : Nat
  deriving DecidableEq, Repr

/-- The member `analyzedFunctions` of `TypeAnalysis`: the analyzers by key, in the
order they were emplaced. -/
structure TypeAnalysis where
  analyzedFunctions : List (FnTypeInfo.Key × TypeAnalyzer)

/-- The lookup `analyzedFunctions.find(fn)`. -/
def TypeAnalysis.find (TA : TypeAnalysis) (fn : FnTypeInfo.Key) : Option TypeAnalyzer :=
  (TA.analyzedFunctions.find? (fun p => p.1 = fn)).map (fun p => p.2)

/-- The loop of the constructor of `TypeAnalyzer` that adds the operands of the
instructions to the work list; a failed assertion of `addToWorkList` is `none`. -/
def TypeAnalyzer.addAll (ir : AnalysisIR) : List Value → TypeAnalyzer → Option TypeAnalyzer
  | [], T => some T
  | op :: rest, T =>
    match TypeAnalyzer.addToWorkList ir T op with
    | .fatal _ => none
    | .done T => TypeAnalyzer.addAll ir rest T

/-- The constructor `TypeAnalyzer(fn, TA)`: the work list holds the instructions of
the function, then their operands. -/
def TypeAnalyzer.create (ir : AnalysisIR) (fn : FnTypeInfo.Key) : Option TypeAnalyzer :=
  TypeAnalyzer.addAll ir ((ir.insts fn.function).flatMap ir.operands)
    { function := fn.function, analysis := fun _ => TypeTree.empty,
      workList := ir.insts fn.function }

/-- The method `TypeAnalysis::analyzeFunction`.  `analyze fn` stands for
`prepareArgs(); considerTBAA(); run()` on the analyzer emplaced for `fn`, which
reaches the other analyzers through `interprocedural`.  Failed assertions are
`none`. -/
def TypeAnalysis.analyzeFunction (ir : AnalysisIR)
    (analyze : FnTypeInfo.Key → TypeAnalysis → Option TypeAnalysis) (fn : FnTypeInfo.Key)
    (TA : TypeAnalysis) : Option TypeAnalysis :=
  match TA.find fn with
  | some analysis => if analysis.function ≠ fn.function then none else some TA
  | none =>
    match TypeAnalyzer.create ir fn with
    | none => none
    | some analyzer =>
      match analyze fn { TA with analyzedFunctions := TA.analyzedFunctions ++ [(fn, analyzer)] } with
      | none => none
      | some TA =>
        match TA.find fn with
        | none => none
        | some analysis => if analysis.function ≠ fn.function then none else some TA

/-- The method `TypeAnalyzer::getAnalysis`; a failed join inside
`getConstantAnalysis` and a failed assertion are `none`. -/
def TypeAnalyzer.getAnalysis (ir : AnalysisIR) (ctx : ConstantContext) (T : TypeAnalyzer)
    (val : Value) : Option TypeTree :=
  if ir.isInt1Ty val then some ((TypeTree.ofConcrete .Integer).Only (-1))
  else
    match ir.kind val with
    | .Constant con => getConstantAnalysis ctx con
    | .Instruction parent _ _ => if parent ≠ T.function then none else some (T.analysis val)
    | .Argument parent => if parent ≠ T.function then none else some (T.analysis val)
    | .other => some TypeTree.empty

/-- The method `TypeAnalysis::query`: the tree of `val` and the state it leaves. -/
def TypeAnalysis.query (ir : AnalysisIR) (ctx : ConstantContext)
    (analyze : FnTypeInfo.Key → TypeAnalysis → Option TypeAnalysis) (val : Value)
    (fn : FnTypeInfo.Key) (TA : TypeAnalysis) : Option (TypeTree × TypeAnalysis) :=
  let found (func : Nat) : Option (TypeTree × TypeAnalysis) :=
    match TypeAnalysis.analyzeFunction ir analyze fn TA with
    | none => none
    | some TA =>
      match TA.find fn with
      | none => none
      | some found =>
        if found.function ≠ func then none
        else (TypeAnalyzer.getAnalysis ir ctx found val).map (fun t => (t, TA))
  match ir.kind val with
  | .Constant con => (getConstantAnalysis ctx con).map (fun t => (t, TA))
  | .Argument parent => found parent
  | .Instruction parent _ _ => found parent
  | .other => none

/-! ## Devices of the proofs and example inputs -/

/-- The adjoint update one binary operator contributes. -/
def pullback (p : Value → ℚ) (r : Value) (opc : BinaryOps) (a b : Value)
    (d : Value → ℚ) : Value → ℚ :=
  let dif0 := match opc with
    | .FMul => d r * p b
    | .FAdd => d r
    | .FSub => d r
    | .FDiv => d r / p b
    | _ => 0
  let dif1 := match opc with
    | .FMul => d r * p a
    | .FAdd => d r
    | .FSub => -(d r)
    | .FDiv => -(d r * p r / p b)
    | _ => 0
  let d1 := Function.update d r 0
  let d2 := Function.update d1 a (d1 a + dif0)
  Function.update d2 b (d2 b + dif1)

/-- The instructions emitted for one active binary operator when `L` instructions
precede them. -/
def binopChunk (L : Nat) (r : Value) (opc : BinaryOps) (a b : Value) : List RInst :=
  match opc with
  | .FMul =>
    [.load (.differential r), .fmul (.inst L) (.lookup b),
     .load (.differential r), .fmul (.inst (L + 2)) (.lookup a),
     .store .nullValue (.differential r),
     .load (.differential a), .fadd (.inst (L + 5)) (.inst (L + 1)),
     .store (.inst (L + 6)) (.differential a),
     .load (.differential b), .fadd (.inst (L + 8)) (.inst (L + 3)),
     .store (.inst (L + 9)) (.differential b)]
  | .FAdd =>
    [.load (.differential r),
     .store .nullValue (.differential r),
     .load (.differential a), .fadd (.inst (L + 2)) (.inst L),
     .store (.inst (L + 3)) (.differential a),
     .load (.differential b), .fadd (.inst (L + 5)) (.inst L),
     .store (.inst (L + 6)) (.differential b)]
  | .FSub =>
    [.load (.differential r),
     .load (.differential r), .fneg (.inst (L + 1)),
     .store .nullValue (.differential r),
     .load (.differential a), .fadd (.inst (L + 4)) (.inst L),
     .store (.inst (L + 5)) (.differential a),
     .load (.differential b), .fadd (.inst (L + 7)) (.inst (L + 2)),
     .store (.inst (L + 8)) (.differential b)]
  | .FDiv =>
    [.load (.differential r), .fdiv (.inst L) (.lookup b),
     .load (.differential r), .fmul (.inst (L + 2)) (.lookup r),
     .fdiv (.inst (L + 3)) (.lookup b), .fneg (.inst (L + 4)),
     .store .nullValue (.differential r),
     .load (.differential a), .fadd (.inst (L + 7)) (.inst (L + 1)),
     .store (.inst (L + 8)) (.differential a),
     .load (.differential b), .fadd (.inst (L + 10)) (.inst (L + 5)),
     .store (.inst (L + 11)) (.differential b)]
  | _ => []

/-- The adjoint update of one instruction of a straight-line body. -/
def pullbackInst (p : Value → ℚ) : Inst → (Value → ℚ) → Value → ℚ
  | .binop r opc a b, d => pullback p r opc a b d
  | _, d => d

/-- The adjoint updates of a list of instructions, applied in list order. -/
def pullbackSweep (p : Value → ℚ) : List Inst → (Value → ℚ) → Value → ℚ
  | [], d => d
  | i :: is, d => pullbackSweep p is (pullbackInst p i d)

/-- An instruction the reverse sweep of a straight-line body can take: one of the
four operators over active floating-point values, dividing by a nonzero value. -/
def Sweepable (g : DiffeGradientUtils) (p : Value → ℚ) : Inst → Prop
  | .binop r opc a b =>
    (opc = .FAdd ∨ opc = .FSub ∨ opc = .FMul ∨ opc = .FDiv) ∧
    (g.isConstantValue r = false ∧ g.isConstantInstruction r = false ∧
      g.originalInstructions r = true ∧ ∃ w, g.typeOf r = .fp w) ∧
    (g.isConstantValue a = false ∧ ∃ w, g.typeOf a = .fp w) ∧
    (g.isConstantValue b = false ∧ ∃ w, g.typeOf b = .fp w) ∧
    (opc = .FDiv → p b ≠ 0)
  | _ => False

/-- Forward tangent of one operator: the sum, product and quotient rules. -/
def tangentBinOp : BinaryOps → ℚ → ℚ → ℚ → ℚ → ℚ
  | .FAdd, _, _, dx, dy => dx + dy
  | .FSub, _, _, dx, dy => dx - dy
  | .FMul, x, y, dx, dy => dx * y + x * dy
  | .FDiv, x, y, dx, dy => (dx * y - x * dy) / y ^ 2
  | _, _, _, _, _ => 0

/-- Forward tangents of all values of a straight-line body. -/
def tangentBody (env T : Value → ℚ) : List Inst → Value → ℚ
  | [] => T
  | .binop id opc op0 op1 :: is =>
    tangentBody (Function.update env id (evalBinOp opc (env op0) (env op1)))
      (Function.update T id (tangentBinOp opc (env op0) (env op1) (T op0) (T op1))) is
  | _ :: is => tangentBody env T is

/-- The pairing of an adjoint vector with a tangent vector over the first `N` values. -/
def pairing (d T : Value → ℚ) (N : Nat) : ℚ := ∑ j in Finset.range N, d j * T j

/-- The tangent of an instruction's value obeys the rule of its operator at the
final primal values. -/
def TangentEq (p T : Value → ℚ) (n : Nat) : Inst → Prop
  | .binop r opc a b =>
    (opc = .FAdd ∨ opc = .FSub ∨ opc = .FMul ∨ opc = .FDiv) ∧ a < r ∧ b < r ∧ n ≤ r ∧
    p r = evalBinOp opc (p a) (p b) ∧ T r = tangentBinOp opc (p a) (p b) (T a) (T b) ∧
    (opc = .FDiv → p b ≠ 0)
  | _ => False

/-- Utilities under which every value is a non-constant original `double`. -/
def allActiveUtils : DiffeGradientUtils :=
  { typeOf := fun _ => .fp .double, isConstantValue := fun _ => false,
    isConstantInstruction := fun _ => false, originalInstructions := fun _ => true }

/-- The instructions emitted for `r = iid(a)` with `iid` one of sqrt, log, exp, sin, cos
when `L` instructions precede them. -/
def mathChunk (L : Nat) (r : Value) (iid : Intrinsic) (a : Value) : List RInst :=
  match iid with
  | .sqrt =>
    [.load (.differential r), .fmul (.constantFP 2) (.lookup r), .fdiv (.inst L) (.inst (L + 1)),
     .store .nullValue (.differential r), .load (.differential a),
     .fadd (.inst (L + 4)) (.inst (L + 2)), .store (.inst (L + 5)) (.differential a)]
  | .log =>
    [.load (.differential r), .fdiv (.inst L) (.lookup a),
     .store .nullValue (.differential r), .load (.differential a),
     .fadd (.inst (L + 3)) (.inst (L + 1)), .store (.inst (L + 4)) (.differential a)]
  | .exp =>
    [.load (.differential r), .fmul (.inst L) (.lookup r),
     .store .nullValue (.differential r), .load (.differential a),
     .fadd (.inst (L + 3)) (.inst (L + 1)), .store (.inst (L + 4)) (.differential a)]
  | .sin =>
    [.load (.differential r), .call .cos [.lookup a], .fmul (.inst L) (.inst (L + 1)),
     .store .nullValue (.differential r), .load (.differential a),
     .fadd (.inst (L + 4)) (.inst (L + 2)), .store (.inst (L + 5)) (.differential a)]
  | .cos =>
    [.load (.differential r), .call .sin [.lookup a], .fneg (.inst (L + 1)),
     .fmul (.inst L) (.inst (L + 2)),
     .store .nullValue (.differential r), .load (.differential a),
     .fadd (.inst (L + 5)) (.inst (L + 3)), .store (.inst (L + 6)) (.differential a)]
  | _ => []

/-- Reset the accumulator of `r`, then add `inc` to the accumulator of `a`. -/
def resetThenAdd (d : Value → ℚ) (r a : Value) (inc : ℚ) : Value → ℚ :=
  Function.update (Function.update d r 0) a (Function.update d r 0 a + inc)

/-- Utilities for `store 0, 1` (instruction 2): value 0 is an active `double`,
value 1 a non-constant pointer to `double`, the store is not constant. -/
def activeStoreUtils : DiffeGradientUtils :=
  { typeOf := fun v => if v = 1 then .ptr (.fp .double) else if v = 2 then .void
      else .fp .double,
    isConstantValue := fun _ => false,
    isConstantInstruction := fun _ => false, originalInstructions := fun _ => true }

/-- Utilities for `store 0, 1` (instruction 2) where the stored value 0 is a
constant `double`, value 1 a non-constant pointer to `double`, and the store is not
constant. -/
def constantStoreUtils : DiffeGradientUtils :=
  { typeOf := fun v => if v = 1 then .ptr (.fp .double) else if v = 2 then .void
      else .fp .double,
    isConstantValue := fun v => v == 0,
    isConstantInstruction := fun _ => false, originalInstructions := fun _ => true }

/-- Utilities for a `memset` call: the destination, value 0, is a non-constant
pointer, the other operands are constants, the call itself is not constant. -/
def memsetUtils : DiffeGradientUtils :=
  { typeOf := fun v => if v = 0 then .ptr (.int 8) else if v = 4 then .void else .int 64,
    isConstantValue := fun v => v == 1 || v == 2 || v == 3,
    isConstantInstruction := fun _ => false, originalInstructions := fun _ => true }

/-- Utilities for a `memset` call whose destination, value 0, is a cast of the
pointer 5, which has its shadow in `invertedPointers`; the other operands are
constants, the call itself is not constant. -/
def memsetCastUtils : DiffeGradientUtils :=
  { typeOf := fun v => if v = 0 ∨ v = 5 then .ptr (.int 8) else if v = 4 then .void
      else .int 64,
    isConstantValue := fun v => v == 1 || v == 2 || v == 3,
    isConstantInstruction := fun _ => false, originalInstructions := fun _ => true,
    pointerDef := fun v => if v = 0 then .CastInst 5 .inverted else .inverted }

/-- The body of `f(x, y) = (x*y + x/y) - y` over the arguments 0 and 1. -/
def exampleBody : List Inst :=
  [.binop 2 .FMul 0 1, .binop 3 .FDiv 0 1, .binop 4 .FAdd 2 3, .binop 5 .FSub 4 1]

/-- The point `x = 3`, `y = 2`. -/
def examplePoint : Value → ℚ := fun v => if v = 0 then 3 else 2

/-- An environment in which every looked-up primal value is 3 and the seed is 1. -/
def exampleEnv : Env :=
  { lookup := fun _ => 3, differetval := 1, intrinsic := fun _ _ => 0 }

/-- A data layout giving every constant 32 bits, with no constant expressions. -/
def exampleConstantContext : ConstantContext :=
  { typeSizeInBits := fun _ => 32, exprAnalysis := fun _ => TypeTree.empty }

/-- Every set the memo map holds for a value that is not a cast has all its
elements strictly between -100 and 100. -/
def SeenBounded (c : FnTypeInfo) (intseen : IntSeen) : Prop :=
  ∀ w s, intseen w = some s → (∀ op, c.kind w ≠ .CastInst op) →
    ∀ v ∈ s, -100 < v ∧ v < 100

/-- A function of one parameter with the constant integers 5 (value 0), 7 (value 1)
and 5000 (value 3), the sum `0 + 1` (value 2), a cast of value 3 (value 4) and the
argument (value 5), for which the caller supplies the set holding 1000. -/
def exampleFnTypeInfo : FnTypeInfo :=
  { kind := fun v =>
      if v = 0 then .ConstantInt 5 else if v = 1 then .ConstantInt 7
      else if v = 2 then .BinaryOperator .Add 0 1
      else if v = 3 then .ConstantInt 5000 else if v = 4 then .CastInst 3
      else if v = 5 then .Argument else .other,
    knownValues := [(5, {1000})],
    getNumParams := 1 }

/-- The values below `N` form a closed function: every operand of a cast, phi or
binary operator below `N` is below `N`, and every argument has its `knownValues`. -/
def ClosedBelow (c : FnTypeInfo) (N : Nat) : Prop :=
  ∀ v, v < N →
    match c.kind v with
    | .CastInst op => op < N
    | .PHINode _ incoming => ∀ p ∈ incoming, p.1 < N
    | .BinaryOperator _ op0 op1 => op0 < N ∧ op1 < N
    | .Argument => ∃ s, c.knownValues.lookup v = some s
    | _ => True

/-- The number of values below `N` without an entry in the memo map. -/
def unseen (N : Nat) (intseen : IntSeen) : Nat :=
  ((Finset.range N).filter (fun w => intseen w = none)).card

/-- The memo map `seen'` has an entry wherever `seen` has one. -/
def KeysGrow (seen seen' : IntSeen) : Prop := ∀ w, seen w ≠ none → seen' w ≠ none

/-- The parameter list of the cloned function as the specification words it, for
the primal parameters numbered from `k` on: each type, followed by a second copy
exactly when the parameter is not listed constant and is a pointer or an integer. -/
def specParameters (constant_args : Nat → Bool) (k : Nat) (args : List Ty) : List Ty :=
  (args.enumFrom k).flatMap (fun p =>
    if !constant_args p.1 && (p.2.isPointerTy || p.2.isIntegerTy) then [p.2, p.2] else [p.2])

/-- The whole parameter list as the specification words it: the primal parameters
with their shadows, then the return type when a differential return argument is
requested and the return type is neither pointer nor integer, then the tape type
when one is supplied. -/
def specParameterList (F : PrimalFunction) (constant_args : Nat → Bool)
    (differentialReturn diffeReturnArg : Bool) (additionalArg : Option Ty) : List Ty :=
  specParameters constant_args 0 F.args ++
    (if diffeReturnArg && differentialReturn && !F.ret.isPointerTy && !F.ret.isIntegerTy
      then [F.ret] else []) ++
    additionalArg.toList

/-- A function `double f(double*, i64, double)`. -/
def mixedFunction : PrimalFunction :=
  ⟨false, [.ptr (.fp .double), .int 64, .fp .double], .fp .double⟩

/-- Activity of a function whose values are all active doubles. -/
def scalarUtils : DiffeGradientUtils :=
  { typeOf := fun _ => .fp .double, isConstantValue := fun _ => false,
    isConstantInstruction := fun _ => false, originalInstructions := fun _ => true }

/-- The types `addToDiffe` has a branch for. -/
def Ty.accumulates (t : Ty) : Bool :=
  t.isIntOrIntVectorTy || t.isFPOrFPVectorTy || t.isStructTy

/-- The leading phi nodes pass the assertions of the phi loops: an active
non-pointer phi node is not void, has an incoming value for every predecessor,
and each active incoming value has a type `addToDiffe` handles. -/
def phisWellTyped (g : DiffeGradientUtils) (preds : List BasicBlock) (phis : List PHINode) :
    Bool :=
  phis.all (fun PN =>
    g.isConstantValue PN.id || (g.typeOf PN.id).isPointerTy ||
      (!(g.typeOf PN.id).isVoidTy &&
        preds.all (fun p =>
          match PN.getIncomingValueForBlock p with
          | none => false
          | some v => g.isConstantValue v || (g.typeOf v).accumulates)))

/-- Every active argument has a type `whatType` classifies. -/
def argsClassified (g : DiffeGradientUtils) (args : List Value) : Bool :=
  args.all (fun I => g.isConstantValue I || (whatType (g.typeOf I)).isSome)

/-- The assertion of the loop-header branch: where the block is the header of its
loop and has two predecessors, these are the latch and the preheader. -/
def headerPreds (u : GradientCFG) (BB : BasicBlock) : Bool :=
  match u.predecessors BB, u.getContext BB with
  | [p0, p1], some loopContext =>
    if u.reverseBlocks BB = u.reverseBlocks loopContext.header then
      decide ((p0 = loopContext.latch ∧ p1 = loopContext.preheader) ∨
        (p1 = loopContext.latch ∧ p0 = loopContext.preheader))
    else true
  | _, _ => true

/-- The blocks below `n` are closed under predecessors, and none has more than `D`
predecessors. -/
def boundedCFG (u : GradientCFG) (n D : Nat) : Bool :=
  (List.range n).all (fun b =>
    (u.predecessors b).all (fun p => decide (p < n)) && decide ((u.predecessors b).length ≤ D))

/-- Rounds that suffice for the pivot search on a function of `n` blocks with at
most `D` predecessors each. -/
def searchFuel (n D : Nat) : Nat := (2 * n + n * n) * (D + 1) + 3

/-- Invariant of the pivot search on a function of `n` blocks: `seen` and `done`
hold no pair twice, and every block and predecessor number is in range. -/
def PivotSearch.Bounded (n : Nat) (s : PivotSearch) : Prop :=
  s.seen.Nodup ∧ s.done.Nodup ∧ (∀ p ∈ s.seen, p.1 < n ∧ p.2 < 2) ∧
    (∀ p ∈ s.done, p.1 < n ∧ p.2 < n) ∧ ∀ q ∈ s.Q, q.1 < n ∧ q.2.1 < 2 ∧ q.2.2 < n

/-- The block `B'` continues the block `B`: it has the instructions of `B` and
further ones after them. -/
def Extends (B B' : Builder) : Prop := ∃ suffix, B' = B ++ suffix

/-- A diamond with an early way out: block `0` branches on value `10` to blocks
`1` and `2`, block `1` branches on value `11` to blocks `3` and `2`, block `2`
jumps to block `3`, and block `3` starts with the phi node `14` of the values `12`
(from block `1`) and `13` (from block `2`). -/
def diamondCFG : GradientCFG where
  predecessors := fun b =>
    if b = 3 then [1, 2] else if b = 2 then [0, 1] else if b = 1 then [0] else []
  terminator := fun b =>
    if b = 0 then .branch 10 1 2 else if b = 1 then .branch 11 3 2
    else if b = 2 then .jump 3 else .ret
  phis := fun b => if b = 3 then [⟨14, [(1, 12), (2, 13)]⟩] else []
  reverseBlocks := fun b => 100 + b
  getContext := fun _ => none
  newFuncArgs := []
  createPHI := fun _ => 99

/-- The context of a loop with preheader `0`, header `1`, latch `2` and exit `3`,
induction variable `20` with mirror `21` and limit `22`; `dynamic` and `parent`
are left open. -/
def exampleLoopContext (dynamic : Bool) (parent : Option LoopContext) : LoopContext :=
  .mk 20 21 2 1 0 dynamic 22 3 parent

/-- A run of the diamond in which the branch of block `0` is taken (value `10` is
one) and the branch of block `1` is not (value `11` is zero). -/
def diamondEnv : Env where
  lookup := fun v => if v = 10 then 1 else 0
  differetval := 0
  intrinsic := fun _ _ => 0

/-- A loop with preheader `0`, header `1` and latch `2` that is left from the
header to block `4` and from the latch to block `5`. -/
def twoExitLoop : Loop where
  id := 0
  contains := fun b => b = 1 || b = 2
  getExitBlocks := [4, 5]
  getHeader := 1
  getLoopPreheader := some 0
  getLoopLatch := 2
  getParentLoop := none

/-- The function around `twoExitLoop`: both exit blocks return, so both are live;
the exit count of the loop is value `22` and its induction variable value `20`. -/
def twoExitAnalyses : LoopAnalyses where
  getLoopFor := fun b => if b = 1 ∨ b = 2 then some twoExitLoop else none
  terminator := fun b =>
    if b = 0 then .jump 1 else if b = 1 then .branch 26 2 4
    else if b = 2 then .branch 27 1 5 else .ret
  getExitCount := fun _ => some 22
  canonicalizeIVs := fun _ => some 20
  isLoopBackedgeGuardedByCond := fun _ => true
  newCanonicalIV := fun _ => 30
  newLimitVar := fun _ => 31
  newAntivar := fun _ => 21

/-- The contexts of a loop and of the loops around it, innermost first. -/
def LoopContext.nest : LoopContext → List LoopContext
  | .mk var antivar latch header preheader dynamic limit exit parent =>
    .mk var antivar latch header preheader dynamic limit exit parent ::
      (match parent with
        | none => []
        | some idx => idx.nest)

/-- The slot of iteration `is` in a nest with last induction values `Ls`, as the
specification words it: `i₀ + Σ_{j ≥ 1} i_j · Π_{m < j} (L_m + 1)`. -/
def specSlot (is Ls : List Nat) : Nat :=
  is.getD 0 0 + ∑ j ∈ Finset.Ico 1 is.length, is.getD j 0 * ((Ls.take j).map (· + 1)).prod

/-- The element count of the cache as the specification words it: `Π_j (L_j + 1)`. -/
def specSize (Ls : List Nat) : Nat := (Ls.map (· + 1)).prod

/-- The slot in nested form: `i₀ + (L₀ + 1) · (i₁ + (L₁ + 1) · …)`. -/
def nestedSlot : List Nat → List Nat → Nat
  | [], _ => 0
  | i :: _, [] => i
  | i :: is, L :: Ls => i + (L + 1) * nestedSlot is Ls

/-- Iteration `is` lies within the last induction values `Ls`, loop by loop. -/
def withinLimits : List Nat → List Nat → Bool
  | [], [] => true
  | i :: is, L :: Ls => decide (i ≤ L) && withinLimits is Ls
  | _, _ => false

/-- An inner loop, statically bounded or not, inside the loop of
`exampleLoopContext`, statically bounded or not: induction variable `40` with
mirror `41` and limit `42`. -/
def innerLoopContext (dynamic outerDynamic : Bool) : LoopContext :=
  .mk 40 41 6 5 4 dynamic 42 7 (some (exampleLoopContext outerDynamic none))

/-- Values of a run: the inner loop is in iteration `2` of `0..3`, the outer loop
in iteration `1` of `0..4`; the mirror variables are at `3` and `4`. -/
def nestEnv : Value → Nat := fun v =>
  if v = 40 then 2 else if v = 42 then 3 else if v = 20 then 1 else if v = 22 then 4
  else if v = 41 then 3 else if v = 21 then 4 else 0

/-- The running products `(L₀ + 1)·acc, (L₁ + 1)·(L₀ + 1)·acc, …` the index loops
keep in `limits`. -/
def runningProducts (acc : Nat) : List Nat → List Nat
  | [] => []
  | L :: Ls => (L + 1) * acc :: runningProducts ((L + 1) * acc) Ls

/-- The value the folding loop of the slot reaches from `a` over the values of
`indices` and `limits`. -/
def dotFrom (a : Nat) : List Nat → List Nat → Nat
  | [], _ => a
  | _ :: _, [] => a
  | x :: xs, p :: ps => dotFrom (a + x * p) xs ps

/-- The part of the nested slot above the innermost loop:
`(L₀ + 1)·(x₀ + (L₁ + 1)·(x₁ + …))`. -/
def nestedTail : List Nat → List Nat → Nat
  | [], _ => 0
  | _ :: _, [] => 0
  | x :: xs, L :: Ls => (L + 1) * (x + nestedTail xs Ls)

/-- A function `f(x)` with the argument `0`, the sum `2 = 0 + 1` of it and a
constant `1`, the store `3` of the sum to the pointer `4`, a comparison `5`, and the
calls `6` to `printf` and `7` to `free`. -/
def activityExample : ActivityIR where
  valueKind := fun v => if v = 0 then .Argument else if v = 1 then .Constant else .Instruction
  kind := fun v =>
    if v = 3 then .StoreInst 2 4 else if v = 5 then .CmpInst
    else if v = 6 then .CallInst (some (.named "printf")) []
    else if v = 7 then .CallInst (some (.named "free")) [4]
    else .other
  isPointerTy := fun v => v = 4
  isVoidTy := fun v => v = 3 || v = 7
  mayWriteToMemory := fun v => v = 3 || v = 6 || v = 7
  users := fun v => if v = 2 then [3] else if v = 4 then [3, 7] else if v = 0 then [2, 5] else []
  operands := fun v =>
    if v = 2 then [0, 1] else if v = 3 then [2, 4] else if v = 5 then [0, 1]
    else if v = 7 then [4] else []
  retvals := ∅
  originalInstructions := {2, 3, 4, 5, 6, 7}

/-- The function passes the assertions of the activity analysis that do not depend
on the sets: no inline assembly, the pointer operand of a `getelementptr` is a
pointer, and a store may write to memory. -/
def ActivityIR.Sound (F : ActivityIR) : Prop :=
  (∀ v, F.valueKind v ≠ .InlineAsm) ∧
  (∀ a ptr, F.kind a = .GetElementPtrInst ptr → F.isPointerTy ptr = true) ∧
  (∀ a value ptr, F.kind a = .StoreInst value ptr → F.mayWriteToMemory a = true)

/-- Every argument is in one of the two sets, as `isconstantValueM` asserts. -/
def ArgumentsClassified (F : ActivityIR) (constants nonconstant : Finset Value) : Prop :=
  ∀ v, F.valueKind v = .Argument → v ∈ constants ∨ v ∈ nonconstant

/-- The number of original instructions not yet in `constants`. -/
def ActivityIR.remaining (F : ActivityIR) (constants : Finset Value) : Nat :=
  (F.originalInstructions \ constants).card

/-- The callee `rec` returns on all sets with fewer than `fuel` original
instructions outside `constants`. -/
def RecTotal (F : ActivityIR) (rec : Value → Finset Value → Finset Value → Nat → Activity)
    (fuel : Nat) : Prop :=
  ∀ a C N d, d ≤ 3 → ArgumentsClassified F C N → F.remaining C < fuel →
    (rec a C N d).isSome = true

/-- The callee `rec` only adds to the sets. -/
def RecMono (rec : Value → Finset Value → Finset Value → Nat → Activity) : Prop :=
  ∀ a C N d b C' N', rec a C N d = some (b, C', N') → C ⊆ C' ∧ N ⊆ N'

/-- The blocks the exit walk of `getContextM` pushes once it has checked block `b`:
the successors of a branch that the loop does not contain. -/
def getContextM.pushed (A : LoopAnalyses) (L : Loop) (b : BasicBlock) : List BasicBlock :=
  match A.terminator b with
  | .branch _ t f => [t, f].filter (fun nb => !L.contains nb)
  | .jump d => [d].filter (fun nb => !L.contains nb)
  | _ => []

/-- The operands `p, p', "diffe_const", x, n` of a call of the intrinsic on a
function `f(double* p, double x, i32 n)`: a pointer with its shadow, a double
tagged constant, and an integer. -/
def exampleOperands : List Operand :=
  [.value 10 (.ptr (.fp .double)), .value 11 (.ptr (.fp .double)), .MDString "diffe_const",
   .value 12 (.fp .double), .value 13 (.int 32)]

/-- The function `double f(double* p, double x, i32 n)`. -/
def exampleAutodiffFunction : PrimalFunction :=
  { empty := false, args := [.ptr (.fp .double), .fp .double, .int 32], ret := .fp .double }

/-- The activity of a function `f(double* p)` whose values are all active: value `0`
is the pointer `p`, the calls `1` and `2` return nothing, the call `3` returns a
pointer to double. -/
def tapeUtils : DiffeGradientUtils :=
  { typeOf := fun v => if v = 0 ∨ v = 3 then .ptr (.fp .double) else .void,
    isConstantValue := fun _ => false,
    isConstantInstruction := fun _ => false,
    originalInstructions := fun _ => true }

/-- The call `op = g(p)` of a function `g` with a body that may write through `p`. -/
def tapeCall (op : Value) : CallSite :=
  { op := op, called := some "g", empty := false, readNone := false,
    args := [{ value := 0, readOnly := false }] }

/-- A block holding the two call sites `1` and `2`, in this order. -/
def twoCallBlock : CallBlock :=
  { terminator := .ret 0, insts := [.call (tapeCall 1), .other 7, .call (tapeCall 2)] }

/-- The same two call sites, each in a block of its own. -/
def oneCallBlocks : List CallBlock :=
  [{ terminator := .br, insts := [.call (tapeCall 1)] },
   { terminator := .ret 0, insts := [.other 7, .call (tapeCall 2)] }]

/-- The key under which the gradient of function `0` is asked for by a call site:
no constant argument, no primal return, a differential return, not top level, no
tape. -/
def recursiveKey : CreatePrimalAndGradient.Key :=
  { todiff := 0, constant_args := ∅, returnValue := false, differentialReturn := true,
    topLevel := false, additionalArg := none }

/-- A module whose function `0` has a body holding one call of itself, for which
the reverse sweep asks for the gradient under `recursiveKey`. -/
def recursiveModule : SynthesisModule :=
  { empty := fun _ => false, calls := fun _ => [recursiveKey] }

/-- A function `0` with the argument `0` (a pointer), the instructions `1` (a
`getelementptr` of `0`), `2` (a call using `1`) and `3` (a load of `1`, not a
pointer), and the constant integer `7`. -/
def exampleAnalysisIR : AnalysisIR :=
  { kind := fun v =>
      if v = 0 then .Argument 0 else if v = 1 then .Instruction 0 true false
      else if v = 2 then .Instruction 0 false true else if v = 3 then .Instruction 0 false false
      else if v = 7 then .Constant (.ConstantInt 32 7) else .other,
    isPointerTy := fun v => decide (v = 0 ∨ v = 1),
    isInt1Ty := fun _ => false,
    users := fun v => if v = 0 then [1] else if v = 1 then [2, 3] else [],
    operands := fun v => if v = 1 then [0] else if v = 2 then [1] else if v = 3 then [1] else [],
    insts := fun f => if f = 0 then [1, 2, 3] else [] }

/-- An analyzer of function `0` with the work list `2, 3, 1` and no tree yet. -/
def exampleAnalyzer : TypeAnalyzer :=
  { function := 0, analysis := fun _ => TypeTree.empty, workList := [2, 3, 1] }

/-- A visitor that puts value `2` on the work list again when it visits value `3`
and otherwise does nothing. -/
def exampleVisit (val : Value) (T : TypeAnalyzer) : Option TypeAnalyzer :=
  if val = 3 then some { T with workList := T.workList ++ [2] } else some T

/-- An analysis of a function that only settles the tree of value `3` in every
cached analyzer and empties the work lists. -/
def exampleAnalyze (_ : FnTypeInfo.Key) (TA : TypeAnalysis) : Option TypeAnalysis :=
  some { analyzedFunctions := TA.analyzedFunctions.map (fun p =>
    (p.1, { function := p.2.function,
            analysis := Function.update p.2.analysis 3
              ((TypeTree.ofConcrete (.Float .double)).Only (-1)),
            workList := [] })) }

/-- The cache after the analysis of function `0` by `exampleAnalyze`. -/
def exampleCached : TypeAnalysis :=
  { analyzedFunctions := [(⟨0, 0⟩,
      { function := 0,
        analysis := Function.update (fun _ => TypeTree.empty) 3
          ((TypeTree.ofConcrete (.Float .double)).Only (-1)),
        workList := [] })] }

/-- The call site records one tape entry, the tape of its callee: it calls a
function with a body that is none of the allocation and print functions, it is an
original, non-constant instruction, it returns neither a pointer nor an integer,
not all its arguments are constant, and the callee may modify the primal. -/
def CallSite.recordsTape (g : DiffeGradientUtils) (c : CallSite) : Bool :=
  (match c.called with
    | none => false
    | some name => !CallSite.isAllocationOrPrint name) &&
  !c.empty && !g.isConstantInstruction c.op && g.originalInstructions c.op &&
  !(g.typeOf c.op).isPointerTy && !(g.typeOf c.op).isIntegerTy &&
  (match CallSite.argLoop g c.args (0, 0, !c.readNone) with
    | none => false
    | some (nconst, nargs, modifyPrimal) => decide (nconst ≠ nargs) && modifyPrimal)

/-- The metadata string that names a class. -/
def HandleAutoDiff.tag : DIFFE_TYPE → String
  | .DUP_ARG => "diffe_dup"
  | .OUT_DIFF => "diffe_out"
  | .CONSTANT => "diffe_const"

/-- The operand `id` of type `type` as it is pushed for a parameter of type `PTy`:
as it stands when the types are equal, behind a bit cast otherwise. -/
def HandleAutoDiff.pushed (PTy : Ty) (id : Value) (type : Ty) : CallArg :=
  if PTy.same type then .operand id else .bitCast id PTy

/-- The variables of the loop after a round that gave the parameter `truei` the
class `ty` and pushed `args`. -/
def HandleAutoDiff.State.after (st : HandleAutoDiff.State) (ty : DIFFE_TYPE)
    (args : List CallArg) : HandleAutoDiff.State :=
  { constants :=
      if ty = .CONSTANT ∧ st.truei ∉ st.constants then st.constants ++ [st.truei]
      else st.constants,
    args := st.args ++ args, truei := st.truei + 1, classes := st.classes ++ [ty] }

/-- The operands `"diffe_dup", p, p', "diffe_out", x, n` of a call of the intrinsic
on `exampleAutodiffFunction`. -/
def taggedOperands : List Operand :=
  [.MDString "diffe_dup", .value 10 (.ptr (.fp .double)), .value 11 (.ptr (.fp .double)),
   .MDString "diffe_out", .value 12 (.fp .double), .value 13 (.int 32)]

/-- The values of the visits of a log that were taken from `pendingCalls`
(`pending = true`) or from the work list (`pending = false`), in the order of the
visits. -/
def Visit.values (pending : Bool) (log : List Visit) : List Value :=
  (log.filter (fun e => e.pending == pending)).map Visit.value

/-- The call instructions of a list of values, in order. -/
def AnalysisIR.calls (ir : AnalysisIR) (l : List Value) : List Value :=
  l.filter ir.isCallInst

/-- The values of a list that are no call instructions, in order. -/
def AnalysisIR.nonCalls (ir : AnalysisIR) (l : List Value) : List Value :=
  l.filter (fun v => !ir.isCallInst v)

/-- The function a value stands in when it is an instruction or an argument, the
two classes of values `addToWorkList` enqueues. -/
def AnalysisIR.parent (ir : AnalysisIR) (val : Value) : Option Nat :=
  match ir.kind val with
  | .Instruction parent _ _ => some parent
  | .Argument parent => some parent
  | _ => none

/-- The log of `run` on `exampleAnalyzer` with the visitor `exampleVisit`. -/
def exampleLog : List Visit :=
  [⟨3, false, [3, 1], [2]⟩, ⟨1, false, [1, 2], [2]⟩, ⟨2, true, [], [2, 2]⟩, ⟨2, true, [], [2]⟩]

theorem wellFormedBody_cons (n id op0 op1 : Nat) (opc : BinaryOps) (is : List Inst) :
    wellFormedBody n (.binop id opc op0 op1 :: is) = true ↔
      (opc = .FAdd ∨ opc = .FSub ∨ opc = .FMul ∨ opc = .FDiv) ∧ id = n ∧ op0 < n ∧ op1 < n ∧
        wellFormedBody (n + 1) is = true := by
  simp [wellFormedBody, and_assoc, or_assoc]

theorem divisorsNonzero_cons (env : Value → ℚ) (id op0 op1 : Nat) (opc : BinaryOps)
    (is : List Inst) :
    divisorsNonzero env (.binop id opc op0 op1 :: is) = true ↔
      (opc = .FDiv → env op1 ≠ 0) ∧
        divisorsNonzero (Function.update env id (evalBinOp opc (env op0) (env op1))) is = true := by
  simp [divisorsNonzero, imp_iff_not_or]

theorem reverseInst_binop (g : DiffeGradientUtils) (r a b : Value)
    (opc : BinaryOps) (B : Builder)
    (hopc : opc = .FAdd ∨ opc = .FSub ∨ opc = .FMul ∨ opc = .FDiv)
    (hr : g.isConstantValue r = false ∧ g.isConstantInstruction r = false ∧
      g.originalInstructions r = true ∧ ∃ w, g.typeOf r = .fp w)
    (ha : g.isConstantValue a = false ∧ ∃ w, g.typeOf a = .fp w)
    (hb : g.isConstantValue b = false ∧ ∃ w, g.typeOf b = .fp w) :
    reverseInst g (.binop r opc a b) B = some (B ++ binopChunk B.length r opc a b) := by
  obtain ⟨hr1, hr2, hr3, wr, hr4⟩ := hr
  obtain ⟨ha1, wa, ha2⟩ := ha
  obtain ⟨hb1, wb, hb2⟩ := hb
  rcases hopc with h | h | h | h <;> subst h <;>
    simp [reverseInst, reverseBinaryOperator, binaryDifferentials, unlessConstant, diffe,
      setDiffe, addToDiffeIf, addToDiffe, Builder.Insert, hr1, hr2, hr3, hr4, ha1, ha2,
      hb1, hb2, Ty.isPointerTy, Ty.isVoidTy, Ty.isIntOrIntVectorTy, Ty.isFPOrFPVectorTy,
      binopChunk, Nat.add_assoc]

theorem binopChunk_exec (E : Env) (r a b : Value) (opc : BinaryOps) (m : Machine)
    (hopc : opc = .FAdd ∨ opc = .FSub ∨ opc = .FMul ∨ opc = .FDiv)
    (hdiv : opc = .FDiv → E.lookup b ≠ 0) :
    ∃ m', exec E (binopChunk m.next r opc a b) m = some m' ∧
      m'.next = m.next + (binopChunk m.next r opc a b).length ∧
      m'.diffe = pullback E.lookup r opc a b m.diffe ∧ m'.shadow = m.shadow := by
  rcases hopc with h | h | h | h <;> subst h
  · simp [binopChunk, exec, step, stepBin, evalVal, Machine.setResult, pullback,
      Function.update_apply, Nat.add_assoc]
  · simp [binopChunk, exec, step, stepBin, evalVal, Machine.setResult, pullback,
      Function.update_apply, Nat.add_assoc]
  · simp [binopChunk, exec, step, stepBin, evalVal, Machine.setResult, pullback,
      Function.update_apply, Nat.add_assoc]
  · have hb := hdiv rfl
    simp [binopChunk, exec, step, stepBin, evalVal, Machine.setResult, pullback,
      Function.update_apply, hb]

theorem exec_append (E : Env) (c1 c2 : List RInst) (m : Machine) :
    exec E (c1 ++ c2) m = (exec E c1 m).bind (exec E c2) := by
  induction c1 generalizing m with
  | nil => simp [exec]
  | cons i is ih =>
    simp only [List.cons_append, exec]
    cases h : step E m i with
    | none => simp
    | some m1 => simpa using ih m1

theorem pullbackSweep_append (p : Value → ℚ) (l1 l2 : List Inst) (d : Value → ℚ) :
    pullbackSweep p (l1 ++ l2) d = pullbackSweep p l2 (pullbackSweep p l1 d) := by
  induction l1 generalizing d with
  | nil => rfl
  | cons i is ih => simp [pullbackSweep, ih]

theorem reverseInsts_exec (g : DiffeGradientUtils) (E : Env) (l : List Inst)
    (hl : ∀ i ∈ l, Sweepable g E.lookup i) (B : Builder) (m0 m : Machine)
    (hB : exec E B m0 = some m) (hnext : m.next = B.length) :
    ∃ B' m', reverseInsts g l B = some B' ∧ exec E B' m0 = some m' ∧
      m'.next = B'.length ∧ m'.diffe = pullbackSweep E.lookup l m.diffe ∧
      m'.shadow = m.shadow := by
  induction l generalizing B m with
  | nil => exact ⟨B, m, rfl, hB, hnext, rfl, rfl⟩
  | cons i is ih =>
    have hi := hl i (List.mem_cons_self _ _)
    cases i with
    | binop r opc a b =>
      obtain ⟨hopc, hr, ha, hb, hdiv⟩ := hi
      have hemit := reverseInst_binop g r a b opc B hopc hr ha hb
      obtain ⟨m1, hx, hn1, hd1, hs1⟩ := binopChunk_exec E r a b opc m hopc hdiv
      rw [hnext] at hx hn1
      have hB1 : exec E (B ++ binopChunk B.length r opc a b) m0 = some m1 := by
        rw [exec_append, hB]; simpa using hx
      have hn1' : m1.next = (B ++ binopChunk B.length r opc a b).length := by
        rw [hn1, List.length_append]
      obtain ⟨B', m', h1, h2, h3, h4, h5⟩ :=
        ih (fun j hj => hl j (List.mem_cons_of_mem _ hj)) _ m1 hB1 hn1'
      refine ⟨B', m', ?_, h2, h3, ?_, ?_⟩
      · simp [reverseInsts, hemit, h1]
      · rw [h4, hd1]; rfl
      · rw [h5, hs1]
    | intrinsic _ _ _ => exact absurd hi (by simp [Sweepable])
    | store _ _ _ => exact absurd hi (by simp [Sweepable])
    | other _ => exact absurd hi (by simp [Sweepable])

theorem hasDerivAt_evalBinOp (opc : BinaryOps) (u v : ℚ → ℚ) (u' v' t0 : ℚ)
    (hu : HasDerivAt u u' t0) (hv : HasDerivAt v v' t0)
    (hdiv : opc = .FDiv → v t0 ≠ 0) :
    HasDerivAt (fun t => evalBinOp opc (u t) (v t)) (tangentBinOp opc (u t0) (v t0) u' v') t0 := by
  cases opc <;> simp only [evalBinOp, tangentBinOp] <;>
    first
    | exact hu.add hv
    | exact hu.sub hv
    | exact hu.mul hv
    | exact hu.div hv (hdiv rfl)
    | exact hasDerivAt_const t0 (0 : ℚ)

theorem hasDerivAt_evalBody (body : List Inst) (E : ℚ → Value → ℚ) (T : Value → ℚ) (t0 : ℚ)
    (hE : ∀ j, HasDerivAt (fun t => E t j) (T j) t0)
    (hdiv : divisorsNonzero (E t0) body = true) (j : Value) :
    HasDerivAt (fun t => evalBody (E t) body j) (tangentBody (E t0) T body j) t0 := by
  induction body generalizing E T with
  | nil => exact hE j
  | cons i is ih =>
    cases i with
    | binop id opc op0 op1 =>
      rw [divisorsNonzero_cons] at hdiv
      simp only [evalBody, tangentBody]
      apply ih (fun t => Function.update (E t) id (evalBinOp opc (E t op0) (E t op1)))
      · intro k
        by_cases hk : k = id
        · subst hk
          simp only [Function.update_same]
          exact hasDerivAt_evalBinOp opc _ _ _ _ t0 (hE op0) (hE op1) hdiv.1
        · simp only [Function.update_noteq hk]
          exact hE k
      · exact hdiv.2
    | intrinsic _ _ _ => exact ih E T hE (by simpa [divisorsNonzero] using hdiv)
    | store _ _ _ => exact ih E T hE (by simpa [divisorsNonzero] using hdiv)
    | other _ => exact ih E T hE (by simpa [divisorsNonzero] using hdiv)

theorem pairing_update (d T : Value → ℚ) (N j : Nat) (v : ℚ) (hj : j < N) :
    pairing (Function.update d j v) T N = pairing d T N + (v - d j) * T j := by
  unfold pairing
  have hmem : j ∈ Finset.range N := Finset.mem_range.mpr hj
  rw [← Finset.add_sum_erase _ _ hmem, ← Finset.add_sum_erase (Finset.range N) (fun k => d k * T k) hmem]
  have : ∑ x in (Finset.range N).erase j, Function.update d j v x * T x
      = ∑ x in (Finset.range N).erase j, d x * T x := by
    apply Finset.sum_congr rfl
    intro x hx
    rw [Function.update_noteq (Finset.ne_of_mem_erase hx)]
  rw [this, Function.update_same]
  ring

theorem pairing_pullback (p T d : Value → ℚ) (N r a b : Nat) (opc : BinaryOps)
    (h : TangentEq p T 0 (.binop r opc a b)) (hr : r < N) :
    pairing (pullback p r opc a b d) T N = pairing d T N := by
  obtain ⟨hopc, har, hbr, -, hp, hT, hdiv⟩ := h
  have ha : a < N := lt_trans har hr
  have hb : b < N := lt_trans hbr hr
  have har' : a ≠ r := Nat.ne_of_lt har
  have hbr' : b ≠ r := Nat.ne_of_lt hbr
  unfold pullback
  simp only
  rw [pairing_update _ _ _ _ _ hb, pairing_update _ _ _ _ _ ha, pairing_update _ _ _ _ _ hr, hT]
  rcases hopc with h | h | h | h <;> subst h <;> simp only [tangentBinOp, evalBinOp] at hp ⊢
  · ring
  · ring
  · ring
  · have hb0 := hdiv rfl
    rw [hp]
    field_simp
    ring

theorem evalBody_tangentBody_stable (body : List Inst) (n : Nat) (env T : Value → ℚ)
    (hwf : wellFormedBody n body = true) :
    ∀ j, j < n → evalBody env body j = env j ∧ tangentBody env T body j = T j := by
  induction body generalizing n env T with
  | nil => intro j _; exact ⟨rfl, rfl⟩
  | cons i is ih =>
    cases i with
    | binop id opc op0 op1 =>
      rw [wellFormedBody_cons] at hwf
      obtain ⟨-, hid, -, -, hrest⟩ := hwf
      subst hid
      intro j hj
      have hjid : j ≠ id := Nat.ne_of_lt hj
      have := ih (id + 1) (Function.update env id (evalBinOp opc (env op0) (env op1)))
        (Function.update T id (tangentBinOp opc (env op0) (env op1) (T op0) (T op1)))
        hrest j (Nat.lt_succ_of_lt hj)
      simp only [evalBody, tangentBody]
      rw [this.1, this.2, Function.update_noteq hjid, Function.update_noteq hjid]
      exact ⟨rfl, rfl⟩
    | intrinsic _ _ _ => simp [wellFormedBody] at hwf
    | store _ _ _ => simp [wellFormedBody] at hwf
    | other _ => simp [wellFormedBody] at hwf

theorem tangentEq_mono (p T : Value → ℚ) (n n' : Nat) (i : Inst) (h : n' ≤ n)
    (hi : TangentEq p T n i) : TangentEq p T n' i := by
  cases i with
  | binop r opc a b =>
    obtain ⟨q1, q2, q3, q4, q5, q6, q7⟩ := hi
    exact ⟨q1, q2, q3, le_trans h q4, q5, q6, q7⟩
  | intrinsic _ _ _ => exact hi
  | store _ _ _ => exact hi
  | other _ => exact hi

theorem tangentEq_of_wellFormed (body : List Inst) (n : Nat) (env T : Value → ℚ)
    (hwf : wellFormedBody n body = true) (hdiv : divisorsNonzero env body = true) :
    ∀ i ∈ body, TangentEq (evalBody env body) (tangentBody env T body) n i := by
  induction body generalizing n env T with
  | nil => intro i hi; simp at hi
  | cons i is ih =>
    cases i with
    | binop id opc op0 op1 =>
      rw [wellFormedBody_cons] at hwf
      obtain ⟨hopc, hid, h0, h1, hrest⟩ := hwf
      rw [divisorsNonzero_cons] at hdiv
      obtain ⟨hd0, hdrest⟩ := hdiv
      subst hid
      have hst := evalBody_tangentBody_stable is (id + 1)
        (Function.update env id (evalBinOp opc (env op0) (env op1)))
        (Function.update T id (tangentBinOp opc (env op0) (env op1) (T op0) (T op1))) hrest
      have n0 : op0 ≠ id := Nat.ne_of_lt h0
      have n1 : op1 ≠ id := Nat.ne_of_lt h1
      have l0 : op0 < id + 1 := Nat.lt_succ_of_lt h0
      have l1 : op1 < id + 1 := Nat.lt_succ_of_lt h1
      have lr : id < id + 1 := Nat.lt_succ_self id
      intro i hi
      rcases List.mem_cons.mp hi with rfl | hi
      · refine ⟨hopc, h0, h1, le_refl _, ?_, ?_, ?_⟩
        · simp only [evalBody]
          rw [(hst id lr).1, (hst op0 l0).1, (hst op1 l1).1,
            Function.update_same, Function.update_noteq n0, Function.update_noteq n1]
        · simp only [evalBody, tangentBody]
          rw [(hst id lr).2, (hst op0 l0).1, (hst op1 l1).1,
            (hst op0 l0).2, (hst op1 l1).2,
            Function.update_same, Function.update_noteq n0, Function.update_noteq n1,
            Function.update_noteq n0, Function.update_noteq n1]
        · intro hopc'
          simp only [evalBody]
          rw [(hst op1 l1).1, Function.update_noteq n1]
          exact hd0 hopc'
      · exact tangentEq_mono _ _ _ _ _ (Nat.le_succ id) (ih (id + 1) _ _ hrest hdrest i hi)
    | intrinsic _ _ _ => simp [wellFormedBody] at hwf
    | store _ _ _ => simp [wellFormedBody] at hwf
    | other _ => simp [wellFormedBody] at hwf

theorem pullbackSweep_reverse_invariant (body : List Inst) (n N : Nat) (p T d : Value → ℚ)
    (hwf : wellFormedBody n body = true) (hN : N = n + body.length)
    (hT : ∀ i ∈ body, TangentEq p T 0 i)
    (hd : ∀ j, N ≤ j → d j = 0) :
    pairing (pullbackSweep p body.reverse d) T N = pairing d T N ∧
    ∀ j, n ≤ j → pullbackSweep p body.reverse d j = 0 := by
  induction body generalizing n d with
  | nil => exact ⟨rfl, fun j hj => hd j (by simp at hN; omega)⟩
  | cons i is ih =>
    cases i with
    | binop id opc op0 op1 =>
      have hi := hT _ (List.mem_cons_self _ _)
      rw [wellFormedBody_cons] at hwf
      obtain ⟨-, hid, h0, h1, hrest⟩ := hwf
      subst hid
      have hlen : N = (id + 1) + is.length := by
        simp only [List.length_cons] at hN; omega
      have hrN : id < N := by
        rw [hlen]; exact Nat.lt_of_lt_of_le (Nat.lt_succ_self id) (Nat.le_add_right _ _)
      obtain ⟨ih1, ih2⟩ := ih (id + 1) d hrest hlen
        (fun i hi' => hT i (List.mem_cons_of_mem _ hi')) hd
      rw [List.reverse_cons, pullbackSweep_append]
      simp only [pullbackSweep, pullbackInst]
      constructor
      · rw [pairing_pullback p T _ _ id op0 op1 opc hi hrN, ih1]
      · intro j hj
        have hjb : j ≠ op1 := Nat.ne_of_gt (lt_of_lt_of_le h1 hj)
        have hja : j ≠ op0 := Nat.ne_of_gt (lt_of_lt_of_le h0 hj)
        unfold pullback
        rw [Function.update_noteq hjb, Function.update_noteq hja]
        by_cases hjr : j = id
        · rw [hjr, Function.update_same]
        · rw [Function.update_noteq hjr]
          exact ih2 j (Nat.lt_of_le_of_ne hj (Ne.symm hjr))
    | intrinsic _ _ _ => simp [wellFormedBody] at hwf
    | store _ _ _ => simp [wellFormedBody] at hwf
    | other _ => simp [wellFormedBody] at hwf

theorem wellFormedBody_bound (body : List Inst) (n : Nat) (hwf : wellFormedBody n body = true) :
    ∀ i ∈ body, ∃ r opc a b, i = Inst.binop r opc a b ∧ r < n + body.length := by
  induction body generalizing n with
  | nil => intro i hi; simp at hi
  | cons i is ih =>
    cases i with
    | binop id opc op0 op1 =>
      rw [wellFormedBody_cons] at hwf
      obtain ⟨-, hid, -, -, hrest⟩ := hwf
      subst hid
      intro i hi
      rcases List.mem_cons.mp hi with rfl | hi
      · exact ⟨id, opc, op0, op1, rfl, by simp⟩
      · obtain ⟨r, o, a, b, h1, h2⟩ := ih (id + 1) hrest i hi
        refine ⟨r, o, a, b, h1, ?_⟩
        simp only [List.length_cons]
        calc r < id + 1 + is.length := h2
          _ = id + (is.length + 1) := by ring
    | intrinsic _ _ _ => simp [wellFormedBody] at hwf
    | store _ _ _ => simp [wellFormedBody] at hwf
    | other _ => simp [wellFormedBody] at hwf

/-- C1: for every straight-line body of FAdd, FSub, FMul and FDiv over active
floating-point arguments, with every divisor nonzero, the code the reverse sweep
emits runs to completion from zeroed accumulators and leaves in the accumulator of
each argument the seed times the partial derivative of the returned value. -/
theorem reverse_sweep_gradient (g : DiffeGradientUtils) (n : Nat) (body : List Inst)
    (ret : Value) (x : Value → ℚ) (s : ℚ) (i : Nat) (returnValue : Bool)
    (intr : Intrinsic → List ℚ → ℚ) (shadow : Value → ℚ)
    (hwf : wellFormedBody n body = true) (hret : ret < n + body.length)
    (hact : allActive g (n + body.length))
    (hdiv : divisorsNonzero x body = true) (hi : i < n) :
    ∃ code m, reverseBlock g returnValue true (.ret ret) body = some code ∧
      exec ⟨evalBody x body, s, intr⟩ code (Machine.init shadow) = some m ∧
      m.diffe i = s * deriv (fun t => evalBody (Function.update x i t) body ret) (x i) := by
  set E : Env := ⟨evalBody x body, s, intr⟩ with hE
  set T0 : Value → ℚ := fun j => if j = i then 1 else 0 with hT0
  set T := tangentBody x T0 body with hT
  set N := n + body.length with hN
  have hTE := tangentEq_of_wellFormed body n x T0 hwf hdiv
  have hbound := wellFormedBody_bound body n hwf
  -- every instruction can be swept
  have hsweep : ∀ j ∈ body.reverse, Sweepable g E.lookup j := by
    intro j hj
    have hj' : j ∈ body := List.mem_reverse.mp hj
    obtain ⟨r, opc, a, b, rfl, hr⟩ := hbound j hj'
    obtain ⟨q1, q2, q3, -, -, -, q7⟩ := hTE _ hj'
    obtain ⟨a1, a2, a3, a4⟩ := hact r hr
    obtain ⟨b1, -, -, b4⟩ := hact a (lt_trans q2 hr)
    obtain ⟨c1, -, -, c4⟩ := hact b (lt_trans q3 hr)
    exact ⟨q1, ⟨a1, a2, a3, a4⟩, ⟨b1, b4⟩, ⟨c1, c4⟩, q7⟩
  -- the seed store
  obtain ⟨r1, -, -, -⟩ := hact ret hret
  set m1 : Machine := ({ (Machine.init shadow) with
    diffe := Function.update (Machine.init shadow).diffe ret s }).setResult 0 with hm1
  have hB0 : exec E [RInst.store .differetval (.differential ret)] (Machine.init shadow)
      = some m1 := by
    simp [exec, step, evalVal, hE, hm1]
  obtain ⟨B', m', h1, h2, -, h4, -⟩ := reverseInsts_exec g E body.reverse hsweep
    [RInst.store .differetval (.differential ret)] (Machine.init shadow) m1 hB0
    (by simp [hm1, Machine.setResult, Machine.init])
  refine ⟨B', m', ?_, h2, ?_⟩
  · simp [reverseBlock, r1, setDiffe, Builder.Insert, h1]
  -- the invariant of the sweep
  have hd0 : ∀ j, N ≤ j → m1.diffe j = 0 := by
    intro j hj
    have : j ≠ ret := Nat.ne_of_gt (lt_of_lt_of_le hret hj)
    simp [hm1, Machine.setResult, Machine.init, Function.update_noteq this]
  obtain ⟨inv1, inv2⟩ := pullbackSweep_reverse_invariant body n N E.lookup T m1.diffe hwf hN
    (fun j hj => tangentEq_mono _ _ _ _ _ (Nat.zero_le n) (hTE j hj)) hd0
  rw [← h4] at inv1 inv2
  -- the pairing before the sweep
  have hpair0 : pairing m1.diffe T N = s * T ret := by
    have : m1.diffe = Function.update (fun _ => (0 : ℚ)) ret s := by
      simp [hm1, Machine.setResult, Machine.init]
    rw [this, pairing_update _ _ _ _ _ hret]
    simp [pairing]
  -- the pairing after the sweep
  have hst : ∀ j, j < n → T j = T0 j := fun j hj =>
    (evalBody_tangentBody_stable body n x T0 hwf j hj).2
  have hpair1 : pairing m'.diffe T N = m'.diffe i := by
    unfold pairing
    rw [Finset.sum_eq_single i]
    · rw [hst i hi]; simp [hT0]
    · intro j _ hji
      by_cases hjn : j < n
      · rw [hst j hjn]; simp [hT0, hji]
      · rw [inv2 j (not_lt.mp hjn)]; simp
    · intro hmem
      exact absurd (Finset.mem_range.mpr (lt_of_lt_of_le hi (Nat.le_add_right _ _))) hmem
  -- the tangent is the derivative
  have hderiv : HasDerivAt (fun t => evalBody (Function.update x i t) body ret) (T ret) (x i) := by
    have := hasDerivAt_evalBody body (fun t => Function.update x i t) T0 (x i) (by
      intro j
      by_cases hj : j = i
      · subst hj
        simp only [Function.update_same, hT0, if_true]
        exact hasDerivAt_id (x j)
      · simp only [Function.update_noteq hj, hT0, if_neg hj]
        exact hasDerivAt_const (x i) (x j)) (by simpa using hdiv) ret
    simpa using this
  rw [hderiv.deriv, ← hpair1, inv1, hpair0]

theorem reverseInst_math (g : DiffeGradientUtils) (r a : Value) (iid : Intrinsic) (B : Builder)
    (hiid : iid = .sqrt ∨ iid = .log ∨ iid = .exp ∨ iid = .sin ∨ iid = .cos)
    (hr : g.isConstantValue r = false ∧ g.isConstantInstruction r = false ∧
      g.originalInstructions r = true ∧ ∃ w, g.typeOf r = .fp w)
    (ha : g.isConstantValue a = false ∧ ∃ w, g.typeOf a = .fp w) :
    reverseInst g (.intrinsic r iid [a]) B = some (B ++ mathChunk B.length r iid a) := by
  obtain ⟨hr1, hr2, hr3, wr, hr4⟩ := hr
  obtain ⟨ha1, wa, ha2⟩ := ha
  rcases hiid with h | h | h | h | h <;> subst h <;>
    simp [reverseInst, reverseIntrinsic, intrinsicDifferentials, whenActive, intrinsicTail,
      diffe, setDiffe, addToDiffe, Builder.Insert, hr1, hr2, hr3, hr4, ha1, ha2,
      Ty.isPointerTy, Ty.isVoidTy, Ty.isIntOrIntVectorTy, Ty.isFPOrFPVectorTy,
      mathChunk, Nat.add_assoc]

/-- C5: for `r = sqrt(a)`, `log(a)`, `exp(a)`, `sin(a)`, `cos(a)` with `a` active, the
emitted code resets the accumulator of `r` and then adds to the accumulator of `a`
the increment `∂r/(2·r)`, `∂r/a`, `∂r·r`, `∂r·cos(a)`, `−∂r·sin(a)`, where `a` and
`r` are the looked-up primal operand and result and `∂r` the accumulator of `r`
before the reset; the two quotients are stated for a nonzero divisor. -/
theorem math_intrinsic_pullback (g : DiffeGradientUtils) (E : Env) (r a : Value)
    (B : Builder) (m : Machine)
    (hr : g.isConstantValue r = false ∧ g.isConstantInstruction r = false ∧
      g.originalInstructions r = true ∧ ∃ w, g.typeOf r = .fp w)
    (ha : g.isConstantValue a = false ∧ ∃ w, g.typeOf a = .fp w)
    (hnext : m.next = B.length) :
    (E.lookup r ≠ 0 →
      ∃ chunk, reverseInst g (.intrinsic r .sqrt [a]) B = some (B ++ chunk) ∧
        (exec E chunk m).map Machine.diffe
          = some (resetThenAdd m.diffe r a (m.diffe r / (2 * E.lookup r)))) ∧
    (E.lookup a ≠ 0 →
      ∃ chunk, reverseInst g (.intrinsic r .log [a]) B = some (B ++ chunk) ∧
        (exec E chunk m).map Machine.diffe
          = some (resetThenAdd m.diffe r a (m.diffe r / E.lookup a))) ∧
    (∃ chunk, reverseInst g (.intrinsic r .exp [a]) B = some (B ++ chunk) ∧
        (exec E chunk m).map Machine.diffe
          = some (resetThenAdd m.diffe r a (m.diffe r * E.lookup r))) ∧
    (∃ chunk, reverseInst g (.intrinsic r .sin [a]) B = some (B ++ chunk) ∧
        (exec E chunk m).map Machine.diffe
          = some (resetThenAdd m.diffe r a (m.diffe r * E.intrinsic .cos [E.lookup a]))) ∧
    (∃ chunk, reverseInst g (.intrinsic r .cos [a]) B = some (B ++ chunk) ∧
        (exec E chunk m).map Machine.diffe
          = some (resetThenAdd m.diffe r a (-(m.diffe r * E.intrinsic .sin [E.lookup a])))) := by
  refine ⟨fun h0 => ⟨_, reverseInst_math g r a .sqrt B (by simp) hr ha, ?_⟩,
    fun h0 => ⟨_, reverseInst_math g r a .log B (by simp) hr ha, ?_⟩,
    ⟨_, reverseInst_math g r a .exp B (by simp) hr ha, ?_⟩,
    ⟨_, reverseInst_math g r a .sin B (by simp) hr ha, ?_⟩,
    ⟨_, reverseInst_math g r a .cos B (by simp) hr ha, ?_⟩⟩ <;>
  · rw [← hnext]
    simp [mathChunk, exec, step, stepBin, evalVal, evalVals, Intrinsic.isMath,
      Machine.setResult, resetThenAdd, Function.update_apply, Nat.add_assoc, *]

theorem allActiveUtils_allActive (n : Nat) : allActive allActiveUtils n :=
  fun _ _ => ⟨rfl, rfl, rfl, .double, rfl⟩

theorem reverse_sweep_gradient_witness :
    wellFormedBody 2 exampleBody = true ∧ divisorsNonzero examplePoint exampleBody = true ∧
    ∃ code m, reverseBlock allActiveUtils true true (.ret 5) exampleBody = some code ∧
      exec ⟨evalBody examplePoint exampleBody, 1, fun _ _ => 0⟩ code
        (Machine.init (fun _ => 0)) = some m ∧
      m.diffe 0 = 1 * deriv (fun t => evalBody (Function.update examplePoint 0 t)
        exampleBody 5) (examplePoint 0) :=
  ⟨by decide, by simp [divisorsNonzero, exampleBody, examplePoint, evalBinOp],
    reverse_sweep_gradient allActiveUtils 2 exampleBody 5 examplePoint 1 0 true
      (fun _ _ => 0) (fun _ => 0) (by decide) (by decide) (allActiveUtils_allActive _)
      (by simp [divisorsNonzero, exampleBody, examplePoint, evalBinOp]) (by decide)⟩

/-- C2: for `r = a*a` with `a` active, the emitted code adds both operand
contributions to the one accumulator of `a`, which grows by `2·∂r·a`, and resets the
accumulator of `r`; for `f(x) = x*x` at `x = 3` with seed 1 the gradient is 6. -/
theorem fmul_same_operand (g : DiffeGradientUtils) (E : Env) (r a : Value) (B : Builder)
    (m : Machine)
    (hr : g.isConstantValue r = false ∧ g.isConstantInstruction r = false ∧
      g.originalInstructions r = true ∧ ∃ w, g.typeOf r = .fp w)
    (ha : g.isConstantValue a = false ∧ ∃ w, g.typeOf a = .fp w)
    (hne : a ≠ r) (hnext : m.next = B.length) :
    (∃ chunk m', reverseInst g (.binop r .FMul a a) B = some (B ++ chunk) ∧
      exec E chunk m = some m' ∧
      m'.diffe a = m.diffe a + 2 * m.diffe r * E.lookup a ∧ m'.diffe r = 0) ∧
    (∃ code, reverseBlock allActiveUtils true true (.ret 1) [.binop 1 .FMul 0 0] = some code ∧
      (exec ⟨evalBody (fun _ => 3) [.binop 1 .FMul 0 0], 1, E.intrinsic⟩ code
        (Machine.init (fun _ => 0))).map (fun m' => m'.diffe 0) = some 6) := by
  constructor
  · obtain ⟨m', hx, -, hd, -⟩ := binopChunk_exec E r a a .FMul m (by simp) (by simp)
    rw [hnext] at hx
    refine ⟨_, m', reverseInst_binop g r a a .FMul B (by simp) hr ha ha, hx, ?_, ?_⟩
    · rw [hd]; simp [pullback, Function.update_apply, hne]; ring
    · rw [hd]; simp [pullback, Function.update_apply, hne.symm]
  · refine ⟨[.store .differetval (.differential 1),
      .load (.differential 1), .fmul (.inst 1) (.lookup 0),
      .load (.differential 1), .fmul (.inst 3) (.lookup 0),
      .store .nullValue (.differential 1),
      .load (.differential 0), .fadd (.inst 6) (.inst 2), .store (.inst 7) (.differential 0),
      .load (.differential 0), .fadd (.inst 9) (.inst 4), .store (.inst 10) (.differential 0)],
      rfl, ?_⟩
    simp [exec, step, stepBin, evalVal, Machine.setResult, Machine.init, Function.update_apply,
      evalBody, evalBinOp]
    norm_num

theorem fmul_same_operand_witness :
    (∃ chunk m', reverseInst allActiveUtils (.binop 1 .FMul 0 0) [] = some ([] ++ chunk) ∧
      exec exampleEnv chunk (Machine.init (fun _ => 0)) = some m' ∧
      m'.diffe 0 = (Machine.init (fun _ => 0)).diffe 0
        + 2 * (Machine.init (fun _ => 0)).diffe 1 * exampleEnv.lookup 0 ∧ m'.diffe 1 = 0) :=
  (fmul_same_operand allActiveUtils exampleEnv 1 0 [] (Machine.init (fun _ => 0))
    ⟨rfl, rfl, rfl, .double, rfl⟩ ⟨rfl, .double, rfl⟩ (by decide) rfl).1

/-- C3: for `r = fabs(a)` with `a` active, the emitted code resets the accumulator of
`r` and adds to the accumulator of `a` the constant `-1` when the looked-up `a` is
below zero and `+1` otherwise; the incoming adjoint `∂r` does not enter the
increment.  With `a = 3`, `∂r = 2` the accumulator of `a` grows by 1, not by 2. -/
theorem fabs_pullback_ignores_adjoint (E : Env) (regs : Nat → ℚ) (d sh : Value → ℚ) :
    (∃ code, reverseInst allActiveUtils (.intrinsic 1 .fabs [0]) [] = some code ∧
      (exec E code ⟨regs, 0, d, sh⟩).map Machine.diffe
        = some (resetThenAdd d 1 0 (if E.lookup 0 < 0 then -1 else 1))) ∧
    (∃ code, reverseInst allActiveUtils (.intrinsic 1 .fabs [0]) [] = some code ∧
      (exec exampleEnv code ⟨regs, 0, Function.update (fun _ => 0) 1 2, sh⟩).map
        (fun m => m.diffe 0) = some 1) := by
  constructor
  · refine ⟨[.fcmpOLT (.lookup 0) (.constantFP 0),
      .select (.inst 0) (.constantFP (-1)) (.constantFP 1),
      .store .nullValue (.differential 1), .load (.differential 0),
      .fadd (.inst 3) (.inst 1), .store (.inst 4) (.differential 0)], rfl, ?_⟩
    by_cases h : E.lookup 0 < 0 <;>
      simp [exec, step, stepBin, evalVal, Machine.setResult, resetThenAdd,
        Function.update_apply, h]
  · refine ⟨[.fcmpOLT (.lookup 0) (.constantFP 0),
      .select (.inst 0) (.constantFP (-1)) (.constantFP 1),
      .store .nullValue (.differential 1), .load (.differential 0),
      .fadd (.inst 3) (.inst 1), .store (.inst 4) (.differential 0)], rfl, ?_⟩
    simp [exec, step, stepBin, evalVal, Machine.setResult, exampleEnv, Function.update_apply]

/-- C4: for `r = pow(a, b)` with both operands active, the emitted code adds
`∂r·pow(a, b−1)·b` to the accumulator of `a` and `∂r·r·log(b)` to the accumulator
of `b`: the logarithm is taken of the looked-up exponent `b`, not of the base `a`. -/
theorem pow_pullback_logs_exponent (E : Env) (regs : Nat → ℚ) (d sh : Value → ℚ) :
    ∃ code, reverseInst allActiveUtils (.intrinsic 2 .pow [0, 1]) [] = some code ∧
      (exec E code ⟨regs, 0, d, sh⟩).map Machine.diffe
        = some (Function.update
            (Function.update (Function.update d 2 0) 0
              (d 0 + d 2 * E.intrinsic .pow [E.lookup 0, E.lookup 1 - 1] * E.lookup 1))
            1 (d 1 + d 2 * E.lookup 2 * E.intrinsic .log [E.lookup 1])) := by
  refine ⟨[.fsub (.lookup 1) (.constantFP 1), .call .pow [.lookup 0, .inst 0],
    .load (.differential 2), .fmul (.inst 2) (.inst 1), .fmul (.inst 3) (.lookup 1),
    .load (.differential 2), .fmul (.inst 5) (.lookup 2), .call .log [.lookup 1],
    .fmul (.inst 6) (.inst 7),
    .store .nullValue (.differential 2),
    .load (.differential 0), .fadd (.inst 10) (.inst 4), .store (.inst 11) (.differential 0),
    .load (.differential 1), .fadd (.inst 13) (.inst 8), .store (.inst 14) (.differential 1)],
    rfl, ?_⟩
  simp [exec, step, stepBin, evalVal, evalVals, Intrinsic.isMath, Machine.setResult,
    Function.update_apply]

theorem math_intrinsic_pullback_witness :
    (∃ chunk, reverseInst allActiveUtils (.intrinsic 1 .sqrt [0]) [] = some ([] ++ chunk) ∧
      (exec exampleEnv chunk (Machine.init (fun _ => 0))).map Machine.diffe
        = some (resetThenAdd (Machine.init (fun _ => 0)).diffe 1 0
            ((Machine.init (fun _ => 0)).diffe 1 / (2 * exampleEnv.lookup 1)))) ∧
    (∃ chunk, reverseInst allActiveUtils (.intrinsic 1 .log [0]) [] = some ([] ++ chunk) ∧
      (exec exampleEnv chunk (Machine.init (fun _ => 0))).map Machine.diffe
        = some (resetThenAdd (Machine.init (fun _ => 0)).diffe 1 0
            ((Machine.init (fun _ => 0)).diffe 1 / exampleEnv.lookup 0))) :=
  have h := math_intrinsic_pullback allActiveUtils exampleEnv 1 0 [] (Machine.init (fun _ => 0))
    ⟨rfl, rfl, rfl, .double, rfl⟩ ⟨rfl, .double, rfl⟩ rfl
  ⟨h.1 (by simp [exampleEnv]), h.2.1 (by simp [exampleEnv])⟩

/-- C6: for a non-constant scalar store `store v, p` with `v` active the emitted code
adds the value loaded from the shadow cell of `p` to the accumulator of `v` and
zeroes the shadow cell; when the stored value is a constant the reverse sweep emits
nothing, so the shadow cell is left as it was. -/
theorem store_constant_value_keeps_shadow (E : Env) (regs : Nat → ℚ) (d sh : Value → ℚ)
    (B : Builder) :
    (∃ code, reverseInst activeStoreUtils (.store 2 0 1) [] = some code ∧
      (exec E code ⟨regs, 0, d, sh⟩).map (fun m => (m.diffe, m.shadow))
        = some (Function.update d 0 (d 0 + sh 1), Function.update sh 1 0)) ∧
    reverseInst constantStoreUtils (.store 2 0 1) B = some B := by
  constructor
  · refine ⟨[.load (.invertPointer 1), .load (.differential 0), .fadd (.inst 1) (.inst 0),
      .store (.inst 2) (.differential 0), .store .nullValue (.invertPointer 1)], rfl, ?_⟩
    simp [exec, step, stepBin, evalVal, Machine.setResult, Function.update_apply]
  · rfl

/-- C7, as the claim states it, fails: for a non-constant `memset` of a constant
value the reverse sweep does emit an instruction, the `memset` call on the shadow
pointer. -/
theorem memset_reverse_not_empty :
    ¬ (reverseInst memsetUtils (.intrinsic 4 .memset [0, 1, 2, 3]) [] = some []) := by
  decide

/-- The helper `invertPointerM` only appends to the reverse block. -/
theorem invertPointerM_appends (g : DiffeGradientUtils) :
    ∀ (d : PointerDef) (val : Value) (B : Builder) (r : RVal × Builder),
      invertPointerM g d val B = some r → ∃ pre, r.2 = B ++ pre := by
  intro d
  induction d with
  | ConstantPointerNull =>
    intro val B r h
    simp only [invertPointerM, Option.some.injEq] at h
    subst h; exact ⟨[], by simp⟩
  | UndefValue =>
    intro val B r h
    simp only [invertPointerM, Option.some.injEq] at h
    subst h; exact ⟨[], by simp⟩
  | ConstantInt n =>
    intro val B r h
    simp only [invertPointerM] at h
    split_ifs at h
    simp only [Option.some.injEq] at h
    subst h; exact ⟨[], by simp⟩
  | inverted =>
    intro val B r h
    simp only [invertPointerM] at h
    split_ifs at h
    simp only [Option.some.injEq] at h
    subst h; exact ⟨[], by simp⟩
  | CastInst op d ih =>
    intro val B r h
    simp only [invertPointerM] at h
    split_ifs at h
    cases hr : invertPointerM g d op B with
    | none => simp [hr] at h
    | some q =>
      obtain ⟨pre, hpre⟩ := ih op B q hr
      simp only [hr, Builder.Insert, Option.some.injEq] at h
      subst h
      exact ⟨pre ++ [.cast q.1], by simp [hpre]⟩
  | LoadInst op d ih =>
    intro val B r h
    simp only [invertPointerM] at h
    split_ifs at h
    cases hr : invertPointerM g d op B with
    | none => simp [hr] at h
    | some q =>
      obtain ⟨pre, hpre⟩ := ih op B q hr
      simp only [hr, Builder.Insert, Option.some.injEq] at h
      subst h
      exact ⟨pre ++ [.load q.1], by simp [hpre]⟩
  | GetElementPtrInst indices ptr d ih =>
    intro val B r h
    simp only [invertPointerM] at h
    split_ifs at h
    cases hr : invertPointerM g d ptr B with
    | none => simp [hr] at h
    | some q =>
      obtain ⟨pre, hpre⟩ := ih ptr B q hr
      simp only [hr, Builder.Insert, Option.some.injEq] at h
      subst h
      exact ⟨pre ++ [.getElementPtr q.1 (indices.map RVal.lookup)], by simp [hpre]⟩
  | forward built =>
    intro val B r h
    simp only [invertPointerM] at h
    split_ifs at h
    simp only [Option.some.injEq] at h
    subst h; exact ⟨[], by simp⟩
  | other =>
    intro val B r h
    simp [invertPointerM] at h

/-- C7, amended: for a `memset` that is an original, non-constant instruction the
reverse sweep is no no-op.  A value operand that is not a constant value is a fatal
error.  With a constant value operand the sweep emits what `invertPointer` emits
for the shadow pointer of the destination and then a `memset` call on that shadow
pointer with the value, length and volatile operands given by `lookup`, and it
fails where `invertPointer` does; so whatever it emits ends in the `memset` call.
For a destination that is not constant and has its shadow in `invertedPointers`
the call is made on the lookup of that shadow, and nothing but what `lookup` needs
is emitted before it. -/
theorem memset_reverse_emits_shadow_memset (g : DiffeGradientUtils)
    (inst dst val len vol : Value) (B : Builder)
    (horig : g.originalInstructions inst = true)
    (hinst : g.isConstantInstruction inst = false) :
    (g.isConstantValue val = false →
      reverseInst g (.intrinsic inst .memset [dst, val, len, vol]) B = none) ∧
    (g.isConstantValue val = true →
      reverseInst g (.intrinsic inst .memset [dst, val, len, vol]) B =
        (invertPointer g dst B).map (fun r =>
          r.2 ++ [.call .memset [r.1, .lookup val, .lookup len, .lookup vol]]) ∧
      (∀ code, reverseInst g (.intrinsic inst .memset [dst, val, len, vol]) B = some code →
        ∃ pre ptx, code =
          B ++ pre ++ [.call .memset [ptx, .lookup val, .lookup len, .lookup vol]]) ∧
      (g.pointerDef dst = .inverted → g.isConstantValue dst = false →
        reverseInst g (.intrinsic inst .memset [dst, val, len, vol]) B =
          some (B ++
            [.call .memset [.invertPointer dst, .lookup val, .lookup len, .lookup vol]]))) := by
  have key : g.isConstantValue val = true →
      reverseInst g (.intrinsic inst .memset [dst, val, len, vol]) B =
        (invertPointer g dst B).map (fun r =>
          r.2 ++ [.call .memset [r.1, .lookup val, .lookup len, .lookup vol]]) := by
    intro hval
    simp only [reverseInst, reverseIntrinsic, horig, hinst, hval, Builder.Insert]
    cases invertPointer g dst B <;> simp
  refine ⟨?_, fun hval => ⟨key hval, ?_, ?_⟩⟩
  · intro hval
    simp [reverseInst, reverseIntrinsic, horig, hinst, hval]
  · intro code hcode
    rw [key hval] at hcode
    cases hr : invertPointer g dst B with
    | none => simp [hr] at hcode
    | some r =>
      obtain ⟨pre, hpre⟩ := invertPointerM_appends g (g.pointerDef dst) dst B r hr
      simp only [hr, Option.map_some', Option.some.injEq] at hcode
      exact ⟨pre, r.1, by rw [← hcode, hpre]⟩
  · intro hd hdst
    rw [key hval]
    simp [invertPointer, invertPointerM, hd, hdst]

theorem memset_reverse_emits_shadow_memset_witness :
    reverseInst memsetUtils (.intrinsic 4 .memset [0, 1, 2, 3]) []
      = some ([] ++ [.call .memset [.invertPointer 0, .lookup 1, .lookup 2, .lookup 3]]) ∧
    reverseInst memsetCastUtils (.intrinsic 4 .memset [0, 1, 2, 3]) []
      = some [.cast (.invertPointer 5), .call .memset [.inst 0, .lookup 1, .lookup 2, .lookup 3]] ∧
    reverseInst activeStoreUtils (.intrinsic 4 .memset [0, 1, 2, 3]) [] = none :=
  ⟨((memset_reverse_emits_shadow_memset memsetUtils 4 0 1 2 3 [] rfl rfl).2 rfl).2.2 rfl rfl,
   ((memset_reverse_emits_shadow_memset memsetCastUtils 4 0 1 2 3 [] rfl rfl).2 rfl).1,
   (memset_reverse_emits_shadow_memset activeStoreUtils 4 0 1 2 3 [] rfl rfl).1 rfl⟩

/-- C8: `getConstantAnalysis` classifies a constant integer of bit width `w` and
unsigned value `v` uniformly, at the path `[-1]`, as Integer when `1 ≤ v ≤ 4096`, as
Integer when `v = 0` and `w = 8`, and as Anything when `v = 0` and `w ≠ 8`. -/
theorem getConstantAnalysis_constantInt (ctx : ConstantContext) (w v : Nat) :
    (1 ≤ v ∧ v ≤ 4096 →
      getConstantAnalysis ctx (.ConstantInt w v) = some ⟨[([-1], .Integer)]⟩) ∧
    (v = 0 ∧ w = 8 →
      getConstantAnalysis ctx (.ConstantInt w v) = some ⟨[([-1], .Integer)]⟩) ∧
    (v = 0 ∧ w ≠ 8 →
      getConstantAnalysis ctx (.ConstantInt w v) = some ⟨[([-1], .Anything)]⟩) := by
  refine ⟨?_, ?_, ?_⟩
  · rintro ⟨h1, h2⟩
    have : getLimitedValue v = v := by unfold getLimitedValue; omega
    simp [getConstantAnalysis, this, h1, h2, TypeTree.ofConcrete, TypeTree.Only]
  · rintro ⟨h1, h2⟩
    subst h1 h2
    simp [getConstantAnalysis, getLimitedValue, TypeTree.ofConcrete, TypeTree.Only]
  · rintro ⟨h1, h2⟩
    subst h1
    simp [getConstantAnalysis, getLimitedValue, TypeTree.ofConcrete, TypeTree.Only, h2]

theorem getConstantAnalysis_constantInt_witness :
    getConstantAnalysis exampleConstantContext (.ConstantInt 32 4096)
        = some ⟨[([-1], .Integer)]⟩ ∧
    getConstantAnalysis exampleConstantContext (.ConstantInt 8 0)
        = some ⟨[([-1], .Integer)]⟩ ∧
    getConstantAnalysis exampleConstantContext (.ConstantInt 32 0)
        = some ⟨[([-1], .Anything)]⟩ :=
  ⟨(getConstantAnalysis_constantInt exampleConstantContext 32 4096).1 ⟨by decide, by decide⟩,
   (getConstantAnalysis_constantInt exampleConstantContext 8 0).2.1 ⟨rfl, rfl⟩,
   (getConstantAnalysis_constantInt exampleConstantContext 32 0).2.2 ⟨rfl, by decide⟩⟩

theorem seenBounded_update (c : FnTypeInfo) (intseen : IntSeen) (val : Value) (s : Finset Int)
    (h : SeenBounded c intseen)
    (hs : (∀ op, c.kind val ≠ .CastInst op) → ∀ v ∈ s, -100 < v ∧ v < 100) :
    SeenBounded c (Function.update intseen val (some s)) := by
  intro w t hw hk v hv
  by_cases hwv : w = val
  · subst hwv
    rw [Function.update_same] at hw
    cases hw
    exact hs hk v hv
  · rw [Function.update_noteq hwv] at hw
    exact h w t hw hk v hv

theorem seenBounded_getD (c : FnTypeInfo) (intseen : IntSeen) (val : Value)
    (h : SeenBounded c intseen) (hk : ∀ op, c.kind val ≠ .CastInst op) :
    ∀ v ∈ (intseen val).getD ∅, -100 < v ∧ v < 100 := by
  intro v hv
  cases hs : intseen val with
  | none => rw [hs] at hv; simp at hv
  | some s => rw [hs] at hv; exact h val s hs hk v hv

theorem seenBounded_insertAllBounded (c : FnTypeInfo) (intseen : IntSeen) (val : Value)
    (vs : Finset Int) (h : SeenBounded c intseen) :
    SeenBounded c (insertAllBounded intseen val vs) := by
  apply seenBounded_update c intseen val _ h
  intro hk v hv
  rcases Finset.mem_union.mp hv with h1 | h1
  · exact seenBounded_getD c intseen val h hk v h1
  · have := (Finset.mem_filter.mp h1).2
    exact ⟨this.1, this.2⟩

theorem seenBounded_insert_zero (c : FnTypeInfo) (intseen : IntSeen) (val : Value)
    (h : SeenBounded c intseen) :
    SeenBounded c (Function.update intseen val (some (insert 0 ((intseen val).getD ∅)))) := by
  apply seenBounded_update c intseen val _ h
  intro hk v hv
  rcases Finset.mem_insert.mp hv with h1 | h1
  · subst h1; exact ⟨by decide, by decide⟩
  · exact seenBounded_getD c intseen val h hk v h1

theorem seenBounded_insertBounded (c : FnTypeInfo) (intseen : IntSeen) (val : Value) (x : Int)
    (h : SeenBounded c intseen) : SeenBounded c (insertBounded intseen val x) := by
  unfold insertBounded
  split
  · rename_i hx
    apply seenBounded_update c intseen val _ h
    intro hk v hv
    rcases Finset.mem_insert.mp hv with h1 | h1
    · subst h1; exact ⟨hx.1, hx.2⟩
    · exact seenBounded_getD c intseen val h hk v h1
  · exact h

theorem seenBounded_binary (c : FnTypeInfo) (opc : BinaryOps) (val : Value)
    (inset0 inset1 : Finset Int) (intseen : IntSeen) (h : SeenBounded c intseen) :
    SeenBounded c (knownIntegralValuesBinary opc val inset0 inset1 intseen) := by
  cases opc <;> simp only [knownIntegralValuesBinary] <;>
    first
    | exact h
    | exact seenBounded_insertAllBounded c _ _ _ h
    | (split
       · exact seenBounded_insert_zero c _ _ (seenBounded_insertAllBounded c _ _ _ h)
       · exact seenBounded_insertAllBounded c _ _ _ h)

theorem seenBounded_phi (c : FnTypeInfo) (DT : DominatorTree)
    (rec : Value → IntSeen → Option (Finset Int × IntSeen))
    (hrec : ∀ a seen r seen', SeenBounded c seen → rec a seen = some (r, seen') →
      SeenBounded c seen')
    (val : Value) (parent : Nat) (incoming : List (Value × Nat)) (intseen intseen' : IntSeen)
    (h : SeenBounded c intseen)
    (hrun : knownIntegralValuesPhi c DT rec val parent incoming intseen = some intseen') :
    SeenBounded c intseen' := by
  induction incoming generalizing intseen with
  | nil =>
    simp only [knownIntegralValuesPhi] at hrun
    cases hrun
    exact h
  | cons ab rest ih =>
    obtain ⟨a, b⟩ := ab
    simp only [knownIntegralValuesPhi] at hrun
    split at hrun
    · exact ih intseen h hrun
    · cases hr : rec a intseen with
      | none => rw [hr] at hrun; simp at hrun
      | some res =>
        obtain ⟨inset, seen1⟩ := res
        rw [hr] at hrun
        simp only at hrun
        have h1 := hrec a intseen inset seen1 h hr
        have h2 := seenBounded_insertAllBounded c seen1 val
          (inset.filter (fun p => p < 20 ∧ p > -20)) h1
        refine ih _ ?_ hrun
        split
        · split
          · exact seenBounded_insertBounded c _ _ _ h2
          · exact h2
        · exact h2

theorem knownIntegralValues_bounded (c : FnTypeInfo) (DT : DominatorTree) (fuel : Nat) :
    ∀ (val : Value) (intseen : IntSeen) (r : Finset Int) (intseen' : IntSeen),
      SeenBounded c intseen →
      knownIntegralValues c DT fuel val intseen = some (r, intseen') →
      SeenBounded c intseen' ∧
        ((∀ sext, c.kind val ≠ .ConstantInt sext) → c.kind val ≠ .Argument →
          (∀ op, c.kind val ≠ .CastInst op) → ∀ v ∈ r, -100 < v ∧ v < 100) := by
  induction fuel with
  | zero => intro val intseen r intseen' _ hrun; simp [knownIntegralValues] at hrun
  | succ fuel ih =>
    intro val intseen r intseen' h hrun
    unfold knownIntegralValues at hrun
    cases hk : c.kind val with
    | ConstantInt sext =>
      simp only [hk] at hrun
      cases hrun
      exact ⟨h, fun h1 _ _ => absurd rfl (h1 sext)⟩
    | Argument =>
      simp only [hk] at hrun
      split_ifs at hrun with hsz
      cases hkv : c.knownValues.lookup val with
      | none => rw [hkv] at hrun; simp at hrun
      | some s =>
        rw [hkv] at hrun
        cases hrun
        exact ⟨h, fun _ h2 _ => absurd rfl h2⟩
    | CastInst op =>
      simp only [hk] at hrun
      split_ifs at hrun with hsz
      cases hs : intseen val with
      | some s =>
        rw [hs] at hrun
        cases hrun
        exact ⟨h, fun _ _ h3 => absurd rfl (h3 op)⟩
      | none =>
        rw [hs] at hrun
        simp only at hrun
        cases hr : knownIntegralValues c DT fuel op (Function.update intseen val (some ∅)) with
        | none => rw [hr] at hrun; simp at hrun
        | some res =>
          obtain ⟨s, seen1⟩ := res
          rw [hr] at hrun
          cases hrun
          have h0 : SeenBounded c (Function.update intseen val (some ∅)) :=
            seenBounded_update c intseen val ∅ h (fun _ v hv => by simp at hv)
          have h1 := (ih op _ s seen1 h0 hr).1
          exact ⟨seenBounded_update c seen1 val s h1 (fun h3 => absurd hk (h3 op)),
            fun _ _ h3 => absurd rfl (h3 op)⟩
    | PHINode parent incoming =>
      have hkc : ∀ op, c.kind val ≠ .CastInst op := by intro op; rw [hk]; simp
      simp only [hk] at hrun
      split_ifs at hrun with hsz
      cases hs : intseen val with
      | some s =>
        rw [hs] at hrun
        cases hrun
        exact ⟨h, fun _ _ _ => h val r hs hkc⟩
      | none =>
        rw [hs] at hrun
        simp only at hrun
        cases hr : knownIntegralValuesPhi c DT (knownIntegralValues c DT fuel) val parent
            incoming (Function.update intseen val (some ∅)) with
        | none => rw [hr] at hrun; simp at hrun
        | some seen1 =>
          rw [hr] at hrun
          simp only [Option.some.injEq, Prod.mk.injEq] at hrun
          obtain ⟨hr', hseen'⟩ := hrun
          subst hseen' hr'
          have h0 : SeenBounded c (Function.update intseen val (some ∅)) :=
            seenBounded_update c intseen val ∅ h (fun _ v hv => by simp at hv)
          have h1 := seenBounded_phi c DT (knownIntegralValues c DT fuel)
            (fun a seen r seen' hb hrun => (ih a seen r seen' hb hrun).1)
            val parent incoming _ seen1 h0 hr
          exact ⟨h1, fun _ _ _ => seenBounded_getD c seen1 val h1 hkc⟩
    | BinaryOperator opc op0 op1 =>
      have hkc : ∀ op, c.kind val ≠ .CastInst op := by intro op; rw [hk]; simp
      simp only [hk] at hrun
      split_ifs at hrun with hsz
      cases hs : intseen val with
      | some s =>
        rw [hs] at hrun
        cases hrun
        exact ⟨h, fun _ _ _ => h val r hs hkc⟩
      | none =>
        rw [hs] at hrun
        simp only at hrun
        cases hr0 : knownIntegralValues c DT fuel op0 (Function.update intseen val (some ∅)) with
        | none => rw [hr0] at hrun; simp at hrun
        | some res0 =>
          obtain ⟨inset0, seen1⟩ := res0
          rw [hr0] at hrun
          simp only at hrun
          cases hr1 : knownIntegralValues c DT fuel op1 seen1 with
          | none => rw [hr1] at hrun; simp at hrun
          | some res1 =>
            obtain ⟨inset1, seen2⟩ := res1
            rw [hr1] at hrun
            simp only [Option.some.injEq, Prod.mk.injEq] at hrun
            obtain ⟨hr, hseen'⟩ := hrun
            subst hr hseen'
            have h0 : SeenBounded c (Function.update intseen val (some ∅)) :=
              seenBounded_update c intseen val ∅ h (fun _ v hv => by simp at hv)
            have h1 := (ih op0 _ inset0 seen1 h0 hr0).1
            have h2 := (ih op1 _ inset1 seen2 h1 hr1).1
            have h3 := seenBounded_binary c opc val inset0 inset1 seen2 h2
            exact ⟨h3, fun _ _ _ => seenBounded_getD c _ val h3 hkc⟩
    | other =>
      have hkc : ∀ op, c.kind val ≠ .CastInst op := by intro op; rw [hk]; simp
      simp only [hk] at hrun
      split_ifs at hrun with hsz
      cases hs : intseen val with
      | some s =>
        rw [hs] at hrun
        cases hrun
        exact ⟨h, fun _ _ _ => h val r hs hkc⟩
      | none =>
        rw [hs] at hrun
        cases hrun
        have h0 : SeenBounded c (Function.update intseen val (some ∅)) :=
          seenBounded_update c intseen val ∅ h (fun _ v hv => by simp at hv)
        exact ⟨h0, fun _ _ _ => seenBounded_getD c _ val h0 hkc⟩

/-- C9, as the claim states it, fails: queried for the constant integer 5000 the
function returns the set holding 5000, and it passes that set on through a cast;
queried for an argument for which the caller supplies the set holding 1000 it
returns that set. -/
theorem knownIntegralValues_constant_unbounded :
    (∃ seen, knownIntegralValues exampleFnTypeInfo (fun _ _ => false) 1 3 (fun _ => none)
        = some ({5000}, seen)) ∧
    (∃ seen, knownIntegralValues exampleFnTypeInfo (fun _ _ => false) 2 4 (fun _ => none)
        = some ({5000}, seen)) ∧
    ¬ (∀ v ∈ ({5000} : Finset Int), -100 < v ∧ v < 100) ∧
    (∃ seen, knownIntegralValues exampleFnTypeInfo (fun _ _ => false) 1 5 (fun _ => none)
        = some ({1000}, seen)) ∧
    ¬ (∀ v ∈ ({1000} : Finset Int), -100 < v ∧ v < 100) := by
  refine ⟨⟨fun _ => none, rfl⟩,
    ⟨Function.update (Function.update (fun _ => none) 4 (some ∅)) 4 (some {5000}), ?_⟩,
    by decide, ⟨fun _ => none, rfl⟩, by decide⟩
  simp [knownIntegralValues, exampleFnTypeInfo]

theorem keysGrow_refl (seen : IntSeen) : KeysGrow seen seen := fun _ h => h

theorem keysGrow_trans {s1 s2 s3 : IntSeen} (h1 : KeysGrow s1 s2) (h2 : KeysGrow s2 s3) :
    KeysGrow s1 s3 := fun w h => h2 w (h1 w h)

theorem keysGrow_update (seen : IntSeen) (val : Value) (s : Finset Int) :
    KeysGrow seen (Function.update seen val (some s)) := by
  intro w h
  by_cases hw : w = val
  · subst hw; simp
  · rwa [Function.update_noteq hw]

theorem keysGrow_insertAllBounded (seen : IntSeen) (val : Value) (vs : Finset Int) :
    KeysGrow seen (insertAllBounded seen val vs) := keysGrow_update seen val _

theorem keysGrow_insertBounded (seen : IntSeen) (val : Value) (x : Int) :
    KeysGrow seen (insertBounded seen val x) := by
  unfold insertBounded
  split
  · exact keysGrow_update seen val _
  · exact keysGrow_refl seen

theorem keysGrow_binary (opc : BinaryOps) (val : Value) (i0 i1 : Finset Int) (seen : IntSeen) :
    KeysGrow seen (knownIntegralValuesBinary opc val i0 i1 seen) := by
  cases opc <;> simp only [knownIntegralValuesBinary] <;>
    first
    | exact keysGrow_refl seen
    | exact keysGrow_insertAllBounded seen val _
    | (split
       · exact keysGrow_trans (keysGrow_insertAllBounded seen val _) (keysGrow_update _ val _)
       · exact keysGrow_insertAllBounded seen val _)

theorem unseen_mono (N : Nat) {seen seen' : IntSeen} (h : KeysGrow seen seen') :
    unseen N seen' ≤ unseen N seen := by
  unfold unseen
  apply Finset.card_le_card
  intro w hw
  rw [Finset.mem_filter] at hw ⊢
  refine ⟨hw.1, ?_⟩
  by_contra hne
  exact h w hne hw.2

theorem unseen_update_lt (N : Nat) (seen : IntSeen) (val : Value) (s : Finset Int)
    (hval : val < N) (hnone : seen val = none) :
    unseen N (Function.update seen val (some s)) < unseen N seen := by
  unfold unseen
  apply Finset.card_lt_card
  rw [Finset.ssubset_iff_of_subset]
  · refine ⟨val, ?_, ?_⟩
    · rw [Finset.mem_filter]; exact ⟨Finset.mem_range.mpr hval, hnone⟩
    · rw [Finset.mem_filter]; simp
  · intro w hw
    rw [Finset.mem_filter] at hw ⊢
    refine ⟨hw.1, ?_⟩
    by_contra hne
    exact keysGrow_update seen val s w hne hw.2

theorem knownIntegralValuesPhi_total (c : FnTypeInfo) (DT : DominatorTree) (N fuel : Nat)
    (rec : Value → IntSeen → Option (Finset Int × IntSeen))
    (hrec : ∀ a seen, a < N → unseen N seen < fuel →
      ∃ r seen', rec a seen = some (r, seen') ∧ KeysGrow seen seen')
    (val : Value) (parent : Nat) (incoming : List (Value × Nat))
    (hinc : ∀ p ∈ incoming, p.1 < N) (intseen : IntSeen) (hfuel : unseen N intseen < fuel) :
    ∃ seen', knownIntegralValuesPhi c DT rec val parent incoming intseen = some seen' ∧
      KeysGrow intseen seen' := by
  induction incoming generalizing intseen with
  | nil => exact ⟨intseen, rfl, keysGrow_refl _⟩
  | cons ab rest ih =>
    obtain ⟨a, b⟩ := ab
    have hrest : ∀ p ∈ rest, p.1 < N := fun p hp => hinc p (List.mem_cons_of_mem _ hp)
    simp only [knownIntegralValuesPhi]
    split
    · exact ih hrest intseen hfuel
    · obtain ⟨r, seen1, hr, hg1⟩ := hrec a intseen (hinc (a, b) (List.mem_cons_self _ _)) hfuel
      rw [hr]
      simp only
      have hg2 : KeysGrow intseen
          (insertAllBounded seen1 val (r.filter (fun p => p < 20 ∧ p > -20))) :=
        keysGrow_trans hg1 (keysGrow_insertAllBounded seen1 val _)
      have key : ∀ seen2, KeysGrow intseen seen2 →
          ∃ seen', knownIntegralValuesPhi c DT rec val parent rest seen2 = some seen' ∧
            KeysGrow intseen seen' := by
        intro seen2 hg
        obtain ⟨seen', h1, h2⟩ := ih hrest seen2 (lt_of_le_of_lt (unseen_mono N hg) hfuel)
        exact ⟨seen', h1, keysGrow_trans hg h2⟩
      split
      · split
        · exact key _ (keysGrow_trans hg2 (keysGrow_insertBounded _ val 0))
        · exact key _ hg2
      · exact key _ hg2

theorem knownIntegralValues_total (c : FnTypeInfo) (DT : DominatorTree) (N : Nat)
    (hclosed : ClosedBelow c N) (hsize : c.knownValues.length = c.getNumParams) (fuel : Nat) :
    ∀ (val : Value) (intseen : IntSeen), val < N → unseen N intseen < fuel →
      ∃ r seen', knownIntegralValues c DT fuel val intseen = some (r, seen') ∧
        KeysGrow intseen seen' := by
  induction fuel with
  | zero => intro val intseen _ h; exact absurd h (Nat.not_lt_zero _)
  | succ fuel ih =>
    intro val intseen hval hfuel
    have hc := hclosed val hval
    unfold knownIntegralValues
    simp only [ne_eq, hsize, not_true_eq_false, if_false]
    cases hk : c.kind val with
    | ConstantInt sext => exact ⟨_, _, rfl, keysGrow_refl _⟩
    | Argument =>
      rw [hk] at hc
      obtain ⟨s, hs⟩ := hc
      simp only [hs]
      exact ⟨_, _, rfl, keysGrow_refl _⟩
    | CastInst op =>
      rw [hk] at hc
      simp only
      cases hs : intseen val with
      | some s => exact ⟨_, _, rfl, keysGrow_refl _⟩
      | none =>
        simp only
        have hlt := unseen_update_lt N intseen val ∅ hval hs
        obtain ⟨r, seen1, hr, hg⟩ := ih op (Function.update intseen val (some ∅)) hc (by omega)
        rw [hr]
        exact ⟨_, _, rfl, keysGrow_trans (keysGrow_update intseen val ∅)
          (keysGrow_trans hg (keysGrow_update seen1 val r))⟩
    | PHINode parent incoming =>
      rw [hk] at hc
      simp only
      cases hs : intseen val with
      | some s => exact ⟨_, _, rfl, keysGrow_refl _⟩
      | none =>
        simp only
        have hlt := unseen_update_lt N intseen val ∅ hval hs
        obtain ⟨seen1, hr, hg⟩ := knownIntegralValuesPhi_total c DT N fuel
          (knownIntegralValues c DT fuel) ih val parent incoming hc
          (Function.update intseen val (some ∅)) (by omega)
        rw [hr]
        exact ⟨_, _, rfl, keysGrow_trans (keysGrow_update intseen val ∅) hg⟩
    | BinaryOperator opc op0 op1 =>
      rw [hk] at hc
      simp only
      cases hs : intseen val with
      | some s => exact ⟨_, _, rfl, keysGrow_refl _⟩
      | none =>
        simp only
        have hlt := unseen_update_lt N intseen val ∅ hval hs
        obtain ⟨r0, seen1, hr0, hg0⟩ :=
          ih op0 (Function.update intseen val (some ∅)) hc.1 (by omega)
        rw [hr0]
        simp only
        obtain ⟨r1, seen2, hr1, hg1⟩ := ih op1 seen1 hc.2
          (lt_of_le_of_lt (unseen_mono N hg0) (by omega))
        rw [hr1]
        exact ⟨_, _, rfl, keysGrow_trans (keysGrow_update intseen val ∅)
          (keysGrow_trans hg0 (keysGrow_trans hg1 (keysGrow_binary opc val r0 r1 seen2)))⟩
    | other =>
      simp only
      cases hs : intseen val with
      | some s => exact ⟨_, _, rfl, keysGrow_refl _⟩
      | none => exact ⟨_, _, rfl, keysGrow_update intseen val ∅⟩

theorem unseen_le (N : Nat) (intseen : IntSeen) : unseen N intseen ≤ N := by
  unfold unseen
  calc ((Finset.range N).filter (fun w => intseen w = none)).card
      ≤ (Finset.range N).card := Finset.card_filter_le _ _
    _ = N := Finset.card_range N

theorem exampleFnTypeInfo_closed : ClosedBelow exampleFnTypeInfo 6 := by
  intro v hv
  interval_cases v <;> simp [exampleFnTypeInfo]

/-- C9, amended.  What `knownIntegralValues` returns, by the class of the queried
value.  For a constant integer it is the singleton of the sign-extended value.
For any other value the assertion on the size of `knownValues` comes first, and a
size other than the number of parameters is fatal.  Past it, for an argument the
set is the entry of `knownValues`, and a missing entry is fatal; for a cast it is
the set the memo map holds for the cast if it holds one, and otherwise the set
returned for the operand, queried with the empty set memoized for the cast, and
that set is memoized for the cast; within a closed function of `N` values the
recursion ends within depth `N + 1`.  None of these three sets is bounded.  Given a
memo map whose sets for values that are not casts lie strictly between -100 and
100 (an empty map does), the memo map left by a query is such a map again, and the
set returned for a phi, a binary operator or any other value that is not a constant
integer, an argument or a cast lies strictly between -100 and 100. -/
theorem knownIntegralValues_by_kind (c : FnTypeInfo) (DT : DominatorTree)
    (val : Value) (intseen : IntSeen) :
    (∀ sext, c.kind val = .ConstantInt sext →
      ∀ fuel, knownIntegralValues c DT (fuel + 1) val intseen = some ({sext}, intseen)) ∧
    ((∀ sext, c.kind val ≠ .ConstantInt sext) → c.knownValues.length ≠ c.getNumParams →
      ∀ fuel, knownIntegralValues c DT fuel val intseen = none) ∧
    (c.knownValues.length = c.getNumParams →
      (c.kind val = .Argument →
        ∀ fuel, knownIntegralValues c DT (fuel + 1) val intseen =
          (c.knownValues.lookup val).map (fun s => (s, intseen))) ∧
      (∀ op, c.kind val = .CastInst op →
        ∀ fuel, knownIntegralValues c DT (fuel + 1) val intseen =
          match intseen val with
          | some s => some (s, intseen)
          | none =>
            (knownIntegralValues c DT fuel op (Function.update intseen val (some ∅))).map
              (fun r => (r.1, Function.update r.2 val (some r.1)))) ∧
      (∀ N, ClosedBelow c N → val < N →
        ∃ res, knownIntegralValues c DT (N + 1) val intseen = some res)) ∧
    (SeenBounded c intseen →
      ∀ fuel res, knownIntegralValues c DT fuel val intseen = some res →
        SeenBounded c res.2 ∧
        ((∀ sext, c.kind val ≠ .ConstantInt sext) → c.kind val ≠ .Argument →
          (∀ op, c.kind val ≠ .CastInst op) → ∀ v ∈ res.1, -100 < v ∧ v < 100)) := by
  refine ⟨?_, ?_, ?_, ?_⟩
  · intro sext hk fuel
    simp [knownIntegralValues, hk]
  · intro hk hsz fuel
    cases fuel with
    | zero => simp [knownIntegralValues]
    | succ fuel =>
      unfold knownIntegralValues
      cases hk' : c.kind val with
      | ConstantInt sext => exact absurd hk' (hk sext)
      | Argument => simp [hsz]
      | CastInst op => simp [hsz]
      | PHINode parent incoming => simp [hsz]
      | BinaryOperator opc op0 op1 => simp [hsz]
      | other => simp [hsz]
  · intro hsize
    refine ⟨?_, ?_, ?_⟩
    · intro hk fuel
      unfold knownIntegralValues
      simp only [hk, ne_eq, hsize, not_true_eq_false, if_false]
      cases c.knownValues.lookup val <;> rfl
    · intro op hk fuel
      cases hs : intseen val with
      | some s => simp [knownIntegralValues, hk, hsize, hs]
      | none =>
        cases hr : knownIntegralValues c DT fuel op (Function.update intseen val (some ∅)) with
        | none => simp [knownIntegralValues, hk, hsize, hs, hr]
        | some r => simp [knownIntegralValues, hk, hsize, hs, hr]
    · intro N hclosed hval
      obtain ⟨r, seen', h, -⟩ := knownIntegralValues_total c DT N hclosed hsize (N + 1) val
        intseen hval (Nat.lt_succ_of_le (unseen_le N intseen))
      exact ⟨_, h⟩
  · intro hseen fuel res hrun
    exact knownIntegralValues_bounded c DT fuel val intseen res.1 res.2 hseen hrun

theorem knownIntegralValues_by_kind_witness :
    knownIntegralValues exampleFnTypeInfo (fun _ _ => false) 1 3 (fun _ => none) =
      some ({5000}, fun _ => none) ∧
    knownIntegralValues exampleFnTypeInfo (fun _ _ => false) 1 5 (fun _ => none) =
      some ({1000}, fun _ => none) ∧
    knownIntegralValues exampleFnTypeInfo (fun _ _ => false) 2 4 (fun _ => none) =
      (knownIntegralValues exampleFnTypeInfo (fun _ _ => false) 1 3
          (Function.update ((fun _ => none) : IntSeen) 4 (some ∅))).map
        (fun (r : Finset Int × IntSeen) => (r.1, Function.update r.2 4 (some r.1))) ∧
    knownIntegralValues exampleFnTypeInfo (fun _ _ => false) 1 4
        (Function.update ((fun _ => none) : IntSeen) 4 (some {7})) =
      some ({7}, Function.update ((fun _ => none) : IntSeen) 4 (some {7})) ∧
    (∃ res, knownIntegralValues exampleFnTypeInfo (fun _ _ => false) (6 + 1) 2 (fun _ => none)
        = some res ∧ ∀ v ∈ res.1, -100 < v ∧ v < 100) :=
  ⟨(knownIntegralValues_by_kind exampleFnTypeInfo (fun _ _ => false) 3 (fun _ => none)).1
      5000 rfl 0,
   ((knownIntegralValues_by_kind exampleFnTypeInfo (fun _ _ => false) 5 (fun _ => none)).2.2.1
      rfl).1 rfl 0,
   ((knownIntegralValues_by_kind exampleFnTypeInfo (fun _ _ => false) 4 (fun _ => none)).2.2.1
      rfl).2.1 3 rfl 1,
   ((knownIntegralValues_by_kind exampleFnTypeInfo (fun _ _ => false) 4
      (Function.update ((fun _ => none) : IntSeen) 4 (some {7}))).2.2.1 rfl).2.1 3 rfl 0,
   (((knownIntegralValues_by_kind exampleFnTypeInfo (fun _ _ => false) 2
      (fun _ => none)).2.2.1 rfl).2.2 6 exampleFnTypeInfo_closed (by decide)).elim
     (fun res hres => ⟨res, hres,
       ((knownIntegralValues_by_kind exampleFnTypeInfo (fun _ _ => false) 2
          (fun _ => none)).2.2.2 (fun w s hw => by simp at hw) (6 + 1) res hres).2
         (fun s => by simp [exampleFnTypeInfo]) (by simp [exampleFnTypeInfo])
         (fun op => by simp [exampleFnTypeInfo])⟩)⟩

/-- C10: on two phis 0 and 1, where the only user of 1 is 0 and 0 is also stored,
`hasAnyUse(1)` is true on a fresh memo map, but false on the memo map that an
earlier query `hasAnyUse(0)` leaves: the provisional `false` stored for phi 1 while
phi 0 was still open is returned as its answer. -/
theorem hasAnyUse_depends_on_query_order :
    (hasAnyUse phiCycleGraph 3 1 (fun _ => none) none).map (fun r => r.1) = some true ∧
    ∃ seen, hasAnyUse phiCycleGraph 3 0 (fun _ => none) none = some (true, seen, none) ∧
      (hasAnyUse phiCycleGraph 3 1 seen none).map (fun r => r.1) = some false := by
  refine ⟨by decide, _, rfl, by decide⟩

theorem specParameters_nil (ca : Nat → Bool) (k : Nat) : specParameters ca k [] = [] := rfl

theorem specParameters_cons (ca : Nat → Bool) (k : Nat) (t : Ty) (rest : List Ty) :
    specParameters ca (k) (t :: rest) =
      (if !ca k && (t.isPointerTy || t.isIntegerTy) then [t, t] else [t]) ++
        specParameters ca (k + 1) rest := by
  simp [specParameters, List.enumFrom_cons, List.flatMap_cons]

theorem argLoop_fst (ca : Nat → Bool) : ∀ (args : List Ty) (k : Nat) (A R : List Ty),
    (CloneFunctionWithReturns.argLoop ca args k A R).1 = A ++ specParameters ca k args := by
  intro args
  induction args with
  | nil => intro k A R; simp [CloneFunctionWithReturns.argLoop, specParameters_nil]
  | cons t rest ih =>
    intro k A R
    rw [specParameters_cons]
    unfold CloneFunctionWithReturns.argLoop
    by_cases hc : ca k = true
    · simp [hc, ih]
    · by_cases hp : (t.isPointerTy || t.isIntegerTy) = true
      · simp [hc, hp, ih]
      · simp [hc, hp, ih]

theorem nameLoop_ptrInputs (ca : Nat → Bool) : ∀ (args : List Ty) (k jj : Nat) (r : ClonedArgs)
    (p : Nat × Nat), p ∈ (CloneFunctionWithReturns.nameLoop ca args k jj r).ptrInputs →
      p ∈ r.ptrInputs ∨ (p.2 = p.1 + 1 ∧ jj ≤ p.1 ∧
        ∃ t, (specParameters ca k args)[p.1 - jj]? = some t ∧
          (specParameters ca k args)[p.1 + 1 - jj]? = some t ∧
          (t.isPointerTy || t.isIntegerTy) = true) := by
  intro args
  induction args with
  | nil => intro k jj r p hp; left; simpa [CloneFunctionWithReturns.nameLoop] using hp
  | cons t rest ih =>
    intro k jj r p hp
    rw [specParameters_cons]
    unfold CloneFunctionWithReturns.nameLoop at hp
    by_cases hd : (!ca k && (t.isPointerTy || t.isIntegerTy)) = true
    · simp only [hd, if_true] at hp ⊢
      rcases ih _ _ _ p hp with h | ⟨h1, h2, u, h3, h4, h5⟩
      · have h' : p ∈ r.ptrInputs ∨ p = (jj, jj + 1) := by
          by_cases hc : ca k = true <;> simpa [hc] using h
        rcases h' with h' | h'
        · left; exact h'
        · right
          subst h'
          simp only [Bool.and_eq_true] at hd
          exact ⟨rfl, Nat.le_refl _, t, by simp, by simp, hd.2⟩
      · right
        refine ⟨h1, by omega, u, ?_, ?_, h5⟩
        · have e : p.1 - jj = (p.1 - (jj + 2)) + 2 := by omega
          rw [e]; simpa using h3
        · have e : p.1 + 1 - jj = (p.1 + 1 - (jj + 2)) + 2 := by omega
          rw [e]; simpa using h4
    · simp only [hd, if_false, Bool.false_eq_true] at hp ⊢
      rcases ih _ _ _ p hp with h | ⟨h1, h2, u, h3, h4, h5⟩
      · left
        by_cases hc : ca k = true <;> simpa [hc] using h
      · right
        refine ⟨h1, by omega, u, ?_, ?_, h5⟩
        · have e : p.1 - jj = (p.1 - (jj + 1)) + 1 := by omega
          rw [e]; simpa using h3
        · have e : p.1 + 1 - jj = (p.1 + 1 - (jj + 1)) + 1 := by omega
          rw [e]; simpa using h4

theorem nameLoop_mono (ca : Nat → Bool) : ∀ (args : List Ty) (k jj : Nat) (r : ClonedArgs),
    (∀ p ∈ r.ptrInputs, p ∈ (CloneFunctionWithReturns.nameLoop ca args k jj r).ptrInputs) ∧
    ∀ (i j : Nat), r.VMap[i]? = some j →
      (CloneFunctionWithReturns.nameLoop ca args k jj r).VMap[i]? = some j := by
  intro args
  induction args with
  | nil => intro k jj r; simp [CloneFunctionWithReturns.nameLoop]
  | cons t rest ih =>
    intro k jj r
    unfold CloneFunctionWithReturns.nameLoop
    by_cases hd : (!ca k && (t.isPointerTy || t.isIntegerTy)) = true
    · simp only [hd, if_true]
      refine ⟨fun p hp => (ih _ _ _).1 p ?_, fun i j hij => (ih _ _ _).2 i j ?_⟩
      · by_cases hc : ca k = true <;> simp [hc, hp]
      · have hlt : i < r.VMap.length := by
          rcases Nat.lt_or_ge i r.VMap.length with h | h
          · exact h
          · rw [List.getElem?_eq_none h] at hij; cases hij
        by_cases hc : ca k = true <;> simp [hc, List.getElem?_append_left hlt, hij]
    · simp only [hd, if_false, Bool.false_eq_true]
      refine ⟨fun p hp => (ih _ _ _).1 p ?_, fun i j hij => (ih _ _ _).2 i j ?_⟩
      · by_cases hc : ca k = true <;> simp [hc, hp]
      · have hlt : i < r.VMap.length := by
          rcases Nat.lt_or_ge i r.VMap.length with h | h
          · exact h
          · rw [List.getElem?_eq_none h] at hij; cases hij
        by_cases hc : ca k = true <;> simp [hc, List.getElem?_append_left hlt, hij]

theorem nameLoop_VMap (ca : Nat → Bool) : ∀ (args : List Ty) (k jj : Nat) (r : ClonedArgs)
    (i : Nat) (t : Ty), args[i]? = some t →
      ∃ j, (CloneFunctionWithReturns.nameLoop ca args k jj r).VMap[r.VMap.length + i]? = some j ∧
        jj ≤ j ∧ (specParameters ca k args)[j - jj]? = some t ∧
        ((!ca (k + i) && (t.isPointerTy || t.isIntegerTy)) = true →
          (j, j + 1) ∈ (CloneFunctionWithReturns.nameLoop ca args k jj r).ptrInputs) := by
  intro args
  induction args with
  | nil => intro k jj r i t h; simp at h
  | cons a rest ih =>
    intro k jj r i t h
    rw [specParameters_cons]
    cases i with
    | zero =>
      simp only [List.getElem?_cons_zero, Option.some.injEq] at h
      subst h
      unfold CloneFunctionWithReturns.nameLoop
      by_cases hd : (!ca k && (a.isPointerTy || a.isIntegerTy)) = true
      · simp only [hd, if_true, Nat.add_zero]
        refine ⟨jj, (nameLoop_mono ca _ _ _ _).2 _ _ (by
          by_cases hc : ca k = true <;> simp [hc]), Nat.le_refl _, by simp, fun _ =>
          (nameLoop_mono ca _ _ _ _).1 _ (by by_cases hc : ca k = true <;> simp [hc])⟩
      · simp only [hd, if_false, Bool.false_eq_true, Nat.add_zero]
        refine ⟨jj, (nameLoop_mono ca _ _ _ _).2 _ _ (by
          by_cases hc : ca k = true <;> simp [hc]), Nat.le_refl _, by simp, fun h => ?_⟩
        exact absurd h (by simp)
    | succ i =>
      simp only [List.getElem?_cons_succ] at h
      unfold CloneFunctionWithReturns.nameLoop
      by_cases hd : (!ca k && (a.isPointerTy || a.isIntegerTy)) = true
      · simp only [hd, if_true]
        obtain ⟨j, h1, h2, h3, h4⟩ := ih (k + 1) (jj + 2)
          { (if ca k = true then { r with constants := r.constants ++ [jj] }
              else { r with nonconstant := r.nonconstant ++ [jj] }) with
            VMap := (if ca k = true then { r with constants := r.constants ++ [jj] }
              else { r with nonconstant := r.nonconstant ++ [jj] }).VMap ++ [jj],
            ptrInputs := (if ca k = true then { r with constants := r.constants ++ [jj] }
              else { r with nonconstant := r.nonconstant ++ [jj] }).ptrInputs ++ [(jj, jj + 1)],
            nonconstant := (if ca k = true then { r with constants := r.constants ++ [jj] }
              else { r with nonconstant := r.nonconstant ++ [jj] }).nonconstant ++ [jj + 1] } i t h
        have hl : (if ca k = true then { r with constants := r.constants ++ [jj] }
              else { r with nonconstant := r.nonconstant ++ [jj] }).VMap = r.VMap := by
          by_cases hc : ca k = true <;> simp [hc]
        refine ⟨j, ?_, by omega, ?_, ?_⟩
        · have e : r.VMap.length + (i + 1) = (r.VMap ++ [jj]).length + i := by simp; omega
          rw [e]; simpa [hl] using h1
        · have e : j - jj = (j - (jj + 2)) + 2 := by omega
          rw [e]; simpa using h3
        · intro hh
          have e : k + (i + 1) = k + 1 + i := by omega
          rw [e] at hh
          exact h4 hh
      · simp only [hd, if_false, Bool.false_eq_true]
        obtain ⟨j, h1, h2, h3, h4⟩ := ih (k + 1) (jj + 1)
          { (if ca k = true then { r with constants := r.constants ++ [jj] }
              else { r with nonconstant := r.nonconstant ++ [jj] }) with
            VMap := (if ca k = true then { r with constants := r.constants ++ [jj] }
              else { r with nonconstant := r.nonconstant ++ [jj] }).VMap ++ [jj] } i t h
        have hl : (if ca k = true then { r with constants := r.constants ++ [jj] }
              else { r with nonconstant := r.nonconstant ++ [jj] }).VMap = r.VMap := by
          by_cases hc : ca k = true <;> simp [hc]
        refine ⟨j, ?_, by omega, ?_, ?_⟩
        · have e : r.VMap.length + (i + 1) = (r.VMap ++ [jj]).length + i := by simp; omega
          rw [e]; simpa [hl] using h1
        · have e : j - jj = (j - (jj + 1)) + 1 := by omega
          rw [e]; simpa using h3
        · intro hh
          have e : k + (i + 1) = k + 1 + i := by omega
          rw [e] at hh
          exact h4 hh

/-- C13: the parameter list `CloneFunctionWithReturns` builds is the one the
specification words: every primal parameter type, doubled exactly for the
non-constant pointer or integer parameters, then the return type exactly when a
differential return argument is requested and the return type is neither pointer
nor integer, then the tape type when supplied; every shadow recorded in
`ptrInputs` sits directly after its primal parameter and has its type, and every
non-constant pointer or integer parameter has one. -/
theorem CloneFunctionWithReturns_parameter_list (F : PrimalFunction)
    (constant_args : Nat → Bool) (returnValue : ReturnType)
    (differentialReturn diffeReturnArg : Bool) (additionalArg : Option Ty)
    (hF : F.empty = false)
    (hV : (diffeReturnArg && differentialReturn) = true → F.ret.isVoidTy = false) :
    ∃ c, CloneFunctionWithReturns F constant_args returnValue differentialReturn
        diffeReturnArg additionalArg = some c ∧
      c.ArgTypes =
        specParameterList F constant_args differentialReturn diffeReturnArg additionalArg ∧
      (∀ p ∈ c.cloned.ptrInputs, p.2 = p.1 + 1 ∧
        ∃ t, c.ArgTypes[p.1]? = some t ∧ c.ArgTypes[p.2]? = some t ∧
          (t.isPointerTy || t.isIntegerTy) = true) ∧
      (∀ (i : Nat) (t : Ty), F.args[i]? = some t →
        ∃ j, c.cloned.VMap[i]? = some j ∧ c.ArgTypes[j]? = some t ∧
          ((!constant_args i && (t.isPointerTy || t.isIntegerTy)) = true →
            (j, j + 1) ∈ c.cloned.ptrInputs)) := by
  have hnv : (diffeReturnArg && differentialReturn && !F.ret.isPointerTy && !F.ret.isIntegerTy &&
      F.ret.isVoidTy) = false := by
    by_cases h : (diffeReturnArg && differentialReturn) = true
    · simp [hV h]
    · simp only [Bool.not_eq_true] at h
      simp [h]
  have hA := argLoop_fst constant_args F.args 0 []
    (if returnValue = .ArgsWithReturn then [F.ret] else [])
  have hc : CloneFunctionWithReturns F constant_args returnValue differentialReturn
      diffeReturnArg additionalArg = some
        { ArgTypes :=
            (match additionalArg with
              | some t =>
                (if (diffeReturnArg && differentialReturn && !F.ret.isPointerTy &&
                    !F.ret.isIntegerTy) = true
                  then (CloneFunctionWithReturns.argLoop constant_args F.args 0 []
                    (if returnValue = .ArgsWithReturn then [F.ret] else [])).1 ++ [F.ret]
                  else (CloneFunctionWithReturns.argLoop constant_args F.args 0 []
                    (if returnValue = .ArgsWithReturn then [F.ret] else [])).1) ++ [t]
              | none =>
                (if (diffeReturnArg && differentialReturn && !F.ret.isPointerTy &&
                    !F.ret.isIntegerTy) = true
                  then (CloneFunctionWithReturns.argLoop constant_args F.args 0 []
                    (if returnValue = .ArgsWithReturn then [F.ret] else [])).1 ++ [F.ret]
                  else (CloneFunctionWithReturns.argLoop constant_args F.args 0 []
                    (if returnValue = .ArgsWithReturn then [F.ret] else [])).1)),
          RetTypes := (CloneFunctionWithReturns.argLoop constant_args F.args 0 []
            (if returnValue = .ArgsWithReturn then [F.ret] else [])).2,
          RetType := if returnValue = .Normal then F.ret else .struct
            (CloneFunctionWithReturns.argLoop constant_args F.args 0 []
              (if returnValue = .ArgsWithReturn then [F.ret] else [])).2,
          cloned := CloneFunctionWithReturns.nameLoop constant_args F.args 0 0
            ⟨[], [], [], []⟩ } := by
    unfold CloneFunctionWithReturns
    simp only [hF, Bool.false_eq_true, if_false, hnv]
  refine ⟨_, hc, ?_, ?_, ?_⟩
  · simp only [hA, List.nil_append, specParameterList]
    cases additionalArg <;> simp <;> split_ifs <;> simp
  · intro p hp
    rcases nameLoop_ptrInputs constant_args F.args 0 0 ⟨[], [], [], []⟩ p hp with h | h
    · simp at h
    · obtain ⟨h1, -, t, h3, h4, h5⟩ := h
      refine ⟨h1, t, ?_, ?_, h5⟩
      · simp only [hA, List.nil_append]
        have hlt : p.1 < (specParameters constant_args 0 F.args).length := by
          rcases Nat.lt_or_ge p.1 (specParameters constant_args 0 F.args).length with h | h
          · exact h
          · rw [Nat.sub_zero, List.getElem?_eq_none h] at h3; cases h3
        simp only [Nat.sub_zero] at h3
        split <;> split <;>
          simp [List.append_assoc, List.getElem?_append_left hlt, h3]
      · simp only [hA, List.nil_append, h1]
        have hlt : p.1 + 1 < (specParameters constant_args 0 F.args).length := by
          rcases Nat.lt_or_ge (p.1 + 1) (specParameters constant_args 0 F.args).length with h | h
          · exact h
          · rw [Nat.sub_zero, List.getElem?_eq_none h] at h4; cases h4
        simp only [Nat.sub_zero] at h4
        split <;> split <;>
          simp [List.append_assoc, List.getElem?_append_left hlt, h4]
  · intro i t hi
    obtain ⟨j, h1, -, h3, h4⟩ := nameLoop_VMap constant_args F.args 0 0 ⟨[], [], [], []⟩ i t hi
    refine ⟨j, by simpa using h1, ?_, fun h => h4 (by simpa using h)⟩
    simp only [hA, List.nil_append]
    have hlt : j < (specParameters constant_args 0 F.args).length := by
      rcases Nat.lt_or_ge j (specParameters constant_args 0 F.args).length with h | h
      · exact h
      · rw [Nat.sub_zero, List.getElem?_eq_none h] at h3; cases h3
    simp only [Nat.sub_zero] at h3
    split <;> split <;>
      simp [List.append_assoc, List.getElem?_append_left hlt, h3]

/-- C13 at `double f(double*, i64, double)` with the second parameter constant, a
requested differential return and a tape of type `i8*`. -/
theorem CloneFunctionWithReturns_parameter_list_witness :
    ∃ c, CloneFunctionWithReturns mixedFunction (fun i => i == 1) .Args true true
        (some (.ptr (.int 8))) = some c ∧
      c.ArgTypes = specParameterList mixedFunction (fun i => i == 1) true true
        (some (.ptr (.int 8))) ∧
      (∀ p ∈ c.cloned.ptrInputs, p.2 = p.1 + 1 ∧
        ∃ t, c.ArgTypes[p.1]? = some t ∧ c.ArgTypes[p.2]? = some t ∧
          (t.isPointerTy || t.isIntegerTy) = true) ∧
      (∀ (i : Nat) (t : Ty), mixedFunction.args[i]? = some t →
        ∃ j, c.cloned.VMap[i]? = some j ∧ c.ArgTypes[j]? = some t ∧
          ((!(fun i => i == 1) i && (t.isPointerTy || t.isIntegerTy)) = true →
            (j, j + 1) ∈ c.cloned.ptrInputs)) :=
  CloneFunctionWithReturns_parameter_list mixedFunction (fun i => i == 1) .Args true true
    (some (.ptr (.int 8))) rfl (fun _ => rfl)

theorem stripNot_dests (B : Builder) : ∀ (fuel : Nat) (phi : RVal) (f0 f1 : BasicBlock)
    (r : RVal × BasicBlock × BasicBlock),
    createInvertedTerminator.stripNot B fuel phi f0 f1 = some r →
      (r.2.1 = f0 ∧ r.2.2 = f1) ∨ (r.2.1 = f1 ∧ r.2.2 = f0) := by
  intro fuel
  induction fuel with
  | zero => intro phi f0 f1 r h; simp [createInvertedTerminator.stripNot] at h
  | succ fuel ih =>
    intro phi f0 f1 r h
    unfold createInvertedTerminator.stripNot at h
    split at h
    · split_ifs at h
      · rcases ih _ _ _ _ h with h' | h'
        · right; exact h'
        · left; exact h'
      · rcases ih _ _ _ _ h with h' | h'
        · right; exact h'
        · left; exact h'
      · simp only [Option.some.injEq] at h; subst h; left; exact ⟨rfl, rfl⟩
    · simp only [Option.some.injEq] at h; subst h; left; exact ⟨rfl, rfl⟩

theorem cases_mem (u : GradientCFG) : ∀ (preds : List BasicBlock) (i : Nat) (last : BasicBlock),
    preds.getLast? = some last → ∀ b,
      (b ∈ u.reverseBlocks last :: (createInvertedTerminator.cases u preds i).map (fun c => c.2)) ↔
        b ∈ preds.map u.reverseBlocks := by
  intro preds
  induction preds with
  | nil => intro i last h; simp at h
  | cons p rest ih =>
    intro i last h b
    cases rest with
    | nil =>
      simp only [List.getLast?_singleton, Option.some.injEq] at h
      subst h
      simp [createInvertedTerminator.cases]
    | cons q rest =>
      have h' : (q :: rest).getLast? = some last := by
        simpa [List.getLast?_cons_cons] using h
      have := ih (i + 1) last h' b
      simp only [createInvertedTerminator.cases, List.map_cons, List.mem_cons] at this ⊢
      constructor
      · rintro (h1 | h1 | h1)
        · right; exact this.1 (Or.inl h1)
        · left; exact h1
        · right; exact this.1 (Or.inr h1)
      · rintro (h1 | h1)
        · right; left; exact h1
        · rcases this.2 h1 with h2 | h2
          · left; exact h2
          · right; right; exact h2

theorem cases_length (u : GradientCFG) : ∀ (preds : List BasicBlock) (i : Nat),
    preds ≠ [] → (createInvertedTerminator.cases u preds i).length + 1 = preds.length := by
  intro preds
  induction preds with
  | nil => intro i h; exact absurd rfl h
  | cons p rest ih =>
    intro i _
    cases rest with
    | nil => simp [createInvertedTerminator.cases]
    | cons q rest =>
      have := ih (i + 1) (by simp)
      simp only [createInvertedTerminator.cases, List.length_cons] at this ⊢
      omega

theorem two_terminator (g : DiffeGradientUtils) (u : GradientCFG) (fuel : Nat)
    (BB p0 p1 : BasicBlock) (B : Builder) (r : InvertedTerminator)
    (h : createInvertedTerminator.two g u fuel BB p0 p1 B = some r) :
    ∃ c, r.terminator = .condBr c (u.reverseBlocks p0) (u.reverseBlocks p1) ∨
      r.terminator = .condBr c (u.reverseBlocks p1) (u.reverseBlocks p0) := by
  unfold createInvertedTerminator.two at h
  simp only at h
  split at h
  · cases h
  · split at h
    · cases h
    · split at h
      · cases h
      · rename_i x phi' f0 f1 hs
        simp only [Option.some.injEq] at h
        subst h
        rcases stripNot_dests _ _ _ _ _ _ hs with ⟨h1, h2⟩ | ⟨h1, h2⟩
        · simp only at h1 h2
          exact ⟨phi', Or.inl (by simp [h1, h2])⟩
        · simp only at h1 h2
          exact ⟨phi', Or.inr (by simp [h1, h2])⟩

theorem entry_terminator (g : DiffeGradientUtils) (u : GradientCFG) (retAlloca : Bool)
    (extraArgs : Nat) (B : Builder) (r : InvertedTerminator)
    (h : createInvertedTerminator.entry g u retAlloca extraArgs B = some r) :
    ∃ v, r.terminator = .ret v := by
  unfold createInvertedTerminator.entry at h
  simp only at h
  split at h
  · cases h
  · split at h
    · cases h
    · simp only [Option.some.injEq] at h
      subst h
      exact ⟨_, rfl⟩

theorem accumulates_not_pointer (t : Ty) (h : t.accumulates = true) :
    t.isPointerTy = false ∧ t.isVoidTy = false := by
  cases t <;> simp [Ty.accumulates, Ty.isIntOrIntVectorTy, Ty.isFPOrFPVectorTy, Ty.isStructTy,
    Ty.isPointerTy, Ty.isVoidTy] at h ⊢

theorem addToDiffeStruct_isSome (g : DiffeGradientUtils) (val : Value) (dif : RVal)
    (hc : g.isConstantValue val = false) : ∀ (idxs : List Nat) (B : Builder),
    (addToDiffeStruct g val dif idxs B).isSome = true := by
  intro idxs
  induction idxs with
  | nil => intro B; rfl
  | cons i is ih =>
    intro B
    simp only [addToDiffeStruct, addToDiffeIndexed, hc, Bool.false_eq_true, if_false]
    exact ih _

theorem addToDiffe_isSome (g : DiffeGradientUtils) (val : Value) (dif : RVal) (B : Builder)
    (hc : g.isConstantValue val = false) (ht : (g.typeOf val).accumulates = true) :
    (addToDiffe g val dif B).isSome = true := by
  obtain ⟨hp, hv⟩ := accumulates_not_pointer _ ht
  simp only [addToDiffe, diffe, hp, hv, hc, Bool.false_eq_true, if_false, Bool.or_self]
  by_cases h1 : (g.typeOf val).isIntOrIntVectorTy = true
  · simp [h1, Builder.Insert]
  · by_cases h2 : (g.typeOf val).isFPOrFPVectorTy = true
    · simp [h1, h2, Builder.Insert]
    · have h3 : (g.typeOf val).isStructTy = true := by
        simpa [Ty.accumulates, h1, h2] using ht
      simp only [h1, h2, h3, if_false, if_true, Bool.false_eq_true]
      exact addToDiffeStruct_isSome g val _ hc _ _

theorem contributions_isSome (g : DiffeGradientUtils) (PN : PHINode)
    (dif : Nat → RVal → Builder → RVal × Builder) (prediff : RVal) :
    ∀ (preds : List BasicBlock) (i : Nat) (B : Builder),
      preds.all (fun p =>
        match PN.getIncomingValueForBlock p with
        | none => false
        | some v => g.isConstantValue v || (g.typeOf v).accumulates) = true →
      (createInvertedTerminator.contributions g PN dif prediff preds i B).isSome = true := by
  intro preds
  induction preds with
  | nil => intro i B _; rfl
  | cons p rest ih =>
    intro i B h
    simp only [List.all_cons, Bool.and_eq_true] at h
    obtain ⟨h1, h2⟩ := h
    unfold createInvertedTerminator.contributions createInvertedTerminator.contribute
    cases hv : PN.getIncomingValueForBlock p with
    | none => simp [hv] at h1
    | some v =>
      simp only [hv, Bool.or_eq_true] at h1
      by_cases hc : g.isConstantValue v = true
      · simp only [hc, if_true]
        exact ih _ _ h2
      · simp only [hc, Bool.false_eq_true, if_false]
        have hc' : g.isConstantValue v = false := by simpa using hc
        have ht : (g.typeOf v).accumulates = true := by
          rcases h1 with h1 | h1
          · exact absurd h1 hc
          · exact h1
        have := addToDiffe_isSome g v (dif i prediff B).1 (dif i prediff B).2 hc' ht
        cases ha : addToDiffe g v (dif i prediff B).1 (dif i prediff B).2 with
        | none => simp [ha] at this
        | some B' => simp only; exact ih _ _ h2

theorem phiLoop_isSome (g : DiffeGradientUtils) (preds : List BasicBlock)
    (dif : Nat → RVal → Builder → RVal × Builder) : ∀ (phis : List PHINode) (B : Builder),
    phisWellTyped g preds phis = true →
      (createInvertedTerminator.phiLoop g preds dif phis B).isSome = true := by
  intro phis
  induction phis with
  | nil => intro B _; rfl
  | cons PN rest ih =>
    intro B h
    simp only [phisWellTyped, List.all_cons, Bool.and_eq_true, Bool.or_eq_true] at h
    obtain ⟨h1, h2⟩ := h
    have h2' : phisWellTyped g preds rest = true := by
      simpa [phisWellTyped] using h2
    unfold createInvertedTerminator.phiLoop
    by_cases hc : g.isConstantValue PN.id = true
    · simp only [hc, if_true]; exact ih _ h2'
    · by_cases hp : (g.typeOf PN.id).isPointerTy = true
      · simp only [hc, hp, if_true, if_false, Bool.false_eq_true]; exact ih _ h2'
      · rcases h1 with (h1 | h1) | h1
        · exact absurd h1 hc
        · exact absurd h1 hp
        · obtain ⟨hv, hall⟩ := h1
          have hv' : (g.typeOf PN.id).isVoidTy = false := by simpa using hv
          have hp' : (g.typeOf PN.id).isPointerTy = false := by simpa using hp
          have hc' : g.isConstantValue PN.id = false := by simpa using hc
          simp only [hc', hp', hv', diffe, setDiffe, Bool.false_eq_true, if_false, Bool.or_self]
          have := contributions_isSome g PN dif (B.Insert (.load (.differential PN.id))).1 preds 0
            (((B.Insert (.load (.differential PN.id))).2).Insert
              (.store .nullValue (.differential PN.id))).2 hall
          cases hk : createInvertedTerminator.contributions g PN dif
            (B.Insert (.load (.differential PN.id))).1 preds 0
            (((B.Insert (.load (.differential PN.id))).2).Insert
              (.store .nullValue (.differential PN.id))).2 with
          | none => simp [hk] at this
          | some B' => simp only; exact ih _ h2'

theorem whatType_OUT_DIFF (t : Ty) (h : whatType t = some .OUT_DIFF) :
    t.isPointerTy = false ∧ t.isVoidTy = false := by
  cases t with
  | ptr e =>
    rw [whatType] at h
    split at h <;> simp at h
  | void => simp [whatType] at h
  | _ => simp [Ty.isPointerTy, Ty.isVoidTy]

theorem argDiffes_isSome (g : DiffeGradientUtils) : ∀ (args : List Value) (retargs : List RVal)
    (B : Builder), argsClassified g args = true →
      (createInvertedTerminator.argDiffes g args retargs B).isSome = true := by
  intro args
  induction args with
  | nil => intro retargs B _; rfl
  | cons I rest ih =>
    intro retargs B h
    simp only [argsClassified, List.all_cons, Bool.and_eq_true, Bool.or_eq_true] at h
    obtain ⟨h1, h2⟩ := h
    have h2' : argsClassified g rest = true := by simpa [argsClassified] using h2
    unfold createInvertedTerminator.argDiffes
    by_cases hc : g.isConstantValue I = true
    · simp only [hc, if_true]; exact ih _ _ h2'
    · simp only [hc, Bool.false_eq_true, if_false]
      rcases h1 with h1 | h1
      · exact absurd h1 hc
      · cases hw : whatType (g.typeOf I) with
        | none => simp [hw] at h1
        | some c =>
          cases c with
          | OUT_DIFF =>
            obtain ⟨hp, hv⟩ := whatType_OUT_DIFF _ hw
            simp only [diffe, hp, hv, Bool.or_self, Bool.false_eq_true, if_false]
            exact ih _ _ h2'
          | DUP_ARG => simp only; exact ih _ _ h2'
          | CONSTANT => simp only; exact ih _ _ h2'

theorem entry_isSome (g : DiffeGradientUtils) (u : GradientCFG) (retAlloca : Bool)
    (extraArgs : Nat) (B : Builder) (hle : extraArgs ≤ u.newFuncArgs.length)
    (hargs : argsClassified g u.newFuncArgs = true) :
    (createInvertedTerminator.entry g u retAlloca extraArgs B).isSome = true := by
  have hsub : argsClassified g (u.newFuncArgs.take (u.newFuncArgs.length - extraArgs)) = true := by
    simp only [argsClassified, List.all_eq_true] at hargs ⊢
    intro I hI
    exact hargs I (List.mem_of_mem_take hI)
  unfold createInvertedTerminator.entry
  simp only [Nat.not_lt.mpr hle, if_false]
  have := argDiffes_isSome g (u.newFuncArgs.take (u.newFuncArgs.length - extraArgs))
    (if retAlloca = true then ([(B.Insert (.load .retAlloca)).1],
      (B.Insert (.load .retAlloca)).2) else (([] : List RVal), B)).1
    (if retAlloca = true then ([(B.Insert (.load .retAlloca)).1],
      (B.Insert (.load .retAlloca)).2) else (([] : List RVal), B)).2 hsub
  cases hk : createInvertedTerminator.argDiffes g
    (u.newFuncArgs.take (u.newFuncArgs.length - extraArgs))
    (if retAlloca = true then ([(B.Insert (.load .retAlloca)).1],
      (B.Insert (.load .retAlloca)).2) else (([] : List RVal), B)).1
    (if retAlloca = true then ([(B.Insert (.load .retAlloca)).1],
      (B.Insert (.load .retAlloca)).2) else (([] : List RVal), B)).2 with
  | none => simp [hk] at this
  | some x => simp [hk]

theorem nodup_pairs_length_le (l : List (Nat × Nat)) (a b : Nat) (hn : l.Nodup)
    (hm : ∀ p ∈ l, p.1 < a ∧ p.2 < b) : l.length ≤ a * b := by
  have hsub : l ⊆ (List.range a) ×ˢ (List.range b) := by
    intro p hp
    obtain ⟨h1, h2⟩ := hm p hp
    exact List.mem_product.mpr ⟨List.mem_range.mpr h1, List.mem_range.mpr h2⟩
  have := (List.subperm_of_subset hn hsub).length_le
  simpa [List.length_product] using this

theorem insert_nodup {α : Type} [DecidableEq α] (a : α) (s : List α) (h : s.Nodup) :
    (PivotSearch.insert a s).Nodup := by
  unfold PivotSearch.insert
  split_ifs with hm
  · exact h
  · exact List.Nodup.append h (List.nodup_singleton a) (by
      intro x hx hx'
      simp only [List.mem_singleton] at hx'
      subst hx'
      exact hm hx)

theorem mem_insert_iff {α : Type} [DecidableEq α] (a b : α) (s : List α) :
    b ∈ PivotSearch.insert a s ↔ b = a ∨ b ∈ s := by
  unfold PivotSearch.insert
  split_ifs with hm
  · constructor
    · intro h; exact Or.inr h
    · rintro (h | h)
      · subst h; exact hm
      · exact h
  · simp [or_comm]

theorem insert_length {α : Type} [DecidableEq α] (a : α) (s : List α) :
    s.length ≤ (PivotSearch.insert a s).length ∧
      (a ∉ s → (PivotSearch.insert a s).length = s.length + 1) := by
  unfold PivotSearch.insert
  split_ifs with hm
  · exact ⟨Nat.le_refl _, fun h => absurd hm h⟩
  · simp

theorem mem_seenOf (seen : List (BasicBlock × Nat)) (b : BasicBlock) (k : Nat) :
    k ∈ PivotSearch.seenOf seen b ↔ (b, k) ∈ seen := by
  simp only [PivotSearch.seenOf, List.mem_map, List.mem_filter, beq_iff_eq]
  constructor
  · rintro ⟨p, ⟨hp, h1⟩, h2⟩
    have : p = (b, k) := by cases p; simp_all
    rw [← this]; exact hp
  · intro h
    exact ⟨(b, k), ⟨h, rfl⟩, rfl⟩

theorem boundedCFG_preds (u : GradientCFG) (n D b : Nat) (h : boundedCFG u n D = true)
    (hb : b < n) : (∀ p ∈ u.predecessors b, p < n) ∧ (u.predecessors b).length ≤ D := by
  simp only [boundedCFG, List.all_eq_true, List.mem_range, Bool.and_eq_true,
    decide_eq_true_eq] at h
  exact h b hb

theorem search_isSome (u : GradientCFG) (n D : Nat) (hb : boundedCFG u n D = true) :
    ∀ (fuel : Nat) (s : PivotSearch), s.Bounded n →
      s.Q.length + (2 * n + n * n - (s.seen.length + s.done.length)) * (D + 1) < fuel →
      (createInvertedTerminator.search u 2 fuel s).isSome = true := by
  intro fuel
  induction fuel with
  | zero => intro s _ h; omega
  | succ fuel ih =>
    intro s hs hlt
    obtain ⟨seen, done, Q⟩ := s
    obtain ⟨hn1, hn2, hb1, hb2, hb3⟩ := hs
    simp only at hn1 hn2 hb1 hb2 hb3 hlt
    cases Q with
    | nil => simp [createInvertedTerminator.search]
    | cons q Q =>
      obtain ⟨block, num, predblock⟩ := q
      obtain ⟨hq1, hq2, hq3⟩ := hb3 (block, num, predblock) (List.mem_cons_self _ _)
      simp only at hq1 hq2 hq3
      have hQ : ∀ q ∈ Q, q.1 < n ∧ q.2.1 < 2 ∧ q.2.2 < n :=
        fun q hq => hb3 q (List.mem_cons_of_mem _ hq)
      unfold createInvertedTerminator.search
      simp only
      by_cases hskip : (block, num) ∈ seen ∧ (block, predblock) ∈ done
      · rw [if_pos hskip]
        apply ih
        · exact ⟨hn1, hn2, hb1, hb2, hQ⟩
        · simp only [List.length_cons] at hlt ⊢; omega
      · rw [if_neg hskip]
        have hs1 : ∀ p ∈ PivotSearch.insert (block, num) seen, p.1 < n ∧ p.2 < 2 := by
          intro p hp
          rcases (mem_insert_iff _ _ _).1 hp with h | h
          · subst h; exact ⟨hq1, hq2⟩
          · exact hb1 p h
        have hd1 : ∀ p ∈ PivotSearch.insert (block, predblock) done, p.1 < n ∧ p.2 < n := by
          intro p hp
          rcases (mem_insert_iff _ _ _).1 hp with h | h
          · subst h; exact ⟨hq1, hq3⟩
          · exact hb2 p h
        have hsn := insert_nodup (block, num) seen hn1
        have hdn := insert_nodup (block, predblock) done hn2
        have hsl := nodup_pairs_length_le _ n 2 hsn hs1
        have hdl := nodup_pairs_length_le _ n n hdn hd1
        have hgrow : seen.length + done.length + 1 ≤
            (PivotSearch.insert (block, num) seen).length +
              (PivotSearch.insert (block, predblock) done).length := by
          have a1 := insert_length (block, num) seen
          have a2 := insert_length (block, predblock) done
          by_cases h1 : (block, num) ∈ seen
          · have h2 : (block, predblock) ∉ done := fun h => hskip ⟨h1, h⟩
            have := a2.2 h2
            omega
          · have := a1.2 h1
            omega
        obtain ⟨hp1, hp2⟩ := boundedCFG_preds u n D block hb hq1
        have hQ' : ∀ Q', Q' = (match PivotSearch.seenOf (PivotSearch.insert (block, num) seen)
              block with
            | [k] => Q ++ (u.predecessors block).map (fun Pred => (Pred, k, block))
            | _ => Q) →
            (createInvertedTerminator.search u 2 fuel
              ⟨PivotSearch.insert (block, num) seen,
                PivotSearch.insert (block, predblock) done, Q'⟩).isSome = true := by
          intro Q' hQ'
          have hfacts : Q'.length ≤ Q.length + D ∧ ∀ q ∈ Q', q.1 < n ∧ q.2.1 < 2 ∧ q.2.2 < n := by
            subst hQ'
            split
            · rename_i k hk
              have hkmem : (block, k) ∈ PivotSearch.insert (block, num) seen := by
                rw [← mem_seenOf, hk]; simp
              refine ⟨by simp only [List.length_append, List.length_map]; omega, ?_⟩
              intro q hq
              rcases List.mem_append.1 hq with h | h
              · exact hQ q h
              · obtain ⟨Pred, hPred, rfl⟩ := List.mem_map.1 h
                exact ⟨hp1 Pred hPred, (hs1 _ hkmem).2, hq1⟩
            · exact ⟨by omega, hQ⟩
          apply ih
          · exact ⟨hsn, hdn, hs1, hd1, hfacts.2⟩
          · simp only [List.length_cons] at hlt ⊢
            have hmul : (2 * n + n * n - ((PivotSearch.insert (block, num) seen).length +
                (PivotSearch.insert (block, predblock) done).length) + 1) * (D + 1) ≤
                (2 * n + n * n - (seen.length + done.length)) * (D + 1) :=
              Nat.mul_le_mul_right _ (by omega)
            rw [Nat.add_mul] at hmul
            have := hfacts.1
            omega
        have hrec := hQ' _ rfl
        split_ifs with h1 h2 h3
        · exact hrec
        · exact hrec
        · split
          · rfl
          · rename_i d hj
            rw [hj] at h2
            simp [CFGTerminator.successors] at h2
          · rfl
        · exact hrec

theorem extends_refl (B : Builder) : Extends B B := ⟨[], by simp⟩

theorem extends_trans {B1 B2 B3 : Builder} (h1 : Extends B1 B2) (h2 : Extends B2 B3) :
    Extends B1 B3 := by
  obtain ⟨s1, rfl⟩ := h1
  obtain ⟨s2, rfl⟩ := h2
  exact ⟨s1 ++ s2, by simp only [List.append_assoc]⟩

theorem extends_append {B X : Builder} (y : Builder) (h : Extends B X) : Extends B (X ++ y) :=
  extends_trans h ⟨y, rfl⟩

theorem addToDiffeStruct_extends (g : DiffeGradientUtils) (val : Value) (dif : RVal) :
    ∀ (idxs : List Nat) (B B' : Builder), addToDiffeStruct g val dif idxs B = some B' →
      Extends B B' := by
  intro idxs
  induction idxs with
  | nil =>
    intro B B' h
    simp only [addToDiffeStruct, Option.some.injEq] at h
    subst h
    exact extends_refl _
  | cons i is ih =>
    intro B B' h
    simp only [addToDiffeStruct, addToDiffeIndexed, Builder.Insert] at h
    split at h
    · cases h
    · rename_i B1 h1
      split_ifs at h1
      simp only [Option.some.injEq] at h1
      have := ih _ _ h
      subst h1
      refine extends_trans ?_ this
      repeat (first | exact extends_refl _ | apply extends_append)

theorem addToDiffe_extends (g : DiffeGradientUtils) (val : Value) (dif : RVal) (B B' : Builder)
    (h : addToDiffe g val dif B = some B') : Extends B B' := by
  simp only [addToDiffe, diffe, Builder.Insert] at h
  split_ifs at h
  · simp only [Option.some.injEq] at h
    subst h
    repeat (first | exact extends_refl _ | apply extends_append)
  · simp only [Option.some.injEq] at h
    subst h
    repeat (first | exact extends_refl _ | apply extends_append)
  · refine extends_trans ?_ (addToDiffeStruct_extends _ _ _ _ _ _ h)
    repeat (first | exact extends_refl _ | apply extends_append)

theorem contributions_extends (g : DiffeGradientUtils) (PN : PHINode)
    (dif : Nat → RVal → Builder → RVal × Builder) (prediff : RVal)
    (hdif : ∀ i p B, Extends B (dif i p B).2) :
    ∀ (preds : List BasicBlock) (i : Nat) (B B' : Builder),
      createInvertedTerminator.contributions g PN dif prediff preds i B = some B' →
        Extends B B' := by
  intro preds
  induction preds with
  | nil =>
    intro i B B' h
    simp only [createInvertedTerminator.contributions, Option.some.injEq] at h
    subst h
    exact extends_refl _
  | cons p rest ih =>
    intro i B B' h
    unfold createInvertedTerminator.contributions createInvertedTerminator.contribute at h
    split at h
    · cases h
    · rename_i B1 h1
      have e2 := ih _ _ _ h
      split at h1
      · cases h1
      · split_ifs at h1
        · simp only [Option.some.injEq] at h1
          subst h1
          exact e2
        · exact extends_trans (extends_trans (hdif i prediff B)
            (addToDiffe_extends _ _ _ _ _ h1)) e2

theorem phiLoop_extends (g : DiffeGradientUtils) (preds : List BasicBlock)
    (dif : Nat → RVal → Builder → RVal × Builder)
    (hdif : ∀ i p B, Extends B (dif i p B).2) :
    ∀ (phis : List PHINode) (B B' : Builder),
      createInvertedTerminator.phiLoop g preds dif phis B = some B' → Extends B B' := by
  intro phis
  induction phis with
  | nil =>
    intro B B' h
    simp only [createInvertedTerminator.phiLoop, Option.some.injEq] at h
    subst h
    exact extends_refl _
  | cons PN rest ih =>
    intro B B' h
    unfold createInvertedTerminator.phiLoop at h
    split_ifs at h
    · exact ih _ _ h
    · exact ih _ _ h
    · split at h
      · cases h
      · rename_i prediff B1 h1
        split at h
        · cases h
        · rename_i B2 h2
          split at h
          · cases h
          · rename_i B3 h3
            have e4 := ih _ _ h
            have e3 := contributions_extends g PN dif prediff hdif _ _ _ _ h3
            simp only [diffe, Builder.Insert] at h1
            split_ifs at h1
            simp only [Option.some.injEq, Prod.mk.injEq] at h1
            simp only [setDiffe, Builder.Insert] at h2
            split_ifs at h2
            simp only [Option.some.injEq] at h2
            obtain ⟨-, h1⟩ := h1
            subst h1
            subst h2
            refine extends_trans ?_ (extends_trans e3 e4)
            repeat (first | exact extends_refl _ | apply extends_append)

theorem select_dif_extends (phi : RVal) : ∀ (i : Nat) (p : RVal) (B : Builder),
    Extends B ((fun (i : Nat) (prediff : RVal) (B : Builder) =>
      if i = 0 then B.Insert (.select phi prediff .nullValue)
      else B.Insert (.select phi .nullValue prediff)) i p B).2 := by
  intro i p B
  by_cases h : i = 0
  · simp only [h, if_true, Builder.Insert]; exact ⟨_, rfl⟩
  · simp only [h, if_false, Builder.Insert]; exact ⟨_, rfl⟩

theorem stripNot_not_binary (B : Builder) (fuel : Nat) (phi : RVal) (f0 f1 : BasicBlock)
    (h : createInvertedTerminator.binaryOperator B phi = none) :
    createInvertedTerminator.stripNot B (fuel + 1) phi f0 f1 = some (phi, f0, f1) := by
  simp [createInvertedTerminator.stripNot, h]

theorem getElem_length_append (B : Builder) (i : RInst) (suffix : Builder) :
    (B ++ [i] ++ suffix).get? B.length = some i := by
  induction B with
  | nil => rfl
  | cons a B ih => simpa using ih

theorem binaryOperator_extends (B B' : Builder) (i : RInst) (h : Extends (B ++ [i]) B') :
    createInvertedTerminator.binaryOperator B' (.inst B.length) =
      createInvertedTerminator.binaryOperator (B ++ [i]) (.inst B.length) := by
  obtain ⟨suffix, rfl⟩ := h
  have h1 := getElem_length_append B i suffix
  have h2 := getElem_length_append B i []
  rw [List.append_nil] at h2
  simp only [createInvertedTerminator.binaryOperator, h1, h2]

theorem stripNot_fresh (B B' : Builder) (i : RInst) (f0 f1 : BasicBlock)
    (h : Extends (B ++ [i]) B')
    (hi : createInvertedTerminator.binaryOperator (B ++ [i]) (.inst B.length) = none ∨
      ∃ c, i = .xor (.lookup c) (.constantInt 1)) :
    (createInvertedTerminator.stripNot B' (B'.length + 1) (.inst B.length) f0 f1 =
        some (.inst B.length, f0, f1) ∧
      createInvertedTerminator.binaryOperator (B ++ [i]) (.inst B.length) = none) ∨
    ∃ c, i = .xor (.lookup c) (.constantInt 1) ∧
      createInvertedTerminator.stripNot B' (B'.length + 1) (.inst B.length) f0 f1 =
        some (.lookup c, f1, f0) := by
  have hb := binaryOperator_extends B B' i h
  rcases hi with hi | ⟨c, rfl⟩
  · left
    exact ⟨stripNot_not_binary _ _ _ _ _ (by rw [hb, hi]), hi⟩
  · right
    refine ⟨c, rfl, ?_⟩
    have hlen : B'.length = (B'.length - 1) + 1 := by
      obtain ⟨suffix, rfl⟩ := h
      simp only [List.length_append, List.length_singleton]
      omega
    have h2 := getElem_length_append B (.xor (.lookup c) (.constantInt 1)) []
    rw [List.append_nil] at h2
    have hx : createInvertedTerminator.binaryOperator B' (.inst B.length) =
        some (.xor (.lookup c) (.constantInt 1)) := by
      rw [hb]
      simp only [createInvertedTerminator.binaryOperator, h2]
    rw [hlen]
    simp only [createInvertedTerminator.stripNot, hx, if_true]
    rfl

theorem two_tail (g : DiffeGradientUtils) (u : GradientCFG) (BB p0 p1 : BasicBlock)
    (hphis : phisWellTyped g [p0, p1] (u.phis BB) = true)
    (phi : RVal) (B1 : Builder) (tagPhi : Option (List (Int × BasicBlock)))
    (H : ∀ B2, Extends B1 B2 → ∃ r, createInvertedTerminator.stripNot B2 (B2.length + 1) phi
      (u.reverseBlocks p0) (u.reverseBlocks p1) = some r) :
    ∃ r, (match createInvertedTerminator.phiLoop g [p0, p1]
        (fun (i : Nat) (prediff : RVal) (B : Builder) =>
          if i = 0 then B.Insert (.select phi prediff .nullValue)
          else B.Insert (.select phi .nullValue prediff)) (u.phis BB) B1 with
      | none => none
      | some B =>
        match createInvertedTerminator.stripNot B (B.length + 1) phi
            (u.reverseBlocks p0) (u.reverseBlocks p1) with
        | none => none
        | some (phi, f0, f1) =>
          some ({ block := B, terminator := .condBr phi f0 f1, tagPhi := tagPhi } :
            InvertedTerminator)) = some r := by
  have hs := phiLoop_isSome g [p0, p1] (fun (i : Nat) (prediff : RVal) (B : Builder) =>
          if i = 0 then B.Insert (.select phi prediff .nullValue)
          else B.Insert (.select phi .nullValue prediff)) (u.phis BB) B1 hphis
  cases hk : createInvertedTerminator.phiLoop g [p0, p1]
      (fun (i : Nat) (prediff : RVal) (B : Builder) =>
          if i = 0 then B.Insert (.select phi prediff .nullValue)
          else B.Insert (.select phi .nullValue prediff)) (u.phis BB) B1 with
  | none => simp [hk] at hs
  | some B2 =>
    have hext := phiLoop_extends g [p0, p1] _ (select_dif_extends phi) _ _ _ hk
    obtain ⟨r, hr⟩ := H B2 hext
    obtain ⟨phi', f0, f1⟩ := r
    exact ⟨{ block := B2, terminator := .condBr phi' f0 f1, tagPhi := tagPhi }, by
      simp only [hr]⟩

theorem two_isSome (g : DiffeGradientUtils) (u : GradientCFG) (n D fuel : Nat)
    (BB p0 p1 : BasicBlock) (B : Builder) (hpreds : u.predecessors BB = [p0, p1])
    (hhead : headerPreds u BB = true)
    (hphis : phisWellTyped g [p0, p1] (u.phis BB) = true)
    (hb : boundedCFG u n D = true) (hBB : BB < n) (hfuel : searchFuel n D ≤ fuel) :
    (createInvertedTerminator.two g u fuel BB p0 p1 B).isSome = true := by
  obtain ⟨hlt, -⟩ := boundedCFG_preds u n D BB hb hBB
  have h0 : p0 < n := hlt p0 (by simp [hpreds])
  have h1 : p1 < n := hlt p1 (by simp [hpreds])
  have hsearch : (createInvertedTerminator.search u 2 fuel
      ⟨[], [], [(p0, 0, BB), (p1, 1, BB)]⟩).isSome = true := by
    apply search_isSome u n D hb
    · refine ⟨List.nodup_nil, List.nodup_nil, by simp, by simp, ?_⟩
      intro q hq
      simp only [List.mem_cons, List.mem_singleton, List.not_mem_nil, or_false] at hq
      rcases hq with rfl | rfl
      · exact ⟨h0, Nat.zero_lt_two, hBB⟩
      · exact ⟨h1, Nat.one_lt_two, hBB⟩
    · simp only [List.length_cons, List.length_nil, searchFuel, Nat.add_zero,
        Nat.sub_zero] at hfuel ⊢
      omega
  have hlookup : ∀ (c : Value) (B1 : Builder), ∀ B2, Extends B1 B2 →
      ∃ r, createInvertedTerminator.stripNot B2 (B2.length + 1) (.lookup c)
        (u.reverseBlocks p0) (u.reverseBlocks p1) = some r :=
    fun c B1 B2 _ => ⟨_, stripNot_not_binary _ _ _ _ _ rfl⟩
  have hfresh : ∀ (i : RInst),
      (createInvertedTerminator.binaryOperator (B ++ [i]) (.inst B.length) = none ∨
        ∃ c, i = .xor (.lookup c) (.constantInt 1)) →
      ∀ B2, Extends (B ++ [i]) B2 →
      ∃ r, createInvertedTerminator.stripNot B2 (B2.length + 1) (.inst B.length)
        (u.reverseBlocks p0) (u.reverseBlocks p1) = some r := by
    intro i hi B2 hext
    rcases stripNot_fresh B B2 i _ _ hext hi with ⟨h, -⟩ | ⟨c, -, h⟩
    · exact ⟨_, h⟩
    · exact ⟨_, h⟩
  have hicmp : ∀ (a b : RVal), createInvertedTerminator.binaryOperator
      (B ++ [.icmpNE a b]) (.inst B.length) = none ∧
      createInvertedTerminator.binaryOperator
      (B ++ [.icmpEQ a b]) (.inst B.length) = none := by
    intro a b
    have h2 := getElem_length_append B (.icmpNE a b) []
    have h3 := getElem_length_append B (.icmpEQ a b) []
    rw [List.append_nil] at h2 h3
    exact ⟨by simp only [createInvertedTerminator.binaryOperator, h2],
      by simp only [createInvertedTerminator.binaryOperator, h3]⟩
  rw [Option.isSome_iff_exists]
  unfold createInvertedTerminator.two
  simp only
  cases hctx : u.getContext BB with
  | none =>
    simp only
    cases hk : createInvertedTerminator.search u 2 fuel ⟨[], [], [(p0, 0, BB), (p1, 1, BB)]⟩ with
    | none => simp [hk] at hsearch
    | some res =>
      cases res with
      | tag => exact two_tail g u BB p0 p1 hphis _ _ _ (hlookup _ _)
      | found c neg =>
        cases neg with
        | false => exact two_tail g u BB p0 p1 hphis _ _ _ (hlookup _ _)
        | true =>
          exact two_tail g u BB p0 p1 hphis _ _ _
            (hfresh (.xor (.lookup c) (.constantInt 1)) (Or.inr ⟨c, rfl⟩))
  | some lc =>
    simp only
    by_cases hh : u.reverseBlocks BB = u.reverseBlocks lc.header
    · simp only [hh, if_true]
      have hassert : (p0 = lc.latch ∧ p1 = lc.preheader) ∨
          (p1 = lc.latch ∧ p0 = lc.preheader) := by
        simpa [headerPreds, hpreds, hctx, hh] using hhead
      simp only [hassert, if_true]
      by_cases hl : p0 = lc.latch
      · simp only [hl, if_true]
        have := two_tail g u BB p0 p1 hphis (.inst B.length)
          (B ++ [.icmpNE (.antivar lc.antivar) .nullValue]) none
          (hfresh _ (Or.inl (hicmp _ _).1))
        simpa [hl, Builder.Insert] using this
      · simp only [hl, if_false]
        have := two_tail g u BB p0 p1 hphis (.inst B.length)
          (B ++ [.icmpEQ (.antivar lc.antivar) .nullValue]) none
          (hfresh _ (Or.inl (hicmp _ _).2))
        simpa [hl, Builder.Insert] using this
    · simp only [hh, if_false]
      cases hk : createInvertedTerminator.search u 2 fuel
          ⟨[], [], [(p0, 0, BB), (p1, 1, BB)]⟩ with
      | none => simp [hk] at hsearch
      | some res =>
        cases res with
        | tag => exact two_tail g u BB p0 p1 hphis _ _ _ (hlookup _ _)
        | found c neg =>
          cases neg with
          | false => exact two_tail g u BB p0 p1 hphis _ _ _ (hlookup _ _)
          | true =>
            exact two_tail g u BB p0 p1 hphis _ _ _
              (hfresh (.xor (.lookup c) (.constantInt 1)) (Or.inr ⟨c, rfl⟩))

/-- C15: on a function of `n` blocks whose phi nodes pass the assertions of the
phi loops, `createInvertedTerminator` with enough fuel for the pivot search emits
a terminator whose successors are exactly the reverse blocks of the predecessors
of the block: a return for no predecessor, a branch for one, a conditional
branch for two, a switch with one case fewer than predecessors for three or
more. -/
theorem createInvertedTerminator_successors (g : DiffeGradientUtils) (u : GradientCFG)
    (n D fuel : Nat) (BB : BasicBlock) (retAlloca : Bool) (extraArgs : Nat) (B : Builder)
    (hargs : u.predecessors BB = [] →
      extraArgs ≤ u.newFuncArgs.length ∧ argsClassified g u.newFuncArgs = true)
    (hhead : headerPreds u BB = true)
    (hphis : phisWellTyped g (u.predecessors BB) (u.phis BB) = true)
    (hb : boundedCFG u n D = true) (hBB : BB < n) (hfuel : searchFuel n D ≤ fuel) :
    ∃ r, createInvertedTerminator g u fuel BB retAlloca extraArgs B = some r ∧
      (∀ b, b ∈ r.terminator.successors ↔ b ∈ (u.predecessors BB).map u.reverseBlocks) ∧
      (match u.predecessors BB with
        | [] => ∃ v, r.terminator = .ret v
        | [p0] => r.terminator = .br (u.reverseBlocks p0)
        | [p0, p1] => ∃ c, r.terminator = .condBr c (u.reverseBlocks p0) (u.reverseBlocks p1) ∨
            r.terminator = .condBr c (u.reverseBlocks p1) (u.reverseBlocks p0)
        | preds => ∃ c d cases, r.terminator = .switch c d cases ∧
            cases.length + 1 = preds.length) := by
  unfold createInvertedTerminator
  cases hpreds : u.predecessors BB with
  | nil =>
    obtain ⟨h1, h2⟩ := hargs hpreds
    have hs := entry_isSome g u retAlloca extraArgs B h1 h2
    rw [Option.isSome_iff_exists] at hs
    obtain ⟨r, hr⟩ := hs
    obtain ⟨v, hv⟩ := entry_terminator g u retAlloca extraArgs B r hr
    exact ⟨r, hr, by simp [hv, RTerminator.successors], ⟨v, hv⟩⟩
  | cons p0 rest =>
    rw [hpreds] at hphis
    cases rest with
    | nil =>
      have hs := phiLoop_isSome g [p0] (fun _ prediff B => (prediff, B)) (u.phis BB) B hphis
      rw [Option.isSome_iff_exists] at hs
      obtain ⟨B', hB'⟩ := hs
      exact ⟨{ block := B', terminator := .br (u.reverseBlocks p0), tagPhi := none },
        by simp only [hB'], by simp [RTerminator.successors], rfl⟩
    | cons p1 rest =>
      cases rest with
      | nil =>
        have hs := two_isSome g u n D fuel BB p0 p1 B hpreds hhead hphis hb hBB hfuel
        rw [Option.isSome_iff_exists] at hs
        obtain ⟨r, hr⟩ := hs
        obtain ⟨c, hc⟩ := two_terminator g u fuel BB p0 p1 B r hr
        refine ⟨r, hr, ?_, ⟨c, hc⟩⟩
        intro b
        rcases hc with hc | hc
        · simp [hc, RTerminator.successors]
        · simp [hc, RTerminator.successors, or_comm]
      | cons p2 rest =>
        have hs := phiLoop_isSome g (p0 :: p1 :: p2 :: rest)
          (createInvertedTerminator.tagDif (.lookup (u.createPHI BB))) (u.phis BB) B hphis
        rw [Option.isSome_iff_exists] at hs
        obtain ⟨B', hB'⟩ := hs
        have hlast : ∃ last, (p0 :: p1 :: p2 :: rest).getLast? = some last := by
          cases hl : (p0 :: p1 :: p2 :: rest).getLast? with
          | none => simp at hl
          | some last => exact ⟨last, rfl⟩
        obtain ⟨last, hlast⟩ := hlast
        refine ⟨{ block := B',
                  terminator := .switch (.lookup (u.createPHI BB)) (u.reverseBlocks last)
                    (createInvertedTerminator.cases u (p0 :: p1 :: p2 :: rest) 0),
                  tagPhi := some (createInvertedTerminator.tagIncoming
                    (p0 :: p1 :: p2 :: rest) 0) }, ?_, ?_, ?_⟩
        · simp only [hB', hlast]
        · intro b
          exact cases_mem u _ 0 last hlast b
        · exact ⟨_, _, _, rfl, cases_length u _ 0 (by simp)⟩

/-- C15 at block `3` of the diamond with an early way out, whose two predecessors
are the blocks `1` and `2`. -/
theorem createInvertedTerminator_successors_witness :
    ∃ r, createInvertedTerminator scalarUtils diamondCFG (searchFuel 4 2) 3 false 0 [] = some r ∧
      (∀ b, b ∈ r.terminator.successors ↔
        b ∈ (diamondCFG.predecessors 3).map diamondCFG.reverseBlocks) ∧
      (match diamondCFG.predecessors 3 with
        | [] => ∃ v, r.terminator = .ret v
        | [p0] => r.terminator = .br (diamondCFG.reverseBlocks p0)
        | [p0, p1] => ∃ c, r.terminator =
              .condBr c (diamondCFG.reverseBlocks p0) (diamondCFG.reverseBlocks p1) ∨
            r.terminator = .condBr c (diamondCFG.reverseBlocks p1) (diamondCFG.reverseBlocks p0)
        | preds => ∃ c d cases, r.terminator = .switch c d cases ∧
            cases.length + 1 = preds.length) :=
  createInvertedTerminator_successors scalarUtils diamondCFG 4 2 (searchFuel 4 2) 3 false 0 []
    (fun h => absurd h (by decide)) (by decide) (by decide) (by decide) (by decide)
    (Nat.le_refl _)

/-- C17: in the diamond with an early way out the primal run that takes the branch
of block `0` and not that of block `1` enters block `3` from block `2`, the second
predecessor, whose incoming value for the phi node `14` is `13`; the pivot search
settles on the condition `10` of block `0`, not negated, so the emitted code adds
the adjoint of the phi node to the adjoint of `12`, the incoming value of the
first predecessor, leaves the adjoint of `13` alone, and branches to the reverse
block of block `1`. -/
theorem pivot_search_selects_wrong_predecessor (regs : Nat → ℚ) (sh : Value → ℚ) :
    diamondCFG.predecessors 3 = [1, 2] ∧
    GradientCFG.trace diamondCFG diamondEnv.lookup 3 0 = [0, 1, 2, 3] ∧
    createInvertedTerminator.search diamondCFG 2 (searchFuel 4 2)
      ⟨[], [], [(1, 0, 3), (2, 1, 3)]⟩ = some (.found 10 false) ∧
    ∃ r, createInvertedTerminator scalarUtils diamondCFG (searchFuel 4 2) 3 false 0 [] = some r ∧
      r.terminator = .condBr (.lookup 10) (diamondCFG.reverseBlocks 1)
        (diamondCFG.reverseBlocks 2) ∧
      ∃ m', exec diamondEnv r.block ⟨regs, 0, fun v => if v = 14 then 1 else 0, sh⟩ = some m' ∧
        m'.diffe 14 = 0 ∧ m'.diffe 12 = 1 ∧ m'.diffe 13 = 0 ∧
        r.terminator.next diamondEnv m' = some (diamondCFG.reverseBlocks 1) := by
  refine ⟨rfl, ?_, by decide, ?_⟩
  · simp [GradientCFG.trace, diamondCFG, diamondEnv, CFGTerminator.next]
  · refine ⟨⟨[.load (.differential 14), .store .nullValue (.differential 14),
        .select (.lookup 10) (.inst 0) .nullValue, .load (.differential 12),
        .fadd (.inst 3) (.inst 2), .store (.inst 4) (.differential 12),
        .select (.lookup 10) .nullValue (.inst 0), .load (.differential 13),
        .fadd (.inst 7) (.inst 6), .store (.inst 8) (.differential 13)],
      .condBr (.lookup 10) 101 102, none⟩, by decide, rfl, ?_⟩
    simp [exec, step, stepBin, evalVal, Machine.setResult, diamondEnv, Function.update_apply,
      RTerminator.next, diamondCFG]

/-- C18: for a loop with two live exit blocks `getContextM` finds both, writes
the line `No unique exit block (1)`, and goes on: it returns `true` with a
context whose exit is the first of the two blocks, and records it in
`loopContexts`. -/
theorem getContextM_continues_with_two_exits :
    getContextM.exitBlocks twoExitAnalyses twoExitLoop 4 twoExitLoop.getExitBlocks [] =
      some [4, 5] ∧
    (getContextM twoExitAnalyses 4 1 []).map
        (fun r => (r.found, r.loopContext, r.loopContexts.length, r.errs)) =
      some (true, some (.mk 20 21 2 1 0 false 22 4 none), 1, [.noUniqueExitBlock]) :=
  ⟨rfl, rfl⟩

theorem specSlot_cons (i L : Nat) (is Ls : List Nat) :
    specSlot (i :: is) (L :: Ls) =
      i + (L + 1) * ∑ t ∈ Finset.range is.length, is.getD t 0 * ((Ls.take t).map (· + 1)).prod := by
  unfold specSlot
  rw [Finset.sum_Ico_eq_sum_range, Finset.mul_sum]
  simp only [List.length_cons, Nat.add_sub_cancel, List.getD_cons_zero]
  congr 1
  apply Finset.sum_congr rfl
  intro t _
  have e : 1 + t = t + 1 := Nat.add_comm 1 t
  rw [e]
  simp only [List.getD_cons_succ, List.take_succ_cons, List.map_cons, List.prod_cons]
  ring

theorem specSlot_eq_range (is Ls : List Nat) :
    specSlot is Ls =
      ∑ t ∈ Finset.range is.length, is.getD t 0 * ((Ls.take t).map (· + 1)).prod := by
  unfold specSlot
  cases is with
  | nil => simp
  | cons i is =>
    rw [List.length_cons, Finset.range_eq_Ico, Finset.sum_eq_sum_Ico_succ_bot (Nat.succ_pos _)]
    simp

theorem specSlot_eq_nestedSlot : ∀ (is Ls : List Nat), is.length = Ls.length →
    specSlot is Ls = nestedSlot is Ls := by
  intro is
  induction is with
  | nil => intro Ls _; simp [specSlot, nestedSlot]
  | cons i is ih =>
    intro Ls h
    cases Ls with
    | nil => simp at h
    | cons L Ls =>
      have h' : is.length = Ls.length := by simpa using h
      rw [specSlot_cons, ← specSlot_eq_range, ih Ls h']
      rfl

theorem nestedSlot_lt : ∀ (is Ls : List Nat), withinLimits is Ls = true →
    nestedSlot is Ls < specSize Ls := by
  intro is
  induction is with
  | nil =>
    intro Ls h
    cases Ls with
    | nil => simp [nestedSlot, specSize]
    | cons L Ls => exact absurd h (by simp [withinLimits])
  | cons i is ih =>
    intro Ls h
    cases Ls with
    | nil => exact absurd h (by simp [withinLimits])
    | cons L Ls =>
      simp only [withinLimits, Bool.and_eq_true, decide_eq_true_eq] at h
      obtain ⟨h1, h2⟩ := h
      have h3 := ih Ls h2
      simp only [nestedSlot, specSize, List.map_cons, List.prod_cons] at h3 ⊢
      calc i + (L + 1) * nestedSlot is Ls
          < (L + 1) + (L + 1) * nestedSlot is Ls := by omega
        _ = (L + 1) * (nestedSlot is Ls + 1) := by ring
        _ ≤ (L + 1) * (List.map (· + 1) Ls).prod := Nat.mul_le_mul_left _ h3

theorem nestedSlot_injective : ∀ (is js Ls : List Nat), withinLimits is Ls = true →
    withinLimits js Ls = true → nestedSlot is Ls = nestedSlot js Ls → is = js := by
  intro is
  induction is with
  | nil =>
    intro js Ls h1 h2 _
    cases Ls with
    | nil =>
      cases js with
      | nil => rfl
      | cons j js => exact absurd h2 (by simp [withinLimits])
    | cons L Ls => exact absurd h1 (by simp [withinLimits])
  | cons i is ih =>
    intro js Ls h1 h2 h
    cases Ls with
    | nil => exact absurd h1 (by simp [withinLimits])
    | cons L Ls =>
      cases js with
      | nil => exact absurd h2 (by simp [withinLimits])
      | cons j js =>
        simp only [withinLimits, Bool.and_eq_true, decide_eq_true_eq] at h1 h2
        obtain ⟨a1, a2⟩ := h1
        obtain ⟨b1, b2⟩ := h2
        simp only [nestedSlot] at h
        have hmod := congrArg (· % (L + 1)) h
        simp only [Nat.add_mul_mod_self_left] at hmod
        rw [Nat.mod_eq_of_lt (by omega), Nat.mod_eq_of_lt (by omega)] at hmod
        subst hmod
        have hr : nestedSlot is Ls = nestedSlot js Ls := by
          have := Nat.add_left_cancel h
          exact Nat.eq_of_mul_eq_mul_left (Nat.succ_pos L) this
        rw [ih js Ls a2 b2 hr]

theorem dotFrom_runningProducts : ∀ (xs Ls : List Nat) (a acc : Nat),
    xs.length = Ls.length →
      dotFrom a xs (runningProducts acc Ls) = a + acc * nestedTail xs Ls := by
  intro xs
  induction xs with
  | nil => intro Ls a acc _; simp [dotFrom, nestedTail]
  | cons x xs ih =>
    intro Ls a acc h
    cases Ls with
    | nil => simp at h
    | cons L Ls =>
      have h' : xs.length = Ls.length := by simpa using h
      simp only [runningProducts, dotFrom, nestedTail]
      rw [ih Ls _ _ h']
      ring

theorem nestedSlot_eq_tail : ∀ (xs Lp : List Nat) (i Llast : Nat), xs.length = Lp.length →
    nestedSlot (i :: xs) (Lp ++ [Llast]) = i + nestedTail xs Lp := by
  intro xs
  induction xs with
  | nil =>
    intro Lp i Llast h
    cases Lp with
    | nil => simp [nestedSlot, nestedTail]
    | cons L Lp => simp at h
  | cons x xs ih =>
    intro Lp i Llast h
    cases Lp with
    | nil => simp at h
    | cons L Lp =>
      have h' : xs.length = Lp.length := by simpa using h
      simp only [List.cons_append, nestedSlot, nestedTail]
      exact congrArg (fun z => i + (L + 1) * z) (ih Lp x Llast h')

theorem eval_limit (bits : Nat) (env : Value → Nat) (l : Value) (h : env l + 1 < 2 ^ bits) :
    (IndexExpr.nuwAdd (.value l) (.constant 1)).eval bits env = some (env l + 1) := by
  have h1 : 1 % 2 ^ bits = 1 := Nat.mod_eq_of_lt (by omega)
  simp [IndexExpr.eval, h1, h]

theorem eval_nuwMul (bits : Nat) (env : Value → Nat) (a b : IndexExpr) (x y : Nat)
    (ha : a.eval bits env = some x) (hb : b.eval bits env = some y) (h : x * y < 2 ^ bits) :
    (IndexExpr.nuwMul a b).eval bits env = some (x * y) := by
  simp [IndexExpr.eval, ha, hb, h]

theorem eval_nuwAdd (bits : Nat) (env : Value → Nat) (a b : IndexExpr) (x y : Nat)
    (ha : a.eval bits env = some x) (hb : b.eval bits env = some y) (h : x + y < 2 ^ bits) :
    (IndexExpr.nuwAdd a b).eval bits env = some (x + y) := by
  simp [IndexExpr.eval, ha, hb, h]

theorem limit_mk (var antivar : Value) (latch header preheader : BasicBlock) (dynamic : Bool)
    (limit : Value) (exit : BasicBlock) (parent : Option LoopContext) :
    (LoopContext.mk var antivar latch header preheader dynamic limit exit parent).limit =
      limit := rfl

theorem dotFrom_ge : ∀ (xs ps : List Nat) (a : Nat), a ≤ dotFrom a xs ps := by
  intro xs
  induction xs with
  | nil => intro ps a; simp [dotFrom]
  | cons x xs ih =>
    intro ps a
    cases ps with
    | nil => simp [dotFrom]
    | cons p ps =>
      simp only [dotFrom]
      exact Nat.le_trans (Nat.le_add_right _ _) (ih ps _)

theorem slotFrom_eval (bits : Nat) (env : Value → Nat) : ∀ (xsE psE : List IndexExpr)
    (xs ps : List Nat) (idx : IndexExpr) (a : Nat),
    idx.eval bits env = some a →
    xsE.map (IndexExpr.eval bits env) = xs.map some →
    psE.map (IndexExpr.eval bits env) = ps.map some →
    xs.length = ps.length → dotFrom a xs ps < 2 ^ bits →
    ∃ e, lookupM.slotFrom idx xsE psE = some e ∧ e.eval bits env = some (dotFrom a xs ps) := by
  intro xsE
  induction xsE with
  | nil =>
    intro psE xs ps idx a h1 h2 _ _ _
    cases xs with
    | nil => exact ⟨idx, rfl, by simpa [dotFrom] using h1⟩
    | cons x xs => simp at h2
  | cons xE xsE ih =>
    intro psE xs ps idx a h1 h2 h3 h4 h5
    cases xs with
    | nil => simp at h2
    | cons x xs =>
      cases ps with
      | nil => simp at h4
      | cons p ps =>
        cases psE with
        | nil => simp at h3
        | cons pE psE =>
          simp only [List.map_cons, List.cons.injEq] at h2 h3
          simp only [List.length_cons, Nat.add_right_cancel_iff] at h4
          simp only [dotFrom] at h5 ⊢
          have hb := dotFrom_ge xs ps (a + x * p)
          have hstep : (IndexExpr.nuwAdd idx (.nuwMul xE pE)).eval bits env =
              some (a + x * p) := by
            have e1 : x * p < 2 ^ bits := by omega
            have e2 : a + x * p < 2 ^ bits := by omega
            exact eval_nuwAdd bits env _ _ _ _ h1
              (eval_nuwMul bits env _ _ _ _ h2.1 h3.1 e1) e2
          exact ih psE xs ps _ _ hstep h2.2 h3.2 h4 h5

theorem nest_none (var antivar : Value) (latch header preheader : BasicBlock) (dynamic : Bool)
    (limit : Value) (exit : BasicBlock) :
    (LoopContext.mk var antivar latch header preheader dynamic limit exit none).nest =
      [.mk var antivar latch header preheader dynamic limit exit none] := rfl

theorem nest_some (var antivar : Value) (latch header preheader : BasicBlock) (dynamic : Bool)
    (limit : Value) (exit : BasicBlock) (idx : LoopContext) :
    (LoopContext.mk var antivar latch header preheader dynamic limit exit (some idx)).nest =
      .mk var antivar latch header preheader dynamic limit exit (some idx) :: idx.nest := by
  rw [LoopContext.nest]

theorem nest_ne_nil (lc : LoopContext) : lc.nest ≠ [] := by
  cases lc with
  | mk var antivar latch header preheader dynamic limit exit parent =>
    cases parent with
    | none => simp [nest_none]
    | some idx => simp [nest_some]

theorem loadIndices_eval (bits : Nat) (unwrapM : Value → Option Value) (env : Value → Nat) :
    ∀ (n : Nat) (lc : LoopContext) (indices limits : List IndexExpr)
    (acc : Nat), lc.nest.length = n + 1 →
    (∀ c ∈ lc.nest, ∃ l, unwrapM c.limit = some l ∧ env l = env c.limit) →
    ((∃ b, limits.getLast? = some b ∧ b.eval bits env = some acc) ∨ (limits = [] ∧ acc = 1)) →
    0 < acc →
    (∀ p ∈ runningProducts acc (lc.nest.dropLast.map (fun c => env c.limit)), p < 2 ^ bits) →
    ∃ I Lm, lookupM.loadIndices unwrapM lc indices limits = .ok (indices ++ I, limits ++ Lm) ∧
      I.map (IndexExpr.eval bits env) = lc.nest.map (fun c => some (env c.antivar)) ∧
      Lm.map (IndexExpr.eval bits env) =
        (runningProducts acc (lc.nest.dropLast.map (fun c => env c.limit))).map some := by
  intro n
  induction n with
  | zero =>
    intro lc indices limits acc hlen _ _ _ _
    cases lc with
    | mk var antivar latch header preheader dynamic limit exit parent =>
      cases parent with
      | some idx =>
        rw [nest_some] at hlen
        have := nest_ne_nil idx
        cases hq : idx.nest with
        | nil => exact absurd hq this
        | cons a b => rw [hq] at hlen; simp at hlen
      | none =>
        refine ⟨[.value antivar], [], ?_, ?_, ?_⟩
        · simp [lookupM.loadIndices]
        · simp [nest_none, IndexExpr.eval, LoopContext.antivar]
        · simp [nest_none, runningProducts]
  | succ n ih =>
    intro lc indices limits acc hlen hlim hback hacc hfit
    cases lc with
    | mk var antivar latch header preheader dynamic limit exit parent =>
      cases parent with
      | none => rw [nest_none] at hlen; simp at hlen
      | some idx =>
        rw [nest_some] at hlen hlim hfit ⊢
        have hlen' : idx.nest.length = n + 1 := by simpa using hlen
        obtain ⟨l, hl1, hl2⟩ := hlim _ (List.mem_cons_self _ _)
        rw [limit_mk] at hl1 hl2
        have hdrop : (LoopContext.mk var antivar latch header preheader dynamic limit exit
            (some idx) :: idx.nest).dropLast =
            .mk var antivar latch header preheader dynamic limit exit (some idx) ::
              idx.nest.dropLast := List.dropLast_cons_of_ne_nil (nest_ne_nil idx)
        rw [hdrop] at hfit ⊢
        simp only [List.map_cons, runningProducts, limit_mk, List.mem_cons,
          forall_eq_or_imp] at hfit
        obtain ⟨hfit1, hfit2⟩ := hfit
        have hL : env l + 1 < 2 ^ bits := by
          have : env limit + 1 ≤ (env limit + 1) * acc := Nat.le_mul_of_pos_right _ hacc
          omega
        have hlim0 := eval_limit bits env l hL
        have hevalLim : (match limits.getLast? with
            | some back => IndexExpr.nuwMul (.nuwAdd (.value l) (.constant 1)) back
            | none => IndexExpr.nuwAdd (.value l) (.constant 1)).eval bits env =
              some ((env limit + 1) * acc) := by
          rcases hback with ⟨b, hb1, hb2⟩ | ⟨hb1, hb2⟩
          · simp only [hb1]
            rw [hl2] at hlim0
            exact eval_nuwMul bits env _ _ _ _ hlim0 hb2 hfit1
          · subst hb1; subst hb2
            simp only [List.getLast?_nil]
            rw [hlim0, hl2, Nat.mul_one]
        obtain ⟨limE, hlimE⟩ : ∃ limE, limE = (match limits.getLast? with
            | some back => IndexExpr.nuwMul (.nuwAdd (.value l) (.constant 1)) back
            | none => IndexExpr.nuwAdd (.value l) (.constant 1)) := ⟨_, rfl⟩
        rw [← hlimE] at hevalLim
        obtain ⟨I, Lm, h1, h2, h3⟩ := ih idx (indices ++ [.value antivar])
          (limits ++ [limE]) ((env limit + 1) * acc) hlen'
          (fun c hc => hlim c (List.mem_cons_of_mem _ hc))
          (Or.inl ⟨_, by simp, hevalLim⟩) (Nat.mul_pos (Nat.succ_pos _) hacc) hfit2
        refine ⟨.value antivar :: I, limE :: Lm, ?_, ?_, ?_⟩
        · simp only [lookupM.loadIndices, hl1, ← hlimE]
          rw [h1]
          simp only [List.append_assoc, List.singleton_append]
        · simp [IndexExpr.eval, LoopContext.antivar, h2]
        · simp only [List.map_cons, runningProducts, limit_mk, hevalLim, h3]

theorem storeIndices_eval (bits : Nat) (unwrapM : Value → Option Value) (env : Value → Nat) :
    ∀ (n : Nat) (lc : LoopContext) (indices limits : List IndexExpr)
    (acc : Nat), lc.nest.length = n + 1 →
    (∀ c ∈ lc.nest, c.dynamic = false) →
    (∀ c ∈ lc.nest, ∃ l, unwrapM c.limit = some l ∧ env l = env c.limit) →
    ((∃ b, limits.getLast? = some b ∧ b.eval bits env = some acc) ∨ (limits = [] ∧ acc = 1)) →
    0 < acc →
    (∀ p ∈ runningProducts acc (lc.nest.dropLast.map (fun c => env c.limit)), p < 2 ^ bits) →
    ∃ I Lm, lookupM.storeIndices unwrapM lc indices limits =
        .ok (indices ++ I, limits ++ Lm, none) ∧
      I.map (IndexExpr.eval bits env) = lc.nest.map (fun c => some (env c.var)) ∧
      Lm.map (IndexExpr.eval bits env) =
        (runningProducts acc (lc.nest.dropLast.map (fun c => env c.limit))).map some := by
  intro n
  induction n with
  | zero =>
    intro lc indices limits acc hlen hstatic _ _ _ _
    cases lc with
    | mk var antivar latch header preheader dynamic limit exit parent =>
      cases parent with
      | some idx =>
        rw [nest_some] at hlen
        have := nest_ne_nil idx
        cases hq : idx.nest with
        | nil => exact absurd hq this
        | cons a b => rw [hq] at hlen; simp at hlen
      | none =>
        have hd : dynamic = false := by
          have := hstatic _ (by rw [nest_none]; exact List.mem_cons_self _ _)
          simpa [LoopContext.dynamic] using this
        subst hd
        refine ⟨[.value var], [], ?_, ?_, ?_⟩
        · simp [lookupM.storeIndices]
        · simp [nest_none, IndexExpr.eval, LoopContext.var]
        · simp [nest_none, runningProducts]
  | succ n ih =>
    intro lc indices limits acc hlen hstatic hlim hback hacc hfit
    cases lc with
    | mk var antivar latch header preheader dynamic limit exit parent =>
      cases parent with
      | none => rw [nest_none] at hlen; simp at hlen
      | some idx =>
        rw [nest_some] at hlen hlim hfit hstatic ⊢
        have hd : dynamic = false := by
          have := hstatic _ (List.mem_cons_self _ _)
          simpa [LoopContext.dynamic] using this
        have hlen' : idx.nest.length = n + 1 := by simpa using hlen
        obtain ⟨l, hl1, hl2⟩ := hlim _ (List.mem_cons_self _ _)
        rw [limit_mk] at hl1 hl2
        have hdrop : (LoopContext.mk var antivar latch header preheader dynamic limit exit
            (some idx) :: idx.nest).dropLast =
            .mk var antivar latch header preheader dynamic limit exit (some idx) ::
              idx.nest.dropLast := List.dropLast_cons_of_ne_nil (nest_ne_nil idx)
        rw [hdrop] at hfit ⊢
        simp only [List.map_cons, runningProducts, limit_mk, List.mem_cons,
          forall_eq_or_imp] at hfit
        obtain ⟨hfit1, hfit2⟩ := hfit
        have hL : env l + 1 < 2 ^ bits := by
          have : env limit + 1 ≤ (env limit + 1) * acc := Nat.le_mul_of_pos_right _ hacc
          omega
        have hlim0 := eval_limit bits env l hL
        have hevalLim : (match limits.getLast? with
            | some back => IndexExpr.nuwMul (.nuwAdd (.value l) (.constant 1)) back
            | none => IndexExpr.nuwAdd (.value l) (.constant 1)).eval bits env =
              some ((env limit + 1) * acc) := by
          rcases hback with ⟨b, hb1, hb2⟩ | ⟨hb1, hb2⟩
          · simp only [hb1]
            rw [hl2] at hlim0
            exact eval_nuwMul bits env _ _ _ _ hlim0 hb2 hfit1
          · subst hb1; subst hb2
            simp only [List.getLast?_nil]
            rw [hlim0, hl2, Nat.mul_one]
        obtain ⟨limE, hlimE⟩ : ∃ limE, limE = (match limits.getLast? with
            | some back => IndexExpr.nuwMul (.nuwAdd (.value l) (.constant 1)) back
            | none => IndexExpr.nuwAdd (.value l) (.constant 1)) := ⟨_, rfl⟩
        rw [← hlimE] at hevalLim
        obtain ⟨I, Lm, h1, h2, h3⟩ := ih idx (indices ++ [.value var])
          (limits ++ [limE]) ((env limit + 1) * acc) hlen'
          (fun c hc => hstatic c (List.mem_cons_of_mem _ hc))
          (fun c hc => hlim c (List.mem_cons_of_mem _ hc))
          (Or.inl ⟨_, by simp, hevalLim⟩) (Nat.mul_pos (Nat.succ_pos _) hacc) hfit2
        refine ⟨.value var :: I, limE :: Lm, ?_, ?_, ?_⟩
        · simp only [lookupM.storeIndices, hl1, ← hlimE, hd, Bool.false_eq_true, if_false]
          rw [h1]
          simp only [List.append_assoc, List.singleton_append]
        · simp [IndexExpr.eval, LoopContext.var, h2]
        · simp only [List.map_cons, runningProducts, limit_mk, hevalLim, h3]

theorem specSize_pos (Ls : List Nat) : 0 < specSize Ls := by
  induction Ls with
  | nil => simp [specSize]
  | cons L Ls ih =>
    simp only [specSize, List.map_cons, List.prod_cons] at ih ⊢
    exact Nat.mul_pos (Nat.succ_pos _) ih

theorem cacheSize_eval (bits : Nat) (unwrapM : Value → Option Value) (env : Value → Nat) :
    ∀ (n : Nat) (lc : LoopContext) (size : IndexExpr) (s : Nat), lc.nest.length = n + 1 →
    (∀ c ∈ lc.nest, c.dynamic = false) →
    (∀ c ∈ lc.nest, ∃ l, unwrapM c.limit = some l ∧ env l = env c.limit) →
    size.eval bits env = some s → 0 < s →
    s * specSize (lc.nest.map (fun c => env c.limit)) < 2 ^ bits →
    ∃ e, lookupM.cacheSize unwrapM lc (some size) = .ok e ∧
      e.eval bits env = some (s * specSize (lc.nest.map (fun c => env c.limit))) := by
  intro n
  induction n with
  | zero =>
    intro lc size s hlen hstatic hlim hsize hs hfit
    cases lc with
    | mk var antivar latch header preheader dynamic limit exit parent =>
      cases parent with
      | some idx =>
        rw [nest_some] at hlen
        have := nest_ne_nil idx
        cases hq : idx.nest with
        | nil => exact absurd hq this
        | cons a b => rw [hq] at hlen; simp at hlen
      | none =>
        rw [nest_none] at hstatic hlim hfit ⊢
        have hd : dynamic = false := by
          have := hstatic _ (List.mem_cons_self _ _)
          simpa [LoopContext.dynamic] using this
        subst hd
        obtain ⟨l, hl1, hl2⟩ := hlim _ (List.mem_cons_self _ _)
        rw [limit_mk] at hl1 hl2
        simp only [List.map_cons, List.map_nil, limit_mk, specSize, List.prod_cons, List.prod_nil,
          Nat.mul_one] at hfit ⊢
        have hL : env l + 1 < 2 ^ bits := by
          have : env limit + 1 ≤ s * (env limit + 1) := Nat.le_mul_of_pos_left _ hs
          omega
        have hlim0 := eval_limit bits env l hL
        rw [hl2] at hlim0
        refine ⟨.nuwMul size (.nuwAdd (.value l) (.constant 1)), ?_, ?_⟩
        · simp [lookupM.cacheSize, hl1]
        · exact eval_nuwMul bits env _ _ _ _ hsize hlim0 hfit
  | succ n ih =>
    intro lc size s hlen hstatic hlim hsize hs hfit
    cases lc with
    | mk var antivar latch header preheader dynamic limit exit parent =>
      cases parent with
      | none => rw [nest_none] at hlen; simp at hlen
      | some idx =>
        rw [nest_some] at hlen hlim hfit hstatic ⊢
        have hlen' : idx.nest.length = n + 1 := by simpa using hlen
        have hd : dynamic = false := by
          have := hstatic _ (List.mem_cons_self _ _)
          simpa [LoopContext.dynamic] using this
        subst hd
        obtain ⟨l, hl1, hl2⟩ := hlim _ (List.mem_cons_self _ _)
        rw [limit_mk] at hl1 hl2
        simp only [List.map_cons, limit_mk, specSize, List.prod_cons] at hfit ⊢
        have hpos := specSize_pos (idx.nest.map (fun c => env c.limit))
        simp only [specSize] at hpos
        have hstep : s * (env limit + 1) < 2 ^ bits := by
          have : s * (env limit + 1) * 1 ≤ s * (env limit + 1) *
              (List.map (· + 1) (List.map (fun c => env c.limit) idx.nest)).prod :=
            Nat.mul_le_mul_left _ hpos
          rw [Nat.mul_one, Nat.mul_assoc] at this
          omega
        have hL : env l + 1 < 2 ^ bits := by
          have : env limit + 1 ≤ s * (env limit + 1) := Nat.le_mul_of_pos_left _ hs
          omega
        have hlim0 := eval_limit bits env l hL
        rw [hl2] at hlim0
        have hnew := eval_nuwMul bits env _ _ _ _ hsize hlim0 hstep
        obtain ⟨e, h1, h2⟩ := ih idx (.nuwMul size (.nuwAdd (.value l) (.constant 1)))
          (s * (env limit + 1)) hlen' (fun c hc => hstatic c (List.mem_cons_of_mem _ hc))
          (fun c hc => hlim c (List.mem_cons_of_mem _ hc)) hnew
          (Nat.mul_pos hs (Nat.succ_pos _)) (by simpa [specSize, Nat.mul_assoc] using hfit)
        refine ⟨e, ?_, ?_⟩
        · simpa [lookupM.cacheSize, hl1] using h1
        · simpa [specSize, Nat.mul_assoc] using h2

theorem runningProducts_le : ∀ (Lp : List Nat) (acc p : Nat), p ∈ runningProducts acc Lp →
    p ≤ acc * specSize Lp := by
  intro Lp
  induction Lp with
  | nil => intro acc p h; simp [runningProducts] at h
  | cons L Lp ih =>
    intro acc p h
    simp only [runningProducts, List.mem_cons] at h
    have hpos := specSize_pos Lp
    simp only [specSize, List.map_cons, List.prod_cons] at hpos ⊢
    rcases h with h | h
    · subst h
      calc (L + 1) * acc = acc * ((L + 1) * 1) := by ring
        _ ≤ acc * ((L + 1) * (List.map (· + 1) Lp).prod) :=
          Nat.mul_le_mul_left _ (Nat.mul_le_mul_left _ hpos)
    · have := ih _ _ h
      simp only [specSize] at this
      calc p ≤ (L + 1) * acc * (List.map (· + 1) Lp).prod := this
        _ = acc * ((L + 1) * (List.map (· + 1) Lp).prod) := by ring

theorem runningProducts_length : ∀ (Ls : List Nat) (acc : Nat),
    (runningProducts acc Ls).length = Ls.length := by
  intro Ls
  induction Ls with
  | nil => intro acc; rfl
  | cons L Ls ih => intro acc; simp [runningProducts, ih]

theorem specSize_dropLast_le (Ls : List Nat) : specSize Ls.dropLast ≤ specSize Ls := by
  induction Ls with
  | nil => simp
  | cons L Ls ih =>
    cases Ls with
    | nil => simp [specSize]
    | cons L' Ls =>
      simp only [List.dropLast_cons₂, specSize, List.map_cons, List.prod_cons] at ih ⊢
      exact Nat.mul_le_mul_left _ ih

theorem withinLimits_length : ∀ (is Ls : List Nat), withinLimits is Ls = true →
    is.length = Ls.length := by
  intro is
  induction is with
  | nil =>
    intro Ls h
    cases Ls with
    | nil => rfl
    | cons L Ls => simp [withinLimits] at h
  | cons i is ih =>
    intro Ls h
    cases Ls with
    | nil => simp [withinLimits] at h
    | cons L Ls =>
      simp only [withinLimits, Bool.and_eq_true] at h
      simp [ih Ls h.2]

theorem dotFrom_eq_nestedSlot (i0 : Nat) (xs Ls : List Nat) (h : xs.length + 1 = Ls.length) :
    dotFrom i0 xs (runningProducts 1 Ls.dropLast) = nestedSlot (i0 :: xs) Ls := by
  have hne : Ls ≠ [] := by
    intro h0; subst h0; simp at h
  have hlen : xs.length = Ls.dropLast.length := by
    rw [List.length_dropLast]; omega
  rw [dotFrom_runningProducts xs _ i0 1 hlen, Nat.one_mul]
  have := nestedSlot_eq_tail xs Ls.dropLast i0 (Ls.getLast hne) hlen
  rw [List.dropLast_append_getLast hne] at this
  exact this.symm

theorem slot_eval (bits : Nat) (env : Value → Nat) (I Lm : List IndexExpr) (vs Ls : List Nat)
    (hI : I.map (IndexExpr.eval bits env) = vs.map some)
    (hLm : Lm.map (IndexExpr.eval bits env) = (runningProducts 1 Ls.dropLast).map some)
    (hw : withinLimits vs Ls = true) (hfit : specSize Ls < 2 ^ bits) (hne : vs ≠ []) :
    ∃ e, lookupM.slot I Lm = some e ∧ e.eval bits env = some (specSlot vs Ls) := by
  have hlen := withinLimits_length vs Ls hw
  cases vs with
  | nil => exact absurd rfl hne
  | cons i0 xs =>
    cases I with
    | nil => simp at hI
    | cons i0E IE =>
      simp only [List.map_cons, List.cons.injEq] at hI
      have hlen' : xs.length + 1 = Ls.length := by simpa using hlen
      have hval := dotFrom_eq_nestedSlot i0 xs Ls hlen'
      have hlt := nestedSlot_lt (i0 :: xs) Ls hw
      have hps : xs.length = (runningProducts 1 Ls.dropLast).length := by
        rw [runningProducts_length, List.length_dropLast]; omega
      obtain ⟨e, h1, h2⟩ := slotFrom_eval bits env IE Lm xs (runningProducts 1 Ls.dropLast)
        i0E i0 hI.1 hI.2 hLm hps (by omega)
      refine ⟨e, h1, ?_⟩
      rw [h2, hval, specSlot_eq_nestedSlot _ _ hlen]

theorem map_dropLast_limits (env : Value → Nat) : ∀ (l : List LoopContext),
    l.dropLast.map (fun c => env c.limit) = (l.map (fun c => env c.limit)).dropLast := by
  intro l
  induction l with
  | nil => rfl
  | cons a l ih =>
    cases l with
    | nil => rfl
    | cons b l => simp only [List.dropLast_cons₂, List.map_cons, ih]

/-- C19: for a nest of statically bounded loops whose limits can be read where
they are needed and whose trip counts multiply to less than `2 ^ bits`, `lookupM`
allocates `Π_j (L_j + 1)` elements and stores iteration `(i_0, …)` to slot
`i_0 + Σ_{j ≥ 1} i_j · Π_{m < j} (L_m + 1)`; the slot is smaller than the element
count, distinct iterations within the limits have distinct slots, and the reverse
sweep loads from the slot the same formula gives for the mirror induction
variables. -/
theorem loop_cache_slot (bits : Nat) (unwrapAlloc unwrapStore unwrapLoad : Value → Option Value)
    (env : Value → Nat) (lc : LoopContext)
    (hstatic : ∀ c ∈ lc.nest, c.dynamic = false)
    (halloc : ∀ c ∈ lc.nest, ∃ l, unwrapAlloc c.limit = some l ∧ env l = env c.limit)
    (hstore : ∀ c ∈ lc.nest, ∃ l, unwrapStore c.limit = some l ∧ env l = env c.limit)
    (hload : ∀ c ∈ lc.nest, ∃ l, unwrapLoad c.limit = some l ∧ env l = env c.limit)
    (hfit : specSize (lc.nest.map (fun c => env c.limit)) < 2 ^ bits)
    (hiter : withinLimits (lc.nest.map (fun c => env c.var))
      (lc.nest.map (fun c => env c.limit)) = true)
    (hmirror : withinLimits (lc.nest.map (fun c => env c.antivar))
      (lc.nest.map (fun c => env c.limit)) = true) :
    (∃ size idx, lookupM.createCache unwrapAlloc unwrapStore lc = .ok (size, some idx, none) ∧
      size.eval bits env = some (specSize (lc.nest.map (fun c => env c.limit))) ∧
      idx.eval bits env = some (specSlot (lc.nest.map (fun c => env c.var))
        (lc.nest.map (fun c => env c.limit)))) ∧
    specSlot (lc.nest.map (fun c => env c.var)) (lc.nest.map (fun c => env c.limit)) <
      specSize (lc.nest.map (fun c => env c.limit)) ∧
    (∀ is js : List Nat, withinLimits is (lc.nest.map (fun c => env c.limit)) = true →
      withinLimits js (lc.nest.map (fun c => env c.limit)) = true →
      specSlot is (lc.nest.map (fun c => env c.limit)) =
        specSlot js (lc.nest.map (fun c => env c.limit)) → is = js) ∧
    (∃ idx, lookupM.loadSlot unwrapLoad lc = .ok (some idx) ∧
      idx.eval bits env = some (specSlot (lc.nest.map (fun c => env c.antivar))
        (lc.nest.map (fun c => env c.limit)))) := by
  have hne := nest_ne_nil lc
  obtain ⟨n, hn⟩ : ∃ n, lc.nest.length = n + 1 := by
    cases hq : lc.nest with
    | nil => exact absurd hq hne
    | cons a b => exact ⟨b.length, rfl⟩
  have hrp : ∀ p ∈ runningProducts 1 (lc.nest.dropLast.map (fun c => env c.limit)),
      p < 2 ^ bits := by
    intro p hp
    have h1 := runningProducts_le _ _ _ hp
    rw [map_dropLast_limits, Nat.one_mul] at h1
    have h2 := specSize_dropLast_le (lc.nest.map (fun c => env c.limit))
    omega
  have hvne : ∀ (f : LoopContext → Nat), lc.nest.map f ≠ [] := by
    intro f h
    exact hne (List.map_eq_nil_iff.1 h)
  refine ⟨?_, ?_, ?_, ?_⟩
  · obtain ⟨I, Lm, h1, h2, h3⟩ := storeIndices_eval bits unwrapStore env n lc [] [] 1 hn hstatic
      hstore (Or.inr ⟨rfl, rfl⟩) Nat.one_pos hrp
    rw [map_dropLast_limits] at h3
    have h2' : I.map (IndexExpr.eval bits env) = (lc.nest.map (fun c => env c.var)).map some := by
      rw [h2, List.map_map]; rfl
    obtain ⟨idx, hi1, hi2⟩ := slot_eval bits env I Lm _ _ h2' h3 hiter hfit (hvne _)
    simp only [List.nil_append] at h1
    have hsize : ∃ size, lookupM.cacheSize unwrapAlloc lc none = .ok size ∧
        size.eval bits env = some (specSize (lc.nest.map (fun c => env c.limit))) := by
      cases lc with
      | mk var antivar latch header preheader dynamic limit exit parent =>
        have hd : dynamic = false := by
          have := hstatic (.mk var antivar latch header preheader dynamic limit exit parent) (by
            cases parent with
            | none => rw [nest_none]; exact List.mem_cons_self _ _
            | some idx => rw [nest_some]; exact List.mem_cons_self _ _)
          simpa [LoopContext.dynamic] using this
        obtain ⟨l, hl1, hl2⟩ := halloc (.mk var antivar latch header preheader dynamic limit
            exit parent) (by
            cases parent with
            | none => rw [nest_none]; exact List.mem_cons_self _ _
            | some idx => rw [nest_some]; exact List.mem_cons_self _ _)
        rw [limit_mk] at hl1 hl2
        cases parent with
        | none =>
          rw [nest_none] at hfit ⊢
          simp only [List.map_cons, List.map_nil, limit_mk, specSize, List.prod_cons,
            List.prod_nil, Nat.mul_one] at hfit ⊢
          have hlim0 := eval_limit bits env l (by omega)
          rw [hl2] at hlim0
          exact ⟨_, by simp [lookupM.cacheSize, hl1, hd], hlim0⟩
        | some idx =>
          rw [nest_some] at hfit hstatic halloc hn ⊢
          simp only [List.map_cons, limit_mk, specSize, List.prod_cons] at hfit ⊢
          have hpos := specSize_pos (idx.nest.map (fun c => env c.limit))
          simp only [specSize] at hpos
          have hL : env l + 1 < 2 ^ bits := by
            have : (env limit + 1) * 1 ≤ (env limit + 1) *
                (List.map (· + 1) (List.map (fun c => env c.limit) idx.nest)).prod :=
              Nat.mul_le_mul_left _ hpos
            rw [Nat.mul_one] at this
            omega
          have hlim0 := eval_limit bits env l hL
          rw [hl2] at hlim0
          obtain ⟨e, he1, he2⟩ := cacheSize_eval bits unwrapAlloc env (n - 1) idx
            (.nuwAdd (.value l) (.constant 1)) (env limit + 1)
            (by
              have := List.length_pos.2 (nest_ne_nil idx)
              simp only [List.length_cons] at hn
              omega)
            (fun c hc => hstatic c (List.mem_cons_of_mem _ hc))
            (fun c hc => halloc c (List.mem_cons_of_mem _ hc)) hlim0 (Nat.succ_pos _)
            (by simpa [specSize] using hfit)
          exact ⟨e, by simpa [lookupM.cacheSize, hl1, hd] using he1,
            by simpa [specSize] using he2⟩
    obtain ⟨size, hs1, hs2⟩ := hsize
    exact ⟨size, idx, by simp [lookupM.createCache, hs1, h1, hi1], hs2, hi2⟩
  · rw [specSlot_eq_nestedSlot _ _ (withinLimits_length _ _ hiter)]
    exact nestedSlot_lt _ _ hiter
  · intro is js h1 h2 h
    rw [specSlot_eq_nestedSlot _ _ (withinLimits_length _ _ h1),
      specSlot_eq_nestedSlot _ _ (withinLimits_length _ _ h2)] at h
    exact nestedSlot_injective is js _ h1 h2 h
  · obtain ⟨I, Lm, h1, h2, h3⟩ := loadIndices_eval bits unwrapLoad env n lc [] [] 1 hn
      hload (Or.inr ⟨rfl, rfl⟩) Nat.one_pos hrp
    rw [map_dropLast_limits] at h3
    have h2' : I.map (IndexExpr.eval bits env) =
        (lc.nest.map (fun c => env c.antivar)).map some := by
      rw [h2, List.map_map]; rfl
    obtain ⟨idx, hi1, hi2⟩ := slot_eval bits env I Lm _ _ h2' h3 hmirror hfit (hvne _)
    simp only [List.nil_append] at h1
    exact ⟨idx, by simp [lookupM.loadSlot, h1, hi1], hi2⟩

/-- C19 at a nest of two static loops, the inner one in iteration `2` of `0..3`
and the outer one in iteration `1` of `0..4`, in 64-bit arithmetic. -/
theorem loop_cache_slot_witness :
    (∃ size idx, lookupM.createCache some some (innerLoopContext false false) =
        .ok (size, some idx, none) ∧
      size.eval 64 nestEnv =
        some (specSize ((innerLoopContext false false).nest.map (fun c => nestEnv c.limit))) ∧
      idx.eval 64 nestEnv =
        some (specSlot ((innerLoopContext false false).nest.map (fun c => nestEnv c.var))
          ((innerLoopContext false false).nest.map (fun c => nestEnv c.limit)))) ∧
    specSlot ((innerLoopContext false false).nest.map (fun c => nestEnv c.var))
        ((innerLoopContext false false).nest.map (fun c => nestEnv c.limit)) <
      specSize ((innerLoopContext false false).nest.map (fun c => nestEnv c.limit)) ∧
    (∀ is js : List Nat,
      withinLimits is ((innerLoopContext false false).nest.map (fun c => nestEnv c.limit)) = true →
      withinLimits js ((innerLoopContext false false).nest.map (fun c => nestEnv c.limit)) = true →
      specSlot is ((innerLoopContext false false).nest.map (fun c => nestEnv c.limit)) =
        specSlot js ((innerLoopContext false false).nest.map (fun c => nestEnv c.limit)) →
        is = js) ∧
    (∃ idx, lookupM.loadSlot some (innerLoopContext false false) = .ok (some idx) ∧
      idx.eval 64 nestEnv =
        some (specSlot ((innerLoopContext false false).nest.map (fun c => nestEnv c.antivar))
          ((innerLoopContext false false).nest.map (fun c => nestEnv c.limit)))) :=
  loop_cache_slot 64 some some some nestEnv (innerLoopContext false false)
    (by
      intro c hc
      simp only [innerLoopContext, exampleLoopContext, nest_some, nest_none, List.mem_cons,
        List.mem_singleton, List.not_mem_nil, or_false] at hc
      rcases hc with rfl | rfl <;> rfl)
    (fun c _ => ⟨c.limit, rfl, rfl⟩) (fun c _ => ⟨c.limit, rfl, rfl⟩)
    (fun c _ => ⟨c.limit, rfl, rfl⟩) (by decide) (by decide) (by decide)

theorem cacheSize_result (unwrapM : Value → Option Value) : ∀ (n : Nat) (lc : LoopContext)
    (size : Option IndexExpr), lc.nest.length = n + 1 →
    (∀ c ∈ lc.nest, c.dynamic = false → ∃ l, unwrapM c.limit = some l) →
    ((∃ c ∈ lc.nest, c.dynamic = true ∧ c.parent.isSome = true) →
      lookupM.cacheSize unwrapM lc size = .error .nonOutermostDynamicLoop) ∧
    ((∀ c ∈ lc.nest, c.dynamic = true → c.parent.isSome = false) →
      ∃ e, lookupM.cacheSize unwrapM lc size = .ok e) := by
  intro n
  induction n with
  | zero =>
    intro lc size hlen hlim
    cases lc with
    | mk var antivar latch header preheader dynamic limit exit parent =>
      cases parent with
      | some idx =>
        rw [nest_some] at hlen
        have := List.length_pos.2 (nest_ne_nil idx)
        simp only [List.length_cons] at hlen
        omega
      | none =>
        rw [nest_none] at hlim ⊢
        constructor
        · rintro ⟨c, hc, h1, h2⟩
          simp only [List.mem_singleton] at hc
          subst hc
          simp [LoopContext.parent] at h2
        · intro _
          cases dynamic with
          | true => exact ⟨_, by simp [lookupM.cacheSize]; rfl⟩
          | false =>
            obtain ⟨l, hl⟩ := hlim _ (List.mem_singleton.2 rfl) rfl
            rw [limit_mk] at hl
            exact ⟨_, by simp [lookupM.cacheSize, hl]; rfl⟩
  | succ n ih =>
    intro lc size hlen hlim
    cases lc with
    | mk var antivar latch header preheader dynamic limit exit parent =>
      cases parent with
      | none => rw [nest_none] at hlen; simp at hlen
      | some idx =>
        rw [nest_some] at hlen hlim ⊢
        have hlen' : idx.nest.length = n + 1 := by simpa using hlen
        cases dynamic with
        | true =>
          constructor
          · intro _
            simp [lookupM.cacheSize]
          · intro h
            have := h _ (List.mem_cons_self _ _) rfl
            simp [LoopContext.parent] at this
        | false =>
          obtain ⟨l, hl⟩ := hlim _ (List.mem_cons_self _ _) rfl
          rw [limit_mk] at hl
          have hrec := ih idx (some (match size with
            | none => IndexExpr.nuwAdd (.value l) (.constant 1)
            | some size => IndexExpr.nuwMul size (.nuwAdd (.value l) (.constant 1)))) hlen'
            (fun c hc => hlim c (List.mem_cons_of_mem _ hc))
          constructor
          · rintro ⟨c, hc, h1, h2⟩
            rcases List.mem_cons.1 hc with rfl | hc
            · simp [LoopContext.dynamic] at h1
            · have := hrec.1 ⟨c, hc, h1, h2⟩
              simpa [lookupM.cacheSize, hl] using this
          · intro h
            obtain ⟨e, he⟩ := hrec.2 (fun c hc => h c (List.mem_cons_of_mem _ hc))
            exact ⟨e, by simpa [lookupM.cacheSize, hl] using he⟩

theorem storeIndices_ok (unwrapM : Value → Option Value) : ∀ (n : Nat) (lc : LoopContext)
    (indices limits : List IndexExpr), lc.nest.length = n + 1 →
    (∀ c ∈ lc.nest, c.dynamic = false → ∃ l, unwrapM c.limit = some l) →
    (∀ c ∈ lc.nest, c.dynamic = true → c.parent.isSome = false) →
    ∃ r, lookupM.storeIndices unwrapM lc indices limits = .ok r := by
  intro n
  induction n with
  | zero =>
    intro lc indices limits hlen _ _
    cases lc with
    | mk var antivar latch header preheader dynamic limit exit parent =>
      cases parent with
      | some idx =>
        rw [nest_some] at hlen
        have := List.length_pos.2 (nest_ne_nil idx)
        simp only [List.length_cons] at hlen
        omega
      | none =>
        cases dynamic with
        | true => exact ⟨_, by simp [lookupM.storeIndices]; rfl⟩
        | false => exact ⟨_, by simp [lookupM.storeIndices]; rfl⟩
  | succ n ih =>
    intro lc indices limits hlen hlim hdyn
    cases lc with
    | mk var antivar latch header preheader dynamic limit exit parent =>
      cases parent with
      | none => rw [nest_none] at hlen; simp at hlen
      | some idx =>
        rw [nest_some] at hlen hlim hdyn
        have hlen' : idx.nest.length = n + 1 := by simpa using hlen
        cases dynamic with
        | true =>
          have := hdyn _ (List.mem_cons_self _ _) rfl
          simp [LoopContext.parent] at this
        | false =>
          obtain ⟨l, hl⟩ := hlim _ (List.mem_cons_self _ _) rfl
          rw [limit_mk] at hl
          obtain ⟨r, hr⟩ := ih idx (indices ++ [.value var])
            (limits ++ [match limits.getLast? with
              | some back => IndexExpr.nuwMul (.nuwAdd (.value l) (.constant 1)) back
              | none => IndexExpr.nuwAdd (.value l) (.constant 1)]) hlen'
            (fun c hc => hlim c (List.mem_cons_of_mem _ hc))
            (fun c hc => hdyn c (List.mem_cons_of_mem _ hc))
          exact ⟨r, by simpa [lookupM.storeIndices, hl] using hr⟩

/-- C20, as the claim states it, fails: a dynamic loop inside a statically bounded
outermost loop, with no dynamic loop around it, is rejected with the assertion
`cannot handle non-outermost dynamic loop`. -/
theorem dynamic_loop_in_static_loop_rejected :
    (innerLoopContext true false).dynamic = true ∧
    (innerLoopContext true false).parent.map (fun idx => (idx.dynamic, idx.parent.isSome)) =
      some (false, false) ∧
    lookupM.createCache some some (innerLoopContext true false) =
      .error .nonOutermostDynamicLoop :=
  ⟨rfl, rfl, rfl⟩

/-- C20, amended: where the limits of the statically bounded loops of the nest
can be read, caching a value fails with the assertion `cannot handle
non-outermost dynamic loop` exactly when some dynamic loop of the nest has a
parent loop, dynamic or not; a nest whose only dynamic loop is the outermost one
is accepted. -/
theorem createCache_rejects_non_outermost_dynamic (unwrapAlloc unwrapStore : Value → Option Value)
    (lc : LoopContext)
    (halloc : ∀ c ∈ lc.nest, c.dynamic = false → ∃ l, unwrapAlloc c.limit = some l)
    (hstore : ∀ c ∈ lc.nest, c.dynamic = false → ∃ l, unwrapStore c.limit = some l) :
    (lookupM.createCache unwrapAlloc unwrapStore lc = .error .nonOutermostDynamicLoop ↔
      ∃ c ∈ lc.nest, c.dynamic = true ∧ c.parent.isSome = true) ∧
    ((∀ c ∈ lc.nest, c.dynamic = true → c.parent.isSome = false) →
      ∃ r, lookupM.createCache unwrapAlloc unwrapStore lc = .ok r) := by
  obtain ⟨n, hn⟩ : ∃ n, lc.nest.length = n + 1 := by
    cases hq : lc.nest with
    | nil => exact absurd hq (nest_ne_nil lc)
    | cons a b => exact ⟨b.length, rfl⟩
  obtain ⟨h1, h2⟩ := cacheSize_result unwrapAlloc n lc none hn halloc
  have hok : (∀ c ∈ lc.nest, c.dynamic = true → c.parent.isSome = false) →
      ∃ r, lookupM.createCache unwrapAlloc unwrapStore lc = .ok r := by
    intro h
    obtain ⟨e, he⟩ := h2 h
    obtain ⟨r, hr⟩ := storeIndices_ok unwrapStore n lc [] [] hn hstore h
    obtain ⟨indices, limits, dynamicPHI⟩ := r
    exact ⟨(e, lookupM.slot indices limits, dynamicPHI), by
      simp only [lookupM.createCache, he, hr]⟩
  refine ⟨⟨?_, ?_⟩, hok⟩
  · intro herr
    by_contra hno
    have hall : ∀ c ∈ lc.nest, c.dynamic = true → c.parent.isSome = false := by
      intro c hc hd
      cases hp : c.parent.isSome with
      | false => rfl
      | true => exact absurd ⟨c, hc, hd, hp⟩ hno
    obtain ⟨r, hr⟩ := hok hall
    rw [hr] at herr
    cases herr
  · intro h
    simp only [lookupM.createCache, h1 h]

/-- C20, amended, at a statically bounded loop inside a dynamic outermost loop,
which is accepted. -/
theorem createCache_rejects_non_outermost_dynamic_witness :
    (lookupM.createCache some some (innerLoopContext false true) =
        .error .nonOutermostDynamicLoop ↔
      ∃ c ∈ (innerLoopContext false true).nest, c.dynamic = true ∧ c.parent.isSome = true) ∧
    ((∀ c ∈ (innerLoopContext false true).nest, c.dynamic = true → c.parent.isSome = false) →
      ∃ r, lookupM.createCache some some (innerLoopContext false true) = .ok r) :=
  createCache_rejects_non_outermost_dynamic some some (innerLoopContext false true)
    (fun c _ _ => ⟨c.limit, rfl⟩) (fun c _ _ => ⟨c.limit, rfl⟩)

/-- C11, as the claim states it, fails: a call to `printf` that is an original
instruction and in neither set is classified non-constant, and recorded in
`nonconstant`. -/
theorem isconstantM_printf_nonconstant :
    activityExample.kind 6 = .CallInst (some (.named "printf")) [] ∧
    6 ∈ activityExample.originalInstructions ∧
    isconstantM activityExample 1 6 ∅ ∅ 3 = some (false, ∅, insert 6 ∅) :=
  ⟨rfl, by decide, by rfl⟩

/-- C11, amended: an instruction that is a comparison, a lifetime marker, one of
the debug-info intrinsics `dbg_addr`, `dbg_declare`, `dbg_value`, or a call to
`free`, and that is not recorded in `nonconstant`, is classified constant whatever
its operands and users are and whatever the sets hold for other values; a call
to `printf` or `puts` that is original and in neither set is classified
non-constant and recorded in `nonconstant`. -/
theorem isconstantM_hints (F : ActivityIR) (fuel : Nat) (inst : Value)
    (constants nonconstant : Finset Value) (directions : Nat) (hd : directions ≤ 3)
    (hN : inst ∉ nonconstant) :
    ((F.kind inst = .CmpInst ∨
        (∃ args id, F.kind inst = .CallInst (some (.intrinsic id)) args ∧
          (id = .lifetime_start ∨ id = .lifetime_end ∨ id = .dbg_addr ∨ id = .dbg_declare ∨
            id = .dbg_value)) ∨
        ∃ args, F.kind inst = .CallInst (some (.named "free")) args) →
      isconstantM F (fuel + 1) inst constants nonconstant directions =
        some (true,
          if inst ∈ constants ∨ inst ∉ F.originalInstructions then constants
          else insert inst constants, nonconstant)) ∧
    ((∃ args, F.kind inst = .CallInst (some (.named "printf")) args ∨
        F.kind inst = .CallInst (some (.named "puts")) args) →
      inst ∉ constants → inst ∈ F.originalInstructions →
      isconstantM F (fuel + 1) inst constants nonconstant directions =
        some (false, constants, insert inst nonconstant)) := by
  have hd' : ¬ 3 < directions := by omega
  constructor
  · intro hk
    by_cases hc : inst ∈ constants ∨ inst ∉ F.originalInstructions
    · rcases hk with hk | ⟨args, id, hk, -⟩ | ⟨args, hk⟩ <;>
        rcases hc with hc | hc <;>
          simp [isconstantM, hd', hk, hc]
    · have hc1 : inst ∉ constants := fun h => hc (Or.inl h)
      have hc2 : inst ∈ F.originalInstructions := by
        by_contra h; exact hc (Or.inr h)
      rcases hk with hk | ⟨args, id, hk, hid⟩ | ⟨args, hk⟩
      · simp [isconstantM, isconstantM.hint, hd', hk, hc1, hc2, hN]
      · rcases hid with rfl | rfl | rfl | rfl | rfl <;>
          simp [isconstantM, isconstantM.hint, hd', hk, hc1, hc2, hN, CalledFunction.hasName,
            isconstantM.constantIntrinsic]
      · simp [isconstantM, isconstantM.hint, hd', hk, hc1, hc2, hN, CalledFunction.hasName]
  · rintro ⟨args, hk | hk⟩ hc1 hc2 <;>
      simp [isconstantM, isconstantM.hint, hd', hk, hc1, hc2, hN, CalledFunction.hasName]

/-- C11, amended, at the comparison `5` and the call `6` to `printf` of
`activityExample`. -/
theorem isconstantM_hints_witness :
    ((activityExample.kind 5 = .CmpInst ∨
        (∃ args id, activityExample.kind 5 = .CallInst (some (.intrinsic id)) args ∧
          (id = .lifetime_start ∨ id = .lifetime_end ∨ id = .dbg_addr ∨ id = .dbg_declare ∨
            id = .dbg_value)) ∨
        ∃ args, activityExample.kind 5 = .CallInst (some (.named "free")) args) →
      isconstantM activityExample (0 + 1) 5 ∅ {0} 3 =
        some (true,
          if 5 ∈ (∅ : Finset Value) ∨ 5 ∉ activityExample.originalInstructions then ∅
          else insert 5 ∅, {0})) ∧
    ((∃ args, activityExample.kind 5 = .CallInst (some (.named "printf")) args ∨
        activityExample.kind 5 = .CallInst (some (.named "puts")) args) →
      5 ∉ (∅ : Finset Value) → 5 ∈ activityExample.originalInstructions →
      isconstantM activityExample (0 + 1) 5 ∅ {0} 3 = some (false, ∅, insert 5 {0})) :=
  isconstantM_hints activityExample 0 5 ∅ {0} 3 (by decide) (by decide)

theorem remaining_mono (F : ActivityIR) {C C' : Finset Value} (h : C ⊆ C') :
    F.remaining C' ≤ F.remaining C :=
  Finset.card_le_card (Finset.sdiff_subset_sdiff (Finset.Subset.refl _) h)

theorem remaining_insert (F : ActivityIR) (C : Finset Value) (inst : Value)
    (h1 : inst ∈ F.originalInstructions) (h2 : inst ∉ C) :
    F.remaining (insert inst C) < F.remaining C := by
  apply Finset.card_lt_card
  rw [Finset.ssubset_iff_of_subset
    (Finset.sdiff_subset_sdiff (Finset.Subset.refl _) (Finset.subset_insert _ _))]
  exact ⟨inst, by simp [h1, h2], by simp⟩

theorem argumentsClassified_mono (F : ActivityIR) {C C' N N' : Finset Value}
    (h : ArgumentsClassified F C N) (hC : C ⊆ C') (hN : N ⊆ N') :
    ArgumentsClassified F C' N' := by
  intro v hv
  rcases h v hv with h | h
  · exact Or.inl (hC h)
  · exact Or.inr (hN h)

theorem isconstantM_mono (F : ActivityIR) (fuel : Nat) : RecMono (isconstantM F fuel) := by
  intro inst C N d b C' N' h
  cases fuel with
  | zero => simp [isconstantM] at h
  | succ fuel =>
    unfold isconstantM at h
    simp only at h
    repeat' split at h
    all_goals first
      | (cases h; done)
      | (cases h
         refine ⟨?_, ?_⟩ <;>
           first
             | exact Finset.Subset.refl _
             | exact Finset.subset_insert _ _
             | exact Finset.subset_union_left
             | exact Finset.Subset.trans (Finset.subset_insert _ _) Finset.subset_union_left)

theorem useSearch_total (F : ActivityIR)
    (rec : Value → Finset Value → Finset Value → Nat → Activity) (fuel : Nat)
    (hs : F.Sound) (ht : RecTotal F rec fuel) (hm : RecMono rec) (val : Value)
    (hval : F.isPointerTy val = false) : ∀ (users : List Value) (C N : Finset Value),
    ArgumentsClassified F C N → F.remaining C < fuel →
    ∃ b C' N', isconstantM.useSearch F rec val users C N = some (b, C', N') ∧
      C ⊆ C' ∧ N ⊆ N' := by
  intro users
  induction users with
  | nil => intro C N _ _; exact ⟨false, C, N, rfl, Finset.Subset.refl _, Finset.Subset.refl _⟩
  | cons a rest ih =>
    intro C N hA hr
    unfold isconstantM.useSearch
    have hskip : isconstantM.skipsUser F val a = some true ∨
        isconstantM.skipsUser F val a = some false := by
      unfold isconstantM.skipsUser
      split
      · rename_i ptr hk
        have hp := hs.2.1 a ptr hk
        have hne : val ≠ ptr := by
          intro h; rw [h] at hval; rw [hval] at hp; cases hp
        simp [hne]
      · split_ifs <;> simp
      · simp
    rcases hskip with h | h
    · simp only [h]
      exact ih C N hA hr
    · simp only [h]
      have hsome := ht a C N isconstantM.DOWN (by decide) hA hr
      rw [Option.isSome_iff_exists] at hsome
      obtain ⟨⟨b, C1, N1⟩, h1⟩ := hsome
      obtain ⟨m1, m2⟩ := hm _ _ _ _ _ _ _ h1
      rw [h1]
      cases b with
      | false => exact ⟨true, C1, N1, rfl, m1, m2⟩
      | true =>
        obtain ⟨b', C2, N2, h2, m3, m4⟩ := ih C1 N1 (argumentsClassified_mono F hA m1 m2)
          (Nat.lt_of_le_of_lt (remaining_mono F m1) hr)
        exact ⟨b', C2, N2, h2, Finset.Subset.trans m1 m3, Finset.Subset.trans m2 m4⟩

theorem valueBody_total (F : ActivityIR)
    (rec : Value → Finset Value → Finset Value → Nat → Activity) (fuel : Nat)
    (hs : F.Sound) (ht : RecTotal F rec fuel) (hm : RecMono rec) (val : Value)
    (C N : Finset Value) (d : Nat) (hd : d ≤ 3)
    (hA : ArgumentsClassified F C N) (hr : F.remaining C < fuel) :
    ∃ b C' N', isconstantValueM.body F rec val C N d = some (b, C', N') ∧
      C ⊆ C' ∧ N ⊆ N' := by
  have hd' : ¬ 3 < d := by omega
  unfold isconstantValueM.body
  simp only [hd', if_false]
  by_cases h1 : F.isVoidTy val = true
  · exact ⟨true, C, N, by simp [h1], Finset.Subset.refl _, Finset.Subset.refl _⟩
  by_cases h2 : F.valueKind val = .Constant
  · exact ⟨true, C, N, by simp [h1, h2], Finset.Subset.refl _, Finset.Subset.refl _⟩
  by_cases h3 : F.valueKind val = .BasicBlock
  · exact ⟨true, C, N, by simp [h1, h2, h3], Finset.Subset.refl _, Finset.Subset.refl _⟩
  have h4 := hs.1 val
  by_cases h5 : val ∈ C
  · exact ⟨true, C, N, by simp [h1, h2, h3, h4, h5], Finset.Subset.refl _, Finset.Subset.refl _⟩
  by_cases h6 : val ∈ F.retvals
  · exact ⟨false, C, N, by simp [h1, h2, h3, h4, h5, h6], Finset.Subset.refl _,
      Finset.Subset.refl _⟩
  by_cases h7 : F.valueKind val = .Argument
  · have h8 : val ∈ N := by
      rcases hA val h7 with h | h
      · exact absurd h h5
      · exact h
    exact ⟨false, C, N, by simp [h1, h2, h3, h4, h5, h6, h7, h8], Finset.Subset.refl _,
      Finset.Subset.refl _⟩
  simp only [h1, h2, h3, h4, h5, h6, h7, if_false, Bool.false_eq_true]
  have hfirst : ∃ b C1 N1, (if F.valueKind val = .Instruction then rec val C N d
      else some (false, C, N)) = some (b, C1, N1) ∧ C ⊆ C1 ∧ N ⊆ N1 := by
    split_ifs
    · have hsome := ht val C N d hd hA hr
      rw [Option.isSome_iff_exists] at hsome
      obtain ⟨⟨b, C1, N1⟩, h1⟩ := hsome
      obtain ⟨m1, m2⟩ := hm _ _ _ _ _ _ _ h1
      exact ⟨b, C1, N1, h1, m1, m2⟩
    · exact ⟨false, C, N, rfl, Finset.Subset.refl _, Finset.Subset.refl _⟩
  obtain ⟨b, C1, N1, hf, m1, m2⟩ := hfirst
  rw [hf]
  cases b with
  | true => exact ⟨true, C1, N1, rfl, m1, m2⟩
  | false =>
    simp only
    by_cases hcond : (!F.isPointerTy val && (d &&& isconstantM.DOWN) != 0) = true
    · simp only [hcond, if_true]
      have hval : F.isPointerTy val = false := by
        simp only [Bool.and_eq_true, Bool.not_eq_true'] at hcond
        exact hcond.1
      obtain ⟨b', C2, N2, h2', m3, m4⟩ := useSearch_total F rec fuel hs ht hm val hval
        (F.users val) C1 N1 (argumentsClassified_mono F hA m1 m2)
        (Nat.lt_of_le_of_lt (remaining_mono F m1) hr)
      rw [h2']
      exact ⟨!b', C2, N2, rfl, Finset.Subset.trans m1 m3, Finset.Subset.trans m2 m4⟩
    · simp only [hcond, if_false, Bool.false_eq_true]
      exact ⟨false, C1, N1, rfl, m1, m2⟩

theorem memSearch_total (F : ActivityIR)
    (rec : Value → Finset Value → Finset Value → Nat → Activity) (fuel : Nat)
    (hs : F.Sound) (ht : RecTotal F rec fuel) (hm : RecMono rec) (inst : Value) (d : Nat)
    (hd : d ≤ 3) : ∀ (users : List Value) (C N : Finset Value),
    ArgumentsClassified F C N → F.remaining C < fuel →
    ∃ b C' N', isconstantM.memSearch F rec inst d users C N = some (b, C', N') ∧
      C ⊆ C' ∧ N ⊆ N' := by
  intro users
  induction users with
  | nil => intro C N _ _; exact ⟨false, C, N, rfl, Finset.Subset.refl _, Finset.Subset.refl _⟩
  | cons a rest ih =>
    intro C N hA hr
    have viaRec : (∀ value ptr, F.kind a ≠ .StoreInst value ptr) → F.kind a ≠ .LoadInst →
        ∃ b C' N', (match rec a C N d with
          | none => none
          | some (false, constants2, nonconstant2) => some (true, constants2, nonconstant2)
          | some (true, constants2, nonconstant2) =>
            isconstantM.memSearch F rec inst d rest constants2 nonconstant2) =
              some (b, C', N') ∧ C ⊆ C' ∧ N ⊆ N' := by
      intro _ _
      have hsome := ht a C N d hd hA hr
      rw [Option.isSome_iff_exists] at hsome
      obtain ⟨⟨b, C1, N1⟩, h1⟩ := hsome
      obtain ⟨m1, m2⟩ := hm _ _ _ _ _ _ _ h1
      rw [h1]
      cases b with
      | false => exact ⟨true, C1, N1, rfl, m1, m2⟩
      | true =>
        obtain ⟨b', C2, N2, h2, m3, m4⟩ := ih C1 N1 (argumentsClassified_mono F hA m1 m2)
          (Nat.lt_of_le_of_lt (remaining_mono F m1) hr)
        exact ⟨b', C2, N2, h2, Finset.Subset.trans m1 m3, Finset.Subset.trans m2 m4⟩
    unfold isconstantM.memSearch
    split
    · rename_i value ptr hk
      simp only
      have hfirst : ∃ b C1 N1, (if inst = ptr then isconstantValueM.body F rec value C N d
          else some (true, C, N)) = some (b, C1, N1) ∧ C ⊆ C1 ∧ N ⊆ N1 := by
        split_ifs
        · exact valueBody_total F rec fuel hs ht hm value C N d hd hA hr
        · exact ⟨true, C, N, rfl, Finset.Subset.refl _, Finset.Subset.refl _⟩
      obtain ⟨b, C1, N1, hf, m1, m2⟩ := hfirst
      rw [hf]
      cases b with
      | false => exact ⟨true, C1, N1, rfl, m1, m2⟩
      | true =>
        simp only
        have hA1 := argumentsClassified_mono F hA m1 m2
        have hr1 := Nat.lt_of_le_of_lt (remaining_mono F m1) hr
        have hsecond : ∃ b C2 N2, (if inst = value then
            isconstantValueM.body F rec ptr C1 N1 d
            else some (true, C1, N1)) = some (b, C2, N2) ∧ C1 ⊆ C2 ∧ N1 ⊆ N2 := by
          split_ifs
          · exact valueBody_total F rec fuel hs ht hm ptr C1 N1 d hd hA1 hr1
          · exact ⟨true, C1, N1, rfl, Finset.Subset.refl _, Finset.Subset.refl _⟩
        obtain ⟨b2, C2, N2, hf2, m3, m4⟩ := hsecond
        rw [hf2]
        cases b2 with
        | false =>
          exact ⟨true, C2, N2, rfl, Finset.Subset.trans m1 m3, Finset.Subset.trans m2 m4⟩
        | true =>
          simp only
          obtain ⟨b', C3, N3, h3, m5, m6⟩ := ih C2 N2
            (argumentsClassified_mono F hA1 m3 m4)
            (Nat.lt_of_le_of_lt (remaining_mono F m3) hr1)
          exact ⟨b', C3, N3, h3, Finset.Subset.trans m1 (Finset.Subset.trans m3 m5),
            Finset.Subset.trans m2 (Finset.Subset.trans m4 m6)⟩
    · exact ih C N hA hr
    · rename_i h1 h2
      exact viaRec h1 h2

theorem operandSearch_total (F : ActivityIR)
    (rec : Value → Finset Value → Finset Value → Nat → Activity) (fuel : Nat)
    (hs : F.Sound) (ht : RecTotal F rec fuel) (hm : RecMono rec) :
    ∀ (operands : List Value) (C N : Finset Value),
    ArgumentsClassified F C N → F.remaining C < fuel →
    ∃ b C' N', isconstantM.operandSearch F rec operands C N = some (b, C', N') ∧
      C ⊆ C' ∧ N ⊆ N' := by
  intro operands
  induction operands with
  | nil => intro C N _ _; exact ⟨true, C, N, rfl, Finset.Subset.refl _, Finset.Subset.refl _⟩
  | cons a rest ih =>
    intro C N hA hr
    unfold isconstantM.operandSearch
    obtain ⟨b, C1, N1, hf, m1, m2⟩ := valueBody_total F rec fuel hs ht hm a C N
      isconstantM.UP (by decide) hA hr
    rw [hf]
    cases b with
    | false => exact ⟨false, C1, N1, rfl, m1, m2⟩
    | true =>
      obtain ⟨b', C2, N2, h2, m3, m4⟩ := ih C1 N1 (argumentsClassified_mono F hA m1 m2)
        (Nat.lt_of_le_of_lt (remaining_mono F m1) hr)
      exact ⟨b', C2, N2, h2, Finset.Subset.trans m1 m3, Finset.Subset.trans m2 m4⟩

theorem isconstantM_total (F : ActivityIR) (hs : F.Sound) : ∀ (fuel : Nat),
    RecTotal F (isconstantM F fuel) fuel := by
  intro fuel
  induction fuel with
  | zero => intro a C N d _ _ h; omega
  | succ fuel ih =>
    intro inst C N d hd hA hr
    have hd' : ¬ 3 < d := by omega
    have hm := isconstantM_mono F fuel
    unfold isconstantM
    simp only [hd', if_false]
    by_cases h1 : F.kind inst = .ReturnInst
    · simp [h1]
    by_cases h2 : (F.kind inst = .UnreachableInst || F.kind inst = .BranchInst ||
        decide (inst ∈ C) || !decide (inst ∈ F.originalInstructions)) = true
    · simp only [h1, if_false, h2, if_true]; rfl
    simp only [h1, if_false, h2, Bool.false_eq_true]
    by_cases h3 : inst ∈ N
    · simp [h3]
    simp only [h3, if_false]
    have hC : inst ∉ C := by
      intro h; apply h2; simp [h]
    have hO : inst ∈ F.originalInstructions := by
      by_contra h; apply h2; simp [h]
    have hA' : ArgumentsClassified F (insert inst C) N :=
      argumentsClassified_mono F hA (Finset.subset_insert _ _) (Finset.Subset.refl _)
    have hr' : F.remaining (insert inst C) < fuel := by
      have := remaining_insert F C inst hO hC
      omega
    cases hh : isconstantM.hint F inst with
    | some b => cases b <;> rfl
    | none =>
      simp only
      have hmem : ∃ b C1 N1, isconstantM.memory F (isconstantM F fuel) inst C N d =
          some (b, C1, N1) := by
        unfold isconstantM.memory
        split_ifs
        · obtain ⟨b, C1, N1, h, -, -⟩ := memSearch_total F _ fuel hs ih hm inst d hd
            (F.users inst) (insert inst C) N hA' hr'
          exact ⟨b, C1, N1, h⟩
        · exact ⟨_, _, _, rfl⟩
      obtain ⟨b, C1, N1, hmem⟩ := hmem
      rw [hmem]
      cases b with
      | true => rfl
      | false =>
        simp only
        have huse : ∃ b C2 N2, isconstantM.uses F (isconstantM F fuel) inst C N d =
            some (b, C2, N2) := by
          unfold isconstantM.uses
          split_ifs with hc
          · simp only [Bool.and_eq_true, Bool.not_eq_true'] at hc
            split
            · rename_i value ptr hk
              have := hs.2.2 inst value ptr hk
              rw [hc.1.2] at this
              cases this
            · obtain ⟨b, C2, N2, h, -, -⟩ := useSearch_total F _ fuel hs ih hm inst hc.1.1
                (F.users inst) (insert inst C) N hA' hr'
              exact ⟨b, C2, N2, h⟩
          · exact ⟨_, _, _, rfl⟩
        obtain ⟨b2, C2, N2, huse⟩ := huse
        rw [huse]
        cases b2 with
        | false => rfl
        | true =>
          simp only
          have hup : ∃ b C3 N3, isconstantM.up F (isconstantM F fuel) inst C N =
              some (b, C3, N3) := by
            unfold isconstantM.up
            split
            · obtain ⟨b, C3, N3, h, -, -⟩ := valueBody_total F _ fuel hs ih hm _
                (insert inst C) N isconstantM.UP (by decide) hA' hr'
              exact ⟨b, C3, N3, h⟩
            · obtain ⟨b, C3, N3, h, -, -⟩ := operandSearch_total F _ fuel hs ih hm
                (F.operands inst) (insert inst C) N hA' hr'
              exact ⟨b, C3, N3, h⟩
          obtain ⟨b3, C3, N3, hup⟩ := hup
          rw [hup]
          cases b3 <;> split_ifs <;> rfl

theorem activityExample_sound : activityExample.Sound := by
  refine ⟨?_, ?_, ?_⟩
  · intro v
    simp only [activityExample]
    split_ifs <;> simp
  · intro a ptr h
    simp only [activityExample] at h
    split_ifs at h
  · intro a value ptr h
    simp only [activityExample] at h ⊢
    split_ifs at h
    simp_all

theorem activityExample_classified : ArgumentsClassified activityExample ∅ {0} := by
  intro v h
  simp only [activityExample] at h
  split_ifs at h with h0
  right; simp [h0]

/-- C12: whenever `isconstantM` returns `false`, the set `constants` it leaves
behind is the one it was called with; and on a function that passes the
assertions of the analysis, with every argument classified, a call with more fuel
than there are original instructions outside `constants` does return. -/
theorem isconstantM_false_keeps_constants (F : ActivityIR) (fuel : Nat) (inst : Value)
    (constants nonconstant : Finset Value) (directions : Nat) :
    (∀ constants' nonconstant', isconstantM F fuel inst constants nonconstant directions =
      some (false, constants', nonconstant') → constants' = constants) ∧
    (F.Sound → directions ≤ 3 → ArgumentsClassified F constants nonconstant →
      F.remaining constants < fuel →
      ∃ r, isconstantM F fuel inst constants nonconstant directions = some r) := by
  constructor
  · intro constants' nonconstant' h
    cases fuel with
    | zero => simp [isconstantM] at h
    | succ fuel =>
      unfold isconstantM at h
      simp only at h
      repeat' split at h
      all_goals first
        | (cases h; done)
        | (cases h; rfl)
  · intro hs hd hA hr
    exact Option.isSome_iff_exists.1 (isconstantM_total F hs fuel inst constants nonconstant
      directions hd hA hr)

/-- C12 at the sum `2` of `activityExample`, searched in both directions with the
argument `0` non-constant: the use search assumes `2` constant in its copy, the
search upwards fails at the argument, and `constants` comes back empty. -/
theorem isconstantM_false_keeps_constants_witness :
    isconstantM activityExample 7 2 ∅ {0} 3 = some (false, ∅, insert 2 {0}) ∧
      (∅ : Finset Value) = ∅ ∧ ∃ r, isconstantM activityExample 7 2 ∅ {0} 3 = some r :=
  ⟨by rfl, (isconstantM_false_keeps_constants activityExample 7 2 ∅ {0} 3).1 ∅ (insert 2 {0})
    (by rfl),
   (isconstantM_false_keeps_constants activityExample 7 2 ∅ {0} 3).2 activityExample_sound
    (by decide) activityExample_classified (by
      simp [ActivityIR.remaining, activityExample])⟩

/-- C29, as the claim states it, fails.  The outer `switch` of the struct loop of
`whatType` has no `break` after its inner switches, so the first round falls
through to `case DUP_ARG` and returns: a struct of two doubles classifies
`DUP_ARG`, not `OUT_DIFF`, a struct of two 32-bit integers classifies `DUP_ARG`,
not `CONSTANT`, and every struct with at least one element classifies `DUP_ARG`
as soon as its first element classifies at all.  Only the empty struct is
`CONSTANT`. -/
theorem whatType_struct_always_DUP_ARG :
    whatType (.struct [.fp .double, .fp .double]) = some .DUP_ARG ∧
    whatType (.struct [.int 32, .int 32]) = some .DUP_ARG ∧
    whatType (.struct []) = some .CONSTANT ∧
    (∀ (e : Ty) (es : List Ty),
      whatType (.struct (e :: es)) = (whatType e).map (fun _ => DIFFE_TYPE.DUP_ARG)) ∧
    (∀ e ty : DIFFE_TYPE, whatType.structRound e ty = .inl .DUP_ARG) := by
  have hround : ∀ e ty : DIFFE_TYPE, whatType.structRound e ty = .inl .DUP_ARG := by
    intro e ty; cases e <;> cases ty <;> rfl
  have hall : ∀ (e : Ty) (es : List Ty),
      whatType (.struct (e :: es)) = (whatType e).map (fun _ => DIFFE_TYPE.DUP_ARG) := by
    intro e es
    rw [whatType, whatType.structLoop]
    cases h : whatType e with
    | none => rfl
    | some c => simp only [hround, Option.map]
  refine ⟨?_, ?_, ?_, hall, hround⟩
  · rw [hall]; simp [whatType]
  · rw [hall]; simp [whatType]
  · simp [whatType]

/-- C28, as the claim states it, fails.  The loop of `getConstantAnalysis` over a
`ConstantDataSequential` reads `getElementAsConstant(0)` in every round, so the
result is that of the sequence holding its first element throughout: the
classification of element `i` never reaches the byte range of element `i`.  For
the 32-bit integer array `[5000, 1]` the bytes 4 to 7 of the second element are
`Anything`, the classification of `5000`, not `Integer`; the sibling loop over a
`ConstantAggregate` of the same two operands reads operand `i` and gives those
bytes `Integer`. -/
theorem getConstantAnalysis_sequential_reads_element_zero :
    (∀ (ctx : ConstantContext) (e : Constant) (es : List Constant),
      getConstantAnalysis ctx (.ConstantDataSequential (e :: es)) =
        getConstantAnalysis ctx (.ConstantDataSequential (List.replicate (es.length + 1) e))) ∧
    (getConstantAnalysis exampleConstantContext
        (.ConstantDataSequential [.ConstantInt 32 5000, .ConstantInt 32 1])).map
      (fun t => [4, 5, 6, 7].map (fun o => t.get [o])) =
      some [.Anything, .Anything, .Anything, .Anything] ∧
    (getConstantAnalysis exampleConstantContext (.ConstantInt 32 1)).map
      (fun t => t.get [-1]) = some .Integer ∧
    (getConstantAnalysis exampleConstantContext
        (.ConstantAggregate [.ConstantInt 32 5000, .ConstantInt 32 1])).map
      (fun t => [4, 5, 6, 7].map (fun o => t.get [o])) =
      some [.Integer, .Integer, .Integer, .Integer] := by
  refine ⟨?_, ?_, ?_, ?_⟩
  · intro ctx e es
    simp [getConstantAnalysis]
  · decide
  · decide
  · decide

theorem classify_some (PTy : Ty) (ops : List Operand) (ty : DIFFE_TYPE) (rest : List Operand)
    (h : HandleAutoDiff.classify PTy ops = some (ty, rest)) :
    (∃ MS, ops = .MDString MS :: rest ∧
      (MS = "diffe_dup" ∧ ty = .DUP_ARG ∨ MS = "diffe_out" ∧ ty = .OUT_DIFF ∨
        MS = "diffe_const" ∧ ty = .CONSTANT)) ∨
    (∃ id type, ops = .value id type :: ops.tail ∧ rest = ops ∧ whatType PTy = some ty) := by
  cases ops with
  | nil => simp [HandleAutoDiff.classify] at h
  | cons op ops =>
    cases op with
    | metadata => simp [HandleAutoDiff.classify] at h
    | MDString MS =>
      left
      simp only [HandleAutoDiff.classify] at h
      split_ifs at h with h1 h2 h3 <;> simp only [Option.some.injEq, Prod.mk.injEq] at h <;>
        obtain ⟨rfl, rfl⟩ := h
      · exact ⟨MS, rfl, Or.inl ⟨h1, rfl⟩⟩
      · exact ⟨MS, rfl, Or.inr (Or.inl ⟨h2, rfl⟩)⟩
      · exact ⟨MS, rfl, Or.inr (Or.inr ⟨h3, rfl⟩)⟩
    | value id type =>
      right
      simp only [HandleAutoDiff.classify] at h
      cases hw : whatType PTy with
      | none => simp [hw] at h
      | some t =>
        simp only [hw, Option.map, Option.some.injEq, Prod.mk.injEq] at h
        obtain ⟨rfl, rfl⟩ := h
        exact ⟨id, type, rfl, rfl, rfl⟩

theorem cast_some (c : Ty → Ty → Bool) (PTy : Ty) (ops : List Operand) (res : CallArg)
    (rest : List Operand) (h : HandleAutoDiff.cast c PTy ops = some (res, rest)) :
    ∃ id type, ops = .value id type :: rest := by
  cases ops with
  | nil => simp [HandleAutoDiff.cast] at h
  | cons op ops =>
    cases op with
    | metadata => simp [HandleAutoDiff.cast] at h
    | MDString MS => simp [HandleAutoDiff.cast] at h
    | value id type =>
      simp only [HandleAutoDiff.cast] at h
      split_ifs at h <;> simp only [Option.some.injEq, Prod.mk.injEq] at h <;>
        obtain ⟨_, rfl⟩ := h <;> exact ⟨id, type, rfl⟩

/-- What a round of the loop of `HandleAutoDiff` that comes back has done. -/
theorem round_some (c : Ty → Ty → Bool) (PTy : Ty) (ops rest : List Operand)
    (st st' : HandleAutoDiff.State)
    (h : HandleAutoDiff.round c PTy ops st = some (st', rest)) :
    ∃ (ty : DIFFE_TYPE) (tagged : Bool),
      st'.classes = st.classes ++ [ty] ∧ st'.truei = st.truei + 1 ∧
      (match ops.head? with
        | some (.MDString MS) =>
          tagged = true ∧ (MS = "diffe_dup" ∧ ty = .DUP_ARG ∨ MS = "diffe_out" ∧ ty = .OUT_DIFF ∨
            MS = "diffe_const" ∧ ty = .CONSTANT)
        | _ => tagged = false ∧ whatType PTy = some ty) ∧
      (∀ j, j ∈ st'.constants ↔ j ∈ st.constants ∨ (j = st.truei ∧ ty = .CONSTANT)) ∧
      (∃ used, ops = used ++ rest ∧
        used.length = (if tagged then 1 else 0) + 1 + (if ty = .DUP_ARG then 1 else 0)) ∧
      st'.args.length = st.args.length + 1 + (if ty = .DUP_ARG then 1 else 0) := by
  unfold HandleAutoDiff.round at h
  cases hcl : HandleAutoDiff.classify PTy ops with
  | none => simp [hcl] at h
  | some p =>
    obtain ⟨ty, ops1⟩ := p
    simp only [hcl] at h
    cases hc1 : HandleAutoDiff.cast c PTy ops1 with
    | none => simp [hc1] at h
    | some q =>
      obtain ⟨res, ops2⟩ := q
      simp only [hc1] at h
      obtain ⟨id1, type1, hops1⟩ := cast_some c PTy ops1 res ops2 hc1
      have hconst : ∀ j, j ∈ (if ty = .CONSTANT ∧ st.truei ∉ st.constants
          then st.constants ++ [st.truei] else st.constants) ↔
          j ∈ st.constants ∨ (j = st.truei ∧ ty = .CONSTANT) := by
        intro j
        split_ifs with hif
        · simp only [List.mem_append, List.mem_singleton]
          constructor
          · rintro (h | h)
            · exact Or.inl h
            · exact Or.inr ⟨h, hif.1⟩
          · rintro (h | ⟨h, _⟩)
            · exact Or.inl h
            · exact Or.inr h
        · constructor
          · intro h; exact Or.inl h
          · rintro (h | ⟨h1, h2⟩)
            · exact h
            · subst h1
              by_contra hn
              exact hif ⟨h2, hn⟩
      have hhead : ∃ tagged : Bool, (match ops.head? with
        | some (.MDString MS) =>
          tagged = true ∧ (MS = "diffe_dup" ∧ ty = .DUP_ARG ∨ MS = "diffe_out" ∧ ty = .OUT_DIFF ∨
            MS = "diffe_const" ∧ ty = .CONSTANT)
        | _ => tagged = false ∧ whatType PTy = some ty) ∧
          ∃ used, ops = used ++ ops1 ∧ used.length = (if tagged then 1 else 0) := by
        rcases classify_some PTy ops ty ops1 hcl with ⟨MS, rfl, hMS⟩ | ⟨id, type, ho, rfl, hw⟩
        · exact ⟨true, ⟨rfl, hMS⟩, [.MDString MS], rfl, rfl⟩
        · refine ⟨false, ?_, [], rfl, rfl⟩
          rw [ho]
          exact ⟨rfl, hw⟩
      obtain ⟨tagged, hmatch, used, hused, hlen⟩ := hhead
      by_cases hd : ty = .DUP_ARG
      · simp only [hd, if_true] at h
        cases hc2 : HandleAutoDiff.cast c PTy ops2 with
        | none => simp [hc2] at h
        | some q2 =>
          obtain ⟨res2, ops3⟩ := q2
          simp only [hc2, Option.some.injEq, Prod.mk.injEq] at h
          obtain ⟨rfl, rfl⟩ := h
          obtain ⟨id2, type2, hops2⟩ := cast_some c PTy ops2 res2 ops3 hc2
          refine ⟨ty, tagged, by simp [hd], rfl, hmatch, ?_, ?_, by simp [hd]⟩
          · simp [hd]
          · refine ⟨used ++ [.value id1 type1, .value id2 type2], ?_, ?_⟩
            · rw [hused, hops1, hops2]; simp
            · simp [hlen, hd]
      · simp only [hd, if_false, Option.some.injEq, Prod.mk.injEq] at h
        obtain ⟨rfl, rfl⟩ := h
        refine ⟨ty, tagged, rfl, rfl, hmatch, hconst, ?_, by simp [hd]⟩
        refine ⟨used ++ [.value id1 type1], ?_, ?_⟩
        · rw [hused, hops1]; simp
        · simp [hlen, hd]

/-- What holds of the variables of the loop of `HandleAutoDiff` between rounds. -/
theorem round_invariant (c : Ty → Ty → Bool) (PTy : Ty) (ops rest : List Operand)
    (st st' : HandleAutoDiff.State)
    (h : HandleAutoDiff.round c PTy ops st = some (st', rest))
    (hi : st.truei = st.classes.length ∧
      (∀ j, j ∈ st.constants ↔ st.classes[j]? = some .CONSTANT) ∧
      st.args.length = st.classes.length + st.classes.count .DUP_ARG) :
    (st'.truei = st'.classes.length ∧
      (∀ j, j ∈ st'.constants ↔ st'.classes[j]? = some .CONSTANT) ∧
      st'.args.length = st'.classes.length + st'.classes.count .DUP_ARG) ∧
    rest.length < ops.length := by
  obtain ⟨ty, tagged, hcls, htr, -, hconst, ⟨used, hused, hlen⟩, hargs⟩ :=
    round_some c PTy ops rest st st' h
  obtain ⟨h1, h2, h3⟩ := hi
  refine ⟨⟨?_, ?_, ?_⟩, ?_⟩
  · rw [htr, hcls, h1]; simp
  · intro j
    rw [hconst j, hcls, h2 j, h1]
    rcases Nat.lt_trichotomy j st.classes.length with hlt | heq | hgt
    · rw [List.getElem?_append_left hlt]
      constructor
      · rintro (h | ⟨h, _⟩)
        · exact h
        · omega
      · intro h; exact Or.inl h
    · subst heq
      simp
    · have e1 : (st.classes ++ [ty])[j]? = none :=
        List.getElem?_eq_none (by simp only [List.length_append, List.length_singleton]; omega)
      have e2 : st.classes[j]? = none := List.getElem?_eq_none (by omega)
      rw [e1, e2]
      simp only [reduceCtorEq, false_or, iff_false, not_and]
      intro hj; omega
  · rw [hargs, hcls, h3]
    simp only [List.length_append, List.length_singleton, List.count_append, List.count_singleton]
    by_cases hd : ty = .DUP_ARG
    · simp [hd]; omega
    · have : ¬ (DIFFE_TYPE.DUP_ARG = ty) := fun h => hd h.symm
      simp [hd, this]; omega
  · rw [hused]
    simp only [List.length_append]
    split_ifs at hlen <;> omega

theorem loop_invariant (c : Ty → Ty → Bool) (FT : List Ty) :
    ∀ (fuel : Nat) (ops : List Operand) (st st' : HandleAutoDiff.State),
      HandleAutoDiff.loop c FT fuel ops st = some st' →
      (st.truei = st.classes.length ∧
        (∀ j, j ∈ st.constants ↔ st.classes[j]? = some .CONSTANT) ∧
        st.args.length = st.classes.length + st.classes.count .DUP_ARG) →
      st.truei ≤ FT.length →
      (st'.truei = st'.classes.length ∧
        (∀ j, j ∈ st'.constants ↔ st'.classes[j]? = some .CONSTANT) ∧
        st'.args.length = st'.classes.length + st'.classes.count .DUP_ARG) ∧
      st'.truei ≤ FT.length := by
  intro fuel
  induction fuel with
  | zero => intro ops st st' h; simp [HandleAutoDiff.loop] at h
  | succ fuel ih =>
    intro ops st st' h hi hle
    cases ops with
    | nil =>
      simp only [HandleAutoDiff.loop, Option.some.injEq] at h
      subst h; exact ⟨hi, hle⟩
    | cons op ops =>
      simp only [HandleAutoDiff.loop] at h
      cases hFT : FT[st.truei]? with
      | none => simp [hFT] at h
      | some PTy =>
        simp only [hFT] at h
        cases hr : HandleAutoDiff.round c PTy (op :: ops) st with
        | none => simp [hr] at h
        | some p =>
          obtain ⟨st1, rest⟩ := p
          simp only [hr] at h
          have hinv := round_invariant c PTy (op :: ops) rest st st1 hr hi
          obtain ⟨ty, tagged, -, htr, -⟩ := round_some c PTy (op :: ops) rest st st1 hr
          have hlt : st.truei < FT.length := by
            by_contra hn
            have e : FT[st.truei]? = none := List.getElem?_eq_none (by omega)
            rw [e] at hFT
            cases hFT
          exact ih rest st1 st' h hinv.1 (by omega)

/-- Fuel beyond the number of operands does not change the loop. -/
theorem loop_fuel (c : Ty → Ty → Bool) (FT : List Ty) :
    ∀ (fuel fuel' : Nat) (ops : List Operand) (st : HandleAutoDiff.State),
      ops.length < fuel → ops.length < fuel' →
      HandleAutoDiff.loop c FT fuel ops st = HandleAutoDiff.loop c FT fuel' ops st := by
  intro fuel
  induction fuel with
  | zero => intro fuel' ops st h; omega
  | succ fuel ih =>
    intro fuel' ops st h h'
    cases fuel' with
    | zero => omega
    | succ fuel' =>
      cases ops with
      | nil => simp [HandleAutoDiff.loop]
      | cons op ops =>
        simp only [HandleAutoDiff.loop]
        cases hFT : FT[st.truei]? with
        | none => rfl
        | some PTy =>
          simp only
          cases hr : HandleAutoDiff.round c PTy (op :: ops) st with
          | none => rfl
          | some p =>
            obtain ⟨st1, rest⟩ := p
            simp only
            obtain ⟨ty, tagged, -, -, -, -, ⟨used, hused, hlen⟩, -⟩ :=
              round_some c PTy (op :: ops) rest st st1 hr
            have hl : rest.length < (op :: ops).length := by
              rw [hused]
              simp only [List.length_append]
              split_ifs at hlen <;> omega
            simp only [List.length_cons] at hl h h'
            exact ih fuel' rest st1 (by omega) (by omega)

theorem cast_value (c : Ty → Ty → Bool) (PTy : Ty) (id : Value) (type : Ty)
    (rest : List Operand) (h : PTy.same type = true ∨ c type PTy = true) :
    HandleAutoDiff.cast c PTy (.value id type :: rest) =
      some (HandleAutoDiff.pushed PTy id type, rest) := by
  unfold HandleAutoDiff.cast HandleAutoDiff.pushed
  by_cases hs : PTy.same type = true
  · simp [hs]
  · rcases h with h | h
    · exact absurd h hs
    · simp [hs, h]

/-- A round on a tag and operands that cast returns, with the class the tag
names. -/
theorem round_tagged (c : Ty → Ty → Bool) (PTy : Ty) (st : HandleAutoDiff.State)
    (id : Value) (type : Ty) (h : PTy.same type = true ∨ c type PTy = true) :
    (∀ (ty : DIFFE_TYPE) (rest : List Operand), ty ≠ .DUP_ARG →
      HandleAutoDiff.round c PTy (.MDString (HandleAutoDiff.tag ty) :: .value id type :: rest) st =
        some (st.after ty [HandleAutoDiff.pushed PTy id type], rest)) ∧
    (∀ (id' : Value) (type' : Ty) (rest : List Operand),
      PTy.same type' = true ∨ c type' PTy = true →
      HandleAutoDiff.round c PTy
          (.MDString (HandleAutoDiff.tag .DUP_ARG) :: .value id type :: .value id' type' :: rest)
          st =
        some (st.after .DUP_ARG
          [HandleAutoDiff.pushed PTy id type, HandleAutoDiff.pushed PTy id' type'], rest)) := by
  constructor
  · intro ty rest hty
    cases ty with
    | DUP_ARG => exact absurd rfl hty
    | OUT_DIFF =>
      simp [HandleAutoDiff.round, HandleAutoDiff.classify, HandleAutoDiff.tag,
        cast_value c PTy id type rest h, HandleAutoDiff.State.after]
    | CONSTANT =>
      simp [HandleAutoDiff.round, HandleAutoDiff.classify, HandleAutoDiff.tag,
        cast_value c PTy id type rest h, HandleAutoDiff.State.after]
  · intro id' type' rest h'
    simp [HandleAutoDiff.round, HandleAutoDiff.classify, HandleAutoDiff.tag,
      cast_value c PTy id type _ h, cast_value c PTy id' type' rest h',
      HandleAutoDiff.State.after]

/-- A round on an operand that is no tag returns with the class `whatType` gives
the parameter type, when the operands cast. -/
theorem round_untagged (c : Ty → Ty → Bool) (PTy : Ty) (st : HandleAutoDiff.State)
    (id : Value) (type : Ty) (h : PTy.same type = true ∨ c type PTy = true)
    (ty : DIFFE_TYPE) (hw : whatType PTy = some ty) :
    (∀ (rest : List Operand), ty ≠ .DUP_ARG →
      HandleAutoDiff.round c PTy (.value id type :: rest) st =
        some (st.after ty [HandleAutoDiff.pushed PTy id type], rest)) ∧
    (∀ (id' : Value) (type' : Ty) (rest : List Operand), ty = .DUP_ARG →
      PTy.same type' = true ∨ c type' PTy = true →
      HandleAutoDiff.round c PTy (.value id type :: .value id' type' :: rest) st =
        some (st.after .DUP_ARG
          [HandleAutoDiff.pushed PTy id type, HandleAutoDiff.pushed PTy id' type'], rest)) := by
  constructor
  · intro rest hty
    cases ty with
    | DUP_ARG => exact absurd rfl hty
    | OUT_DIFF =>
      simp [HandleAutoDiff.round, HandleAutoDiff.classify, hw,
        cast_value c PTy id type rest h, HandleAutoDiff.State.after]
    | CONSTANT =>
      simp [HandleAutoDiff.round, HandleAutoDiff.classify, hw,
        cast_value c PTy id type rest h, HandleAutoDiff.State.after]
  · intro id' type' rest hty h'
    subst hty
    simp [HandleAutoDiff.round, HandleAutoDiff.classify, hw,
      cast_value c PTy id type _ h, cast_value c PTy id' type' rest h',
      HandleAutoDiff.State.after]

/-- C22.  One round of the loop of `HandleAutoDiff`, for the parameter `truei` of
type `PTy`: a metadata string other than `diffe_dup`, `diffe_out`, `diffe_const` is
fatal; a round on one of the three tags and on operands that can be cast to `PTy`
returns, with the class the tag names (`DUP_ARG`, `OUT_DIFF`, `CONSTANT`) whatever
`whatType PTy` is, and a round on an operand that is no tag returns with the class
`whatType PTy`; the round enters `truei` into `constants` exactly when the class is
`CONSTANT`, and consumes the tag if any, the operand, and one further operand, the
shadow, exactly when the class is `DUP_ARG`, pushing as many arguments.
Conversely every round that comes back is of this form.  Over the whole loop,
`constants` holds exactly the indices of the parameters of class `CONSTANT`. -/
theorem HandleAutoDiff_classifies_parameters (c : Ty → Ty → Bool) (PTy : Ty)
    (st : HandleAutoDiff.State) :
    (∀ (MS : String) (rest : List Operand),
      MS ≠ "diffe_dup" → MS ≠ "diffe_out" → MS ≠ "diffe_const" →
      HandleAutoDiff.round c PTy (.MDString MS :: rest) st = none) ∧
    (∀ (id : Value) (type : Ty) (rest : List Operand),
      PTy.same type = true ∨ c type PTy = true →
      HandleAutoDiff.round c PTy (.MDString "diffe_out" :: .value id type :: rest) st =
        some (⟨st.constants, st.args ++ [HandleAutoDiff.pushed PTy id type], st.truei + 1,
          st.classes ++ [.OUT_DIFF]⟩, rest) ∧
      HandleAutoDiff.round c PTy (.MDString "diffe_const" :: .value id type :: rest) st =
        some (⟨if st.truei ∈ st.constants then st.constants else st.constants ++ [st.truei],
          st.args ++ [HandleAutoDiff.pushed PTy id type], st.truei + 1,
          st.classes ++ [.CONSTANT]⟩, rest) ∧
      (∀ (id' : Value) (type' : Ty) (rest' : List Operand),
        PTy.same type' = true ∨ c type' PTy = true →
        HandleAutoDiff.round c PTy
            (.MDString "diffe_dup" :: .value id type :: .value id' type' :: rest') st =
          some (⟨st.constants,
            st.args ++ [HandleAutoDiff.pushed PTy id type, HandleAutoDiff.pushed PTy id' type'],
            st.truei + 1, st.classes ++ [.DUP_ARG]⟩, rest')) ∧
      (∀ (ty : DIFFE_TYPE), whatType PTy = some ty →
        (ty ≠ .DUP_ARG →
          HandleAutoDiff.round c PTy (.value id type :: rest) st =
            some (st.after ty [HandleAutoDiff.pushed PTy id type], rest)) ∧
        (∀ (id' : Value) (type' : Ty) (rest' : List Operand), ty = .DUP_ARG →
          PTy.same type' = true ∨ c type' PTy = true →
          HandleAutoDiff.round c PTy (.value id type :: .value id' type' :: rest') st =
            some (st.after .DUP_ARG
              [HandleAutoDiff.pushed PTy id type, HandleAutoDiff.pushed PTy id' type'],
              rest')))) ∧
    (∀ (ops rest : List Operand) (st' : HandleAutoDiff.State),
      HandleAutoDiff.round c PTy ops st = some (st', rest) →
      ∃ (ty : DIFFE_TYPE) (tagged : Bool),
        st'.classes = st.classes ++ [ty] ∧ st'.truei = st.truei + 1 ∧
        (match ops.head? with
          | some (.MDString MS) =>
            tagged = true ∧ (MS = "diffe_dup" ∧ ty = .DUP_ARG ∨
              MS = "diffe_out" ∧ ty = .OUT_DIFF ∨ MS = "diffe_const" ∧ ty = .CONSTANT)
          | _ => tagged = false ∧ whatType PTy = some ty) ∧
        (∀ j, j ∈ st'.constants ↔ j ∈ st.constants ∨ (j = st.truei ∧ ty = .CONSTANT)) ∧
        (∃ used, ops = used ++ rest ∧
          used.length = (if tagged then 1 else 0) + 1 + (if ty = .DUP_ARG then 1 else 0)) ∧
        st'.args.length = st.args.length + 1 + (if ty = .DUP_ARG then 1 else 0)) ∧
    (∀ (FT : List Ty) (fuel : Nat) (ops : List Operand) (st' : HandleAutoDiff.State),
      HandleAutoDiff.loop c FT fuel ops ⟨[], [], 0, []⟩ = some st' →
      (∀ j, j ∈ st'.constants ↔ st'.classes[j]? = some .CONSTANT) ∧
      st'.args.length = st'.classes.length + st'.classes.count .DUP_ARG ∧
      st'.classes.length ≤ FT.length) := by
  refine ⟨?_, ?_, ?_, ?_⟩
  · intro MS rest h1 h2 h3
    simp [HandleAutoDiff.round, HandleAutoDiff.classify, h1, h2, h3]
  · intro id type rest h
    have ht := round_tagged c PTy st id type h
    refine ⟨?_, ?_, ?_, ?_⟩
    · have e := ht.1 .OUT_DIFF rest (by decide)
      simpa [HandleAutoDiff.tag, HandleAutoDiff.State.after] using e
    · have e := ht.1 .CONSTANT rest (by decide)
      rw [show HandleAutoDiff.tag .CONSTANT = "diffe_const" from rfl] at e
      rw [e]
      by_cases hm : st.truei ∈ st.constants <;> simp [HandleAutoDiff.State.after, hm]
    · intro id' type' rest' h'
      have e := ht.2 id' type' rest' h'
      simpa [HandleAutoDiff.tag, HandleAutoDiff.State.after] using e
    · intro ty hw
      exact ⟨fun hty => (round_untagged c PTy st id type h ty hw).1 rest hty,
        fun id' type' rest' hty h' =>
          (round_untagged c PTy st id type h ty hw).2 id' type' rest' hty h'⟩
  · intro ops rest st' h
    exact round_some c PTy ops rest st st' h
  · intro FT fuel ops st' h
    obtain ⟨⟨h1, h2, h3⟩, h4⟩ := loop_invariant c FT fuel ops ⟨[], [], 0, []⟩ st' h
      ⟨rfl, by simp, rfl⟩ (Nat.zero_le _)
    exact ⟨h2, h3, h1 ▸ h4⟩

theorem HandleAutoDiff_classifies_parameters_witness :
    (HandleAutoDiff.round (fun _ _ => false) (.fp .double)
        [.MDString "diffe_out", .value 12 (.fp .double), .value 13 (.int 32)]
        ⟨[], [.operand 10, .operand 11], 1, [.DUP_ARG]⟩ =
      some (⟨[], [.operand 10, .operand 11, .operand 12], 2, [.DUP_ARG, .OUT_DIFF]⟩,
        [.value 13 (.int 32)])) ∧
    (HandleAutoDiff.round (fun _ _ => false) (.fp .double)
        [.MDString "diffe_dup", .value 12 (.fp .double), .value 14 (.fp .double)]
        ⟨[], [.operand 10, .operand 11], 1, [.DUP_ARG]⟩ =
      some (⟨[], [.operand 10, .operand 11, .operand 12, .operand 14], 2,
        [.DUP_ARG, .DUP_ARG]⟩, [])) ∧
    HandleAutoDiff.loop (fun _ _ => false) exampleAutodiffFunction.args 7 taggedOperands
        ⟨[], [], 0, []⟩ =
      some ⟨[2], [.operand 10, .operand 11, .operand 12, .operand 13], 3,
        [.DUP_ARG, .OUT_DIFF, .CONSTANT]⟩ ∧
    ((∀ j, j ∈ [2] ↔
        [DIFFE_TYPE.DUP_ARG, DIFFE_TYPE.OUT_DIFF, DIFFE_TYPE.CONSTANT][j]? = some .CONSTANT) ∧
      [CallArg.operand 10, .operand 11, .operand 12, .operand 13].length =
        [DIFFE_TYPE.DUP_ARG, DIFFE_TYPE.OUT_DIFF, DIFFE_TYPE.CONSTANT].length +
          [DIFFE_TYPE.DUP_ARG, DIFFE_TYPE.OUT_DIFF, DIFFE_TYPE.CONSTANT].count .DUP_ARG ∧
      [DIFFE_TYPE.DUP_ARG, DIFFE_TYPE.OUT_DIFF, DIFFE_TYPE.CONSTANT].length ≤
        exampleAutodiffFunction.args.length) :=
  ⟨((HandleAutoDiff_classifies_parameters (fun _ _ => false) (.fp .double)
      ⟨[], [.operand 10, .operand 11], 1, [.DUP_ARG]⟩).2.1 12 (.fp .double)
      [.value 13 (.int 32)] (Or.inl (by decide))).1,
   ((HandleAutoDiff_classifies_parameters (fun _ _ => false) (.fp .double)
      ⟨[], [.operand 10, .operand 11], 1, [.DUP_ARG]⟩).2.1 12 (.fp .double)
      [] (Or.inl (by decide))).2.2.1 14 (.fp .double) [] (Or.inl (by decide)),
   by rfl,
   (HandleAutoDiff_classifies_parameters (fun _ _ => false) .void ⟨[], [], 0, []⟩).2.2.2
     exampleAutodiffFunction.args 7 taggedOperands
     ⟨[2], [.operand 10, .operand 11, .operand 12, .operand 13], 3,
        [.DUP_ARG, .OUT_DIFF, .CONSTANT]⟩ (by rfl)⟩

/-- C30, as the claim states it, fails.  `HandleAutoDiff` passes two arguments for
a parameter exactly when its class is `DUP_ARG`, `CloneFunctionWithReturns` gives
it two parameters exactly when it is not constant and its type is a pointer or an
integer, and the two tests part.  For `void f([2 x double*] a)` called without a
tag, `whatType` of the array is `DUP_ARG`: two operands are passed to a gradient
of one parameter.  For `double f(double x)` tagged `diffe_dup` three arguments
(with the seed) meet two parameters, and for `void f(double* p)` tagged
`diffe_out` one argument meets two parameters.  For
`double f(double* p, double x, i32 n)` called with `p, p', "diffe_const", x, n` the
counts agree. -/
theorem HandleAutoDiff_argument_count_differs :
    (HandleAutoDiff (fun _ _ => false)
        { empty := false, args := [.array (.ptr (.fp .double))], ret := .void }
        [.value 10 (.array (.ptr (.fp .double))), .value 11 (.array (.ptr (.fp .double)))]).map
      (fun r => (r.classes, r.args.length, r.newFunc.ArgTypes.length)) =
      some ([.DUP_ARG], 2, 1) ∧
    (HandleAutoDiff (fun _ _ => false)
        { empty := false, args := [.fp .double], ret := .fp .double }
        [.MDString "diffe_dup", .value 10 (.fp .double), .value 11 (.fp .double)]).map
      (fun r => (r.classes, r.args.length, r.newFunc.ArgTypes.length)) =
      some ([.DUP_ARG], 3, 2) ∧
    (HandleAutoDiff (fun _ _ => false)
        { empty := false, args := [.ptr (.fp .double)], ret := .void }
        [.MDString "diffe_out", .value 10 (.ptr (.fp .double))]).map
      (fun r => (r.classes, r.args.length, r.newFunc.ArgTypes.length)) =
      some ([.OUT_DIFF], 1, 2) ∧
    (HandleAutoDiff (fun _ _ => false) exampleAutodiffFunction exampleOperands).map
      (fun r => (r.classes, r.args.length, r.newFunc.ArgTypes.length)) =
      some ([.DUP_ARG, .CONSTANT, .CONSTANT], 5, 5) :=
  ⟨by rfl, by rfl, by rfl, by rfl⟩

/-- C21, as the claim states it, fails.  `CreateAugmentedPrimal` walks the
instructions of a block first to last and `CreatePrimalAndGradient` walks them last
to first, while both number the tape entries upwards.  In a block holding the call
sites `1` and `2`, the augmented primal stores the tape of call `1` in slot 0 and
that of call `2` in slot 1; the gradient, given that tape, reads slot 0 for call `2`
and slot 1 for call `1`.  With the two call sites in two blocks, and within one
call site that returns a pointer (its shadow, then its tape), the slots agree.
Every slot is read once in each case. -/
theorem tape_slots_cross_within_block :
    CreateAugmentedPrimal.getMallocs tapeUtils [twoCallBlock] = some [.tp 1, .tp 2] ∧
    CreatePrimalAndGradient.tapeUses tapeUtils [twoCallBlock] 2 =
      some ([(.tp 2, .extractValue 0), (.tp 1, .extractValue 1)], ⟨[], 2, some 2⟩) ∧
    CreateAugmentedPrimal.getMallocs tapeUtils oneCallBlocks = some [.tp 1, .tp 2] ∧
    CreatePrimalAndGradient.tapeUses tapeUtils oneCallBlocks 2 =
      some ([(.tp 1, .extractValue 0), (.tp 2, .extractValue 1)], ⟨[], 2, some 2⟩) ∧
    CreateAugmentedPrimal.getMallocs tapeUtils
        [{ terminator := .ret 0, insts := [.call (tapeCall 3)] }] =
      some [.antiptr 3, .tp 3] ∧
    CreatePrimalAndGradient.tapeUses tapeUtils
        [{ terminator := .ret 0, insts := [.call (tapeCall 3)] }] 2 =
      some ([(.antiptr 3, .extractValue 0), (.tp 3, .extractValue 1)], ⟨[], 2, some 2⟩) := by
  decide

theorem find_append_self (S : Synthesis) (tup : CreatePrimalAndGradient.Key) (F : Nat)
    (h : S.find tup = none) :
    Synthesis.find { S with cachedfunctions := S.cachedfunctions ++ [(tup, F)],
                            functions := S.functions + 1 } tup = some F := by
  simp only [Synthesis.find, Option.map_eq_none'] at h
  simp [Synthesis.find, List.find?_append, h]

/-- C23, as the claim states it, fails: the function `0` of `recursiveModule` calls
itself, its gradient is asked for under `recursiveKey`, and the entry made while
that synthesis is in progress finds the key in `cachedfunctions` and returns the
function under construction, number `0`: the synthesis comes back with a function
that calls itself. -/
theorem recursive_synthesis_returns_function :
    CreatePrimalAndGradient recursiveModule 2 recursiveKey ⟨[], 0, []⟩ =
      some (0, true, ⟨[(recursiveKey, 0)], 1, [(0, 0)]⟩) ∧
    CreatePrimalAndGradient recursiveModule 1 recursiveKey ⟨[(recursiveKey, 0)], 1, []⟩ =
      some (0, false, ⟨[(recursiveKey, 0)], 1, []⟩) := by
  constructor <;> rfl

/-- C23 (corrected).  An entry of `CreatePrimalAndGradient` under a key that
`cachedfunctions` holds returns the function cached for the key, hands back no
utilities and leaves the state as it is, whatever the module; and the key of a
synthesis is in `cachedfunctions` from before its body is processed: an entry
under the same key made by the first call site of the body (a function that calls
itself) gets the function under construction, and the synthesis emits a call of
that function to itself and goes on with the remaining call sites. -/
theorem CreatePrimalAndGradient_in_progress (M : SynthesisModule) (fuel : Nat)
    (tup : CreatePrimalAndGradient.Key) (S : Synthesis) :
    (∀ F, S.find tup = some F →
      CreatePrimalAndGradient M (fuel + 1) tup S = some (F, false, S)) ∧
    (∀ ks, S.find tup = none → M.empty tup.todiff = false → M.calls tup = tup :: ks →
      CreatePrimalAndGradient M (fuel + 2) tup S =
        (CreatePrimalAndGradient.callSites (CreatePrimalAndGradient M (fuel + 1)) S.functions ks
          { cachedfunctions := S.cachedfunctions ++ [(tup, S.functions)],
            functions := S.functions + 1,
            calls := S.calls ++ [(S.functions, S.functions)] }).map
          (fun S' => (S.functions, true, S'))) := by
  constructor
  · intro F h
    simp [CreatePrimalAndGradient, h]
  · intro ks h he hc
    have hf := find_append_self S tup S.functions h
    rw [CreatePrimalAndGradient]
    simp only [h, he, hc, Bool.false_eq_true, if_false, CreatePrimalAndGradient.callSites]
    rw [CreatePrimalAndGradient]
    simp only [hf]
    cases CreatePrimalAndGradient.callSites (CreatePrimalAndGradient M (fuel + 1)) S.functions ks
      { cachedfunctions := S.cachedfunctions ++ [(tup, S.functions)],
        functions := S.functions + 1,
        calls := S.calls ++ [(S.functions, S.functions)] } <;> rfl

theorem CreatePrimalAndGradient_in_progress_witness :
    CreatePrimalAndGradient recursiveModule 1 recursiveKey ⟨[(recursiveKey, 0)], 1, []⟩ =
      some (0, false, ⟨[(recursiveKey, 0)], 1, []⟩) ∧
    CreatePrimalAndGradient recursiveModule 2 recursiveKey ⟨[], 0, []⟩ =
      (CreatePrimalAndGradient.callSites (CreatePrimalAndGradient recursiveModule 1) 0 []
        { cachedfunctions := [] ++ [(recursiveKey, 0)], functions := 0 + 1,
          calls := [] ++ [(0, 0)] }).map (fun S' => (0, true, S')) :=
  ⟨(CreatePrimalAndGradient_in_progress recursiveModule 0 recursiveKey
      ⟨[(recursiveKey, 0)], 1, []⟩).1 0 (by rfl),
   (CreatePrimalAndGradient_in_progress recursiveModule 0 recursiveKey ⟨[], 0, []⟩).2 []
      (by rfl) rfl rfl⟩

/-- C24.  `TypeAnalyzer::updateAnalysis` returns at once, with the analyzer as it
was, for constant data and for functions; and an update whose type at the empty
path is `Integer` is fatal for a `GetElementPtrInst` and for a pointer-typed
instruction or argument, with the analyzer as it was: the tree stored for the
value has not been touched. -/
theorem updateAnalysis_illegal_pointer_update (ir : AnalysisIR) (T : TypeAnalyzer)
    (val : Value) (data : TypeTree) (origin : Option Value) :
    (∀ c, ir.kind val = .Constant c → c.isConstantData = true ∨ c.isFunction = true →
      TypeAnalyzer.updateAnalysis ir T val data origin = .done T) ∧
    (data.get [] = .Integer →
      ((∃ parent isCall, ir.kind val = .Instruction parent true isCall) ∨
        (ir.isPointerTy val = true ∧
          ((∃ parent isGEP isCall, ir.kind val = .Instruction parent isGEP isCall) ∨
            ∃ parent, ir.kind val = .Argument parent))) →
      TypeAnalyzer.updateAnalysis ir T val data origin = .fatal T ∧
        (TypeAnalyzer.updateAnalysis ir T val data origin).state.analysis val =
          T.analysis val) := by
  constructor
  · intro c hk hc
    have : (c.isConstantData || c.isFunction) = true := by
      rcases hc with h | h <;> simp [h]
    simp [TypeAnalyzer.updateAnalysis, hk, this]
  · intro hd hv
    have key : TypeAnalyzer.updateAnalysis ir T val data origin = .fatal T := by
      rcases hv with ⟨parent, isCall, hk⟩ | ⟨hp, ⟨parent, isGEP, isCall, hk⟩ | ⟨parent, hk⟩⟩
      · simp only [TypeAnalyzer.updateAnalysis, hk, hd]
        by_cases hpar : T.function = parent <;> simp [hpar]
      · simp only [TypeAnalyzer.updateAnalysis, hk, hd, hp]
        by_cases hpar : T.function = parent <;> cases isGEP <;> simp [hpar]
      · simp only [TypeAnalyzer.updateAnalysis, hk, hd, hp]
        by_cases hpar : T.function = parent <;> simp [hpar]
    rw [key]
    exact ⟨rfl, rfl⟩

theorem updateAnalysis_illegal_pointer_update_witness :
    TypeAnalyzer.updateAnalysis exampleAnalysisIR exampleAnalyzer 7
        ((TypeTree.ofConcrete .Integer).Only (-1)) none = .done exampleAnalyzer ∧
    (TypeAnalyzer.updateAnalysis exampleAnalysisIR exampleAnalyzer 1
        (TypeTree.ofConcrete .Integer) (some 3) = .fatal exampleAnalyzer ∧
      (TypeAnalyzer.updateAnalysis exampleAnalysisIR exampleAnalyzer 1
        (TypeTree.ofConcrete .Integer) (some 3)).state.analysis 1 =
        exampleAnalyzer.analysis 1) :=
  ⟨(updateAnalysis_illegal_pointer_update exampleAnalysisIR exampleAnalyzer 7
      ((TypeTree.ofConcrete .Integer).Only (-1)) none).1 (.ConstantInt 32 7) rfl (Or.inl rfl),
   (updateAnalysis_illegal_pointer_update exampleAnalysisIR exampleAnalyzer 1
      (TypeTree.ofConcrete .Integer) (some 3)).2 (by decide) (Or.inl ⟨0, false, rfl⟩)⟩

/-- What the log of `run` holds of a visit: a value visited from the work list was
its front and is no call; a value visited from `pendingCalls` was its front, is a
call, and the work list was empty. -/
theorem drain_log (ir : AnalysisIR) (visit : Value → TypeAnalyzer → Option TypeAnalyzer) :
    ∀ (fuel : Nat) (T : TypeAnalyzer) (pendingCalls : List Value) (log : List Visit)
      (T' : TypeAnalyzer) (pendingCalls' : List Value) (log' : List Visit),
      TypeAnalyzer.drain ir visit fuel T pendingCalls log = some (T', pendingCalls', log') →
      (∀ v ∈ pendingCalls, ir.isCallInst v = true) →
      (∀ e ∈ log,
        (e.pending = false → e.workList.head? = some e.value ∧ ir.isCallInst e.value = false) ∧
        (e.pending = true → e.workList = [] ∧ e.pendingCalls.head? = some e.value ∧
          ir.isCallInst e.value = true)) →
      T'.workList = [] ∧ pendingCalls' = [] ∧
      ∀ e ∈ log',
        (e.pending = false → e.workList.head? = some e.value ∧ ir.isCallInst e.value = false) ∧
        (e.pending = true → e.workList = [] ∧ e.pendingCalls.head? = some e.value ∧
          ir.isCallInst e.value = true) := by
  intro fuel
  induction fuel with
  | zero => intro T p log T' p' log' h; simp [TypeAnalyzer.drain] at h
  | succ fuel ih =>
    intro T p log T' p' log' h hp hlog
    cases hw : T.workList with
    | cons todo rest =>
      simp only [TypeAnalyzer.drain, hw] at h
      by_cases hc : ir.isCallInst todo = true
      · simp only [hc, if_true] at h
        exact ih _ _ _ _ _ _ h (by
          intro v hv
          rcases List.mem_append.1 hv with h1 | h1
          · exact hp v h1
          · simp only [List.mem_singleton] at h1
            subst h1; exact hc) hlog
      · simp only [hc, if_false, Bool.false_eq_true] at h
        cases hv : TypeAnalyzer.visitValue ir visit todo { T with workList := rest } with
        | none => simp [hv] at h
        | some T1 =>
          simp only [hv] at h
          exact ih _ _ _ _ _ _ h hp (by
            intro e he
            rcases List.mem_append.1 he with h1 | h1
            · exact hlog e h1
            · simp only [List.mem_singleton] at h1
              subst h1
              simp only [Bool.not_eq_true] at hc
              simp [hc])
    | nil =>
      simp only [TypeAnalyzer.drain, hw] at h
      cases p with
      | nil =>
        simp only [Option.some.injEq, Prod.mk.injEq] at h
        obtain ⟨rfl, rfl, rfl⟩ := h
        exact ⟨hw, rfl, hlog⟩
      | cons todo rest =>
        simp only at h
        cases hv : TypeAnalyzer.visitValue ir visit todo T with
        | none => simp [hv] at h
        | some T1 =>
          simp only [hv] at h
          exact ih _ _ _ _ _ _ h
            (fun v hv => hp v (List.mem_cons_of_mem _ hv)) (by
            intro e he
            rcases List.mem_append.1 he with h1 | h1
            · exact hlog e h1
            · simp only [List.mem_singleton] at h1
              subst h1
              simp [hp todo (List.mem_cons_self _ _)])

theorem addToWorkList_appends (ir : AnalysisIR) (T : TypeAnalyzer) (val : Value) :
    ∃ added, (TypeAnalyzer.addToWorkList ir T val).state.workList = T.workList ++ added := by
  unfold TypeAnalyzer.addToWorkList
  cases ir.kind val with
  | Instruction parent isGEP isCall =>
    simp only
    split_ifs
    · exact ⟨[], by simp [Outcome.state]⟩
    · exact ⟨[], by simp [Outcome.state]⟩
    · exact ⟨[val], rfl⟩
  | Argument parent =>
    simp only
    split_ifs
    · exact ⟨[], by simp [Outcome.state]⟩
    · exact ⟨[], by simp [Outcome.state]⟩
    · exact ⟨[val], rfl⟩
  | Constant c => exact ⟨[], by simp [Outcome.state]⟩
  | other => exact ⟨[], by simp [Outcome.state]⟩

theorem addUsers_appends (ir : AnalysisIR) (origin : Option Value) :
    ∀ (l : List Value) (T : TypeAnalyzer),
      ∃ added, (TypeAnalyzer.addUsers ir origin l T).state.workList = T.workList ++ added := by
  intro l
  induction l with
  | nil => intro T; exact ⟨[], by simp [TypeAnalyzer.addUsers, Outcome.state]⟩
  | cons use rest ih =>
    intro T
    have hadd : ∃ added, (match TypeAnalyzer.addToWorkList ir T use with
        | .fatal T => Outcome.fatal T
        | .done T => TypeAnalyzer.addUsers ir origin rest T).state.workList =
          T.workList ++ added := by
      obtain ⟨a, ha⟩ := addToWorkList_appends ir T use
      cases hr : TypeAnalyzer.addToWorkList ir T use with
      | fatal T1 =>
        rw [hr] at ha
        exact ⟨a, ha⟩
      | done T1 =>
        rw [hr] at ha
        obtain ⟨b, hb⟩ := ih T1
        refine ⟨a ++ b, ?_⟩
        simp only [Outcome.state] at ha
        simp only [hb, ha, List.append_assoc]
    unfold TypeAnalyzer.addUsers
    split_ifs with h1
    · cases hk : ir.kind use with
      | Instruction parent isGEP isCall =>
        simp only
        split_ifs
        · exact ih T
        · exact hadd
      | Argument parent => exact hadd
      | Constant c => exact hadd
      | other => exact hadd
    · exact ih T

theorem addOperands_appends (ir : AnalysisIR) (origin : Option Value) :
    ∀ (l : List Value) (T : TypeAnalyzer),
      ∃ added, (TypeAnalyzer.addOperands ir origin l T).state.workList = T.workList ++ added := by
  intro l
  induction l with
  | nil => intro T; exact ⟨[], by simp [TypeAnalyzer.addOperands, Outcome.state]⟩
  | cons op rest ih =>
    intro T
    unfold TypeAnalyzer.addOperands
    split_ifs with h1
    · obtain ⟨a, ha⟩ := addToWorkList_appends ir T op
      cases hr : TypeAnalyzer.addToWorkList ir T op with
      | fatal T1 =>
        rw [hr] at ha
        exact ⟨a, ha⟩
      | done T1 =>
        rw [hr] at ha
        obtain ⟨b, hb⟩ := ih T1
        refine ⟨a ++ b, ?_⟩
        simp only [Outcome.state] at ha
        simp only [hb, ha, List.append_assoc]
    · exact ih T

theorem updateAnalysis_tail_appends (ir : AnalysisIR) (origin : Option Value) (val : Value)
    (w : List Value) (r : Outcome TypeAnalyzer) (a : List Value)
    (ha : r.state.workList = w ++ a) :
    ∃ added, (match r with
      | .fatal T => Outcome.fatal T
      | .done T =>
        match TypeAnalyzer.addUsers ir origin (ir.users val) T with
        | .fatal T => .fatal T
        | .done T => TypeAnalyzer.addOperands ir origin (ir.operands val) T).state.workList =
      w ++ added := by
  cases r with
  | fatal T1 => exact ⟨a, ha⟩
  | done T1 =>
    simp only [Outcome.state] at ha
    simp only
    obtain ⟨b, hb⟩ := addUsers_appends ir origin (ir.users val) T1
    cases hu : TypeAnalyzer.addUsers ir origin (ir.users val) T1 with
    | fatal T2 =>
      rw [hu] at hb
      exact ⟨a ++ b, by simp only [Outcome.state] at hb ⊢; rw [hb, ha, List.append_assoc]⟩
    | done T2 =>
      rw [hu] at hb
      simp only [Outcome.state] at hb
      obtain ⟨d, hd⟩ := addOperands_appends ir origin (ir.operands val) T2
      exact ⟨a ++ b ++ d, by simp only [hd, hb, ha, List.append_assoc]⟩

/-- The method `updateAnalysis` changes the work list only at its back. -/
theorem updateAnalysis_appends (ir : AnalysisIR) (T : TypeAnalyzer) (val : Value)
    (data : TypeTree) (origin : Option Value) :
    ∃ added, (TypeAnalyzer.updateAnalysis ir T val data origin).state.workList =
      T.workList ++ added := by
  unfold TypeAnalyzer.updateAnalysis
  simp only
  split_ifs with h1 h2 h3 h4 h5
  · exact ⟨[], by simp [Outcome.state]⟩
  · exact ⟨[], by simp [Outcome.state]⟩
  · exact ⟨[], by simp [Outcome.state]⟩
  · exact ⟨[], by simp [Outcome.state]⟩
  · cases hm : (T.analysis val).orIn data with
    | none => exact ⟨[], by simp [Outcome.state]⟩
    | some merged =>
      simp only
      split_ifs with h6
      · obtain ⟨a, ha⟩ := addToWorkList_appends ir
          { T with analysis := Function.update T.analysis val merged } val
        exact updateAnalysis_tail_appends ir origin val T.workList _ a ha
      · exact ⟨[], by simp [Outcome.state]⟩
  · cases hm : (T.analysis val).orIn data with
    | none => exact ⟨[], by simp [Outcome.state]⟩
    | some merged =>
      simp only
      split_ifs with h6
      · exact updateAnalysis_tail_appends ir origin val T.workList
          (.done { T with analysis := Function.update T.analysis val merged }) [] (by
            simp [Outcome.state])
      · exact ⟨[], by simp [Outcome.state]⟩

theorem visitValue_appends (ir : AnalysisIR)
    (visit : Value → TypeAnalyzer → Option TypeAnalyzer)
    (happ : ∀ v T T', visit v T = some T' → ∃ added, T'.workList = T.workList ++ added)
    (v : Value) (T T' : TypeAnalyzer) (h : TypeAnalyzer.visitValue ir visit v T = some T') :
    ∃ added, T'.workList = T.workList ++ added := by
  unfold TypeAnalyzer.visitValue at h
  cases hk : ir.kind v with
  | Instruction parent isGEP isCall =>
    simp only [hk] at h
    exact happ v T T' h
  | Argument parent =>
    simp only [hk, Option.some.injEq] at h
    subst h; exact ⟨[], by simp⟩
  | Constant c =>
    simp only [hk, Option.some.injEq] at h
    subst h; exact ⟨[], by simp⟩
  | other =>
    simp only [hk, Option.some.injEq] at h
    subst h; exact ⟨[], by simp⟩

theorem values_cons (b : Bool) (e : Visit) (l : List Visit) :
    Visit.values b (e :: l) =
      if e.pending = b then e.value :: Visit.values b l else Visit.values b l := by
  unfold Visit.values
  by_cases h : e.pending = b
  · simp [List.filter_cons, h]
  · simp [List.filter_cons, h]

theorem values_append (b : Bool) (l l' : List Visit) :
    Visit.values b (l ++ l') = Visit.values b l ++ Visit.values b l' := by
  simp [Visit.values]

/-- The order of the visits of the loop of `run`, for a visitor that changes the
work list only at its back: the values of the work list that are no calls are
visited first of the values taken from the work list, in order, the pending calls
and then the calls of the work list first of the values taken from `pendingCalls`,
in order, and so from every later visit on. -/
theorem drain_fifo (ir : AnalysisIR) (visit : Value → TypeAnalyzer → Option TypeAnalyzer)
    (happ : ∀ v T T', visit v T = some T' → ∃ added, T'.workList = T.workList ++ added) :
    ∀ (fuel : Nat) (T : TypeAnalyzer) (pendingCalls : List Value) (log : List Visit)
      (T' : TypeAnalyzer) (pendingCalls' : List Value) (log' : List Visit),
      TypeAnalyzer.drain ir visit fuel T pendingCalls log = some (T', pendingCalls', log') →
      ∃ rest, log' = log ++ rest ∧
        ir.nonCalls T.workList <+: Visit.values false rest ∧
        pendingCalls ++ ir.calls T.workList <+: Visit.values true rest ∧
        ∀ pre e post, rest = pre ++ e :: post →
          ir.nonCalls e.workList <+: Visit.values false (e :: post) ∧
          e.pendingCalls ++ ir.calls e.workList <+: Visit.values true (e :: post) := by
  intro fuel
  induction fuel with
  | zero => intro T p log T' p' log' h; simp [TypeAnalyzer.drain] at h
  | succ fuel ih =>
    intro T p log T' p' log' h
    cases hw : T.workList with
    | cons todo r =>
      simp only [TypeAnalyzer.drain, hw] at h
      by_cases hc : ir.isCallInst todo = true
      · simp only [hc, if_true] at h
        obtain ⟨rest, h1, h2, h3, h4⟩ := ih _ _ _ _ _ _ h
        refine ⟨rest, h1, ?_, ?_, h4⟩
        · simpa [AnalysisIR.nonCalls, List.filter_cons, hc] using h2
        · simpa [AnalysisIR.calls, List.filter_cons, hc, List.append_assoc] using h3
      · simp only [hc, if_false, Bool.false_eq_true] at h
        cases hv : TypeAnalyzer.visitValue ir visit todo { T with workList := r } with
        | none => simp [hv] at h
        | some T1 =>
          simp only [hv] at h
          obtain ⟨added, hadd⟩ := visitValue_appends ir visit happ todo _ T1 hv
          simp only at hadd
          obtain ⟨rest, h1, h2, h3, h4⟩ := ih _ _ _ _ _ _ h
          rw [hadd] at h2 h3
          have hn : ir.isCallInst todo = false := by simpa using hc
          have g1 : ir.nonCalls (todo :: r) <+:
              Visit.values false ((⟨todo, false, todo :: r, p⟩ : Visit) :: rest) := by
            rw [values_cons]
            simp only [if_true]
            have e : ir.nonCalls (todo :: r) = todo :: ir.nonCalls r := by
              simp [AnalysisIR.nonCalls, List.filter_cons, hn]
            rw [e, List.cons_prefix_cons]
            refine ⟨rfl, List.IsPrefix.trans ?_ h2⟩
            simp [AnalysisIR.nonCalls, List.filter_append]
          have g2 : p ++ ir.calls (todo :: r) <+:
              Visit.values true ((⟨todo, false, todo :: r, p⟩ : Visit) :: rest) := by
            rw [values_cons]
            simp only [Bool.false_eq_true, if_false]
            have e : ir.calls (todo :: r) = ir.calls r := by
              simp [AnalysisIR.calls, List.filter_cons, hn]
            rw [e]
            refine List.IsPrefix.trans ?_ h3
            simp [AnalysisIR.calls, List.filter_append, ← List.append_assoc]
          refine ⟨(⟨todo, false, todo :: r, p⟩ : Visit) :: rest, ?_, g1, g2, ?_⟩
          · rw [h1]; simp
          · intro pre e post hpre
            cases pre with
            | nil =>
              simp only [List.nil_append, List.cons.injEq] at hpre
              obtain ⟨rfl, rfl⟩ := hpre
              exact ⟨g1, g2⟩
            | cons x pre =>
              simp only [List.cons_append, List.cons.injEq] at hpre
              exact h4 pre e post hpre.2
    | nil =>
      simp only [TypeAnalyzer.drain, hw] at h
      cases p with
      | nil =>
        simp only [Option.some.injEq, Prod.mk.injEq] at h
        obtain ⟨rfl, rfl, rfl⟩ := h
        refine ⟨[], by simp, by simp [AnalysisIR.nonCalls], by simp [AnalysisIR.calls], ?_⟩
        intro pre e post hpre
        simp at hpre
      | cons todo r =>
        simp only at h
        cases hv : TypeAnalyzer.visitValue ir visit todo T with
        | none => simp [hv] at h
        | some T1 =>
          simp only [hv] at h
          obtain ⟨added, hadd⟩ := visitValue_appends ir visit happ todo _ T1 hv
          rw [hw] at hadd
          obtain ⟨rest, h1, h2, h3, h4⟩ := ih _ _ _ _ _ _ h
          have g1 : ir.nonCalls [] <+:
              Visit.values false ((⟨todo, true, [], todo :: r⟩ : Visit) :: rest) := by
            simp [AnalysisIR.nonCalls]
          have g2 : (todo :: r) ++ ir.calls [] <+:
              Visit.values true ((⟨todo, true, [], todo :: r⟩ : Visit) :: rest) := by
            rw [values_cons]
            simp only [if_true]
            have e : (todo :: r) ++ ir.calls [] = todo :: r := by simp [AnalysisIR.calls]
            rw [e, List.cons_prefix_cons]
            exact ⟨rfl, List.IsPrefix.trans (List.prefix_append _ _) h3⟩
          refine ⟨(⟨todo, true, [], todo :: r⟩ : Visit) :: rest, ?_, g1, g2, ?_⟩
          · rw [h1]; simp
          · intro pre e post hpre
            cases pre with
            | nil =>
              simp only [List.nil_append, List.cons.injEq] at hpre
              obtain ⟨rfl, rfl⟩ := hpre
              exact ⟨g1, g2⟩
            | cons x pre =>
              simp only [List.cons_append, List.cons.injEq] at hpre
              exact h4 pre e post hpre.2

/-- With a visitor that always comes back and leaves the work list as it is, the
loop of `run` returns: it has visited the values of the work list that are no
calls, in order, and then the pending calls and the calls of the work list, in
order, and nothing else. -/
theorem drain_quiet (ir : AnalysisIR) (visit : Value → TypeAnalyzer → Option TypeAnalyzer)
    (hq : ∀ v T, ∃ T', visit v T = some T' ∧ T'.workList = T.workList) :
    ∀ (fuel : Nat) (T : TypeAnalyzer) (pendingCalls : List Value) (log : List Visit),
      2 * T.workList.length + pendingCalls.length < fuel →
      ∃ T' rest, TypeAnalyzer.drain ir visit fuel T pendingCalls log = some (T', [], log ++ rest) ∧
        T'.workList = [] ∧
        Visit.values false rest = ir.nonCalls T.workList ∧
        Visit.values true rest = pendingCalls ++ ir.calls T.workList := by
  have hvq : ∀ v T, ∃ T', TypeAnalyzer.visitValue ir visit v T = some T' ∧
      T'.workList = T.workList := by
    intro v T
    unfold TypeAnalyzer.visitValue
    cases ir.kind v with
    | Instruction parent isGEP isCall => exact hq v T
    | Argument parent => exact ⟨T, rfl, rfl⟩
    | Constant c => exact ⟨T, rfl, rfl⟩
    | other => exact ⟨T, rfl, rfl⟩
  intro fuel
  induction fuel with
  | zero => intro T p log h; omega
  | succ fuel ih =>
    intro T p log hf
    cases hw : T.workList with
    | cons todo r =>
      rw [hw] at hf
      simp only [List.length_cons] at hf
      by_cases hc : ir.isCallInst todo = true
      · obtain ⟨T', rest, h1, h2, h3, h4⟩ := ih { T with workList := r } (p ++ [todo]) log (by
          simp only [List.length_append, List.length_singleton]; omega)
        refine ⟨T', rest, ?_, h2, ?_, ?_⟩
        · simp only [TypeAnalyzer.drain, hw, hc, if_true]
          exact h1
        · rw [h3]; simp [AnalysisIR.nonCalls, List.filter_cons, hc]
        · rw [h4]; simp [AnalysisIR.calls, List.filter_cons, hc]
      · have hn : ir.isCallInst todo = false := by simpa using hc
        obtain ⟨T1, hv, hwl⟩ := hvq todo { T with workList := r }
        simp only at hwl
        obtain ⟨T', rest, h1, h2, h3, h4⟩ := ih T1 p (log ++ [⟨todo, false, T.workList, p⟩]) (by
          rw [hwl]; omega)
        refine ⟨T', (⟨todo, false, T.workList, p⟩ : Visit) :: rest, ?_, h2, ?_, ?_⟩
        · simp only [TypeAnalyzer.drain, hw, hn, Bool.false_eq_true, if_false, hv]
          rw [hw] at h1
          rw [h1]; simp
        · rw [values_cons]
          simp only [if_true]
          rw [h3, hwl]; simp [AnalysisIR.nonCalls, List.filter_cons, hn]
        · rw [values_cons]
          simp only [Bool.false_eq_true, if_false]
          rw [h4, hwl]; simp [AnalysisIR.calls, List.filter_cons, hn]
    | nil =>
      rw [hw] at hf
      simp only [List.length_nil, Nat.mul_zero, Nat.zero_add] at hf
      cases p with
      | nil =>
        exact ⟨T, [], by simp [TypeAnalyzer.drain, hw], hw, by simp [Visit.values, AnalysisIR.nonCalls],
          by simp [Visit.values, AnalysisIR.calls]⟩
      | cons todo r =>
        simp only [List.length_cons] at hf
        obtain ⟨T1, hv, hwl⟩ := hvq todo T
        obtain ⟨T', rest, h1, h2, h3, h4⟩ := ih T1 r (log ++ [⟨todo, true, [], todo :: r⟩]) (by
          rw [hwl, hw]; simp only [List.length_nil]; omega)
        refine ⟨T', (⟨todo, true, [], todo :: r⟩ : Visit) :: rest, ?_, h2, ?_, ?_⟩
        · simp only [TypeAnalyzer.drain, hw, hv]
          rw [h1]; simp
        · rw [values_cons]
          simp only [Bool.true_eq_false, if_false]
          rw [h3, hwl, hw]
        · rw [values_cons]
          simp only [if_true]
          rw [h4, hwl, hw]; simp [AnalysisIR.calls]

/-- C25.  In `TypeAnalyzer::run`.  `addToWorkList` puts an instruction or argument
of the analyzed function that is not in the work list at its back and leaves the
list as it is otherwise, and `updateAnalysis` changes the list only at its back.  A
call instruction at the front of the work list is not visited but moved to the
back of `pendingCalls`.  Whatever the visitor does, every visit of a value taken
from the work list takes its front and that value is no call, every visit of a
pending call takes the front of `pendingCalls` at a moment when the work list is
empty, and when `run` returns both queues are empty.  With a visitor that changes
the work list only at its back, as `updateAnalysis` does, a `run` that returns has
visited, at the start and from every visit on, the values in the work list that are
no calls before every other value taken from the work list, in the order of the
list, and the pending calls followed by the calls in the work list before every
other pending call, in that order.  With a visitor and a `runUnusedChecks` that
come back and enqueue nothing, `run` returns, having visited exactly the values of
the work list that are no calls, in order, and then its calls, in order. -/
theorem run_visits_in_queue_order (ir : AnalysisIR)
    (visit : Value → TypeAnalyzer → Option TypeAnalyzer)
    (runUnusedChecks : TypeAnalyzer → Option TypeAnalyzer) :
    (∀ (T : TypeAnalyzer) (val : Value),
      (ir.parent val = some T.function → val ∉ T.workList →
        TypeAnalyzer.addToWorkList ir T val =
          .done { T with workList := T.workList ++ [val] }) ∧
      (ir.parent val = none ∨ val ∈ T.workList → TypeAnalyzer.addToWorkList ir T val = .done T) ∧
      (∀ parent, ir.parent val = some parent → parent ≠ T.function → val ∉ T.workList →
        TypeAnalyzer.addToWorkList ir T val = .fatal T)) ∧
    (∀ (T : TypeAnalyzer) (val : Value) (data : TypeTree) (origin : Option Value),
      ∃ added, (TypeAnalyzer.updateAnalysis ir T val data origin).state.workList =
        T.workList ++ added) ∧
    (∀ (fuel : Nat) (T : TypeAnalyzer) (todo : Value) (rest pendingCalls : List Value)
        (log : List Visit), T.workList = todo :: rest → ir.isCallInst todo = true →
      TypeAnalyzer.drain ir visit (fuel + 1) T pendingCalls log =
        TypeAnalyzer.drain ir visit fuel { T with workList := rest } (pendingCalls ++ [todo])
          log) ∧
    (∀ (fuel : Nat) (T T' : TypeAnalyzer) (pendingCalls : List Value) (log : List Visit),
      TypeAnalyzer.run ir visit runUnusedChecks fuel T = some (T', pendingCalls, log) →
      T'.workList = [] ∧ pendingCalls = [] ∧
      ∀ e ∈ log,
        (e.pending = false → e.workList.head? = some e.value ∧ ir.isCallInst e.value = false) ∧
        (e.pending = true → e.workList = [] ∧ e.pendingCalls.head? = some e.value ∧
          ir.isCallInst e.value = true)) ∧
    ((∀ v T T', visit v T = some T' → ∃ added, T'.workList = T.workList ++ added) →
      ∀ (fuel : Nat) (T T' : TypeAnalyzer) (pendingCalls : List Value) (log : List Visit),
      TypeAnalyzer.run ir visit runUnusedChecks fuel T = some (T', pendingCalls, log) →
      ir.nonCalls T.workList <+: Visit.values false log ∧
      ir.calls T.workList <+: Visit.values true log ∧
      ∀ pre e post, log = pre ++ e :: post →
        ir.nonCalls e.workList <+: Visit.values false (e :: post) ∧
        e.pendingCalls ++ ir.calls e.workList <+: Visit.values true (e :: post)) ∧
    ((∀ v T, ∃ T', visit v T = some T' ∧ T'.workList = T.workList) →
      (∀ T, ∃ T', runUnusedChecks T = some T' ∧ T'.workList = T.workList) →
      ∀ (fuel : Nat) (T : TypeAnalyzer), 2 * T.workList.length < fuel →
      ∃ T' log, TypeAnalyzer.run ir visit runUnusedChecks fuel T = some (T', [], log) ∧
        T'.workList = [] ∧
        Visit.values false log = ir.nonCalls T.workList ∧
        Visit.values true log = ir.calls T.workList) := by
  refine ⟨?_, ?_, ?_, ?_, ?_, ?_⟩
  · intro T val
    unfold AnalysisIR.parent TypeAnalyzer.addToWorkList
    cases ir.kind val with
    | Instruction parent isGEP isCall =>
      simp only [Option.some.injEq, reduceCtorEq, false_or]
      refine ⟨?_, ?_, ?_⟩
      · intro hp hm; subst hp; simp [hm]
      · intro hm; simp [hm]
      · intro p hp hne hm; subst hp; simp [hm, Ne.symm hne]
    | Argument parent =>
      simp only [Option.some.injEq, reduceCtorEq, false_or]
      refine ⟨?_, ?_, ?_⟩
      · intro hp hm; subst hp; simp [hm]
      · intro hm; simp [hm]
      · intro p hp hne hm; subst hp; simp [hm, Ne.symm hne]
    | Constant c => simp
    | other => simp
  · exact updateAnalysis_appends ir
  · intro fuel T todo rest p log hw hc
    simp [TypeAnalyzer.drain, hw, hc]
  · intro fuel T T' p log h
    unfold TypeAnalyzer.run at h
    cases h1 : TypeAnalyzer.drain ir visit fuel T [] [] with
    | none => simp [h1] at h
    | some r =>
      obtain ⟨T1, p1, log1⟩ := r
      simp only [h1] at h
      obtain ⟨-, hp1, hl1⟩ := drain_log ir visit fuel T [] [] T1 p1 log1 h1 (by simp) (by simp)
      subst hp1
      cases h2 : runUnusedChecks T1 with
      | none => simp [h2] at h
      | some T2 =>
        simp only [h2] at h
        exact drain_log ir visit fuel T2 [] log1 T' p log h (by simp) hl1
  · intro happ fuel T T' p log h
    unfold TypeAnalyzer.run at h
    cases h1 : TypeAnalyzer.drain ir visit fuel T [] [] with
    | none => simp [h1] at h
    | some r =>
      obtain ⟨T1, p1, log1⟩ := r
      simp only [h1] at h
      obtain ⟨rest1, e1, a1, a2, a3⟩ := drain_fifo ir visit happ fuel T [] [] T1 p1 log1 h1
      simp only [List.nil_append] at e1 a2
      subst e1
      cases h2 : runUnusedChecks T1 with
      | none => simp [h2] at h
      | some T2 =>
        simp only [h2] at h
        obtain ⟨rest2, e2, -, -, b3⟩ := drain_fifo ir visit happ fuel T2 p1 log1 T' p log h
        subst e2
        refine ⟨?_, ?_, ?_⟩
        · rw [values_append]
          exact List.IsPrefix.trans a1 (List.prefix_append _ _)
        · rw [values_append]
          exact List.IsPrefix.trans a2 (List.prefix_append _ _)
        · intro pre e post hpre
          rcases List.append_eq_append_iff.1 hpre with ⟨a, ha, hb⟩ | ⟨c, hc, hd⟩
          · exact b3 a e post hb
          · cases c with
            | nil =>
              simp only [List.nil_append] at hd
              exact b3 [] e post (by simpa using hd.symm)
            | cons x c =>
              simp only [List.cons_append, List.cons.injEq] at hd
              obtain ⟨rfl, rfl⟩ := hd
              obtain ⟨g1, g2⟩ := a3 pre e c hc
              have e3 : e :: (c ++ rest2) = (e :: c) ++ rest2 := rfl
              rw [e3, values_append, values_append]
              exact ⟨List.IsPrefix.trans g1 (List.prefix_append _ _),
                List.IsPrefix.trans g2 (List.prefix_append _ _)⟩
  · intro hq hr fuel T hf
    obtain ⟨T1, rest, h1, h2, h3, h4⟩ := drain_quiet ir visit hq fuel T [] [] (by simpa using hf)
    obtain ⟨T2, h5, h6⟩ := hr T1
    obtain ⟨T3, rest2, h7, h8, h9, h10⟩ := drain_quiet ir visit hq fuel T2 [] rest (by
      rw [h6, h2]; simp only [List.length_nil]; omega)
    rw [h6, h2] at h9 h10
    refine ⟨T3, rest ++ rest2, ?_, h8, ?_, ?_⟩
    · unfold TypeAnalyzer.run
      simp only [List.nil_append] at h1
      simp only [h1, h5, h7]
    · rw [values_append, h3, h9]; simp [AnalysisIR.nonCalls]
    · rw [values_append, h4, h10]; simp [AnalysisIR.calls]

theorem run_visits_in_queue_order_witness :
    TypeAnalyzer.drain exampleAnalysisIR exampleVisit (4 + 1) exampleAnalyzer [] [] =
      TypeAnalyzer.drain exampleAnalysisIR exampleVisit 4
        { exampleAnalyzer with workList := [3, 1] } ([] ++ [2]) [] ∧
    TypeAnalyzer.run exampleAnalysisIR exampleVisit some 8 exampleAnalyzer =
      some ({ exampleAnalyzer with workList := [] }, [], exampleLog) ∧
    (∀ e ∈ exampleLog,
        (e.pending = false →
          e.workList.head? = some e.value ∧ exampleAnalysisIR.isCallInst e.value = false) ∧
        (e.pending = true → e.workList = [] ∧ e.pendingCalls.head? = some e.value ∧
          exampleAnalysisIR.isCallInst e.value = true)) ∧
    (exampleAnalysisIR.nonCalls exampleAnalyzer.workList <+: Visit.values false exampleLog ∧
      exampleAnalysisIR.calls exampleAnalyzer.workList <+: Visit.values true exampleLog) ∧
    (∃ T' log, TypeAnalyzer.run exampleAnalysisIR (fun _ T => some T) some 7 exampleAnalyzer =
        some (T', [], log) ∧ T'.workList = [] ∧
      Visit.values false log = exampleAnalysisIR.nonCalls exampleAnalyzer.workList ∧
      Visit.values true log = exampleAnalysisIR.calls exampleAnalyzer.workList) :=
  ⟨(run_visits_in_queue_order exampleAnalysisIR exampleVisit some).2.2.1 4 exampleAnalyzer 2
      [3, 1] [] [] rfl rfl,
   by rfl,
   ((run_visits_in_queue_order exampleAnalysisIR exampleVisit some).2.2.2.1 8 exampleAnalyzer
      { exampleAnalyzer with workList := [] } [] exampleLog (by rfl)).2.2,
   ⟨((run_visits_in_queue_order exampleAnalysisIR exampleVisit some).2.2.2.2.1
      (fun v T T' h => by
        unfold exampleVisit at h
        split_ifs at h
        · exact ⟨[2], by simp only [Option.some.injEq] at h; rw [← h]⟩
        · exact ⟨[], by simp only [Option.some.injEq] at h; rw [← h]; simp⟩)
      8 exampleAnalyzer { exampleAnalyzer with workList := [] } [] exampleLog (by rfl)).1,
    ((run_visits_in_queue_order exampleAnalysisIR exampleVisit some).2.2.2.2.1
      (fun v T T' h => by
        unfold exampleVisit at h
        split_ifs at h
        · exact ⟨[2], by simp only [Option.some.injEq] at h; rw [← h]⟩
        · exact ⟨[], by simp only [Option.some.injEq] at h; rw [← h]; simp⟩)
      8 exampleAnalyzer { exampleAnalyzer with workList := [] } [] exampleLog (by rfl)).2.1⟩,
   (run_visits_in_queue_order exampleAnalysisIR (fun _ T => some T) some).2.2.2.2.2
      (fun _ T => ⟨T, rfl, rfl⟩) (fun T => ⟨T, rfl, rfl⟩) 7 exampleAnalyzer (by decide)⟩

/-- After a call of `analyzeFunction` that came back, the analyzer of the key is
cached and belongs to the function of the key. -/
theorem analyzeFunction_found (ir : AnalysisIR)
    (analyze : FnTypeInfo.Key → TypeAnalysis → Option TypeAnalysis) (fn : FnTypeInfo.Key)
    (TA TA1 : TypeAnalysis) (h : TypeAnalysis.analyzeFunction ir analyze fn TA = some TA1) :
    ∃ found, TA1.find fn = some found ∧ found.function = fn.function := by
  unfold TypeAnalysis.analyzeFunction at h
  cases hf : TA.find fn with
  | some a =>
    simp only [hf] at h
    split_ifs at h with hne
    simp only [Option.some.injEq] at h
    subst h
    exact ⟨a, hf, not_not.mp hne⟩
  | none =>
    simp only [hf] at h
    cases hc : TypeAnalyzer.create ir fn with
    | none => simp [hc] at h
    | some analyzer =>
      simp only [hc] at h
      cases ha : analyze fn { TA with analyzedFunctions := TA.analyzedFunctions ++ [(fn, analyzer)] } with
      | none => simp [ha] at h
      | some TA2 =>
        simp only [ha] at h
        cases hf2 : TA2.find fn with
        | none => simp [hf2] at h
        | some a =>
          simp only [hf2] at h
          split_ifs at h with hne
          simp only [Option.some.injEq] at h
          subst h
          exact ⟨a, hf2, not_not.mp hne⟩

/-- C26.  After a call of `analyzeFunction` for a key that came back with the state
`TA1`, a second call for an equal key comes back with `TA1` itself, whatever the
analysis would do: no analyzer is run, the cached analyzers and their trees are as
they were.  A query for the key then reads the tree the cached analyzer holds for
the value, whatever the analysis would do, and leaves `TA1` as it is. -/
theorem analyzeFunction_second_call_cached (ir : AnalysisIR) (ctx : ConstantContext)
    (analyze analyze' : FnTypeInfo.Key → TypeAnalysis → Option TypeAnalysis)
    (fn : FnTypeInfo.Key) (TA TA1 : TypeAnalysis)
    (h : TypeAnalysis.analyzeFunction ir analyze fn TA = some TA1) :
    TypeAnalysis.analyzeFunction ir analyze' fn TA1 = some TA1 ∧
    ∃ found, TA1.find fn = some found ∧
      ∀ val, TypeAnalysis.query ir ctx analyze' val fn TA1 =
        match ir.kind val with
        | .Constant con => (getConstantAnalysis ctx con).map (fun t => (t, TA1))
        | .Argument parent =>
          if found.function ≠ parent then none
          else (TypeAnalyzer.getAnalysis ir ctx found val).map (fun t => (t, TA1))
        | .Instruction parent _ _ =>
          if found.function ≠ parent then none
          else (TypeAnalyzer.getAnalysis ir ctx found val).map (fun t => (t, TA1))
        | .other => none := by
  obtain ⟨found, hf, hfn⟩ := analyzeFunction_found ir analyze fn TA TA1 h
  have h2 : TypeAnalysis.analyzeFunction ir analyze' fn TA1 = some TA1 := by
    simp [TypeAnalysis.analyzeFunction, hf, hfn]
  refine ⟨h2, found, hf, ?_⟩
  intro val
  unfold TypeAnalysis.query
  simp only [h2, hf]

theorem analyzeFunction_second_call_cached_witness :
    TypeAnalysis.analyzeFunction exampleAnalysisIR exampleAnalyze ⟨0, 0⟩ exampleCached =
      some exampleCached ∧
    ∃ found, exampleCached.find ⟨0, 0⟩ = some found ∧
      ∀ val, TypeAnalysis.query exampleAnalysisIR exampleConstantContext exampleAnalyze val
          ⟨0, 0⟩ exampleCached =
        match exampleAnalysisIR.kind val with
        | .Constant con =>
          (getConstantAnalysis exampleConstantContext con).map (fun t => (t, exampleCached))
        | .Argument parent =>
          if found.function ≠ parent then none
          else (TypeAnalyzer.getAnalysis exampleAnalysisIR exampleConstantContext found val).map
            (fun t => (t, exampleCached))
        | .Instruction parent _ _ =>
          if found.function ≠ parent then none
          else (TypeAnalyzer.getAnalysis exampleAnalysisIR exampleConstantContext found val).map
            (fun t => (t, exampleCached))
        | .other => none :=
  analyzeFunction_second_call_cached exampleAnalysisIR exampleConstantContext exampleAnalyze
    exampleAnalyze ⟨0, 0⟩ { analyzedFunctions := [] } exampleCached (by rfl)

theorem augmented_call_records (g : DiffeGradientUtils) (c : CallSite) (t : GradientUtils.Tape)
    (h : c.recordsTape g = true) :
    g.originalInstructions c.op = true ∧
    CreateAugmentedPrimal.call g c t =
      (GradientUtils.addMalloc t (some (.tp c.op))).map (fun r => (.next, r.2)) := by
  unfold CallSite.recordsTape at h
  simp only [Bool.and_eq_true, Bool.not_eq_true'] at h
  obtain ⟨⟨⟨⟨⟨⟨h1, h2⟩, h3⟩, h4⟩, h5⟩, h6⟩, h7⟩ := h
  refine ⟨h4, ?_⟩
  cases hc : c.called with
  | none => simp [hc] at h1
  | some name =>
    simp only [hc, Bool.not_eq_true'] at h1
    cases ha : CallSite.argLoop g c.args (0, 0, !c.readNone) with
    | none => simp [ha] at h7
    | some r =>
      obtain ⟨nconst, nargs, mp⟩ := r
      simp only [ha, Bool.and_eq_true, decide_eq_true_eq] at h7
      obtain ⟨h7a, rfl⟩ := h7
      simp [CreateAugmentedPrimal.call, hc, h1, h2, h3, h5, h6, ha, h7a]

theorem gradient_call_records (g : DiffeGradientUtils) (c : CallSite) (s : TapeUses)
    (t : GradientUtils.Tape) (n : Nat) (ht : t.tape = some n) (h : c.recordsTape g = true) :
    CreatePrimalAndGradient.call g c (s, t) =
      (GradientUtils.addMalloc t none).map (fun r => (.next, s ++ [(.tp c.op, r.1)], r.2)) := by
  unfold CallSite.recordsTape at h
  simp only [Bool.and_eq_true, Bool.not_eq_true'] at h
  obtain ⟨⟨⟨⟨⟨⟨h1, h2⟩, h3⟩, h4⟩, h5⟩, h6⟩, h7⟩ := h
  cases hc : c.called with
  | none => simp [hc] at h1
  | some name =>
    simp only [hc, Bool.not_eq_true'] at h1
    cases ha : CallSite.argLoop g c.args (0, 0, !c.readNone) with
    | none => simp [ha] at h7
    | some r =>
      obtain ⟨nconst, nargs, mp⟩ := r
      simp only [ha, Bool.and_eq_true, decide_eq_true_eq] at h7
      obtain ⟨h7a, rfl⟩ := h7
      simp [CreatePrimalAndGradient.call, hc, h1, h2, h3, h5, h6, ha, h7a, ht]

/-- Two call sites of one block that each record the tape of their callee: the
augmented primal stores the tape of the first in slot 0 and that of the second in
slot 1, the gradient reads slot 0 for the second and slot 1 for the first. -/
theorem two_call_sites_cross (g : DiffeGradientUtils) (c1 c2 : CallSite)
    (h1 : c1.recordsTape g = true) (h2 : c2.recordsTape g = true) :
    CreateAugmentedPrimal.getMallocs g [{ terminator := .br, insts := [.call c1, .call c2] }] =
      some [.tp c1.op, .tp c2.op] ∧
    CreatePrimalAndGradient.tapeUses g [{ terminator := .br, insts := [.call c1, .call c2] }] 2 =
      some ([(.tp c2.op, .extractValue 0), (.tp c1.op, .extractValue 1)], ⟨[], 2, some 2⟩) := by
  have ho1 := (augmented_call_records g c1 ⟨[], 0, none⟩ h1).1
  have ho2 := (augmented_call_records g c2 ⟨[], 0, none⟩ h2).1
  constructor
  · simp [CreateAugmentedPrimal.getMallocs, CreateAugmentedPrimal.blocks,
      CreateAugmentedPrimal.insts, (augmented_call_records g c1 _ h1).2,
      (augmented_call_records g c2 _ h2).2, GradientUtils.addMalloc, ho1, ho2]
  · have e2 := gradient_call_records g c2 [] ⟨[], 0, some 2⟩ 2 rfl h2
    have e1 := gradient_call_records g c1 [(.tp c2.op, .extractValue 0)] ⟨[], 1, some 2⟩ 2 rfl h1
    simp [CreatePrimalAndGradient.tapeUses, CreatePrimalAndGradient.blocks,
      CreatePrimalAndGradient.insts, GradientUtils.setTape, e1, e2, ho1, ho2,
      GradientUtils.addMalloc]

end Enzyme
